import Mathlib

/-!
Restricted power diagram callbacks: region simplifier and polygon re-triangulator

A shallow embedding of `src/matfp/geogram/RPD_callback.cpp`.

* `index_t` values are natural numbers; `index_t(-1)` is `NO_INDEX = 2^32 - 1` and
  `index_t(-2)` is `NO_INDEX2`.  Label increments wrap modulo `2^32`.
* A surface mesh is its vertex count, the vertex loop of every facet and, for every
  facet corner, the adjacent facet (`NO_INDEX` when there is none).
* The floating-point test `Geom::angle(n, n2) > threshold` of
  `split_regions_along_hard_edges` is a parameter `hard f f2` of the model.
* `goto rollback`, the dereference of `border_next.begin()` on an empty map and
  running out of fuel in a `while` loop are the three ways a computation aborts.
-/

set_option autoImplicit false

namespace RPD

/-- The value `index_t(-1)`. -/
def NO_INDEX : Nat := 4294967295

/-- The value `index_t(-2)`, used to initialise `rgn1` and `rgn2`. -/
def NO_INDEX2 : Nat := 4294967294

/-- Ways in which a run of the embedded code leaves the normal control flow. -/
inductive Abort where
  | rollback
  | empty_border
  | out_of_fuel
deriving DecidableEq, Repr

instance instDecidableEqExcept {ε α : Type} [DecidableEq ε] [DecidableEq α] :
    DecidableEq (Except ε α)
  | .ok a, .ok b =>
    if h : a = b then isTrue (by rw [h]) else isFalse (fun h2 => h (by cases h2; rfl))
  | .error a, .error b =>
    if h : a = b then isTrue (by rw [h]) else isFalse (fun h2 => h (by cases h2; rfl))
  | .ok _, .error _ => isFalse (fun h => by cases h)
  | .error _, .ok _ => isFalse (fun h => by cases h)

/-- The surface mesh: number of vertices, facet vertex loops, and per facet corner the
adjacent facet. -/
structure Mesh where
  nb_vertices : Nat
  facets : List (List Nat)
  adjacent : List (List Nat)
deriving DecidableEq, Repr

namespace Mesh

/-- Vertex loop of facet `f`. -/
def loop (m : Mesh) (f : Nat) : List Nat := m.facets.getD f []

/-- The call `mesh.facets.nb_vertices(f)`. -/
def facet_nb_vertices (m : Mesh) (f : Nat) : Nat := (m.loop f).length

/-- The call `mesh.facets.vertex(f, lv)`. -/
def vertex (m : Mesh) (f lv : Nat) : Nat := (m.loop f).getD lv 0

/-- The call `mesh.facet_corners.adjacent_facet(c)` for the corner `lv` of facet `f`. -/
def adjacent_facet (m : Mesh) (f lv : Nat) : Nat := (m.adjacent.getD f []).getD lv NO_INDEX

/-- The call `mesh.facets.next_corner_around_facet(f, c)` in local corner indices. -/
def next_corner_around_facet (m : Mesh) (f lv : Nat) : Nat :=
  if lv + 1 = m.facet_nb_vertices f then 0 else lv + 1

/-- Modelled from the spec: `mesh.facets.create_polygon` followed by the `set_vertex`
calls (mesh library, not part of the sources): a facet with the given loop is appended,
its corners have no adjacent facet. -/
def create_polygon (m : Mesh) (new_facet : List Nat) : Mesh :=
  { m with facets := m.facets ++ [new_facet],
           adjacent := m.adjacent ++ [List.replicate new_facet.length NO_INDEX] }

end Mesh

/-- Keeps the entries of `xs` whose flag in `to_delete` is zero (a missing flag counts
as zero). -/
def keep_unflagged {α : Type} : List α → List Nat → List α
  | [], _ => []
  | x :: xs, [] => x :: xs
  | x :: xs, d :: ds => if d = 0 then x :: keep_unflagged xs ds else keep_unflagged xs ds

/-- Modelled from the spec: `mesh.facets.delete_elements(to_delete)` (mesh library, not
part of the sources): the facets flagged non-zero are removed, the others keep their
order; the facet attribute `facet_region` is compacted alongside.  Vertex storage and
the corner adjacency of the surviving facets are left as they are. -/
def delete_elements (m : Mesh) (facet_region : List Nat) (to_delete : List Nat) :
    Mesh × List Nat :=
  ({ m with facets := keep_unflagged m.facets to_delete,
            adjacent := keep_unflagged m.adjacent to_delete },
   keep_unflagged facet_region to_delete)

/-- The call `v.resize(n, x)` of `std::vector`. -/
def resize {α : Type} (v : List α) (n : Nat) (x : α) : List α :=
  v.take n ++ List.replicate (n - v.length) x

/-- The function `max_region`: the maximum region index, not counting `index_t(-1)`. -/
def max_region (mesh : Mesh) (facet_region : List Nat) : Nat :=
  (List.range mesh.facets.length).foldl
    (fun result f =>
      if facet_region.getD f 0 ≠ NO_INDEX then
        if result = NO_INDEX then facet_region.getD f 0
        else max result (facet_region.getD f 0)
      else result)
    NO_INDEX

/-- The flag `is_crease[c]` of `split_regions_along_hard_edges` for corner `lv` of facet
`f`; `hard f f2` is the outcome of `Geom::angle(n, n2) > threshold`. -/
def is_crease (mesh : Mesh) (hard : Nat → Nat → Bool) (f lv : Nat) : Bool :=
  decide (mesh.adjacent_facet f lv ≠ NO_INDEX) && hard f (mesh.adjacent_facet f lv)

/-- Body of the corner loop inside the flood fill of `split_regions_along_hard_edges`;
the state is `(facet_region, S)`. -/
def split_corner (mesh : Mesh) (hard : Nat → Nat → Bool) (R f2 : Nat)
    (st : List Nat × List Nat) (lv : Nat) : List Nat × List Nat :=
  if is_crease mesh hard f2 lv then st
  else if mesh.adjacent_facet f2 lv ≠ NO_INDEX ∧
      st.1.getD (mesh.adjacent_facet f2 lv) 0 = NO_INDEX then
    (st.1.set (mesh.adjacent_facet f2 lv) R, mesh.adjacent_facet f2 lv :: st.2)
  else st

/-- The loop `while (!S.empty())` of `split_regions_along_hard_edges`. -/
def split_flood (mesh : Mesh) (hard : Nat → Nat → Bool) (R : Nat) :
    Nat → List Nat × List Nat → Except Abort (List Nat)
  | _, (facet_region, []) => .ok facet_region
  | 0, (_, _ :: _) => .error Abort.out_of_fuel
  | fuel + 1, (facet_region, f2 :: S) =>
    split_flood mesh hard R fuel
      ((List.range (mesh.facet_nb_vertices f2)).foldl (split_corner mesh hard R f2)
        (facet_region, S))

/-- The last loop of `split_regions_along_hard_edges`, over the facets `fs`. -/
def split_loop (mesh : Mesh) (hard : Nat → Nat → Bool) :
    List Nat → List Nat → Nat → Except Abort (List Nat)
  | [], facet_region, _ => .ok facet_region
  | f :: fs, facet_region, R =>
    if facet_region.getD f 0 = NO_INDEX then
      match split_flood mesh hard R (mesh.facets.length + 1) (facet_region.set f R, [f]) with
      | .ok facet_region' => split_loop mesh hard fs facet_region' ((R + 1) % 2 ^ 32)
      | .error e => .error e
    else split_loop mesh hard fs facet_region R

/-- The function `split_regions_along_hard_edges`; returns the new `facet_region`. -/
def split_regions_along_hard_edges (mesh : Mesh) (facet_region : List Nat)
    (hard : Nat → Nat → Bool) : Except Abort (List Nat) :=
  split_loop mesh hard (List.range mesh.facets.length) facet_region
    (if max_region mesh facet_region = NO_INDEX then 0
     else (max_region mesh facet_region + 1) % 2 ^ 32)

/-- The vectors `rgn1`, `rgn2` and `is_corner` of `simplify`. -/
structure CornerState where
  rgn1 : List Nat
  rgn2 : List Nat
  is_corner : List Bool
deriving DecidableEq, Repr

/-- Body of the loop over the vertices of a facet with region `r` in the corner
detection of `simplify`. -/
def corner_vertex (r : Nat) (st : CornerState) (v : Nat) : CornerState :=
  if st.rgn1.getD v 0 = r ∨ st.rgn2.getD v 0 = r then st
  else if st.rgn1.getD v 0 = NO_INDEX2 then { st with rgn1 := st.rgn1.set v r }
  else if st.rgn2.getD v 0 = NO_INDEX2 then { st with rgn2 := st.rgn2.set v r }
  else { st with is_corner := st.is_corner.set v true }

/-- The loop "keep all the vertices adjacent to 3 regions or more". -/
def corner_facets (mesh : Mesh) (facet_region : List Nat) (st : CornerState) : CornerState :=
  (List.range mesh.facets.length).foldl
    (fun st f => (mesh.loop f).foldl (corner_vertex (facet_region.getD f 0)) st) st

/-- The loop "keep also the vertices adjacent to region -1 and to another region". -/
def corner_outer (nv : Nat) (st : CornerState) : List Bool :=
  (List.range nv).foldl
    (fun is_corner v =>
      if (st.rgn1.getD v 0 = NO_INDEX ∧ st.rgn2.getD v 0 ≠ NO_INDEX) ∨
         (st.rgn2.getD v 0 = NO_INDEX ∧ st.rgn1.getD v 0 ≠ NO_INDEX)
      then is_corner.set v true else is_corner)
    st.is_corner

/-- The vector `is_corner` computed by `simplify`. -/
def compute_is_corner (mesh : Mesh) (facet_region : List Nat) (keep_outer_region : Bool) :
    List Bool :=
  let st := corner_facets mesh facet_region
    { rgn1 := List.replicate mesh.nb_vertices NO_INDEX2,
      rgn2 := List.replicate mesh.nb_vertices NO_INDEX2,
      is_corner := List.replicate mesh.nb_vertices false }
  if keep_outer_region then corner_outer mesh.nb_vertices st else st.is_corner

/-- The map `border_next` (`std::map<index_t, index_t>`): entries sorted by key. -/
abbrev BorderMap := List (Nat × Nat)

/-- The call `border_next.find(v)`. -/
def BorderMap.find (m : BorderMap) (v : Nat) : Option Nat :=
  match m with
  | [] => none
  | (k, x) :: rest => if k = v then some x else BorderMap.find rest v

/-- The assignment `border_next[v1] = v2`. -/
def BorderMap.assign (m : BorderMap) (v1 v2 : Nat) : BorderMap :=
  match m with
  | [] => [(v1, v2)]
  | (k, x) :: rest =>
    if v1 < k then (v1, v2) :: (k, x) :: rest
    else if k = v1 then (k, v2) :: rest
    else (k, x) :: BorderMap.assign rest v1 v2

/-- The read `border_next[v]`: a missing key is inserted with value `0`. -/
def BorderMap.index (m : BorderMap) (v : Nat) : Nat × BorderMap :=
  match BorderMap.find m v with
  | some x => (x, m)
  | none => (0, BorderMap.assign m v 0)

/-- The key `border_next.begin()->first`, undefined on an empty map. -/
def BorderMap.begin_first (m : BorderMap) : Except Abort Nat :=
  match m with
  | [] => .error Abort.empty_border
  | (k, _) :: _ => .ok k

/-- State of the flood fill of one region group in `simplify`. -/
structure FloodState where
  facet_status : List Nat
  S : List Nat
  border_next : BorderMap
deriving DecidableEq, Repr

/-- Body of the corner loop of the group flood fill of `simplify`, for corner `lv` of
facet `f2` and region `r`. -/
def group_corner (mesh : Mesh) (facet_region : List Nat) (r f2 : Nat)
    (st : Except Abort FloodState) (lv : Nat) : Except Abort FloodState :=
  match st with
  | .error e => .error e
  | .ok st =>
    if mesh.adjacent_facet f2 lv = NO_INDEX ∨
        facet_region.getD (mesh.adjacent_facet f2 lv) 0 ≠ r then
      if (BorderMap.find st.border_next (mesh.vertex f2 lv)).isSome then
        .error Abort.rollback
      else
        .ok { facet_status := st.facet_status, S := st.S,
              border_next := BorderMap.assign st.border_next (mesh.vertex f2 lv)
                (mesh.vertex f2 (mesh.next_corner_around_facet f2 lv)) }
    else if st.facet_status.getD (mesh.adjacent_facet f2 lv) 0 = NO_INDEX then
      .ok { st with facet_status := st.facet_status.set (mesh.adjacent_facet f2 lv) 1,
                    S := mesh.adjacent_facet f2 lv :: st.S }
    else .ok st

/-- One iteration of the corner loop `for (c1 = corners_begin(f2); ...)` over all
corners of `f2`. -/
def group_corners (mesh : Mesh) (facet_region : List Nat) (r f2 : Nat)
    (st : FloodState) : Except Abort FloodState :=
  (List.range (mesh.facet_nb_vertices f2)).foldl (group_corner mesh facet_region r f2) (.ok st)

/-- The loop `while (!S.empty())` of the group flood fill of `simplify`. -/
def group_flood (mesh : Mesh) (facet_region : List Nat) (r : Nat) :
    Nat → FloodState → Except Abort FloodState
  | 0, st =>
    match st.S with
    | [] => .ok st
    | _ :: _ => .error Abort.out_of_fuel
  | fuel + 1, st =>
    match st.S with
    | [] => .ok st
    | f2 :: S =>
      match group_corners mesh facet_region r f2
          { facet_status := st.facet_status, S := S, border_next := st.border_next } with
      | .error e => .error e
      | .ok st' => group_flood mesh facet_region r fuel st'

/-- State of the border walk: the map, the current vertex, `nb_border_visited` and
`new_facet`. -/
structure WalkState where
  border_next : BorderMap
  v : Nat
  nb_border_visited : Nat
  new_facet : List Nat
deriving DecidableEq, Repr

/-- The `do ... while (v != border_next.begin()->first)` loop of `simplify`. -/
def border_walk (nb_vertices : Nat) (is_corner : List Bool) :
    Nat → WalkState → Except Abort WalkState
  | 0, _ => .error Abort.out_of_fuel
  | fuel + 1, st =>
    let new_facet := if is_corner.getD st.v false then st.new_facet ++ [st.v] else st.new_facet
    let nb := st.nb_border_visited + 1
    let next := BorderMap.index st.border_next st.v
    if nb > nb_vertices then .error Abort.rollback
    else
      match BorderMap.begin_first next.2 with
      | .error e => .error e
      | .ok first =>
        if next.1 ≠ first then
          border_walk nb_vertices is_corner fuel
            { border_next := next.2, v := next.1, nb_border_visited := nb,
              new_facet := new_facet }
        else .ok { border_next := next.2, v := next.1, nb_border_visited := nb,
                   new_facet := new_facet }

/-- State of the facet loop of `simplify`. -/
structure SimplifyState where
  mesh : Mesh
  facet_region : List Nat
  facet_status : List Nat
deriving DecidableEq, Repr

/-- State of the flood fill at the start of the region group of facet `f`:
`S.push(f); facet_status[f] = 1;` with an empty `border_next`. -/
def flood_start (st : SimplifyState) (f : Nat) : FloodState :=
  { facet_status := st.facet_status.set f 1, S := [f], border_next := [] }

/-- The part of the facet loop of `simplify` that merges the region group of facet `f`
(the `else` branch): flood fill, border walk, checks and creation of the polygon. -/
def merge_group (is_corner : List Bool) (st : SimplifyState)
    (f : Nat) : Except Abort SimplifyState :=
  match group_flood st.mesh st.facet_region (st.facet_region.getD f 0)
      (st.mesh.facets.length + 1)
      (flood_start st f) with
  | .error e => .error e
  | .ok fl =>
    match BorderMap.begin_first fl.border_next with
    | .error e => .error e
    | .ok first =>
      match border_walk st.mesh.nb_vertices is_corner (st.mesh.nb_vertices + 1)
          { border_next := fl.border_next, v := first, nb_border_visited := 0,
            new_facet := [] } with
      | .error e => .error e
      | .ok w =>
        if w.nb_border_visited ≠ w.border_next.length then .error Abort.rollback
        else if w.new_facet.length < 3 then .error Abort.rollback
        else .ok { mesh := st.mesh.create_polygon w.new_facet,
                   facet_region := st.facet_region ++ [st.facet_region.getD f 0],
                   facet_status := fl.facet_status }

/-- Body of the facet loop `for (f = 0; f < nf; ++f)` of `simplify`. -/
def group_step (keep_outer_region : Bool) (is_corner : List Bool) (st : SimplifyState)
    (f : Nat) : Except Abort SimplifyState :=
  if st.facet_status.getD f 0 = NO_INDEX then
    if keep_outer_region = true ∧ st.facet_region.getD f 0 = NO_INDEX then
      .ok { st with facet_status := st.facet_status.set f 0 }
    else merge_group is_corner st f
  else .ok st

/-- The facet loop of `simplify` over the facets `fs`.  The result is `(true, st)` when
the loop ran to its end and `(false, st)` when a group jumped to `rollback:`; in that
case `st` is the state before the failing group, whose mesh and `facet_region` the group
has not touched. -/
def group_loop (keep_outer_region : Bool) (is_corner : List Bool) :
    List Nat → SimplifyState → Except Abort (Bool × SimplifyState)
  | [], st => .ok (true, st)
  | f :: fs, st =>
    match group_step keep_outer_region is_corner st f with
    | .error Abort.rollback => .ok (false, st)
    | .error e => .error e
    | .ok st' => group_loop keep_outer_region is_corner fs st'

/-- State at the start of the facet loop of `simplify`: every `facet_status` entry is
`index_t(-1)` (not visited). -/
def loop_init (mesh : Mesh) (facet_region : List Nat) : SimplifyState :=
  { mesh := mesh, facet_region := facet_region,
    facet_status := List.replicate mesh.facets.length NO_INDEX }

/-- The relabelling loop `if (facet_region[f] > max_r) facet_region[f] = index_t(-1)`. -/
def restore_outer (max_r : Nat) (facet_region : List Nat) : List Nat :=
  facet_region.map (fun r => if r > max_r then NO_INDEX else r)

/-- The end of `simplify`: the normal exit (`finished = true`) or the `rollback:` block
(`finished = false`); `nf` is the backed-up facet count.  In the `rollback:` block every
entry of `facet_status` below `nf` is overwritten with `0` and every later one is `1`. -/
def simplify_finish (keep_outer_region : Bool) (max_r nf : Nat) (finished : Bool)
    (st : SimplifyState) : Bool × Mesh × List Nat :=
  let facet_status :=
    if finished then resize st.facet_status st.mesh.facets.length 0
    else (List.range nf).foldl (fun s f => s.set f 0)
      (resize st.facet_status st.mesh.facets.length 1)
  let r := delete_elements st.mesh st.facet_region facet_status
  (finished, r.1, if keep_outer_region then r.2 else restore_outer max_r r.2)

/-- The function `simplify`.  `angle_threshold` is the threshold in degrees and
`hard f f2` the outcome of the floating-point comparison of the angle between the
normals of the facets `f` and `f2` with it.  The result is the returned boolean, the
mesh and the attribute `facet_region` after the call. -/
def simplify (mesh : Mesh) (facet_region : List Nat) (angle_threshold : ℚ)
    (hard : Nat → Nat → Bool) : Except Abort (Bool × Mesh × List Nat) :=
  let keep_outer_region : Bool := decide (angle_threshold = 0)
  let max_r := if keep_outer_region then 0 else max_region mesh facet_region
  match (if keep_outer_region then .ok facet_region
         else split_regions_along_hard_edges mesh facet_region hard) with
  | .error e => .error e
  | .ok region1 =>
    match group_loop keep_outer_region (compute_is_corner mesh region1 keep_outer_region)
        (List.range mesh.facets.length) (loop_init mesh region1) with
    | .error e => .error e
    | .ok (finished, st) =>
      .ok (simplify_finish keep_outer_region max_r mesh.facets.length finished st)

/-! ## Predicates used in the statements -/

/-- The state `st` of the facet loop of `simplify` extends the initial mesh and labels:
facets and labels were only appended, and `facet_status` still has one entry per
initial facet. -/
def Extends (mesh : Mesh) (facet_region : List Nat) (st : SimplifyState) : Prop :=
  ∃ news newlabels, st.mesh.facets = mesh.facets ++ news ∧
    st.facet_region = facet_region ++ newlabels ∧ news.length = newlabels.length ∧
    st.mesh.nb_vertices = mesh.nb_vertices ∧
    st.facet_status.length = mesh.facets.length

/-- Invariant of the facet loop of `simplify` in keep-outer-region mode: facets and
labels were only appended, no appended label is `index_t(-1)`, and a facet of the outer
region is either not visited yet or has status 0 (keep). -/
def KeepInv (mesh : Mesh) (facet_region : List Nat) (st : SimplifyState) : Prop :=
  ∃ news newlabels, st.mesh.facets = mesh.facets ++ news ∧
    st.facet_region = facet_region ++ newlabels ∧ news.length = newlabels.length ∧
    st.facet_status.length = mesh.facets.length ∧
    (∀ x ∈ newlabels, x ≠ NO_INDEX) ∧
    (∀ g, facet_region.getD g 0 = NO_INDEX →
      st.facet_status.getD g 0 = NO_INDEX ∨ st.facet_status.getD g 0 = 0)

/-- The border edges recorded in `border_next` form exactly one simple cycle: `cycle`
lists its vertices without repetition, starting at the lowest vertex index; every
recorded edge starts at a vertex of `cycle`, and every vertex of `cycle` is mapped to
the next one, the last to the first. -/
def IsBorderCycle (bn : BorderMap) (cycle : List Nat) : Prop :=
  cycle ≠ [] ∧ cycle.Nodup ∧ (∀ v ∈ cycle, cycle.getD 0 0 ≤ v) ∧
  (∀ p ∈ bn, p.1 ∈ cycle) ∧
  ∀ i, i < cycle.length →
    BorderMap.find bn (cycle.getD i 0) = some (cycle.getD ((i + 1) % cycle.length) 0)

instance instDecidableIsBorderCycle (bn : BorderMap) (cycle : List Nat) :
    Decidable (IsBorderCycle bn cycle) := by
  unfold IsBorderCycle
  infer_instance

/-- The facet loop of `simplify` reaches facet `f` in state `st` and starts a region
group there: `f` is not visited yet and is not a kept facet of the outer region. -/
def StartsGroup (keep_outer_region : Bool) (is_corner : List Bool) (init : SimplifyState)
    (f : Nat) (st : SimplifyState) : Prop :=
  group_loop keep_outer_region is_corner (List.range f) init = .ok (true, st) ∧
  st.facet_status.getD f 0 = NO_INDEX ∧
  ¬ (keep_outer_region = true ∧ st.facet_region.getD f 0 = NO_INDEX)

/-- The labels are small enough for the label arithmetic of
`split_regions_along_hard_edges` not to wrap: the first fresh label plus the number of
facets does not exceed `index_t(-1)`. -/
def LabelsFit (mesh : Mesh) (facet_region : List Nat) : Prop :=
  (if max_region mesh facet_region = NO_INDEX then 0
   else max_region mesh facet_region + 1) + mesh.facets.length ≤ NO_INDEX

instance instDecidableLabelsFit (mesh : Mesh) (facet_region : List Nat) :
    Decidable (LabelsFit mesh facet_region) := by
  unfold LabelsFit
  infer_instance

/-- Facets `a` and `b`, both labelled `index_t(-1)` in `facet_region`, are adjacent
across a corner of `a` that is not marked as crease. -/
def NonCreaseStep (mesh : Mesh) (hard : Nat → Nat → Bool) (facet_region : List Nat)
    (a b : Nat) : Prop :=
  facet_region.getD a 0 = NO_INDEX ∧ facet_region.getD b 0 = NO_INDEX ∧
  ∃ lv, lv < mesh.facet_nb_vertices a ∧ mesh.adjacent_facet a lv = b ∧
    is_crease mesh hard a lv = false

/-- Facets linked by a chain of unlabelled facets in which consecutive facets are
adjacent across a non-crease corner (in either direction). -/
def NonCreaseLinked (mesh : Mesh) (hard : Nat → Nat → Bool) (facet_region : List Nat) :
    Nat → Nat → Prop :=
  Relation.EqvGen (NonCreaseStep mesh hard facet_region)

/-- Invariant of the flood fill of one component with label `R` started at facet `f`;
`L` are the labels before `split_regions_along_hard_edges` and `region0` those at the
start of the flood fill. -/
structure SplitInv (mesh : Mesh) (hard : Nat → Nat → Bool) (L region0 : List Nat)
    (f R : Nat) (st : List Nat × List Nat) : Prop where
  pre : ∀ g, L.getD g 0 ≠ NO_INDEX → st.1.getD g 0 = L.getD g 0
  bound : ∀ g, L.getD g 0 = NO_INDEX → st.1.getD g 0 = NO_INDEX ∨ st.1.getD g 0 ≤ R
  old : ∀ g1 g2, L.getD g1 0 = NO_INDEX → L.getD g2 0 = NO_INDEX →
    st.1.getD g1 0 = st.1.getD g2 0 → st.1.getD g1 0 < R → NonCreaseLinked mesh hard L g1 g2
  cur : ∀ g, L.getD g 0 = NO_INDEX → st.1.getD g 0 = R → NonCreaseLinked mesh hard L f g
  stack : ∀ s ∈ st.2, L.getD s 0 = NO_INDEX ∧ st.1.getD s 0 = R
  stable : ∀ g, region0.getD g 0 ≠ NO_INDEX → st.1.getD g 0 = region0.getD g 0

/-- Invariant of the last loop of `split_regions_along_hard_edges` between two
components; `R` is the next fresh label. -/
structure SplitLoopInv (mesh : Mesh) (hard : Nat → Nat → Bool) (L : List Nat)
    (R : Nat) (region : List Nat) : Prop where
  pre : ∀ g, L.getD g 0 ≠ NO_INDEX → region.getD g 0 = L.getD g 0
  bound : ∀ g, L.getD g 0 = NO_INDEX → region.getD g 0 = NO_INDEX ∨ region.getD g 0 < R
  linked : ∀ g1 g2, L.getD g1 0 = NO_INDEX → L.getD g2 0 = NO_INDEX →
    region.getD g1 0 = region.getD g2 0 → region.getD g1 0 ≠ NO_INDEX →
    NonCreaseLinked mesh hard L g1 g2

/-- The state in which the facet loop of `simplify` reaches facet `f` (the initial state
when the loop does not get that far). -/
def loop_state_at (keep_outer_region : Bool) (is_corner : List Bool) (init : SimplifyState)
    (f : Nat) : SimplifyState :=
  match group_loop keep_outer_region is_corner (List.range f) init with
  | .ok (_, st) => st
  | .error _ => init

/-- The facets labelled `index_t(-1)` (the outer region) with their labels, in facet
order. -/
def outer_facets (facets : List (List Nat)) (facet_region : List Nat) :
    List (List Nat × Nat) :=
  (facets.zip facet_region).filter (fun p => decide (p.2 = NO_INDEX))

/-! ## Example meshes -/

/-- A unit square cut along a diagonal into the triangles `0 1 2` and `0 2 3`. -/
def split_square : Mesh :=
  { nb_vertices := 4, facets := [[0, 1, 2], [0, 2, 3]],
    adjacent := [[NO_INDEX, NO_INDEX, 1], [0, NO_INDEX, NO_INDEX]] }

/-- The boundary of a tetrahedron: four triangles, each adjacent to the other three. -/
def tetrahedron : Mesh :=
  { nb_vertices := 4, facets := [[1, 2, 3], [0, 3, 2], [0, 1, 3], [0, 2, 1]],
    adjacent := [[3, 1, 2], [2, 0, 3], [3, 0, 1], [1, 0, 2]] }

/-- The boundary of a pyramid with base `0 3 2 1` and apex `4`: facet 0 is the base,
facets 1 to 4 are the sides `0 1 4`, `1 2 4`, `2 3 4`, `3 0 4`. -/
def pyramid : Mesh :=
  { nb_vertices := 5, facets := [[0, 3, 2, 1], [0, 1, 4], [1, 2, 4], [2, 3, 4], [3, 0, 4]],
    adjacent := [[4, 3, 2, 1], [0, 2, 4], [0, 3, 1], [0, 4, 2], [0, 1, 3]] }

/-- A tetrahedron `0 1 2 3` whose face `1 2 3` is split into the three triangles
`4 1 2`, `4 2 3`, `4 3 1` around the inner vertex `4` (facets 0 to 2); facets 3 to 5 are
the faces `0 2 1`, `0 3 2`, `0 1 3`. -/
def split_tetrahedron : Mesh :=
  { nb_vertices := 5,
    facets := [[4, 1, 2], [4, 2, 3], [4, 3, 1], [0, 2, 1], [0, 3, 2], [0, 1, 3]],
    adjacent := [[2, 3, 1], [0, 4, 2], [1, 5, 0], [4, 0, 5], [5, 1, 3], [3, 2, 4]] }

/-- The only hard edge taken on `split_tetrahedron`: the one between facets 0 and 1. -/
def hard_edge_0_1 (f f2 : Nat) : Bool :=
  (decide (f = 0) && decide (f2 = 1)) || (decide (f = 1) && decide (f2 = 0))

/-- The pyramid together with a separate triangle `5 6 7` (facet 5). -/
def pyramid_and_triangle : Mesh :=
  { nb_vertices := 8,
    facets := [[0, 3, 2, 1], [0, 1, 4], [1, 2, 4], [2, 3, 4], [3, 0, 4], [5, 6, 7]],
    adjacent := [[4, 3, 2, 1], [0, 2, 4], [0, 3, 1], [0, 4, 2], [0, 1, 3],
                 [NO_INDEX, NO_INDEX, NO_INDEX]] }

/-- The border cycles of the region groups of the pyramid with labels `10 5 5 6 7`,
indexed by the facet at which the facet loop starts the group. -/
def pyramid_cycles (f : Nat) : List Nat :=
  match f with
  | 0 => [0, 3, 2, 1]
  | 1 => [0, 1, 2, 4]
  | 3 => [2, 3, 4]
  | 4 => [0, 4, 3]
  | _ => []

end RPD

/-!
The polygon re-triangulator

Coordinates and costs are exact numbers of a linearly ordered commutative ring `K`.
The call `atan2(y, x)` of `triangle_cost` enters in two ways: its sign, which is decided
exactly from `y` and `x`, and the value `M_PI - atan2(y, x)`, which is the parameter
`compl y x` of the model.  Index arithmetic (`i * n + j`) is taken without wrap-around:
the model agrees with the 32-bit arithmetic of the code when `n * n` is an index, which
the statements about the function assume.
-/

namespace RPD

/-- Ways in which a run of `triangulate_polygon` leaves the normal control flow: a failed
`geo_assert`, a table access out of range, or the end of the fuel of the replay loop. -/
inductive TriAbort where
  | assertion_failed
  | out_of_range
  | out_of_fuel
deriving DecidableEq, Repr

/-- A point of the plane (`vec2`). -/
structure vec2 (K : Type) where
  x : K
  y : K
deriving DecidableEq, Repr

section Geometry

variable {K : Type} [LinearOrderedCommRing K]

/-- The difference of two points. -/
def vec2.sub (a b : vec2 K) : vec2 K := ⟨a.x - b.x, a.y - b.y⟩

/-- The determinant `det(a, b)` of two vectors. -/
def det (a b : vec2 K) : K := a.x * b.y - a.y * b.x

/-- The dot product `dot(a, b)` of two vectors. -/
def dot (a b : vec2 K) : K := a.x * b.x + a.y * b.y

/-- The origin, used for reads outside a vector. -/
def vec2.zero : vec2 K := ⟨0, 0⟩

/-- The test `atan2(y, x) <= 0` on exact numbers: the angle is negative when `y < 0`
and zero when `y = 0` and `x >= 0`. -/
def angle_nonpos (y x : K) : Bool := decide (y < 0) || (decide (y = 0) && decide (0 ≤ x))

/-- The array `C` of `triangle_cost`, read at an index modulo 3. -/
def corner3 (pts : List (vec2 K)) (i j k : Nat) (v : Nat) : vec2 K :=
  match v % 3 with
  | 0 => pts.getD i vec2.zero
  | 1 => pts.getD j vec2.zero
  | _ => pts.getD k vec2.zero

/-- The first loop of `triangle_cost` over the corners `vs`, started with the running
maximum `m`: `none` when a corner has `angle <= 0` (the function returns 1024). -/
def angle_loop (compl : K → K → K) (C : Nat → vec2 K) : List Nat → K → Option K
  | [], m => some m
  | v :: vs, m =>
    if angle_nonpos (det ((C (v + 1)).sub (C v)) ((C (v + 2)).sub (C (v + 1))))
        (dot ((C (v + 1)).sub (C v)) ((C (v + 2)).sub (C (v + 1)))) = true then none
    else angle_loop compl C vs
      (max m (compl (det ((C (v + 1)).sub (C v)) ((C (v + 2)).sub (C (v + 1))))
        (dot ((C (v + 1)).sub (C v)) ((C (v + 2)).sub (C (v + 1))))))

/-- The flag `inside` of `triangle_cost`: `P` is strictly on the left of the three
edges of the triangle. -/
def inside (C : Nat → vec2 K) (P : vec2 K) : Bool :=
  (List.range 3).all (fun l => decide (0 < det ((C (l + 1)).sub (C l)) (P.sub (C l))))

/-- The function `triangle_cost(pts, i, j, k)`; indices are taken in range. -/
def triangle_cost (compl : K → K → K) (pts : List (vec2 K)) (i j k : Nat) : K :=
  match angle_loop compl (corner3 pts i j k) [0, 1, 2] 0 with
  | none => 1024
  | some m =>
    if (List.range pts.length).any (fun other =>
        !(decide (other = i) || decide (other = j) || decide (other = k)) &&
        inside (corner3 pts i j k) (pts.getD other vec2.zero)) = true
    then 1024 else m

/-- The predicate `PCK::orient_2d`: the sign of the orientation of three points. -/
def orient_2d (p q r : vec2 K) : Int :=
  if 0 < det (q.sub p) (r.sub p) then 1
  else if det (q.sub p) (r.sub p) < 0 then -1 else 0

/-- The loop of `polygon_is_convex` over the indices `is`, with the current sign `s`. -/
def convex_loop (P : List (vec2 K)) : List Nat → Int → Bool
  | [], _ => true
  | i :: is, s =>
    if orient_2d (P.getD i vec2.zero) (P.getD ((i + 1) % P.length) vec2.zero)
        (P.getD (((i + 1) % P.length + 1) % P.length) vec2.zero) * s = -1 then false
    else convex_loop P is
      (if s = 0 then orient_2d (P.getD i vec2.zero) (P.getD ((i + 1) % P.length) vec2.zero)
        (P.getD (((i + 1) % P.length + 1) % P.length) vec2.zero) else s)

/-- The function `polygon_is_convex`. -/
def polygon_is_convex (P : List (vec2 K)) : Bool :=
  convex_loop P (List.range P.length) 0

end Geometry

section Triangulate

variable {K : Type} [LinearOrderedCommRing K]

/-- The loop over `k` of `triangulate_polygon` for the subproblem `(i, j)`; the state is
`(minv, mink)`, `cost i k j` stands for `triangle_cost(pts, i, k, j)`. -/
def k_loop (cost : Nat → Nat → Nat → K) (n : Nat) (table : List K) (i j : Nat) :
    List Nat → K × Nat → Except TriAbort (K × Nat)
  | [], acc => .ok acc
  | k :: ks, acc =>
    match table[i * n + k]?, table[k * n + j]? with
    | some a, some b =>
      k_loop cost n table i j ks
        (if acc.1 ≤ a + b + cost i k j then acc else (a + b + cost i k j, k))
    | _, _ => .error TriAbort.out_of_range

/-- Body of the loop over `(i, j)`: the `k` loop, the assertion `mink != index_t(-1)`
and the two table writes.  The state is `(table, tri)`. -/
def dp_cell (cost : Nat → Nat → Nat → K) (n : Nat) (tb : List K × List Nat) (i j : Nat) :
    Except TriAbort (List K × List Nat) :=
  match k_loop cost n tb.1 i j (List.range' (i + 1) (j - (i + 1))) (10 ^ 20, NO_INDEX) with
  | .error e => .error e
  | .ok (minv, mink) =>
    if mink = NO_INDEX then .error TriAbort.assertion_failed
    else if i * n + j < tb.1.length ∧ i * n + j < tb.2.length then
      .ok (tb.1.set (i * n + j) minv, tb.2.set (i * n + j) mink)
    else .error TriAbort.out_of_range

/-- The loop `for (i = 0, j = pbsize; j < n; i++, j++)` over the start indices `is`. -/
def dp_row (cost : Nat → Nat → Nat → K) (n pbsize : Nat) :
    List Nat → List K × List Nat → Except TriAbort (List K × List Nat)
  | [], tb => .ok tb
  | i :: is, tb =>
    match dp_cell cost n tb i (i + pbsize) with
    | .error e => .error e
    | .ok tb' => dp_row cost n pbsize is tb'

/-- The loop `for (pbsize = 2; pbsize < n; pbsize++)` over the sizes `ps`. -/
def dp_fill (cost : Nat → Nat → Nat → K) (n : Nat) :
    List Nat → List K × List Nat → Except TriAbort (List K × List Nat)
  | [], tb => .ok tb
  | p :: ps, tb =>
    match dp_row cost n p (List.range (n - p)) tb with
    | .error e => .error e
    | .ok tb' => dp_fill cost n ps tb'

/-- The tables `table` and `tri` after the dynamic programming loops. -/
def dp_tables (cost : Nat → Nat → Nat → K) (n : Nat) :
    Except TriAbort (List K × List Nat) :=
  dp_fill cost n (List.range' 2 (n - 2))
    (List.replicate (n * n) 0, List.replicate (n * n) NO_INDEX)

/-- The loop `FOR(t, Q.size())` of `triangulate_polygon`: `pending` holds the entries
`Q[t], Q[t+1], ...` not yet visited, new entries are appended at the end. -/
def replay (n : Nat) (tri : List Nat) :
    Nat → List Nat → List Nat → Except TriAbort (List Nat)
  | _, [], triangles => .ok triangles
  | 0, _ :: _, _ => .error TriAbort.out_of_fuel
  | fuel + 1, idx :: pending, triangles =>
    match tri[idx]? with
    | none => .error TriAbort.out_of_range
    | some k =>
      if idx / n = NO_INDEX ∨ k = NO_INDEX ∨ idx % n = NO_INDEX then
        .error TriAbort.assertion_failed
      else
        replay n tri fuel
          (pending ++ (if k + 2 ≤ idx % n then [k * n + idx % n] else []) ++
            (if idx / n + 2 ≤ k then [idx / n * n + k] else []))
          (triangles ++ [idx / n, k, idx % n])

/-- The function `triangulate_polygon` for a polygon with `n` vertices and the triangle
costs `cost`: the returned boolean and the vector `triangles`. -/
def triangulate_cost (cost : Nat → Nat → Nat → K) (n : Nat) :
    Except TriAbort (Bool × List Nat) :=
  if n < 3 then .error TriAbort.assertion_failed
  else if n = 3 then .ok (true, [0, 1, 2])
  else
    match dp_tables cost n with
    | .error e => .error e
    | .ok tb =>
      match replay n tb.2 n [n - 1] [] with
      | .error e => .error e
      | .ok triangles =>
        match tb.1[n - 1]? with
        | none => .error TriAbort.out_of_range
        | some v => .ok (decide (v < 1024), triangles)

/-- The function `triangulate_polygon`. -/
def triangulate_polygon (compl : K → K → K) (pts : List (vec2 K)) :
    Except TriAbort (Bool × List Nat) :=
  triangulate_cost (fun i k j => triangle_cost compl pts i k j) pts.length

end Triangulate

/-! ## Triangulations of a vertex chain -/

/-- A triangulation of a vertex chain by recursive splits: a `leaf` is a polygon edge,
`node k l r` splits the chain `[i..j]` at the interior vertex `k`. -/
inductive Triangulation where
  | leaf : Triangulation
  | node (k : Nat) (l r : Triangulation) : Triangulation
deriving DecidableEq, Repr

/-- The tree `T` is a triangulation of the chain `[i..j]`. -/
def IsTriang : Nat → Nat → Triangulation → Prop
  | i, j, .leaf => j = i + 1
  | i, j, .node k l r => i < k ∧ k < j ∧ IsTriang i k l ∧ IsTriang k j r

/-- The triangles `(i, k, j)` of a triangulation of the chain `[i..j]`. -/
def triangles_of : Nat → Nat → Triangulation → List (Nat × Nat × Nat)
  | _, _, .leaf => []
  | i, j, .node k l r => (i, k, j) :: (triangles_of i k l ++ triangles_of k j r)

/-- The sum of the triangle costs of a triangulation of the chain `[i..j]`. -/
def tcost {K : Type} [LinearOrderedCommRing K] (cost : Nat → Nat → Nat → K) :
    Nat → Nat → Triangulation → K
  | _, _, .leaf => 0
  | i, j, .node k l r => tcost cost i k l + tcost cost k j r + cost i k j

/-- The triangulation recorded in the split table `tri` for the chain `[i..j]`, read to
depth `d`. -/
def build (n : Nat) (tri : List Nat) : Nat → Nat → Nat → Triangulation
  | 0, _, _ => .leaf
  | d + 1, i, j =>
    if j ≤ i + 1 then .leaf
    else .node (tri.getD (i * n + j) 0) (build n tri d i (tri.getD (i * n + j) 0))
      (build n tri d (tri.getD (i * n + j) 0) j)

/-- The tables hold an optimal triangulation of the chain `[a..b]`: read to any
sufficient depth, the recorded tree is a triangulation of the chain, `table` holds its
cost, no triangulation of the chain is cheaper, and the cost is at most `1024` per
triangle. -/
def SubOK {K : Type} [LinearOrderedCommRing K] (cost : Nat → Nat → Nat → K) (n : Nat)
    (tb : List K × List Nat) (a b : Nat) : Prop :=
  ∀ d, b - a ≤ d →
    IsTriang a b (build n tb.2 d a b) ∧
    tb.1.getD (a * n + b) 0 = tcost cost a b (build n tb.2 d a b) ∧
    (∀ T, IsTriang a b T → tcost cost a b (build n tb.2 d a b) ≤ tcost cost a b T) ∧
    tcost cost a b (build n tb.2 d a b) ≤ 1024 * ((b - a - 1 : Nat) : K)

/-- Invariant of the dynamic programming loops before the subproblem `(m, m + p)`:
all subproblems of size below `p`, and those of size `p` starting before `m`, are
solved; the entries `(i, i + 1)` of `table` are still zero. -/
structure DPInv {K : Type} [LinearOrderedCommRing K] (cost : Nat → Nat → Nat → K)
    (n p m : Nat) (tb : List K × List Nat) : Prop where
  len1 : tb.1.length = n * n
  len2 : tb.2.length = n * n
  adj : ∀ i, i + 1 < n → tb.1.getD (i * n + (i + 1)) 0 = 0
  split : ∀ i j, i + 2 ≤ j → j < n → (j - i < p ∨ (j - i = p ∧ i < m)) →
    i < tb.2.getD (i * n + j) 0 ∧ tb.2.getD (i * n + j) 0 < j
  filled : ∀ i j, i + 2 ≤ j → j < n → (j - i < p ∨ (j - i = p ∧ i < m)) →
    SubOK cost n tb i j

/-- The triangles recorded in the split table for a list of pending subproblems
`(i, j, d)`, each read to depth `d`. -/
def cell_triangles (n : Nat) (tri : List Nat) :
    List (Nat × Nat × Nat) → List (Nat × Nat × Nat)
  | [] => []
  | c :: cs => triangles_of c.1 c.2.1 (build n tri c.2.2 c.1 c.2.1) ++ cell_triangles n tri cs

/-- The number of triangles of a list of pending subproblems `(i, j, d)`. -/
def cells_size : List (Nat × Nat × Nat) → Nat
  | [] => 0
  | c :: cs => (c.2.1 - c.1 - 1) + cells_size cs

/-- The flat vector of indices of a list of triangles. -/
def flat_triples : List (Nat × Nat × Nat) → List Nat
  | [] => []
  | t :: ts => t.1 :: t.2.1 :: t.2.2 :: flat_triples ts

/-- The index triples of the flat vector `triangles`. -/
def triples : List Nat → List (Nat × Nat × Nat)
  | a :: b :: c :: rest => (a, b, c) :: triples rest
  | _ => []

/-- The counter-clockwise unit square `(0,0), (1,0), (1,1), (0,1)`. -/
def ccw_square : List (vec2 Int) := [⟨0, 0⟩, ⟨1, 0⟩, ⟨1, 1⟩, ⟨0, 1⟩]

end RPD

/-!
Tessellation of the non-convex facets

The floating-point projection of `get_mesh_polygon2d` is the parameter `proj f v` of the
model: the 2D point of the vertex `v` in the frame of the facet `f`.  The facet
attributes copied by `copy_item` are one value of a type `A` per facet.
-/

namespace RPD

/-- State of the facet loop of `tessellate_non_convex_facets`: the mesh, the facet
attributes and the vector `to_delete`. -/
structure TessState (A : Type) where
  mesh : Mesh
  attrs : List A
  to_delete : List Nat
deriving DecidableEq, Repr

section Tessellate

variable {K : Type} [LinearOrderedCommRing K] {A : Type}

/-- The function `get_mesh_polygon2d`: the pair `(P, P_ind)` of the projected points and
the vertex indices of the facet `f`. -/
def get_mesh_polygon2d (mesh : Mesh) (f : Nat) (proj : Nat → Nat → vec2 K) :
    List (vec2 K) × List Nat :=
  ((mesh.loop f).map (proj f), mesh.loop f)

/-- The loop `FOR(t, P_tri.size() / 3)` of `tessellate_non_convex_facets` over the
remaining entries of `P_tri`: each index triple creates a triangle on the vertices
`P_ind[...]` and copies the attributes of the facet `f` to it. -/
def create_triangles (P_ind : List Nat) (f : Nat) :
    List Nat → TessState A → Except TriAbort (TessState A)
  | a :: b :: c :: rest, st =>
    match P_ind[a]?, P_ind[b]?, P_ind[c]?, st.attrs[f]? with
    | some va, some vb, some vc, some x =>
      create_triangles P_ind f rest
        { mesh := st.mesh.create_polygon [va, vb, vc], attrs := st.attrs ++ [x],
          to_delete := st.to_delete }
    | _, _, _, _ => .error TriAbort.out_of_range
  | _, st => .ok st

/-- Body of the loop `FOR(f, nf)` of `tessellate_non_convex_facets`. -/
def tessellate_facet (compl : K → K → K) (proj : Nat → Nat → vec2 K) (st : TessState A)
    (f : Nat) : Except TriAbort (TessState A) :=
  if polygon_is_convex (get_mesh_polygon2d st.mesh f proj).1 = true then .ok st
  else
    match triangulate_polygon compl (get_mesh_polygon2d st.mesh f proj).1 with
    | .error e => .error e
    | .ok (true, P_tri) =>
      create_triangles (get_mesh_polygon2d st.mesh f proj).2 f P_tri
        { mesh := st.mesh, attrs := st.attrs,
          to_delete := (resize st.to_delete st.mesh.facets.length 0).set f 1 }
    | .ok (false, _) => .ok st

/-- The loop `FOR(f, nf)` of `tessellate_non_convex_facets` over the facets `fs`. -/
def tessellate_loop (compl : K → K → K) (proj : Nat → Nat → vec2 K) :
    List Nat → TessState A → Except TriAbort (TessState A)
  | [], st => .ok st
  | f :: fs, st =>
    match tessellate_facet compl proj st f with
    | .error e => .error e
    | .ok st' => tessellate_loop compl proj fs st'

/-- Modelled from the spec: `mesh->facets.delete_elements(to_delete)` with the facet
attributes compacted alongside (mesh library, not part of the sources): the facets
flagged non-zero are removed, the others keep their order.  Vertex storage and the
corner adjacency of the surviving facets are left as they are. -/
def delete_facets (st : TessState A) : Mesh × List A :=
  ({ nb_vertices := st.mesh.nb_vertices,
     facets := keep_unflagged st.mesh.facets st.to_delete,
     adjacent := keep_unflagged st.mesh.adjacent st.to_delete },
   keep_unflagged st.attrs st.to_delete)

/-- The function `tessellate_non_convex_facets`, returning the mesh and its facet
attributes. -/
def tessellate_non_convex_facets (compl : K → K → K) (proj : Nat → Nat → vec2 K)
    (mesh : Mesh) (attrs : List A) : Except TriAbort (Mesh × List A) :=
  match tessellate_loop compl proj (List.range mesh.facets.length)
      { mesh := mesh, attrs := attrs, to_delete := [] } with
  | .error e => .error e
  | .ok st =>
    if st.to_delete.length ≠ 0 then
      .ok (delete_facets
        { mesh := st.mesh, attrs := st.attrs,
          to_delete := resize st.to_delete st.mesh.facets.length 0 })
    else .ok (st.mesh, st.attrs)

end Tessellate

/-- The mesh after `create_polygon` for each loop of a list. -/
def create_polygons (m : Mesh) (loops : List (List Nat)) : Mesh :=
  loops.foldl Mesh.create_polygon m

/-- The triangle loops created from the index triples `ts` of the vertex loop `P_ind`. -/
def triangle_loops (P_ind : List Nat) (ts : List (Nat × Nat × Nat)) : List (List Nat) :=
  ts.map (fun t => [P_ind.getD t.1 0, P_ind.getD t.2.1 0, P_ind.getD t.2.2 0])

/-- Invariant of the facet loop of `tessellate_non_convex_facets` on the mesh `mesh`
with the attributes `attrs`: created triangles are appended behind the original facets,
only original facets are flagged, and a facet that is convex or whose triangulation
failed is not flagged. -/
structure TessInv {K : Type} [LinearOrderedCommRing K] {A : Type} (compl : K → K → K) (proj : Nat → Nat → vec2 K) (mesh : Mesh)
    (attrs : List A) (st : TessState A) (created : List (List Nat × A)) : Prop where
  facets : st.mesh.facets = mesh.facets ++ created.map Prod.fst
  attrs_eq : st.attrs = attrs ++ created.map Prod.snd
  flags_len : st.to_delete.length ≤ st.mesh.facets.length
  flags_new : ∀ g, mesh.facets.length ≤ g → st.to_delete.getD g 0 = 0
  flags_kept : ∀ g, (polygon_is_convex (get_mesh_polygon2d mesh g proj).1 = true ∨
      ∃ tr, triangulate_polygon compl (get_mesh_polygon2d mesh g proj).1 = .ok (false, tr)) →
    st.to_delete.getD g 0 = 0

/-- Position after `delete_elements` of the facet `f`, when it is kept: the number of
facets before `f` whose flag is zero. -/
def kept_index (to_delete : List Nat) (f : Nat) : Nat :=
  (keep_unflagged (List.range f) to_delete).length

/-- The quadrilateral `pts` is an arrow listed counter-clockwise with its reflex vertex
at index `r`: the polygon turns strictly right at `r` and strictly left at the three
other vertices. -/
def IsArrowCCW {K : Type} [LinearOrderedCommRing K] (pts : List (vec2 K)) (r : Nat) : Prop :=
  pts.length = 4 ∧ r < 4 ∧
  ∀ i, i < 4 →
    (i = r → det ((pts.getD i vec2.zero).sub (pts.getD ((i + 3) % 4) vec2.zero))
      ((pts.getD ((i + 1) % 4) vec2.zero).sub (pts.getD i vec2.zero)) < 0) ∧
    (i ≠ r → 0 < det ((pts.getD i vec2.zero).sub (pts.getD ((i + 3) % 4) vec2.zero))
      ((pts.getD ((i + 1) % 4) vec2.zero).sub (pts.getD i vec2.zero)))

/-- The arrow `(0,3), (-2,-1), (0,0), (2,-1)`, counter-clockwise, reflex at index 2. -/
def arrow : List (vec2 Int) := [⟨0, 3⟩, ⟨-2, -1⟩, ⟨0, 0⟩, ⟨2, -1⟩]

/-- The same arrow listed clockwise: `(0,3), (2,-1), (0,0), (-2,-1)`; it is a simple
quadrilateral whose only reflex vertex is at index 2. -/
def clockwise_arrow : List (vec2 Int) := [⟨0, 3⟩, ⟨2, -1⟩, ⟨0, 0⟩, ⟨-2, -1⟩]

/-- The hexagon `(2,0), (1,s), (-1,s), (-2,0), (-1,-s), (1,-s)`; it is the regular
hexagon of circumradius 2 when `s * s = 3`. -/
def regular_hexagon {K : Type} [LinearOrderedCommRing K] (s : K) : List (vec2 K) :=
  [⟨2, 0⟩, ⟨1, s⟩, ⟨-1, s⟩, ⟨-2, 0⟩, ⟨-1, -s⟩, ⟨1, -s⟩]

/-- A mesh with the single facet `0 1 2 3 4 5`. -/
def hexagon_mesh : Mesh :=
  { nb_vertices := 6, facets := [[0, 1, 2, 3, 4, 5]], adjacent := [List.replicate 6 NO_INDEX] }

/-- A mesh with a quadrilateral `0 1 2 3`, a triangle `0 3 4` and a second quadrilateral
`4 5 6 7`. -/
def three_facets : Mesh :=
  { nb_vertices := 8, facets := [[0, 1, 2, 3], [0, 3, 4], [4, 5, 6, 7]],
    adjacent := [[NO_INDEX, NO_INDEX, NO_INDEX, 1], [0, NO_INDEX, NO_INDEX],
                 [NO_INDEX, NO_INDEX, NO_INDEX, NO_INDEX]] }

/-- Planar coordinates for `three_facets`: the first quadrilateral is the arrow, the
second one the clockwise arrow, whatever the facet frame. -/
def three_facets_proj (_f v : Nat) : vec2 Int :=
  ([⟨0, 3⟩, ⟨-2, -1⟩, ⟨0, 0⟩, ⟨2, -1⟩, ⟨3, 3⟩, ⟨5, -1⟩, ⟨3, 0⟩, ⟨1, -1⟩] : List (vec2 Int)).getD v
    vec2.zero

end RPD

/-!
The exact classifier `ConvexCellCGAL::side_exact`

A shallow embedding of `src/matfp/geogram/generic_RPD_cell.cpp`.  The four exact
predicates, the accessors of the symbolic vertex, of the regular triangulation and of
the tetrahedral mesh are declared in headers that are not part of the sources: they are
parameters of the model.  Points (`const double*`) are values of a type `P`, weights of
a type `W`; a `Sign` is an integer among `-1, 0, 1`.  The macro `assert` is compiled
out when `NDEBUG` is defined: the parameter `assertions` tells whether it is active.
-/

namespace RPD

/-- Ways in which `side_exact` leaves the normal control flow: the `assert(false)` of
the case of 0 boundary facets, and `geo_assert_not_reached` behind the `switch`. -/
inductive ClassifyAbort where
  | assert_false
  | not_reached
deriving DecidableEq, Repr

/-- The values `side_exact` reads from the symbolic vertex `q.sym()`:
`nb_boundary_facets()`, `bisector(i)`, `boundary_facet(i)`, the pair written by
`get_boundary_edge(e0, e1)` and `get_boundary_vertex()`. -/
structure SymbolicVertex where
  nb_boundary_facets : Nat
  bisector : Nat → Nat
  boundary_facet : Nat → Nat
  boundary_edge : Nat × Nat
  boundary_vertex : Nat

/-- The four exact predicates of `matfp::PCK` called by `side_exact`, with their
arguments in the order of the calls. -/
structure Predicates (P W : Type) where
  power_side4_3d_SOS : P → W → P → W → P → W → P → W → P → W → Int
  power_side3_SOS : P → W → P → W → P → W → P → W → P → P → P → Int
  power_side2_SOS : P → W → P → W → P → W → P → P → Int
  power_side1_SOS : P → W → P → W → P → Int

/-- The accessors `get_double_vector` (followed by `data()`) and `get_weight` of the
regular triangulation `rt`. -/
structure RegularTriangulationNN (P W : Type) where
  get_double_vector : Nat → P
  get_weight : Nat → W

/-- The accessors of the tetrahedral mesh read by `side_exact`:
`mesh->cells.tet_vertex(t, lv)`, the table `MeshCells::local_tet_facet_vertex_index(lf, lv)`
and `mesh->vertices.point_ptr(v)`. -/
structure TetMesh (P : Type) where
  tet_vertex : Nat → Nat → Nat
  local_tet_facet_vertex_index : Nat → Nat → Nat
  point_ptr : Nat → P

section Classifier

variable {P W : Type}

/-- The block `case 1` of `side_exact`. -/
def side_exact_case1 (pck : Predicates P W) (mesh : TetMesh P)
    (rt : RegularTriangulationNN P W) (q : SymbolicVertex) (pi : P) (wi : W) (pj : P)
    (wj : W) : Int :=
  pck.power_side3_SOS pi wi
    (rt.get_double_vector (q.bisector 0)) (rt.get_weight (q.bisector 0))
    (rt.get_double_vector (q.bisector 1)) (rt.get_weight (q.bisector 1)) pj wj
    (mesh.point_ptr (mesh.tet_vertex (q.boundary_facet 0 / 4)
      (mesh.local_tet_facet_vertex_index (q.boundary_facet 0 % 4) 0)))
    (mesh.point_ptr (mesh.tet_vertex (q.boundary_facet 0 / 4)
      (mesh.local_tet_facet_vertex_index (q.boundary_facet 0 % 4) 1)))
    (mesh.point_ptr (mesh.tet_vertex (q.boundary_facet 0 / 4)
      (mesh.local_tet_facet_vertex_index (q.boundary_facet 0 % 4) 2)))

/-- The function `ConvexCellCGAL::side_exact`.  In the case of 0 boundary facets with
`dim != 3` the block ends after `assert(false)` without `return` or `break`: when the
assertion is compiled out the control falls through to the block `case 1`. -/
def side_exact (pck : Predicates P W) (assertions : Bool) (mesh : TetMesh P)
    (rt : RegularTriangulationNN P W) (q : SymbolicVertex) (pi : P) (wi : W) (pj : P)
    (wj : W) (dim : Nat) (_symbolic_is_surface : Bool) : Except ClassifyAbort Int :=
  match q.nb_boundary_facets with
  | 0 =>
    if dim = 3 then
      .ok (pck.power_side4_3d_SOS pi wi
        (rt.get_double_vector (q.bisector 0)) (rt.get_weight (q.bisector 0))
        (rt.get_double_vector (q.bisector 1)) (rt.get_weight (q.bisector 1))
        (rt.get_double_vector (q.bisector 2)) (rt.get_weight (q.bisector 2)) pj wj)
    else if assertions = true then .error ClassifyAbort.assert_false
    else .ok (side_exact_case1 pck mesh rt q pi wi pj wj)
  | 1 => .ok (side_exact_case1 pck mesh rt q pi wi pj wj)
  | 2 =>
    .ok (pck.power_side2_SOS pi wi
      (rt.get_double_vector (q.bisector 0)) (rt.get_weight (q.bisector 0)) pj wj
      (mesh.point_ptr q.boundary_edge.1) (mesh.point_ptr q.boundary_edge.2))
  | 3 => .ok (pck.power_side1_SOS pi wi pj wj (mesh.point_ptr q.boundary_vertex))
  | _ => .error ClassifyAbort.not_reached

end Classifier

/-- The sign of the difference of two power-like values, used to build predicates for
concrete evaluations. -/
def toy_sign (pi wi pj wj : Int) : Int := Int.sign ((pi - wi) - (pj - wj))

/-- A family of predicates on integer points for concrete evaluations: the first and the
last compare `pi - wi` with `pj - wj`, the second compares the weights only, the third
the points only; the other arguments are ignored. -/
def toy_predicates : Predicates Int Int :=
  { power_side4_3d_SOS := fun pi wi _ _ _ _ _ _ pj wj => toy_sign pi wi pj wj,
    power_side3_SOS := fun _ wi _ _ _ _ _ wj _ _ _ => toy_sign 0 wj 0 wi,
    power_side2_SOS := fun pi _ _ _ pj _ _ _ => toy_sign pi 0 pj 0,
    power_side1_SOS := fun pi wi pj wj _ => toy_sign pi wi pj wj }

/-- A regular triangulation for concrete evaluations: site `b` at point `b`, weight 0. -/
def toy_rt : RegularTriangulationNN Int Int :=
  { get_double_vector := fun b => (b : Int), get_weight := fun _ => 0 }

/-- A tetrahedral mesh for concrete evaluations: tetrahedron `t` has the vertices
`4 t .. 4 t + 3`, local facet `lf` has the vertices other than `lf`, vertex `v` is at
point `v`. -/
def toy_mesh : TetMesh Int :=
  { tet_vertex := fun t lv => 4 * t + lv,
    local_tet_facet_vertex_index := fun lf lv => (lf + lv + 1) % 4,
    point_ptr := fun v => (v : Int) }

/-- A symbolic vertex with `c` boundary facets for concrete evaluations. -/
def toy_vertex (c : Nat) : SymbolicVertex :=
  { nb_boundary_facets := c, bisector := fun i => i + 1, boundary_facet := fun i => i + 5,
    boundary_edge := (2, 3), boundary_vertex := 7 }

end RPD

/-!
The traversal callback `RPDPolyhedronCGALCallback`

The virtual methods `begin_polyhedron`, `begin_facet`, `vertex`, `end_facet` and
`end_polyhedron` are the consumer: every call of one of them appends an `Event` to the
field `out` of the state.  Positions (`const double*`) are values of a type `G`,
symbolic descriptors values of a type `S` with decidable equality.  The working mesh
`mesh_` keeps the vertex attribute `sym` next to each point and the facet attributes
`seed` and `tet` next to each loop; corner adjacency (`mesh_.facets.connect()`) is only
read by `simplify` and is not stored.  The convex cell passed to `operator()` is
given by what the method reads of it.
-/

namespace RPD

/-- A call of one of the virtual methods of the callback. -/
inductive Event (G S : Type) where
  | begin_polyhedron (seed tetrahedron : Nat)
  | begin_facet (facet_seed facet_tet : Nat)
  | vertex (geometry : G) (symb : S)
  | end_facet
  | end_polyhedron
deriving DecidableEq, Repr

/-- The event is one of `begin_facet`, `vertex`, `end_facet`. -/
def Event.is_facet_event {G S : Type} : Event G S → Bool
  | .begin_facet _ _ => true
  | .vertex _ _ => true
  | .end_facet => true
  | _ => false

/-- Ways in which the callback leaves the normal control flow: a call through the null
pointer `vertex_map_`, an access outside the vertex store, and an abort inside
`simplify` or `tessellate_non_convex_facets`. -/
inductive Fault where
  | null_vertex_map
  | out_of_range
  | processing
deriving DecidableEq, Repr

/-- Modelled from the spec: the vertex deduplication map `RPDVertexMap` (declared in
`RPD_mesh_builder.h`, not part of the sources).  It holds the keys `(seed, descriptor)`
in the order of their creation; the index of a key is its position. -/
structure RPDVertexMap (S : Type) where
  keys : List (Nat × S)
deriving DecidableEq, Repr

/-- Modelled from the spec: `find_or_create_vertex(seed, sym)` returns the index of the
key when it exists, and otherwise allocates the next index. -/
def RPDVertexMap.find_or_create_vertex {S : Type} [DecidableEq S] (m : RPDVertexMap S)
    (seed : Nat) (sym : S) : Nat × RPDVertexMap S :=
  if m.keys.indexOf (seed, sym) < m.keys.length then (m.keys.indexOf (seed, sym), m)
  else (m.keys.length, { keys := m.keys ++ [(seed, sym)] })

/-- A facet of the working mesh with its attributes `mesh_facet_seed_` and
`mesh_facet_tet_`. -/
structure WorkFacet where
  loop : List Nat
  seed : Nat
  tet : Nat
deriving DecidableEq, Repr

/-- The working mesh `mesh_`: the vertices with the attribute `mesh_vertex_sym_`, and the
facets. -/
structure WorkMesh (G S : Type) where
  vertices : List (G × S)
  facets : List WorkFacet
deriving DecidableEq, Repr

/-- The working mesh after `mesh_.clear(true, true)`. -/
def WorkMesh.empty {G S : Type} : WorkMesh G S := { vertices := [], facets := [] }

/-- The calls `simplify(mesh_, mesh_facet_seed_, threshold)` and
`tessellate_non_convex_facets(&mesh_)` of `process_polyhedron_mesh`, as transformations
of the working mesh.  They read vertex coordinates through floating-point normals and
are embedded on their own (`simplify`, `tessellate_non_convex_facets`); for the callback
they are parameters. -/
structure Processing (G S : Type) where
  simplify : WorkMesh G S → Except Fault (WorkMesh G S)
  tessellate : WorkMesh G S → Except Fault (WorkMesh G S)

/-- The state of a `RPDPolyhedronCGALCallback`, with the events delivered so far. -/
structure Callback (G S : Type) where
  seed_ : Nat
  simplex_ : Nat
  facet_seed_ : Nat
  facet_tet_ : Nat
  last_seed_ : Nat
  simplify_internal_tet_facets_ : Bool
  simplify_voronoi_facets_ : Bool
  tessellate_non_convex_facets_ : Bool
  use_mesh_ : Bool
  facet_is_skipped_ : Bool
  vertex_map_ : Option (RPDVertexMap S)
  mesh_ : WorkMesh G S
  base_current_facet_ : List Nat
  out : List (Event G S)
deriving DecidableEq, Repr

/-- One dual vertex `cv` of the convex cell, as read by `operator()`:
`C.vertex_triangle(cv)`, `C.vertex_id(cv)`, and the position and descriptor
`C.triangle_dual(c.t)` of the corners visited by the `do ... while` loop (the first
corner, then those reached by `move_to_next_around_vertex` before it is back). -/
structure DualVertex (G S : Type) where
  vertex_triangle : Int
  vertex_id : Int
  first : G × S
  rest : List (G × S)
deriving DecidableEq, Repr

/-- One call of `operator()`: the seed `v`, the tetrahedron `t` and the dual vertices
`0 .. max_v() - 1` of the cell. -/
structure Cell (G S : Type) where
  v : Nat
  t : Nat
  dual_vertices : List (DualVertex G S)
deriving DecidableEq, Repr

/-- A call of one of the three facet methods `begin_facet_internal`, `vertex_internal`
and `end_facet_internal`. -/
inductive Call (G S : Type) where
  | begin_facet_internal (facet_seed facet_tet : Nat)
  | vertex_internal (geometry : G) (symb : S)
  | end_facet_internal
deriving DecidableEq, Repr

/-- The conversion `index_t(x)` of a signed index. -/
def to_index (x : Int) : Nat := (x % 4294967296).toNat

/-- The decoding of `adjacent = C.vertex_id(cv)` in `operator()`: the pair
`(index_t(v_adj), index_t(t_adj))`. -/
def decode_adjacent (adjacent : Int) : Nat × Nat :=
  (to_index (if adjacent < 0 then -1 else if adjacent > 0 then adjacent - 1 else -1),
   to_index (if adjacent < 0 then -adjacent - 1 else -1))

section Methods

variable {G S : Type} [DecidableEq S]

/-- The method `begin_polyhedron_internal`. -/
def begin_polyhedron_internal (cb : Callback G S) (seed tetrahedron : Nat) : Callback G S :=
  if cb.use_mesh_ = true then
    { cb with last_seed_ := seed, seed_ := seed, simplex_ := tetrahedron,
              vertex_map_ := some { keys := [] } }
  else
    { cb with last_seed_ := seed, seed_ := seed, simplex_ := tetrahedron,
              out := cb.out ++ [Event.begin_polyhedron seed tetrahedron] }

/-- The method `begin_facet_internal`. -/
def begin_facet_internal (cb : Callback G S) (facet_seed facet_tet : Nat) : Callback G S :=
  if (cb.simplify_internal_tet_facets_ && decide (facet_tet ≠ NO_INDEX)) = true then
    { cb with facet_seed_ := facet_seed, facet_tet_ := facet_tet, facet_is_skipped_ := true }
  else if cb.use_mesh_ = true then
    { cb with facet_seed_ := facet_seed, facet_tet_ := facet_tet, facet_is_skipped_ := false }
  else
    { cb with facet_seed_ := facet_seed, facet_tet_ := facet_tet, facet_is_skipped_ := false,
              out := cb.out ++ [Event.begin_facet facet_seed facet_tet] }

/-- The method `vertex_internal`.  In the buffering mode the index `v` returned by the
vertex map is either an existing vertex, or the index of the vertex created for it (a
larger index would write `mesh_vertex_sym_[v]` outside the store). -/
def vertex_internal (cb : Callback G S) (geometry : G) (symb : S) :
    Except Fault (Callback G S) :=
  if cb.facet_is_skipped_ = true then .ok cb
  else if cb.use_mesh_ = true then
    match cb.vertex_map_ with
    | none => .error Fault.null_vertex_map
    | some m =>
      if (m.find_or_create_vertex cb.seed_ symb).1 < cb.mesh_.vertices.length then
        .ok { cb with vertex_map_ := some (m.find_or_create_vertex cb.seed_ symb).2,
                      base_current_facet_ := cb.base_current_facet_ ++
                        [(m.find_or_create_vertex cb.seed_ symb).1] }
      else if (m.find_or_create_vertex cb.seed_ symb).1 = cb.mesh_.vertices.length then
        .ok { cb with vertex_map_ := some (m.find_or_create_vertex cb.seed_ symb).2,
                      mesh_ := { vertices := cb.mesh_.vertices ++ [(geometry, symb)],
                                 facets := cb.mesh_.facets },
                      base_current_facet_ := cb.base_current_facet_ ++
                        [(m.find_or_create_vertex cb.seed_ symb).1] }
      else .error Fault.out_of_range
  else .ok { cb with out := cb.out ++ [Event.vertex geometry symb] }

/-- The method `end_facet_internal`. -/
def end_facet_internal (cb : Callback G S) : Callback G S :=
  if cb.facet_is_skipped_ = true then
    { cb with facet_seed_ := NO_INDEX, facet_tet_ := NO_INDEX }
  else if cb.use_mesh_ = true then
    { cb with facet_seed_ := NO_INDEX, facet_tet_ := NO_INDEX,
              mesh_ := { vertices := cb.mesh_.vertices,
                         facets := cb.mesh_.facets ++
                           [{ loop := cb.base_current_facet_, seed := cb.facet_seed_,
                              tet := cb.facet_tet_ }] },
              base_current_facet_ := [] }
  else
    { cb with facet_seed_ := NO_INDEX, facet_tet_ := NO_INDEX,
              out := cb.out ++ [Event.end_facet] }

/-- The loop over `lv` of `process_polyhedron_mesh` for the remaining vertices of a
facet. -/
def replay_loop (vertices : List (G × S)) :
    List Nat → Callback G S → Except Fault (Callback G S)
  | [], cb => .ok cb
  | v :: vs, cb =>
    match vertices[v]? with
    | none => .error Fault.out_of_range
    | some p => replay_loop vertices vs { cb with out := cb.out ++ [Event.vertex p.1 p.2] }

/-- The loop over `f` of `process_polyhedron_mesh` for the remaining facets. -/
def replay_facets (vertices : List (G × S)) :
    List WorkFacet → Callback G S → Except Fault (Callback G S)
  | [], cb => .ok cb
  | f :: fs, cb =>
    match replay_loop vertices f.loop
        { cb with facet_seed_ := f.seed, facet_tet_ := f.tet,
                  out := cb.out ++ [Event.begin_facet f.seed f.tet] } with
    | .error e => .error e
    | .ok cb' => replay_facets vertices fs { cb' with out := cb'.out ++ [Event.end_facet] }

/-- The method `process_polyhedron_mesh`. -/
def process_polyhedron_mesh (proc : Processing G S) (cb : Callback G S) :
    Except Fault (Callback G S) :=
  match (if cb.simplify_voronoi_facets_ = true then proc.simplify cb.mesh_
         else .ok cb.mesh_) with
  | .error e => .error e
  | .ok m1 =>
    match (if cb.tessellate_non_convex_facets_ = true then proc.tessellate m1
           else .ok m1) with
    | .error e => .error e
    | .ok m2 =>
      match replay_facets m2.vertices m2.facets
          { cb with mesh_ := m2,
                    out := cb.out ++ [Event.begin_polyhedron cb.seed_ cb.simplex_] } with
      | .error e => .error e
      | .ok cb' => .ok { cb' with out := cb'.out ++ [Event.end_polyhedron] }

/-- The method `end_polyhedron_internal`. -/
def end_polyhedron_internal (proc : Processing G S) (cb : Callback G S) :
    Except Fault (Callback G S) :=
  if cb.use_mesh_ = true then
    match process_polyhedron_mesh proc cb with
    | .error e => .error e
    | .ok cb' =>
      .ok { cb' with mesh_ := WorkMesh.empty, vertex_map_ := none, seed_ := NO_INDEX,
                     simplex_ := NO_INDEX }
  else
    .ok { cb with out := cb.out ++ [Event.end_polyhedron], seed_ := NO_INDEX,
                  simplex_ := NO_INDEX }

/-- One call of a facet method. -/
def run_call (cb : Callback G S) : Call G S → Except Fault (Callback G S)
  | .begin_facet_internal facet_seed facet_tet => .ok (begin_facet_internal cb facet_seed facet_tet)
  | .vertex_internal geometry symb => vertex_internal cb geometry symb
  | .end_facet_internal => .ok (end_facet_internal cb)

/-- A sequence of calls of the facet methods. -/
def run_calls : Callback G S → List (Call G S) → Except Fault (Callback G S)
  | cb, [] => .ok cb
  | cb, c :: cs =>
    match run_call cb c with
    | .error e => .error e
    | .ok cb' => run_calls cb' cs

/-- The calls made by the body of the loop over `cv` of `operator()` for one dual
vertex: none when `vertex_triangle(cv) == -1`, else `begin_facet_internal`, one
`vertex_internal` per visited corner and `end_facet_internal`. -/
def facet_calls (dv : DualVertex G S) : List (Call G S) :=
  if dv.vertex_triangle = -1 then []
  else
    Call.begin_facet_internal (decode_adjacent dv.vertex_id).1 (decode_adjacent dv.vertex_id).2
      :: ((dv.first :: dv.rest).map (fun p => Call.vertex_internal p.1 p.2) ++
        [Call.end_facet_internal])

/-- The calls made by the loop over `cv` of `operator()`. -/
def cell_calls (dual_vertices : List (DualVertex G S)) : List (Call G S) :=
  dual_vertices.flatMap facet_calls

/-- The first statement of `operator()`: the polyhedron of the previous cells is ended and
a new one begun, unless internal facets are merged and the seed is the one of the
previous cell. -/
def operator_begin (proc : Processing G S) (cb : Callback G S) (c : Cell G S) :
    Except Fault (Callback G S) :=
  if cb.simplify_internal_tet_facets_ = true then
    if c.v ≠ cb.last_seed_ then
      if cb.last_seed_ ≠ NO_INDEX then
        match end_polyhedron_internal proc cb with
        | .error e => .error e
        | .ok cb' => .ok (begin_polyhedron_internal cb' c.v c.t)
      else .ok (begin_polyhedron_internal cb c.v c.t)
    else .ok cb
  else .ok (begin_polyhedron_internal cb c.v c.t)

/-- The method `operator()` for the cell `c`. -/
def operator_call (proc : Processing G S) (cb : Callback G S) (c : Cell G S) :
    Except Fault (Callback G S) :=
  match operator_begin proc cb c with
  | .error e => .error e
  | .ok cb1 =>
    match run_calls cb1 (cell_calls c.dual_vertices) with
    | .error e => .error e
    | .ok cb2 =>
      if cb2.simplify_internal_tet_facets_ = true then .ok cb2
      else end_polyhedron_internal proc cb2

/-- The method `end`. -/
def callback_end (proc : Processing G S) (cb : Callback G S) : Except Fault (Callback G S) :=
  if cb.simplify_internal_tet_facets_ = true ∧ cb.seed_ ≠ NO_INDEX then
    end_polyhedron_internal proc cb
  else .ok cb

/-- The calls of `operator()` for the cells `cs`, one after the other. -/
def operator_calls (proc : Processing G S) :
    Callback G S → List (Cell G S) → Except Fault (Callback G S)
  | cb, [] => .ok cb
  | cb, c :: cs =>
    match operator_call proc cb c with
    | .error e => .error e
    | .ok cb' => operator_calls proc cb' cs

/-- One traversal: `begin()` (which does nothing), `operator()` on every cell, `end()`. -/
def traverse (proc : Processing G S) (cb : Callback G S) (cells : List (Cell G S)) :
    Except Fault (Callback G S) :=
  match operator_calls proc cb cells with
  | .error e => .error e
  | .ok cb' => callback_end proc cb'

end Methods

/-- The state `cb'` has the seed, the tetrahedron, the last seed and the options of `cb`:
what the facet methods and the replay leave as it is. -/
structure SameCell {G S : Type} (cb cb' : Callback G S) : Prop where
  seed : cb'.seed_ = cb.seed_
  simplex : cb'.simplex_ = cb.simplex_
  last_seed : cb'.last_seed_ = cb.last_seed_
  internal : cb'.simplify_internal_tet_facets_ = cb.simplify_internal_tet_facets_
  voronoi : cb'.simplify_voronoi_facets_ = cb.simplify_voronoi_facets_
  tessellate : cb'.tessellate_non_convex_facets_ = cb.tessellate_non_convex_facets_
  use_mesh : cb'.use_mesh_ = cb.use_mesh_

/-- The state `cb'` has the last seed and the options of `cb`: what
`end_polyhedron_internal` leaves as it is. -/
structure SameOptions {G S : Type} (cb cb' : Callback G S) : Prop where
  last_seed : cb'.last_seed_ = cb.last_seed_
  internal : cb'.simplify_internal_tet_facets_ = cb.simplify_internal_tet_facets_
  voronoi : cb'.simplify_voronoi_facets_ = cb.simplify_voronoi_facets_
  tessellate : cb'.tessellate_non_convex_facets_ = cb.tessellate_non_convex_facets_
  use_mesh : cb'.use_mesh_ = cb.use_mesh_

/-- The vertex events of a facet loop replayed from the vertex store; `none` when an
index is outside the store. -/
def loop_events {G S : Type} (vertices : List (G × S)) : List Nat → Option (List (Event G S))
  | [] => some []
  | v :: vs =>
    match vertices[v]?, loop_events vertices vs with
    | some p, some es => some (Event.vertex p.1 p.2 :: es)
    | _, _ => none

/-- The facet events of a list of facets replayed from the vertex store. -/
def facets_events {G S : Type} (vertices : List (G × S)) :
    List WorkFacet → Option (List (Event G S))
  | [] => some []
  | f :: fs =>
    match loop_events vertices f.loop, facets_events vertices fs with
    | some a, some b => some (Event.begin_facet f.seed f.tet :: (a ++ Event.end_facet :: b))
    | _, _ => none

/-- The events that the direct-forwarding variant delivers for one dual vertex: none for
an unused dual vertex and for a skipped facet. -/
def facet_events {G S : Type} (internal_tet_facets : Bool) (dv : DualVertex G S) :
    List (Event G S) :=
  if dv.vertex_triangle = -1 then []
  else if (internal_tet_facets && decide ((decode_adjacent dv.vertex_id).2 ≠ NO_INDEX)) = true
  then []
  else
    Event.begin_facet (decode_adjacent dv.vertex_id).1 (decode_adjacent dv.vertex_id).2
      :: ((dv.first :: dv.rest).map (fun p => Event.vertex p.1 p.2) ++ [Event.end_facet])

/-- The events that the direct-forwarding variant delivers for the facets of one cell. -/
def cell_events {G S : Type} (internal_tet_facets : Bool) (c : Cell G S) : List (Event G S) :=
  c.dual_vertices.flatMap (facet_events internal_tet_facets)

/-- The positions and descriptors that `operator()` passes to `vertex_internal` for one
dual vertex. -/
def DualVertex.visited {G S : Type} (dv : DualVertex G S) : List (G × S) :=
  if dv.vertex_triangle = -1 then [] else dv.first :: dv.rest

/-- The positions and descriptors visited by `operator()` in one cell. -/
def cell_vertices {G S : Type} (c : Cell G S) : List (G × S) :=
  c.dual_vertices.flatMap DualVertex.visited

/-- Equal descriptors carry equal positions, between the vertices `V` and the vertices
`W`. -/
def Consistent {G S : Type} (V W : List (G × S)) : Prop :=
  ∀ p ∈ V, ∀ q ∈ W, p.2 = q.2 → p.1 = q.1

/-- The vertex calls that reach the working mesh: the calls of `vertex_internal` made
while `facet_is_skipped_` is false.  `skipped` is the value of the flag before the
calls. -/
def delivered {G S : Type} (internal_tet_facets : Bool) :
    Bool → List (Call G S) → List (G × S)
  | _, [] => []
  | _, .begin_facet_internal _ facet_tet :: cs =>
    delivered internal_tet_facets (internal_tet_facets && decide (facet_tet ≠ NO_INDEX)) cs
  | skipped, .vertex_internal g s :: cs =>
    if skipped = true then delivered internal_tet_facets skipped cs
    else (g, s) :: delivered internal_tet_facets skipped cs
  | skipped, .end_facet_internal :: cs => delivered internal_tet_facets skipped cs

/-- Every facet loop of the working mesh refers to stored vertices. -/
def WorkMesh.valid {G S : Type} (m : WorkMesh G S) : Prop :=
  ∀ f ∈ m.facets, ∀ v ∈ f.loop, v < m.vertices.length

/-- The processing steps that are switched on return a working mesh whose loops refer to
stored vertices, when they are given one. -/
def Processing.valid {G S : Type} (proc : Processing G S) (voronoi_facets tessellate : Bool) :
    Prop :=
  (voronoi_facets = true →
    ∀ m : WorkMesh G S, m.valid → ∃ m', proc.simplify m = .ok m' ∧ m'.valid) ∧
  (tessellate = true →
    ∀ m : WorkMesh G S, m.valid → ∃ m', proc.tessellate m = .ok m' ∧ m'.valid)

/-- The state of the buffering variant between two facets of an open polyhedron: the
vertex map holds one key per stored vertex, no facet is being built, and the replay of
the facets stored so far gives the events `E`. -/
structure Buffering {G S : Type} (b : Callback G S) (E : List (Event G S)) : Prop where
  use_mesh : b.use_mesh_ = true
  map : b.vertex_map_ = some { keys := b.mesh_.vertices.map (fun p => (b.seed_, p.2)) }
  base : b.base_current_facet_ = []
  events : facets_events b.mesh_.vertices b.mesh_.facets = some E

/-- The maximal runs of consecutive cells with equal seed. -/
def runs {G S : Type} : List (Cell G S) → List (List (Cell G S))
  | [] => []
  | c :: cs =>
    match runs cs with
    | [] => [[c]]
    | r :: rs => if (r.head?.map Cell.v) = some c.v then (c :: r) :: rs else [c] :: r :: rs

/-- The cells that share one polyhedron: the maximal runs of equal seed when internal
facets are merged, single cells otherwise. -/
def polyhedron_groups {G S : Type} (internal_tet_facets : Bool) (cells : List (Cell G S)) :
    List (List (Cell G S)) :=
  if internal_tet_facets = true then runs cells else cells.map (fun c => [c])

/-- The events of one polyhedron: `begin_polyhedron` with the seed and the tetrahedron of
the first cell of the group, the facet events `body`, `end_polyhedron`. -/
def polyhedron_block {G S : Type} (group : List (Cell G S)) (body : List (Event G S)) :
    List (Event G S) :=
  Event.begin_polyhedron ((group.head?.map Cell.v).getD NO_INDEX)
      ((group.head?.map Cell.t).getD NO_INDEX) :: (body ++ [Event.end_polyhedron])

/-- The events of a list of polyhedra with the given facet events. -/
def polyhedron_blocks {G S : Type} :
    List (List (Cell G S)) → List (List (Event G S)) → List (Event G S)
  | g :: gs, b :: bs => polyhedron_block g b ++ polyhedron_blocks gs bs
  | _, _ => []

/-- The state of the buffering variant after the vertex calls `D` have reached the
working mesh since `begin_polyhedron_internal`: the vertex map holds one key per stored
vertex, the stored descriptors are distinct and are the descriptors of `D`, every stored
vertex is the first element of `D` with its descriptor, and the entries of the stored
loops and of the loop being built refer, in the order of `D`, to vertices with the
descriptors of `D`. -/
structure Dedup {G S : Type} [DecidableEq S] (b : Callback G S) (D : List (G × S)) :
    Prop where
  use_mesh : b.use_mesh_ = true
  map : b.vertex_map_ = some { keys := b.mesh_.vertices.map (fun p => (b.seed_, p.2)) }
  nodup : (b.mesh_.vertices.map Prod.snd).Nodup
  mem_iff : ∀ s, s ∈ b.mesh_.vertices.map Prod.snd ↔ s ∈ D.map Prod.snd
  first : ∀ p ∈ b.mesh_.vertices, D.find? (fun q => decide (q.2 = p.2)) = some p
  entries : (b.mesh_.facets.flatMap WorkFacet.loop ++ b.base_current_facet_).map
      (fun v => b.mesh_.vertices[v]?.map Prod.snd) = D.map (fun p => some p.2)

/-- The calls of the facet methods for one facet with the attributes `facet_seed` and
`facet_tet` and the vertices `verts`. -/
def method_calls {G S : Type} (facet_seed facet_tet : Nat) (verts : List (G × S)) :
    List (Call G S) :=
  Call.begin_facet_internal facet_seed facet_tet ::
    (verts.map (fun p => Call.vertex_internal p.1 p.2) ++ [Call.end_facet_internal])

section Groups

variable {G S : Type} [DecidableEq S]

/-- The calls of the facet methods made by `operator()` for the cells `r`. -/
def group_calls (r : List (Cell G S)) : List (Call G S) :=
  r.flatMap (fun c => cell_calls c.dual_vertices)

/-- The calls that make one polyhedron of the cells `r`: `begin_polyhedron_internal` with
the seed and the tetrahedron of the first cell, the facet calls of the cells, and
`end_polyhedron_internal`. -/
def run_group (proc : Processing G S) (cb : Callback G S) (r : List (Cell G S)) :
    Except Fault (Callback G S) :=
  match r with
  | [] => .ok cb
  | c :: _ =>
    match run_calls (begin_polyhedron_internal cb c.v c.t) (group_calls r) with
    | .error e => .error e
    | .ok cb' => end_polyhedron_internal proc cb'

/-- The polyhedra of the groups `rs`, one after the other. -/
def run_groups (proc : Processing G S) :
    Callback G S → List (List (Cell G S)) → Except Fault (Callback G S)
  | cb, [] => .ok cb
  | cb, r :: rs =>
    match run_group proc cb r with
    | .error e => .error e
    | .ok cb' => run_groups proc cb' rs

end Groups

/-- The state after the constructor `RPDPolyhedronCGALCallback()` and the setters of the
four options read by the traversal; `seed0` and `simplex0` are the values left in the
members `seed_` and `simplex_` of the base class.  The working mesh is empty. -/
def Callback.init (G S : Type) (seed0 simplex0 : Nat)
    (internal_tet_facets voronoi_facets tessellate use_mesh : Bool) : Callback G S :=
  { seed_ := seed0, simplex_ := simplex0, facet_seed_ := NO_INDEX, facet_tet_ := NO_INDEX,
    last_seed_ := NO_INDEX, simplify_internal_tet_facets_ := internal_tet_facets,
    simplify_voronoi_facets_ := voronoi_facets, tessellate_non_convex_facets_ := tessellate,
    use_mesh_ := use_mesh, facet_is_skipped_ := false, vertex_map_ := none,
    mesh_ := WorkMesh.empty, base_current_facet_ := [], out := [] }

/-- A processing that leaves the working mesh as it is. -/
def Processing.id (G S : Type) : Processing G S :=
  { simplify := fun m => .ok m, tessellate := fun m => .ok m }

/-- A dual vertex with the corners 1, 2, 3 whose facet is on the bisector of the seed 2
(`vertex_id = 3`). -/
def sample_dv1 : DualVertex Int Nat :=
  { vertex_triangle := 0, vertex_id := 3, first := (10, 1), rest := [(20, 2), (30, 3)] }

/-- A dual vertex with the corners 1, 2, 4 whose facet is shared with the tetrahedron 4
(`vertex_id = -5`). -/
def sample_dv2 : DualVertex Int Nat :=
  { vertex_triangle := 1, vertex_id := -5, first := (10, 1), rest := [(20, 2), (40, 4)] }

/-- An unused dual vertex (`vertex_triangle = -1`). -/
def sample_dv3 : DualVertex Int Nat :=
  { vertex_triangle := -1, vertex_id := 0, first := (10, 1), rest := [] }

/-- A dual vertex with the corners 3, 2, 4 whose facet is on the boundary
(`vertex_id = 0`). -/
def sample_dv4 : DualVertex Int Nat :=
  { vertex_triangle := 2, vertex_id := 0, first := (30, 3), rest := [(20, 2), (40, 4)] }

/-- Three cells: two consecutive cells of the seed 7 and one of the seed 8. -/
def sample_cells : List (Cell Int Nat) :=
  [⟨7, 0, [sample_dv1, sample_dv2, sample_dv3]⟩, ⟨7, 1, [sample_dv4]⟩, ⟨8, 2, [sample_dv1]⟩]

end RPD

/-!
Definitions for the adjacency code, the corner flags, the shape of the triangulation
and the border of a region group
-/

namespace RPD

/-- The conversion `signed_index_t(x)`, which is also the result of an operation on
`signed_index_t` values: the representative of `x` modulo `2^32` in `[-2^31, 2^31)`. -/
def to_signed (x : Int) : Int := (x + 2147483648) % 4294967296 - 2147483648

/-- Modelled from the spec: the constant `GEO::NO_CELL` of the mesh library (not part of
the sources), the value `index_t(-1)` returned by `tet_adjacent` for a facet without
neighbour. -/
def NO_CELL : Nat := 4294967295

/-- The argument of `set_vertex_id` in `initialize_from_mesh_tetrahedron` for a facet
whose `mesh->cells.tet_adjacent(t, i)` is `adj`:
`(ti == signed_index_t(GEO::NO_CELL)) ? 0 : -ti - 1` with `ti = signed_index_t(adj)`. -/
def initial_vertex_id (adj : Nat) : Int :=
  if to_signed adj = to_signed NO_CELL then 0
  else to_signed (to_signed (- to_signed adj) - 1)

/-- The sign `cur_s` of `polygon_is_convex` for the index `i`: the orientation of
`P[i]`, `P[j]`, `P[k]` with `j = (i + 1) % P.size()` and `k = (j + 1) % P.size()`. -/
def turn_sign {K : Type} [LinearOrderedCommRing K] (P : List (vec2 K)) (i : Nat) : Int :=
  orient_2d (P.getD i vec2.zero) (P.getD ((i + 1) % P.length) vec2.zero)
    (P.getD (((i + 1) % P.length + 1) % P.length) vec2.zero)

section Replaced

variable {K : Type} [LinearOrderedCommRing K] {A : Type}

/-- The index triples `P_tri` from which `tessellate_non_convex_facets` creates triangles
for the facet `f`: those returned by `triangulate_polygon` when the polygon of `f` is not
convex and the call returns `true`, none otherwise. -/
def replaced_by (compl : K → K → K) (proj : Nat → Nat → vec2 K) (mesh : Mesh) (f : Nat) :
    List (Nat × Nat × Nat) :=
  if polygon_is_convex (get_mesh_polygon2d mesh f proj).1 = true then []
  else
    match triangulate_polygon compl (get_mesh_polygon2d mesh f proj).1 with
    | .ok (true, P_tri) => triples P_tri
    | _ => []

/-- The triangles created by `tessellate_non_convex_facets` for the facets `fs`, in the
order of creation, each with the attributes copied from its facet. -/
def created_triangles (compl : K → K → K) (proj : Nat → Nat → vec2 K) (mesh : Mesh)
    (attrs : List A) (fs : List Nat) : List (List Nat × A) :=
  fs.flatMap (fun f =>
    match attrs[f]? with
    | some x =>
      (triangle_loops (mesh.loop f) (replaced_by compl proj mesh f)).map (fun l => (l, x))
    | none => [])

/-- The facet `f` is replaced by triangles: its polygon is not convex and
`triangulate_polygon` returns `true`. -/
def Replaced (compl : K → K → K) (proj : Nat → Nat → vec2 K) (mesh : Mesh) (f : Nat) : Prop :=
  polygon_is_convex (get_mesh_polygon2d mesh f proj).1 = false ∧
  ∃ tr, triangulate_polygon compl (get_mesh_polygon2d mesh f proj).1 = .ok (true, tr)

/-- Invariant of the facet loop of `tessellate_non_convex_facets` after the facets
`done`: the triangles created so far are appended behind the original facets, no vertex
was created, and exactly the replaced facets among `done` are flagged. -/
structure TessTrace (compl : K → K → K) (proj : Nat → Nat → vec2 K) (mesh : Mesh)
    (attrs : List A) (st : TessState A) (done : List Nat) : Prop where
  facets : st.mesh.facets =
    mesh.facets ++ (created_triangles compl proj mesh attrs done).map Prod.fst
  attrs_eq : st.attrs = attrs ++ (created_triangles compl proj mesh attrs done).map Prod.snd
  vertices : st.mesh.nb_vertices = mesh.nb_vertices
  flags_len : st.to_delete.length ≤ st.mesh.facets.length
  flagged : ∀ g, g ∈ done → Replaced compl proj mesh g → st.to_delete.getD g 0 = 1
  unflagged : ∀ g, ¬ (g ∈ done ∧ Replaced compl proj mesh g) → st.to_delete.getD g 0 = 0

end Replaced

/-- The set of the distinct region labels of those facets among `fs` that are incident
to the vertex `v`. -/
def labels_over (mesh : Mesh) (facet_region : List Nat) (v : Nat) (fs : List Nat) :
    Finset Nat :=
  ((fs.filter (fun f => decide (v ∈ mesh.loop f))).map
    (fun f => facet_region.getD f 0)).toFinset

/-- The set of the distinct region labels of the facets incident to the vertex `v`. -/
def labels_at (mesh : Mesh) (facet_region : List Nat) (v : Nat) : Finset Nat :=
  labels_over mesh facet_region v (List.range mesh.facets.length)

/-- Invariant of the corner detection of `simplify` at one vertex: `S` is the set of the
labels seen so far at the vertex, `a`, `b` and `c` are its entries of `rgn1`, `rgn2` and
`is_corner`. -/
def CornerInv (S : Finset Nat) (a b : Nat) (c : Bool) : Prop :=
  NO_INDEX2 ∉ S ∧
  (a = NO_INDEX2 → S = ∅ ∧ b = NO_INDEX2 ∧ c = false) ∧
  (a ≠ NO_INDEX2 → a ∈ S ∧
    (b = NO_INDEX2 → S = {a} ∧ c = false) ∧
    (b ≠ NO_INDEX2 → a ≠ b ∧ b ∈ S ∧ (c = false → S = {a, b}) ∧ (c = true → 3 ≤ S.card)))

/-- A mesh with the single triangle `0 1 2`. -/
def single_triangle : Mesh :=
  { nb_vertices := 3, facets := [[0, 1, 2]], adjacent := [[NO_INDEX, NO_INDEX, NO_INDEX]] }

/-! ## The border of a region group -/

/-- The test of the group flood fill of `simplify` at the corner `lv` of the facet `g`:
the edge leaving the corner is a border edge of the region `r` when there is no adjacent
facet or the adjacent facet has another label. -/
def BorderCorner (mesh : Mesh) (facet_region : List Nat) (r g lv : Nat) : Prop :=
  mesh.adjacent_facet g lv = NO_INDEX ∨
    facet_region.getD (mesh.adjacent_facet g lv) 0 ≠ r

instance instDecidableBorderCorner (mesh : Mesh) (facet_region : List Nat) (r g lv : Nat) :
    Decidable (BorderCorner mesh facet_region r g lv) := by
  unfold BorderCorner
  infer_instance

/-- The corner `lv` of the facet `g` has been passed by the group flood fill: its border
edge is recorded in `border_next`, or its adjacent facet has been visited. -/
def Handled (mesh : Mesh) (facet_region : List Nat) (r : Nat) (s : FloodState)
    (g lv : Nat) : Prop :=
  (BorderCorner mesh facet_region r g lv →
    BorderMap.find s.border_next (mesh.vertex g lv) =
      some (mesh.vertex g (mesh.next_corner_around_facet g lv))) ∧
  (¬ BorderCorner mesh facet_region r g lv →
    s.facet_status.getD (mesh.adjacent_facet g lv) 0 ≠ NO_INDEX)

/-- Invariant of the group flood fill of `simplify` for the region `r`; `status0` is the
vector `facet_status` before the group is started. -/
structure FloodInv (mesh : Mesh) (facet_region : List Nat) (r : Nat) (status0 : List Nat)
    (s : FloodState) : Prop where
  status : ∀ g, s.facet_status.getD g 0 = status0.getD g 0 ∨
    (status0.getD g 0 = NO_INDEX ∧ s.facet_status.getD g 0 = 1)
  label : ∀ g, status0.getD g 0 = NO_INDEX → s.facet_status.getD g 0 = 1 →
    facet_region.getD g 0 = r
  stack : ∀ g ∈ s.S, status0.getD g 0 = NO_INDEX ∧ s.facet_status.getD g 0 = 1
  passed : ∀ g, status0.getD g 0 = NO_INDEX → s.facet_status.getD g 0 = 1 → g ∉ s.S →
    ∀ lv, lv < mesh.facet_nb_vertices g → Handled mesh facet_region r s g lv
  entries : ∀ k x, BorderMap.find s.border_next k = some x →
    ∃ g lv, status0.getD g 0 = NO_INDEX ∧ s.facet_status.getD g 0 = 1 ∧
      lv < mesh.facet_nb_vertices g ∧ BorderCorner mesh facet_region r g lv ∧
      mesh.vertex g lv = k ∧ mesh.vertex g (mesh.next_corner_around_facet g lv) = x

/-- The facets below `n` of the mesh are well formed: a vertex loop has no repeated
vertex and refers to vertices of the mesh, and the corner adjacency is symmetric: if the
facet `f` has the edge `a -> b` with the adjacent facet `g`, then `g` is a facet below
`n` that has the edge `b -> a` with the adjacent facet `f`. -/
def WellFormedBelow (mesh : Mesh) (n : Nat) : Prop :=
  n ≤ NO_INDEX ∧
  (∀ f, f < n → (mesh.loop f).Nodup) ∧
  (∀ f, f < n → ∀ lv, lv < mesh.facet_nb_vertices f → mesh.vertex f lv < mesh.nb_vertices) ∧
  (∀ f, f < n → ∀ lv, lv < mesh.facet_nb_vertices f → mesh.adjacent_facet f lv ≠ NO_INDEX →
    mesh.adjacent_facet f lv < n ∧
    ∃ lv2, lv2 < mesh.facet_nb_vertices (mesh.adjacent_facet f lv) ∧
      mesh.vertex (mesh.adjacent_facet f lv) lv2 =
        mesh.vertex f (mesh.next_corner_around_facet f lv) ∧
      mesh.vertex (mesh.adjacent_facet f lv)
        (mesh.next_corner_around_facet (mesh.adjacent_facet f lv) lv2) = mesh.vertex f lv ∧
      mesh.adjacent_facet (mesh.adjacent_facet f lv) lv2 = f)

instance instDecidableWellFormedBelow (mesh : Mesh) (n : Nat) :
    Decidable (WellFormedBelow mesh n) := by
  unfold WellFormedBelow
  infer_instance

/-- The mesh is well formed: all its facets are. -/
def WellFormed (mesh : Mesh) : Prop := WellFormedBelow mesh mesh.facets.length

instance instDecidableWellFormed (mesh : Mesh) : Decidable (WellFormed mesh) := by
  unfold WellFormed
  infer_instance

/-- Invariant of the facet loop of `simplify` on a well-formed mesh with `n` facets: the
first `n` facets stay well formed, a status is `index_t(-1)` (not visited), `1` (deleted)
or, for a facet of the outer region in keep-outer-region mode, `0` (kept), and the
deleted facets are closed under adjacency within a label. -/
structure GroupsInv (keep_outer_region : Bool) (n : Nat) (st : SimplifyState) : Prop where
  facets_len : n ≤ st.mesh.facets.length
  region_len : n ≤ st.facet_region.length
  status_len : st.facet_status.length = n
  wf : WellFormedBelow st.mesh n
  values : ∀ h, h < n → st.facet_status.getD h 0 = NO_INDEX ∨ st.facet_status.getD h 0 = 1 ∨
    (st.facet_status.getD h 0 = 0 ∧ keep_outer_region = true ∧
      st.facet_region.getD h 0 = NO_INDEX)
  closed : ∀ h, h < n → st.facet_status.getD h 0 = 1 →
    ∀ lv, lv < st.mesh.facet_nb_vertices h → st.mesh.adjacent_facet h lv ≠ NO_INDEX →
      st.facet_region.getD (st.mesh.adjacent_facet h lv) 0 = st.facet_region.getD h 0 →
      st.facet_status.getD (st.mesh.adjacent_facet h lv) 0 = 1

/-- The corner before the corner `lv` around the facet `f`. -/
def previous_corner (mesh : Mesh) (f lv : Nat) : Nat :=
  if lv = 0 then mesh.facet_nb_vertices f - 1 else lv - 1

/-- The corner of the facet `f` at the vertex `v`. -/
def corner_of (mesh : Mesh) (f v : Nat) : Nat := (mesh.loop f).indexOf v

/-- The effect of the passes of the group flood fill over the corners `lvs` of the facet
`f2`, from the state `s` to the state `s2`: recorded edges and visited facets stay, newly
visited facets carry the label `r` and are on the stack, the corners `lvs` are passed, and
every new border edge leaves one of them. -/
structure FloodGrow (mesh : Mesh) (facet_region : List Nat) (r f2 : Nat) (lvs : List Nat)
    (s s2 : FloodState) : Prop where
  finds : ∀ k x, BorderMap.find s.border_next k = some x →
    BorderMap.find s2.border_next k = some x
  status : ∀ g, s2.facet_status.getD g 0 = s.facet_status.getD g 0 ∨
    (s.facet_status.getD g 0 = NO_INDEX ∧ s2.facet_status.getD g 0 = 1 ∧ g ∈ s2.S ∧
      facet_region.getD g 0 = r)
  stack_old : ∀ g ∈ s.S, g ∈ s2.S
  stack_new : ∀ g ∈ s2.S, g ∈ s.S ∨
    (s.facet_status.getD g 0 = NO_INDEX ∧ s2.facet_status.getD g 0 = 1)
  handled : ∀ lv ∈ lvs, Handled mesh facet_region r s2 f2 lv
  entries : ∀ k x, BorderMap.find s2.border_next k = some x →
    BorderMap.find s.border_next k = some x ∨
    ∃ lv ∈ lvs, BorderCorner mesh facet_region r f2 lv ∧ mesh.vertex f2 lv = k ∧
      mesh.vertex f2 (mesh.next_corner_around_facet f2 lv) = x

/-- The facet `g` belongs to the region group whose flood fill ended in the state `fl`:
it was not visited before the group was started (`status0`) and is marked for deletion
afterwards. -/
def InGroup (status0 : List Nat) (fl : FloodState) (g : Nat) : Prop :=
  status0.getD g 0 = NO_INDEX ∧ fl.facet_status.getD g 0 = 1

instance instDecidableInGroup (status0 : List Nat) (fl : FloodState) (g : Nat) :
    Decidable (InGroup status0 fl g) := by
  unfold InGroup
  infer_instance

/-- What the flood fill of a region group of a well-formed mesh leaves behind: the
facets of the group are facets below `n` with the label `r`, the group is closed under
adjacency across non-border corners, and `border_next` holds exactly the border edges of
the facets of the group. -/
structure GroupFacts (mesh : Mesh) (facet_region : List Nat) (r n : Nat)
    (status0 : List Nat) (fl : FloodState) : Prop where
  wf : WellFormedBelow mesh n
  lt : ∀ g, InGroup status0 fl g → g < n
  label : ∀ g, InGroup status0 fl g → facet_region.getD g 0 = r
  closed : ∀ g lv, InGroup status0 fl g → lv < mesh.facet_nb_vertices g →
    ¬ BorderCorner mesh facet_region r g lv → InGroup status0 fl (mesh.adjacent_facet g lv)
  recorded : ∀ g lv, InGroup status0 fl g → lv < mesh.facet_nb_vertices g →
    BorderCorner mesh facet_region r g lv →
    BorderMap.find fl.border_next (mesh.vertex g lv) =
      some (mesh.vertex g (mesh.next_corner_around_facet g lv))
  entries : ∀ k x, BorderMap.find fl.border_next k = some x →
    ∃ g lv, InGroup status0 fl g ∧ lv < mesh.facet_nb_vertices g ∧
      BorderCorner mesh facet_region r g lv ∧ mesh.vertex g lv = k ∧
      mesh.vertex g (mesh.next_corner_around_facet g lv) = x

/-- The state of the facet loop of `simplify` on `pyramid_and_triangle` with the labels
`10 5 5 6 7 9` and threshold 0 when it reaches the separate triangle (facet 5): the four
groups of the pyramid are merged, their polygons are appended and their facets are
marked for deletion. -/
def pyramid_merged : SimplifyState :=
  { mesh :=
      { nb_vertices := 8,
        facets := [[0, 3, 2, 1], [0, 1, 4], [1, 2, 4], [2, 3, 4], [3, 0, 4], [5, 6, 7],
                   [0, 3, 2], [0, 2, 4], [2, 3, 4], [0, 4, 3]],
        adjacent := [[4, 3, 2, 1], [0, 2, 4], [0, 3, 1], [0, 4, 2], [0, 1, 3],
                     [NO_INDEX, NO_INDEX, NO_INDEX], [NO_INDEX, NO_INDEX, NO_INDEX],
                     [NO_INDEX, NO_INDEX, NO_INDEX], [NO_INDEX, NO_INDEX, NO_INDEX],
                     [NO_INDEX, NO_INDEX, NO_INDEX]] },
    facet_region := [10, 5, 5, 6, 7, 9, 10, 5, 6, 7],
    facet_status := [1, 1, 1, 1, 1, NO_INDEX] }

end RPD

namespace RPD

/-! ## Lists of deletion flags -/

theorem keep_unflagged_nil_flags {α : Type} (xs : List α) : keep_unflagged xs [] = xs := by
  cases xs <;> rfl

theorem keep_unflagged_append {α : Type} (a b : List α) (s t : List Nat)
    (h : a.length = s.length) :
    keep_unflagged (a ++ b) (s ++ t) = keep_unflagged a s ++ keep_unflagged b t := by
  induction a generalizing s with
  | nil =>
    cases s with
    | nil => simp [keep_unflagged]
    | cons d ds => simp at h
  | cons x xs ih =>
    cases s with
    | nil => simp at h
    | cons d ds =>
      simp only [List.length_cons, Nat.add_right_cancel_iff] at h
      simp only [List.cons_append, keep_unflagged]
      split
      · simp [ih ds h]
      · exact ih ds h

theorem keep_unflagged_zeros {α : Type} (xs : List α) (n : Nat) :
    keep_unflagged xs (List.replicate n 0) = xs := by
  induction xs generalizing n with
  | nil => rfl
  | cons x xs ih =>
    cases n with
    | zero => rfl
    | succ n => simp [List.replicate_succ, keep_unflagged, ih]

theorem keep_unflagged_ones {α : Type} (xs : List α) :
    keep_unflagged xs (List.replicate xs.length 1) = [] := by
  induction xs with
  | nil => rfl
  | cons x xs ih => simp [List.replicate_succ, keep_unflagged, ih]

theorem resize_of_le {α : Type} (v : List α) (n : Nat) (x : α) (h : v.length ≤ n) :
    resize v n x = v ++ List.replicate (n - v.length) x := by
  simp [resize, List.take_of_length_le h]

theorem foldl_set_zero (nf : Nat) (s : List Nat) (h : nf ≤ s.length) :
    (List.range nf).foldl (fun s f => s.set f 0) s = List.replicate nf 0 ++ s.drop nf := by
  induction nf with
  | zero => simp
  | succ n ih =>
    rw [List.range_succ, List.foldl_append, ih (by omega)]
    simp only [List.foldl_cons, List.foldl_nil]
    apply List.ext_getElem
    · simp; omega
    · intro i h1 h2
      simp only [List.length_set, List.length_append, List.length_replicate,
        List.length_drop] at h1
      by_cases hi : i = n
      · subst hi
        simp [List.getElem_set, List.getElem_append]
      · rw [List.getElem_set_ne (by omega)]
        simp only [List.getElem_append, List.length_replicate, List.getElem_replicate,
          List.getElem_drop]
        by_cases h3 : i < n
        · simp [h3, show i < n + 1 by omega]
        · simp only [h3, show ¬ i < n + 1 by omega, dite_false]
          congr 1
          omega

/-! ## Invariants of the group flood fill -/

theorem foldl_group_corner_error (mesh : Mesh) (L : List Nat) (r f2 : Nat) (e : Abort)
    (lvs : List Nat) :
    List.foldl (group_corner mesh L r f2) (.error e) lvs = .error e := by
  induction lvs with
  | nil => rfl
  | cons lv lvs ih => simpa [List.foldl_cons, group_corner] using ih

theorem foldl_group_corner_inv (mesh : Mesh) (L : List Nat) (r f2 : Nat)
    (P : FloodState → Prop)
    (hc : ∀ st lv st', P st → group_corner mesh L r f2 (.ok st) lv = .ok st' → P st') :
    ∀ (lvs : List Nat) (st st' : FloodState), P st →
      List.foldl (group_corner mesh L r f2) (.ok st) lvs = .ok st' → P st' := by
  intro lvs
  induction lvs with
  | nil =>
    intro st st' hP h
    simp only [List.foldl_nil, Except.ok.injEq] at h
    exact h ▸ hP
  | cons lv lvs ih =>
    intro st st' hP h
    rw [List.foldl_cons] at h
    cases hstep : group_corner mesh L r f2 (.ok st) lv with
    | error e =>
      rw [hstep, foldl_group_corner_error] at h
      cases h
    | ok st1 =>
      rw [hstep] at h
      exact ih st1 st' (hc st lv st1 hP hstep) h

theorem group_flood_inv (mesh : Mesh) (L : List Nat) (r : Nat) (P : FloodState → Prop)
    (hpop : ∀ st f2 S, P st → st.S = f2 :: S →
      P { facet_status := st.facet_status, S := S, border_next := st.border_next })
    (hc : ∀ f2 st lv st', P st → group_corner mesh L r f2 (.ok st) lv = .ok st' → P st') :
    ∀ (fuel : Nat) (st st' : FloodState), P st →
      group_flood mesh L r fuel st = .ok st' → P st' := by
  intro fuel
  induction fuel with
  | zero =>
    intro st st' hP h
    unfold group_flood at h
    split at h
    · simp only [Except.ok.injEq] at h; exact h ▸ hP
    · cases h
  | succ fuel ih =>
    intro st st' hP h
    unfold group_flood at h
    split at h
    · simp only [Except.ok.injEq] at h; exact h ▸ hP
    · rename_i f2 S hS
      split at h
      · cases h
      · rename_i st1 hst1
        refine ih st1 st' ?_ h
        exact foldl_group_corner_inv mesh L r f2 P (hc f2) _ _ _ (hpop st f2 S hP hS) hst1

/-- What one corner step of the group flood fill can do to the state. -/
theorem group_corner_cases (mesh : Mesh) (L : List Nat) (r f2 lv : Nat)
    (st st' : FloodState) (h : group_corner mesh L r f2 (.ok st) lv = .ok st') :
    (st'.facet_status = st.facet_status ∧ st'.S = st.S) ∨
    (st'.border_next = st.border_next ∧ mesh.adjacent_facet f2 lv ≠ NO_INDEX ∧
      L.getD (mesh.adjacent_facet f2 lv) 0 = r ∧
      st.facet_status.getD (mesh.adjacent_facet f2 lv) 0 = NO_INDEX ∧
      st'.facet_status = st.facet_status.set (mesh.adjacent_facet f2 lv) 1 ∧
      st'.S = mesh.adjacent_facet f2 lv :: st.S) := by
  unfold group_corner at h
  simp only at h
  split at h
  · split at h
    · cases h
    · simp only [Except.ok.injEq] at h
      subst h
      exact Or.inl ⟨rfl, rfl⟩
  · rename_i hcond
    push_neg at hcond
    split at h
    · rename_i hs
      simp only [Except.ok.injEq] at h
      subst h
      exact Or.inr ⟨rfl, hcond.1, hcond.2, hs, rfl, rfl⟩
    · simp only [Except.ok.injEq] at h
      subst h
      exact Or.inl ⟨rfl, rfl⟩

theorem group_flood_status_length (mesh : Mesh) (L : List Nat) (r fuel : Nat)
    (st st' : FloodState) (h : group_flood mesh L r fuel st = .ok st') :
    st'.facet_status.length = st.facet_status.length := by
  refine group_flood_inv mesh L r (fun s => s.facet_status.length = st.facet_status.length)
    ?_ ?_ fuel st st' rfl h
  · intro s f2 S hP _
    exact hP
  · intro f2 s lv s' hP hs
    rcases group_corner_cases mesh L r f2 lv s s' hs with h1 | h1
    · rw [h1.1]; exact hP
    · rw [h1.2.2.2.2.1, List.length_set]; exact hP

/-! ## Invariants of the facet loop of `simplify` -/

theorem merge_group_ok (ic : List Bool) (st st' : SimplifyState) (f : Nat)
    (h : merge_group ic st f = .ok st') :
    ∃ (fl : FloodState) (w : WalkState),
      group_flood st.mesh st.facet_region (st.facet_region.getD f 0)
        (st.mesh.facets.length + 1)
        (flood_start st f) = .ok fl ∧
      3 ≤ w.new_facet.length ∧
      st' = { mesh := st.mesh.create_polygon w.new_facet,
              facet_region := st.facet_region ++ [st.facet_region.getD f 0],
              facet_status := fl.facet_status } := by
  unfold merge_group at h
  cases hfl : group_flood st.mesh st.facet_region (st.facet_region.getD f 0)
      (st.mesh.facets.length + 1) (flood_start st f) with
  | error e => simp only [hfl] at h; cases h
  | ok fl =>
    simp only [hfl] at h
    cases hb : BorderMap.begin_first fl.border_next with
    | error e => simp only [hb] at h; cases h
    | ok first =>
      simp only [hb] at h
      cases hw : border_walk st.mesh.nb_vertices ic (st.mesh.nb_vertices + 1)
          { border_next := fl.border_next, v := first, nb_border_visited := 0,
            new_facet := [] } with
      | error e => simp only [hw] at h; cases h
      | ok w =>
        simp only [hw] at h
        split at h
        · cases h
        · split at h
          · cases h
          · simp only [Except.ok.injEq] at h
            exact ⟨fl, w, rfl, by omega, h.symm⟩

theorem group_step_extends (mesh : Mesh) (L : List Nat) (keep : Bool) (ic : List Bool)
    (st st' : SimplifyState) (f : Nat) (hP : Extends mesh L st)
    (h : group_step keep ic st f = .ok st') : Extends mesh L st' := by
  obtain ⟨news, nl, h1, h2, h3, h4, h5⟩ := hP
  unfold group_step at h
  split at h
  · split at h
    · simp only [Except.ok.injEq] at h
      subst h
      exact ⟨news, nl, h1, h2, h3, h4, by simpa using h5⟩
    · obtain ⟨fl, w, hfl, _, hst⟩ := merge_group_ok ic st st' f h
      subst hst
      refine ⟨news ++ [w.new_facet], nl ++ [st.facet_region.getD f 0], ?_, ?_, ?_, h4, ?_⟩
      · simp [Mesh.create_polygon, h1]
      · simp [h2]
      · simp [h3]
      · have := group_flood_status_length _ _ _ _ _ _ hfl
        simpa [h5, flood_start] using this
  · simp only [Except.ok.injEq] at h
    subst h
    exact ⟨news, nl, h1, h2, h3, h4, h5⟩

theorem group_loop_inv (keep : Bool) (ic : List Bool) (P : SimplifyState → Prop)
    (hstep : ∀ st f st', P st → group_step keep ic st f = .ok st' → P st') :
    ∀ (fs : List Nat) (st : SimplifyState) (b : Bool) (st' : SimplifyState), P st →
      group_loop keep ic fs st = .ok (b, st') → P st' := by
  intro fs
  induction fs with
  | nil =>
    intro st b st' hP h
    simp only [group_loop, Except.ok.injEq, Prod.mk.injEq] at h
    exact h.2 ▸ hP
  | cons f fs ih =>
    intro st b st' hP h
    unfold group_loop at h
    split at h
    · simp only [Except.ok.injEq, Prod.mk.injEq] at h
      exact h.2 ▸ hP
    · cases h
    · rename_i st1 hst1
      exact ih st1 b st' (hstep st f st1 hP hst1) h

theorem extends_init (mesh : Mesh) (L : List Nat) :
    Extends mesh L (loop_init mesh L) :=
  ⟨[], [], by simp [loop_init], by simp [loop_init], rfl, rfl, by simp [loop_init]⟩

theorem group_loop_extends (mesh : Mesh) (L : List Nat) (keep : Bool) (ic : List Bool)
    (fs : List Nat) (st : SimplifyState) (b : Bool) (st' : SimplifyState)
    (hP : Extends mesh L st) (h : group_loop keep ic fs st = .ok (b, st')) :
    Extends mesh L st' :=
  group_loop_inv keep ic (Extends mesh L)
    (fun s f s' hs hstep => group_step_extends mesh L keep ic s s' f hs hstep) fs st b st' hP h

/-- The facets left by the `rollback:` block are the initial ones. -/
theorem simplify_finish_rollback_facets (mesh : Mesh) (L : List Nat) (keep : Bool)
    (max_r : Nat) (st : SimplifyState) (hP : Extends mesh L st) :
    (simplify_finish keep max_r mesh.facets.length false st).2.1.facets = mesh.facets := by
  obtain ⟨news, nl, h1, h2, h3, h4, h5⟩ := hP
  simp only [simplify_finish, delete_elements, Bool.false_eq_true, if_false]
  rw [resize_of_le _ _ _ (by rw [h5, h1]; simp), foldl_set_zero _ _ (by simp [h5])]
  rw [h1, h5]
  simp only [List.length_append, Nat.add_sub_cancel_left]
  rw [List.drop_append_of_le_length (by omega), ← h5, List.drop_length, List.nil_append,
    keep_unflagged_append _ _ _ _ (by simp [h5]), keep_unflagged_zeros, keep_unflagged_ones]
  simp

/-- What `simplify` returns, in terms of the state at the end of the facet loop. -/
theorem simplify_ok_cases (mesh : Mesh) (L : List Nat) (thr : ℚ) (hard : Nat → Nat → Bool)
    (res : Bool × Mesh × List Nat) (h : simplify mesh L thr hard = .ok res) :
    ∃ region1 finished st,
      (if decide (thr = 0) = true then Except.ok L
        else split_regions_along_hard_edges mesh L hard) = .ok region1 ∧
      group_loop (decide (thr = 0)) (compute_is_corner mesh region1 (decide (thr = 0)))
        (List.range mesh.facets.length)
        (loop_init mesh region1) = .ok (finished, st) ∧
      res = simplify_finish (decide (thr = 0))
        (if decide (thr = 0) = true then 0 else max_region mesh L)
        mesh.facets.length finished st := by
  unfold simplify at h
  simp only at h
  split at h
  · cases h
  · rename_i region1 hr
    split at h
    · cases h
    · rename_i finished st hst
      simp only [Except.ok.injEq] at h
      exact ⟨region1, finished, st, hr, hst, h.symm⟩

/-! ## Keep-outer-region mode -/

theorem getD_set_ne (l : List Nat) (i j x d : Nat) (h : i ≠ j) :
    (l.set i x).getD j d = l.getD j d := by
  simp [List.getD_eq_getElem?_getD, List.getElem?_set_ne h]

theorem getD_set_self (l : List Nat) (i x d : Nat) (h : i < l.length) :
    (l.set i x).getD i d = x := by
  simp [List.getD_eq_getElem?_getD, List.getElem?_set_self h]

theorem getD_lt_of_ne_default (l : List Nat) (i d : Nat) (h : l.getD i d ≠ d) :
    i < l.length := by
  by_contra hn
  exact h (by simp [List.getD_eq_getElem?_getD, List.getElem?_eq_none (by omega : l.length ≤ i)])

theorem getD_append_left (l l2 : List Nat) (i d : Nat) (h : i < l.length) :
    (l ++ l2).getD i d = l.getD i d := by
  simp [List.getD_eq_getElem?_getD, List.getElem?_append_left h]

theorem no_index_ne_zero : NO_INDEX ≠ 0 := by decide

/-- The group flood fill for a region `r` other than `-1` leaves the status of every
facet of the outer region as it is. -/
theorem group_flood_outer_status (mesh : Mesh) (L0 L : List Nat) (r fuel : Nat)
    (st st' : FloodState) (hr : r ≠ NO_INDEX)
    (hL : ∀ g, L0.getD g 0 = NO_INDEX → L.getD g 0 = NO_INDEX)
    (h : group_flood mesh L r fuel st = .ok st') :
    ∀ g, L0.getD g 0 = NO_INDEX → st'.facet_status.getD g 0 = st.facet_status.getD g 0 := by
  refine group_flood_inv mesh L r
    (fun s => ∀ g, L0.getD g 0 = NO_INDEX →
      s.facet_status.getD g 0 = st.facet_status.getD g 0) ?_ ?_ fuel st st' (fun _ _ => rfl) h
  · intro s f2 S hP _
    exact hP
  · intro f2 s lv s' hP hs g hg
    rcases group_corner_cases mesh L r f2 lv s s' hs with h1 | h1
    · rw [h1.1]; exact hP g hg
    · rw [h1.2.2.2.2.1, getD_set_ne]
      · exact hP g hg
      · intro heq
        rw [heq] at h1
        exact hr (h1.2.2.1 ▸ hL g hg)

theorem outer_keep_unflagged (F : List (List Nat)) (L status : List Nat)
    (h : ∀ g, g < L.length → L.getD g 0 = NO_INDEX → status.getD g 1 = 0) :
    outer_facets (keep_unflagged F status) (keep_unflagged L status) = outer_facets F L := by
  induction F generalizing L status with
  | nil => cases L <;> simp [keep_unflagged, outer_facets]
  | cons x xs ih =>
    cases L with
    | nil => simp [keep_unflagged, outer_facets]
    | cons l ls =>
      cases status with
      | nil =>
        have := h 0 (by simp)
        simp only [keep_unflagged]
      | cons d ds =>
        have ih' := ih ls ds (fun g hg1 hg => by
          have := h (g + 1) (by simpa using hg1)
          simpa using this hg)
        have h0 := h 0 (by simp)
        simp only [List.getD_cons_zero] at h0
        simp only [keep_unflagged]
        by_cases hd : d = 0
        · simp only [hd, if_true]
          simp only [outer_facets, List.zip_cons_cons, List.filter_cons] at ih' ⊢
          rw [ih']
        · simp only [hd, if_false]
          have hl : l ≠ NO_INDEX := fun hl => hd (h0 hl)
          rw [ih']
          simp [outer_facets, List.filter_cons, hl]

theorem outer_facets_append (A news : List (List Nat)) (B nl : List Nat)
    (hlen : A.length = B.length) (hnl : ∀ x ∈ nl, x ≠ NO_INDEX) :
    outer_facets (A ++ news) (B ++ nl) = outer_facets A B := by
  unfold outer_facets
  rw [List.zip_append hlen, List.filter_append]
  have : List.filter (fun p => decide (p.2 = NO_INDEX)) (news.zip nl) = [] := by
    rw [List.filter_eq_nil_iff]
    intro p hp
    have := hnl p.2 (List.of_mem_zip hp).2
    simpa using this
  rw [this, List.append_nil]

theorem group_step_keep (mesh : Mesh) (L : List Nat) (ic : List Bool)
    (st st' : SimplifyState) (f : Nat) (hP : KeepInv mesh L st)
    (h : group_step true ic st f = .ok st') :
    KeepInv mesh L st' ∧ ∀ g, L.getD g 0 = NO_INDEX →
      st'.facet_status.getD g 0 =
        if g = f ∧ st.facet_status.getD g 0 = NO_INDEX then 0
        else st.facet_status.getD g 0 := by
  obtain ⟨news, nl, h1, h2, h3, h5, h6, h7⟩ := hP
  have hreg : ∀ g, L.getD g 0 = NO_INDEX → st.facet_region.getD g 0 = NO_INDEX := by
    intro g hg
    have hlt : g < L.length :=
      getD_lt_of_ne_default L g 0 (by rw [hg]; exact no_index_ne_zero)
    rw [h2, getD_append_left _ _ _ _ hlt, hg]
  unfold group_step at h
  split at h
  · rename_i hstat
    have hflt : f < st.facet_status.length :=
      getD_lt_of_ne_default _ f 0 (by rw [hstat]; exact no_index_ne_zero)
    split at h
    · simp only [Except.ok.injEq] at h
      subst h
      have key : ∀ g, L.getD g 0 = NO_INDEX →
          (st.facet_status.set f 0).getD g 0 =
            if g = f ∧ st.facet_status.getD g 0 = NO_INDEX then 0
            else st.facet_status.getD g 0 := by
        intro g _
        by_cases hgf : g = f
        · subst hgf
          rw [getD_set_self _ _ _ _ hflt, if_pos ⟨rfl, hstat⟩]
        · rw [getD_set_ne _ _ _ _ _ (Ne.symm hgf), if_neg (fun hc => hgf hc.1)]
      refine ⟨⟨news, nl, h1, h2, h3, by simpa using h5, h6, ?_⟩, key⟩
      intro g hg
      simp only [key g hg]
      split
      · exact Or.inr rfl
      · exact h7 g hg
    · rename_i hnot
      have hr : st.facet_region.getD f 0 ≠ NO_INDEX := fun hr => hnot ⟨rfl, hr⟩
      obtain ⟨fl, w, hfl, _, hst⟩ := merge_group_ok ic st st' f h
      subst hst
      have hfl2 := group_flood_outer_status st.mesh L st.facet_region _ _ _ _ hr hreg hfl
      have key : ∀ g, L.getD g 0 = NO_INDEX →
          fl.facet_status.getD g 0 =
            if g = f ∧ st.facet_status.getD g 0 = NO_INDEX then 0
            else st.facet_status.getD g 0 := by
        intro g hg
        have hgf : g ≠ f := by
          intro hgf
          subst hgf
          exact hr (hreg g hg)
        rw [hfl2 g hg]
        simp only [hgf, false_and, if_false]
        exact getD_set_ne _ _ _ _ _ (Ne.symm hgf)
      refine ⟨⟨news ++ [w.new_facet], nl ++ [st.facet_region.getD f 0], ?_, ?_, ?_, ?_, ?_, ?_⟩,
        key⟩
      · simp [Mesh.create_polygon, h1]
      · simp [h2]
      · simp [h3]
      · have := group_flood_status_length _ _ _ _ _ _ hfl
        simpa [h5, flood_start] using this
      · intro x hx
        rcases List.mem_append.1 hx with hx | hx
        · exact h6 x hx
        · simp only [List.mem_singleton] at hx
          rw [hx]
          exact hr
      · intro g hg
        simp only [key g hg]
        split
        · exact Or.inr rfl
        · exact h7 g hg
  · rename_i hstat
    simp only [Except.ok.injEq] at h
    subst h
    refine ⟨⟨news, nl, h1, h2, h3, h5, h6, h7⟩, ?_⟩
    intro g _
    split
    · rename_i hc
      rw [hc.1] at hc
      exact absurd hc.2 hstat
    · rfl

theorem group_loop_keep (mesh : Mesh) (L : List Nat) (ic : List Bool) :
    ∀ (fs : List Nat) (st : SimplifyState) (b : Bool) (st' : SimplifyState),
      KeepInv mesh L st → group_loop true ic fs st = .ok (b, st') →
      KeepInv mesh L st' ∧ (b = true → ∀ g, L.getD g 0 = NO_INDEX →
        (g ∈ fs ∨ st.facet_status.getD g 0 = 0) → st'.facet_status.getD g 0 = 0) := by
  intro fs
  induction fs with
  | nil =>
    intro st b st' hP h
    simp only [group_loop, Except.ok.injEq, Prod.mk.injEq] at h
    obtain ⟨_, h2⟩ := h
    subst h2
    refine ⟨hP, fun _ g _ hg1 => ?_⟩
    rcases hg1 with hg1 | hg1
    · simp at hg1
    · exact hg1
  | cons f fs ih =>
    intro st b st' hP h
    unfold group_loop at h
    split at h
    · simp only [Except.ok.injEq, Prod.mk.injEq] at h
      obtain ⟨h1, h2⟩ := h
      subst h2
      exact ⟨hP, fun hb => by rw [← h1] at hb; cases hb⟩
    · cases h
    · rename_i st1 hst1
      obtain ⟨hP1, hkey⟩ := group_step_keep mesh L ic st st1 f hP hst1
      obtain ⟨hP', hfin⟩ := ih st1 b st' hP1 h
      refine ⟨hP', fun hb g hg hg1 => hfin hb g hg ?_⟩
      obtain ⟨_, _, _, _, _, _, _, h7⟩ := hP
      by_cases hmem : g ∈ fs
      · exact Or.inl hmem
      · right
        rw [hkey g hg]
        split
        · rfl
        · rename_i hc
          rcases hg1 with hg1 | hg1
          · have hgf : g = f := by
              rcases List.mem_cons.1 hg1 with h | h
              · exact h
              · exact absurd h hmem
            rcases h7 g hg with h8 | h8
            · exact absurd ⟨hgf, h8⟩ hc
            · exact h8
          · exact hg1

theorem keepInv_init (mesh : Mesh) (L : List Nat) :
    KeepInv mesh L (loop_init mesh L) := by
  refine ⟨[], [], by simp [loop_init], by simp [loop_init], rfl, by simp [loop_init],
    by simp, ?_⟩
  intro g hg
  by_cases h : g < mesh.facets.length
  · left
    simp [loop_init, List.getD_eq_getElem?_getD, List.getElem?_replicate, h]
  · right
    simp [loop_init, List.getD_eq_getElem?_getD, List.getElem?_replicate, h]

/-! ## The two exits of `simplify` -/

theorem keep_unflagged_length_eq {α β : Type} (a : List α) (b : List β) (s : List Nat)
    (h : a.length = b.length) :
    (keep_unflagged a s).length = (keep_unflagged b s).length := by
  induction a generalizing b s with
  | nil =>
    cases b with
    | nil => cases s <;> rfl
    | cons y ys => simp at h
  | cons x xs ih =>
    cases b with
    | nil => simp at h
    | cons y ys =>
      simp only [List.length_cons, Nat.add_right_cancel_iff] at h
      cases s with
      | nil => simp [keep_unflagged, h]
      | cons d ds =>
        simp only [keep_unflagged]
        split
        · simp [ih ys ds h]
        · exact ih ys ds h

/-- The labels left by the `rollback:` block are those of the initial facets at the time
of the jump, relabelled by the last loop. -/
theorem simplify_finish_rollback_labels (mesh : Mesh) (L : List Nat) (keep : Bool)
    (max_r : Nat) (st : SimplifyState) (hlen : L.length = mesh.facets.length)
    (hP : Extends mesh L st) :
    (simplify_finish keep max_r mesh.facets.length false st).2.2 =
      if keep then L else restore_outer max_r L := by
  obtain ⟨news, nl, h1, h2, h3, h4, h5⟩ := hP
  simp only [simplify_finish, delete_elements, Bool.false_eq_true, if_false]
  rw [resize_of_le _ _ _ (by rw [h5, h1]; simp), foldl_set_zero _ _ (by simp [h5])]
  rw [h1, h5, h2]
  simp only [List.length_append, Nat.add_sub_cancel_left]
  rw [List.drop_append_of_le_length (by omega), ← h5, List.drop_length, List.nil_append,
    keep_unflagged_append _ _ _ _ (by simp [h5, hlen]), keep_unflagged_zeros, h3,
    keep_unflagged_ones]
  simp

/-- The facets and labels left by the normal exit of `simplify`. -/
theorem simplify_finish_true (mesh : Mesh) (L : List Nat) (keep : Bool)
    (max_r : Nat) (st : SimplifyState) (news : List (List Nat)) (nl : List Nat)
    (hlen : L.length = mesh.facets.length)
    (h1 : st.mesh.facets = mesh.facets ++ news) (h2 : st.facet_region = L ++ nl)
    (h5 : st.facet_status.length = mesh.facets.length) :
    (simplify_finish keep max_r mesh.facets.length true st).1 = true ∧
    (simplify_finish keep max_r mesh.facets.length true st).2.1.facets =
      keep_unflagged mesh.facets st.facet_status ++ news ∧
    (simplify_finish keep max_r mesh.facets.length true st).2.2 =
      if keep then keep_unflagged L st.facet_status ++ nl
      else restore_outer max_r (keep_unflagged L st.facet_status ++ nl) := by
  simp only [simplify_finish, delete_elements, if_true]
  rw [resize_of_le _ _ _ (by rw [h5, h1]; simp)]
  rw [h1, h2, keep_unflagged_append _ _ _ _ h5.symm, keep_unflagged_zeros,
    keep_unflagged_append _ _ _ _ (by rw [hlen, h5]), keep_unflagged_zeros]
  simp

end RPD

namespace RPD

/-! ## The border map -/

theorem find_isSome_iff (m : BorderMap) (v : Nat) :
    (BorderMap.find m v).isSome = true ↔ v ∈ m.map Prod.fst := by
  induction m with
  | nil => simp [BorderMap.find]
  | cons p rest ih =>
    obtain ⟨k, x⟩ := p
    simp only [BorderMap.find, List.map_cons, List.mem_cons]
    split
    · rename_i h
      simp [h]
    · rename_i h
      rw [ih]
      constructor
      · exact Or.inr
      · rintro (h2 | h2)
        · exact absurd h2.symm h
        · exact h2

theorem assign_keys_mem (m : BorderMap) (v1 v2 k : Nat) :
    k ∈ (BorderMap.assign m v1 v2).map Prod.fst ↔ k = v1 ∨ k ∈ m.map Prod.fst := by
  induction m with
  | nil => simp [BorderMap.assign]
  | cons p rest ih =>
    obtain ⟨k0, x⟩ := p
    simp only [BorderMap.assign]
    split
    · simp
    · split
      · rename_i h
        simp only [List.map_cons, List.mem_cons]
        constructor
        · exact Or.inr
        · rintro (h2 | h2)
          · exact Or.inl (h2.trans h.symm)
          · exact h2
      · simp only [List.map_cons, List.mem_cons, ih]
        tauto

theorem assign_sorted (m : BorderMap) (v1 v2 : Nat)
    (h : (m.map Prod.fst).Pairwise (· < ·)) :
    ((BorderMap.assign m v1 v2).map Prod.fst).Pairwise (· < ·) := by
  induction m with
  | nil => simp [BorderMap.assign]
  | cons p rest ih =>
    obtain ⟨k0, x⟩ := p
    simp only [List.map_cons, List.pairwise_cons] at h
    simp only [BorderMap.assign]
    split
    · rename_i hlt
      simp only [List.map_cons, List.pairwise_cons, List.mem_cons]
      refine ⟨?_, h.1, h.2⟩
      rintro a (ha | ha)
      · rw [ha]; exact hlt
      · exact lt_trans hlt (h.1 a ha)
    · split
      · simp only [List.map_cons, List.pairwise_cons]
        exact h
      · rename_i h1 h2
        simp only [List.map_cons, List.pairwise_cons]
        refine ⟨?_, ih h.2⟩
        intro a ha
        rcases (assign_keys_mem rest v1 v2 a).1 ha with ha | ha
        · rw [ha]; omega
        · exact h.1 a ha

theorem begin_first_sorted (m : BorderMap) (k : Nat)
    (h : (m.map Prod.fst).Pairwise (· < ·)) (hk : BorderMap.begin_first m = .ok k) :
    k ∈ m.map Prod.fst ∧ ∀ v ∈ m.map Prod.fst, k ≤ v := by
  cases m with
  | nil => simp [BorderMap.begin_first] at hk
  | cons p rest =>
    obtain ⟨k0, x⟩ := p
    simp only [BorderMap.begin_first, Except.ok.injEq] at hk
    subst hk
    simp only [List.map_cons, List.pairwise_cons] at h
    refine ⟨by simp, ?_⟩
    intro v hv
    simp only [List.map_cons, List.mem_cons] at hv
    rcases hv with hv | hv
    · omega
    · exact le_of_lt (h.1 v hv)

theorem group_flood_sorted (mesh : Mesh) (L : List Nat) (r fuel : Nat)
    (st st' : FloodState) (hs : (st.border_next.map Prod.fst).Pairwise (· < ·))
    (h : group_flood mesh L r fuel st = .ok st') :
    (st'.border_next.map Prod.fst).Pairwise (· < ·) := by
  refine group_flood_inv mesh L r
    (fun s => (s.border_next.map Prod.fst).Pairwise (· < ·)) ?_ ?_ fuel st st' hs h
  · intro s f2 S hP _
    exact hP
  · intro f2 s lv s' hP hstep
    unfold group_corner at hstep
    simp only at hstep
    split at hstep
    · split at hstep
      · cases hstep
      · simp only [Except.ok.injEq] at hstep
        subst hstep
        exact assign_sorted _ _ _ hP
    · split at hstep
      · simp only [Except.ok.injEq] at hstep
        subst hstep
        exact hP
      · simp only [Except.ok.injEq] at hstep
        subst hstep
        exact hP

/-- For a sorted border map forming one simple cycle, `begin()` is the first vertex of
the cycle and the map has as many entries as the cycle has vertices. -/
theorem border_cycle_begin_length (bn : BorderMap) (cycle : List Nat)
    (hs : (bn.map Prod.fst).Pairwise (· < ·)) (hc : IsBorderCycle bn cycle) :
    BorderMap.begin_first bn = .ok (cycle.getD 0 0) ∧ bn.length = cycle.length := by
  obtain ⟨hne, hnd, hmin, hkeys, hfind⟩ := hc
  have hkeys' : ∀ v, v ∈ bn.map Prod.fst ↔ v ∈ cycle := fun v => by
    constructor
    · intro hv
      obtain ⟨p, hp, hpv⟩ := List.mem_map.1 hv
      exact hpv ▸ hkeys p hp
    · intro hv
      obtain ⟨i, hi, hiv⟩ := List.getElem_of_mem hv
      rw [← find_isSome_iff, ← hiv, ← List.getD_eq_getElem cycle 0 hi, hfind i hi]
      rfl
  have h0 : cycle.getD 0 0 ∈ cycle := by
    cases cycle with
    | nil => exact absurd rfl hne
    | cons c cs => simp
  constructor
  · cases hb : BorderMap.begin_first bn with
    | error e =>
      cases bn with
      | nil =>
        have := (hkeys' _).2 h0
        simp at this
      | cons p rest => simp [BorderMap.begin_first] at hb
    | ok k =>
      obtain ⟨hk1, hk2⟩ := begin_first_sorted bn k hs hb
      have h1 := hmin k ((hkeys' k).1 hk1)
      have h2 := hk2 _ ((hkeys' _).2 h0)
      rw [le_antisymm h2 h1]
  · have hnd2 : (bn.map Prod.fst).Nodup := hs.imp (fun h => Nat.ne_of_lt h)
    have hperm : (bn.map Prod.fst).Perm cycle :=
      (List.perm_ext_iff_of_nodup hnd2 hnd).2 hkeys'
    simpa using hperm.length_eq

/-! ## The border walk along one simple cycle -/

theorem nodup_getD_inj (l : List Nat) (hnd : l.Nodup) (a b : Nat) (ha : a < l.length)
    (hb : b < l.length) (h : l.getD a 0 = l.getD b 0) : a = b := by
  rw [List.getD_eq_getElem l 0 ha, List.getD_eq_getElem l 0 hb] at h
  exact (List.Nodup.getElem_inj_iff hnd).1 h

theorem border_walk_cycle (nv : Nat) (ic : List Bool) (bn : BorderMap) (cycle : List Nat)
    (hnd : cycle.Nodup)
    (hfind : ∀ i, i < cycle.length →
      BorderMap.find bn (cycle.getD i 0) = some (cycle.getD ((i + 1) % cycle.length) 0))
    (hbegin : BorderMap.begin_first bn = .ok (cycle.getD 0 0)) (hk : cycle.length ≤ nv) :
    ∀ (j i : Nat) (acc : List Nat) (fuel : Nat), i + j = cycle.length → 0 < j → j ≤ fuel →
      border_walk nv ic fuel
        { border_next := bn, v := cycle.getD i 0, nb_border_visited := i, new_facet := acc } =
      .ok { border_next := bn, v := cycle.getD 0 0, nb_border_visited := cycle.length,
            new_facet := acc ++ (cycle.drop i).filter (fun v => ic.getD v false) } := by
  intro j
  induction j with
  | zero => intro i acc fuel _ h; omega
  | succ j ih =>
    intro i acc fuel hij _ hfuel
    obtain ⟨fuel, rfl⟩ : ∃ n, fuel = n + 1 := ⟨fuel - 1, by omega⟩
    have hi : i < cycle.length := by omega
    have hdrop : cycle.drop i = cycle.getD i 0 :: cycle.drop (i + 1) := by
      rw [List.getD_eq_getElem cycle 0 hi]
      exact List.drop_eq_getElem_cons hi
    rw [border_walk]
    simp only [BorderMap.index, hfind i hi, hbegin]
    rw [if_neg (by omega)]
    by_cases hlast : i + 1 = cycle.length
    · have hmod : (i + 1) % cycle.length = 0 := by rw [hlast]; exact Nat.mod_self _
      rw [hmod]
      simp only [ne_eq, not_true_eq_false, if_false, hlast]
      rw [hdrop, List.drop_of_length_le (by omega)]
      by_cases hcor : ic.getD (cycle.getD i 0) false = true
      · rw [if_pos hcor, List.filter_cons, if_pos hcor]
        simp
      · rw [if_neg hcor, List.filter_cons, if_neg hcor]
        simp
    · have hmod : (i + 1) % cycle.length = i + 1 := Nat.mod_eq_of_lt (by omega)
      rw [hmod]
      have hne : cycle.getD (i + 1) 0 ≠ cycle.getD 0 0 := by
        intro heq
        have := nodup_getD_inj cycle hnd (i + 1) 0 (by omega) (by omega) heq
        omega
      rw [if_pos hne, ih (i + 1) _ fuel (by omega) (by omega) (by omega), hdrop]
      by_cases hcor : ic.getD (cycle.getD i 0) false = true
      · rw [if_pos hcor, List.filter_cons, if_pos hcor]
        simp
      · rw [if_neg hcor, List.filter_cons, if_neg hcor]

theorem nodup_length_le (l : List Nat) (n : Nat) (hnd : l.Nodup) (h : ∀ v ∈ l, v < n) :
    l.length ≤ n := by
  have hsub : l ⊆ List.range n := fun v hv => List.mem_range.2 (h v hv)
  have := (List.subperm_of_subset hnd hsub).length_le
  simpa using this

/-- A group whose border is one simple cycle with at least three corners is merged: the
polygon of the corner vertices of the cycle, in walk order, is appended. -/
theorem merge_group_cycle (ic : List Bool) (st : SimplifyState) (f : Nat) (fl : FloodState)
    (cycle : List Nat)
    (hfl : group_flood st.mesh st.facet_region (st.facet_region.getD f 0)
      (st.mesh.facets.length + 1) (flood_start st f) = .ok fl)
    (hc : IsBorderCycle fl.border_next cycle) (hv : ∀ v ∈ cycle, v < st.mesh.nb_vertices)
    (h3 : 3 ≤ (cycle.filter (fun v => ic.getD v false)).length) :
    merge_group ic st f =
      .ok { mesh := st.mesh.create_polygon (cycle.filter (fun v => ic.getD v false)),
            facet_region := st.facet_region ++ [st.facet_region.getD f 0],
            facet_status := fl.facet_status } := by
  have hs := group_flood_sorted _ _ _ _ _ _ (by simp [flood_start]) hfl
  obtain ⟨hb, hlen⟩ := border_cycle_begin_length fl.border_next cycle hs hc
  obtain ⟨hne, hnd, _, _, hfind⟩ := hc
  have hk := nodup_length_le cycle _ hnd hv
  have hpos : 0 < cycle.length := List.length_pos.2 hne
  have hw := border_walk_cycle st.mesh.nb_vertices ic fl.border_next cycle hnd hfind hb hk
    cycle.length 0 [] (st.mesh.nb_vertices + 1) (by omega) hpos (by omega)
  unfold merge_group
  simp only [hfl, hb, hw, List.drop_zero, List.nil_append]
  rw [if_neg (by simp [hlen]), if_neg (by omega)]

/-! ## The facet loop, prefix by prefix -/

theorem group_loop_cons_ok (keep : Bool) (ic : List Bool) (f : Nat) (fs : List Nat)
    (s st1 : SimplifyState) (h : group_step keep ic s f = .ok st1) :
    group_loop keep ic (f :: fs) s = group_loop keep ic fs st1 := by
  rw [group_loop]
  simp only [h]

theorem group_loop_cons_inv (keep : Bool) (ic : List Bool) (f : Nat) (fs : List Nat)
    (s s' : SimplifyState) (h : group_loop keep ic (f :: fs) s = .ok (true, s')) :
    ∃ st1, group_step keep ic s f = .ok st1 ∧ group_loop keep ic fs st1 = .ok (true, s') := by
  rw [group_loop] at h
  cases hstep : group_step keep ic s f with
  | error e =>
    rw [hstep] at h
    cases e <;> simp at h
  | ok st1 =>
    rw [hstep] at h
    exact ⟨st1, rfl, h⟩

theorem group_loop_append (keep : Bool) (ic : List Bool) (l1 l2 : List Nat) :
    ∀ (s s1 : SimplifyState), group_loop keep ic l1 s = .ok (true, s1) →
      group_loop keep ic (l1 ++ l2) s = group_loop keep ic l2 s1 := by
  induction l1 with
  | nil =>
    intro s s1 h
    simp only [group_loop, Except.ok.injEq, Prod.mk.injEq, true_and] at h
    subst h
    rfl
  | cons f fs ih =>
    intro s s1 h
    obtain ⟨st1, hst1, h2⟩ := group_loop_cons_inv keep ic f fs s s1 h
    rw [List.cons_append, group_loop_cons_ok keep ic f _ s st1 hst1]
    exact ih st1 s1 h2

theorem group_loop_append_inv (keep : Bool) (ic : List Bool) (l1 l2 : List Nat) :
    ∀ (s s' : SimplifyState), group_loop keep ic (l1 ++ l2) s = .ok (true, s') →
      ∃ s1, group_loop keep ic l1 s = .ok (true, s1) ∧
        group_loop keep ic l2 s1 = .ok (true, s') := by
  induction l1 with
  | nil =>
    intro s s' h
    exact ⟨s, rfl, h⟩
  | cons f fs ih =>
    intro s s' h
    rw [List.cons_append] at h
    obtain ⟨st1, hst1, h2⟩ := group_loop_cons_inv keep ic f _ s s' h
    obtain ⟨s1, h1, h3⟩ := ih st1 s' h2
    exact ⟨s1, by rw [group_loop_cons_ok keep ic f _ s st1 hst1]; exact h1, h3⟩

theorem group_loop_single (keep : Bool) (ic : List Bool) (f : Nat) (s s' : SimplifyState) :
    group_loop keep ic [f] s = .ok (true, s') ↔ group_step keep ic s f = .ok s' := by
  constructor
  · intro h
    obtain ⟨st1, hst1, h2⟩ := group_loop_cons_inv keep ic f [] s s' h
    simp only [group_loop, Except.ok.injEq, Prod.mk.injEq, true_and] at h2
    rw [hst1, h2]
  · intro h
    rw [group_loop_cons_ok keep ic f [] s s' h]
    rfl

theorem group_step_facets_grow (keep : Bool) (ic : List Bool) (st st' : SimplifyState) (f : Nat)
    (h : group_step keep ic st f = .ok st') : st.mesh.facets <+: st'.mesh.facets := by
  unfold group_step at h
  split at h
  · split at h
    · simp only [Except.ok.injEq] at h
      subst h
      exact List.prefix_refl _
    · obtain ⟨fl, w, _, _, hst⟩ := merge_group_ok ic st st' f h
      subst hst
      exact List.prefix_append _ _
  · simp only [Except.ok.injEq] at h
    subst h
    exact List.prefix_refl _

theorem group_loop_range_mono (keep : Bool) (ic : List Bool) (init : SimplifyState)
    (a : Nat) (sa : SimplifyState)
    (ha : group_loop keep ic (List.range a) init = .ok (true, sa)) :
    ∀ (b : Nat), a ≤ b → ∀ (sb : SimplifyState),
      group_loop keep ic (List.range b) init = .ok (true, sb) →
      sa.mesh.facets <+: sb.mesh.facets := by
  intro b hab
  induction b, hab using Nat.le_induction with
  | base =>
    intro sb hb
    rw [ha] at hb
    simp only [Except.ok.injEq, Prod.mk.injEq, true_and] at hb
    subst hb
    exact List.prefix_refl _
  | succ b _ ih =>
    intro sb hb
    rw [List.range_succ] at hb
    obtain ⟨s1, h1, h2⟩ := group_loop_append_inv keep ic _ _ _ _ hb
    exact (ih s1 h1).trans
      (group_step_facets_grow keep ic s1 sb b ((group_loop_single keep ic b s1 sb).1 h2))

theorem keep_unflagged_sublist {α : Type} (xs : List α) (s : List Nat) :
    (keep_unflagged xs s).Sublist xs := by
  induction xs generalizing s with
  | nil => simp [keep_unflagged]
  | cons x xs ih =>
    cases s with
    | nil => simp [keep_unflagged]
    | cons d ds =>
      simp only [keep_unflagged]
      split
      · exact (ih ds).cons₂ x
      · exact (ih ds).cons x

/-! ## Step 1 keeps one label per facet -/

theorem split_corner_length (mesh : Mesh) (hard : Nat → Nat → Bool) (R f2 : Nat)
    (st : List Nat × List Nat) (lv : Nat) :
    (split_corner mesh hard R f2 st lv).1.length = st.1.length := by
  unfold split_corner
  split
  · rfl
  · split
    · simp
    · rfl

theorem foldl_split_corner_length (mesh : Mesh) (hard : Nat → Nat → Bool) (R f2 : Nat)
    (lvs : List Nat) (st : List Nat × List Nat) :
    (lvs.foldl (split_corner mesh hard R f2) st).1.length = st.1.length := by
  induction lvs generalizing st with
  | nil => rfl
  | cons lv lvs ih => rw [List.foldl_cons, ih, split_corner_length]

theorem split_flood_length (mesh : Mesh) (hard : Nat → Nat → Bool) (R : Nat) :
    ∀ (fuel : Nat) (st : List Nat × List Nat) (L' : List Nat),
      split_flood mesh hard R fuel st = .ok L' → L'.length = st.1.length := by
  intro fuel
  induction fuel with
  | zero =>
    intro st L' h
    obtain ⟨region, S⟩ := st
    cases S with
    | nil => simp only [split_flood, Except.ok.injEq] at h; rw [← h]
    | cons f2 S => simp [split_flood] at h
  | succ fuel ih =>
    intro st L' h
    obtain ⟨region, S⟩ := st
    cases S with
    | nil => simp only [split_flood, Except.ok.injEq] at h; rw [← h]
    | cons f2 S =>
      simp only [split_flood] at h
      rw [ih _ L' h, foldl_split_corner_length]

theorem split_loop_length (mesh : Mesh) (hard : Nat → Nat → Bool) :
    ∀ (fs : List Nat) (region : List Nat) (R : Nat) (L' : List Nat),
      split_loop mesh hard fs region R = .ok L' → L'.length = region.length := by
  intro fs
  induction fs with
  | nil =>
    intro region R L' h
    simp only [split_loop, Except.ok.injEq] at h
    rw [← h]
  | cons f fs ih =>
    intro region R L' h
    rw [split_loop] at h
    split at h
    · cases hfl : split_flood mesh hard R (mesh.facets.length + 1) (region.set f R, [f]) with
      | error e => rw [hfl] at h; cases h
      | ok region' =>
        rw [hfl] at h
        simp only at h
        rw [ih _ _ _ h, split_flood_length _ _ _ _ _ _ hfl]
        simp
    · exact ih _ _ _ h

theorem split_regions_length (mesh : Mesh) (L : List Nat) (hard : Nat → Nat → Bool)
    (L' : List Nat) (h : split_regions_along_hard_edges mesh L hard = .ok L') :
    L'.length = L.length :=
  split_loop_length mesh hard _ _ _ _ h

theorem starts_group_state (keep : Bool) (ic : List Bool) (init : SimplifyState) (f : Nat)
    (st : SimplifyState) (h : StartsGroup keep ic init f st) :
    st = loop_state_at keep ic init f := by
  unfold loop_state_at
  rw [h.1]

end RPD

namespace RPD

/-! ## The flood fill of `split_regions_along_hard_edges` -/

theorem split_corner_inv (mesh : Mesh) (hard : Nat → Nat → Bool) (L region0 : List Nat)
    (f R f2 lv : Nat) (st : List Nat × List Nat) (hR : R ≠ NO_INDEX)
    (hlv : lv < mesh.facet_nb_vertices f2)
    (hP : SplitInv mesh hard L region0 f R st)
    (hf2 : L.getD f2 0 = NO_INDEX ∧ st.1.getD f2 0 = R) :
    SplitInv mesh hard L region0 f R (split_corner mesh hard R f2 st lv) ∧
    (split_corner mesh hard R f2 st lv).1.getD f2 0 = R := by
  unfold split_corner
  split
  · exact ⟨hP, hf2.2⟩
  · rename_i hcr
    split
    · rename_i hcond
      obtain ⟨_, hno⟩ := hcond
      have hlt : mesh.adjacent_facet f2 lv < st.1.length :=
        getD_lt_of_ne_default _ _ 0 (by rw [hno]; exact no_index_ne_zero)
      have hL3 : L.getD (mesh.adjacent_facet f2 lv) 0 = NO_INDEX := by
        by_contra hne
        exact hne ((hP.pre _ hne).symm.trans hno)
      have hne2 : mesh.adjacent_facet f2 lv ≠ f2 := by
        intro heq
        rw [heq] at hno
        exact hR (hf2.2.symm.trans hno)
      have hset : ∀ g, g ≠ mesh.adjacent_facet f2 lv →
          (st.1.set (mesh.adjacent_facet f2 lv) R).getD g 0 = st.1.getD g 0 :=
        fun g hg => getD_set_ne _ _ _ _ _ (Ne.symm hg)
      have hself : (st.1.set (mesh.adjacent_facet f2 lv) R).getD
          (mesh.adjacent_facet f2 lv) 0 = R := getD_set_self _ _ _ _ hlt
      refine ⟨⟨?_, ?_, ?_, ?_, ?_, ?_⟩, ?_⟩
      · intro g hg
        have : g ≠ mesh.adjacent_facet f2 lv := fun h => hg (h ▸ hL3)
        simp only [hset g this]
        exact hP.pre g hg
      · intro g hg
        by_cases h : g = mesh.adjacent_facet f2 lv
        · right
          rw [h]
          simp only [hself]
          exact le_refl _
        · simp only [hset g h]
          exact hP.bound g hg
      · intro g1 g2 h1 h2 heq hlt1
        simp only at heq hlt1
        have hg1 : g1 ≠ mesh.adjacent_facet f2 lv := by
          intro h
          rw [h, hself] at hlt1
          exact lt_irrefl _ hlt1
        rw [hset g1 hg1] at heq hlt1
        have hg2 : g2 ≠ mesh.adjacent_facet f2 lv := by
          intro h
          rw [h, hself] at heq
          rw [heq] at hlt1
          exact lt_irrefl _ hlt1
        rw [hset g2 hg2] at heq
        exact hP.old g1 g2 h1 h2 heq hlt1
      · intro g hg hgR
        simp only at hgR
        by_cases h : g = mesh.adjacent_facet f2 lv
        · rw [h]
          refine Relation.EqvGen.trans _ f2 _ (hP.cur f2 hf2.1 hf2.2) ?_
          exact Relation.EqvGen.rel _ _ ⟨hf2.1, hL3, lv, hlv, rfl, by simpa using hcr⟩
        · rw [hset g h] at hgR
          exact hP.cur g hg hgR
      · intro s hs
        simp only [List.mem_cons] at hs
        rcases hs with hs | hs
        · rw [hs]
          exact ⟨hL3, hself⟩
        · have hs2 := hP.stack s hs
          have : s ≠ mesh.adjacent_facet f2 lv := by
            intro h
            rw [h, hno] at hs2
            exact hR hs2.2.symm
          exact ⟨hs2.1, by simp only [hset s this]; exact hs2.2⟩
      · intro g hg
        have hst := hP.stable g hg
        have : g ≠ mesh.adjacent_facet f2 lv := by
          intro h
          apply hg
          rw [← hst, h, hno]
        simp only [hset g this]
        exact hst
      · simp only [hset f2 (Ne.symm hne2)]
        exact hf2.2
    · exact ⟨hP, hf2.2⟩

theorem foldl_split_corner_inv (mesh : Mesh) (hard : Nat → Nat → Bool) (L region0 : List Nat)
    (f R f2 : Nat) (hR : R ≠ NO_INDEX) (hL2 : L.getD f2 0 = NO_INDEX) :
    ∀ (lvs : List Nat) (st : List Nat × List Nat),
      (∀ lv ∈ lvs, lv < mesh.facet_nb_vertices f2) →
      SplitInv mesh hard L region0 f R st → st.1.getD f2 0 = R →
      SplitInv mesh hard L region0 f R (lvs.foldl (split_corner mesh hard R f2) st) := by
  intro lvs
  induction lvs with
  | nil => intro st _ hP _; exact hP
  | cons lv lvs ih =>
    intro st hlv hP hf2
    rw [List.foldl_cons]
    obtain ⟨h1, h2⟩ := split_corner_inv mesh hard L region0 f R f2 lv st hR
      (hlv lv (List.mem_cons_self _ _)) hP ⟨hL2, hf2⟩
    exact ih _ (fun x hx => hlv x (List.mem_cons_of_mem _ hx)) h1 h2

theorem split_flood_inv (mesh : Mesh) (hard : Nat → Nat → Bool) (L region0 : List Nat)
    (f R : Nat) (hR : R ≠ NO_INDEX) :
    ∀ (fuel : Nat) (st : List Nat × List Nat) (L' : List Nat),
      SplitInv mesh hard L region0 f R st → split_flood mesh hard R fuel st = .ok L' →
      SplitInv mesh hard L region0 f R (L', []) := by
  intro fuel
  induction fuel with
  | zero =>
    intro st L' hP h
    obtain ⟨region, S⟩ := st
    cases S with
    | nil => simp only [split_flood, Except.ok.injEq] at h; rw [← h]; exact hP
    | cons f2 S => simp [split_flood] at h
  | succ fuel ih =>
    intro st L' hP h
    obtain ⟨region, S⟩ := st
    cases S with
    | nil => simp only [split_flood, Except.ok.injEq] at h; rw [← h]; exact hP
    | cons f2 S =>
      simp only [split_flood] at h
      refine ih _ L' ?_ h
      have hf2 := hP.stack f2 (List.mem_cons_self _ _)
      refine foldl_split_corner_inv mesh hard L region0 f R f2 hR hf2.1 _ _
        (fun lv hlv => List.mem_range.1 hlv) ?_ hf2.2
      exact ⟨hP.pre, hP.bound, hP.old, hP.cur,
        fun s hs => hP.stack s (List.mem_cons_of_mem _ hs), hP.stable⟩

theorem split_start_inv (mesh : Mesh) (hard : Nat → Nat → Bool) (L region : List Nat)
    (f R : Nat) (hRlt : R < NO_INDEX) (hP : SplitLoopInv mesh hard L R region)
    (hf : region.getD f 0 = NO_INDEX) :
    SplitInv mesh hard L (region.set f R) f R (region.set f R, [f]) := by
  have hR : R ≠ NO_INDEX := Nat.ne_of_lt hRlt
  have hlt : f < region.length :=
    getD_lt_of_ne_default _ _ 0 (by rw [hf]; exact no_index_ne_zero)
  have hLf : L.getD f 0 = NO_INDEX := by
    by_contra hne
    exact hne ((hP.pre _ hne).symm.trans hf)
  have hset : ∀ g, g ≠ f → (region.set f R).getD g 0 = region.getD g 0 :=
    fun g hg => getD_set_ne _ _ _ _ _ (Ne.symm hg)
  have hself : (region.set f R).getD f 0 = R := getD_set_self _ _ _ _ hlt
  refine ⟨?_, ?_, ?_, ?_, ?_, fun _ _ => rfl⟩
  · intro g hg
    have : g ≠ f := fun h => hg (h ▸ hLf)
    simp only [hset g this]
    exact hP.pre g hg
  · intro g hg
    by_cases h : g = f
    · right
      rw [h]
      simp only [hself]
      exact le_refl _
    · simp only [hset g h]
      rcases hP.bound g hg with h1 | h1
      · exact Or.inl h1
      · exact Or.inr (le_of_lt h1)
  · intro g1 g2 h1 h2 heq hlt1
    simp only at heq hlt1
    have hg1 : g1 ≠ f := by
      intro h
      rw [h, hself] at hlt1
      exact lt_irrefl _ hlt1
    rw [hset g1 hg1] at heq hlt1
    have hg2 : g2 ≠ f := by
      intro h
      rw [h, hself] at heq
      rw [heq] at hlt1
      exact lt_irrefl _ hlt1
    rw [hset g2 hg2] at heq
    refine hP.linked g1 g2 h1 h2 heq ?_
    intro hno
    omega
  · intro g hg hgR
    simp only at hgR
    by_cases h : g = f
    · rw [h]
      exact Relation.EqvGen.refl _
    · rw [hset g h] at hgR
      rcases hP.bound g hg with h1 | h1
      · exact absurd (hgR.symm.trans h1) hR
      · omega
  · intro s hs
    simp only [List.mem_singleton] at hs
    rw [hs]
    exact ⟨hLf, hself⟩

theorem split_loop_inv (mesh : Mesh) (hard : Nat → Nat → Bool) (L : List Nat) :
    ∀ (fs : List Nat) (region : List Nat) (R : Nat) (L' : List Nat),
      SplitLoopInv mesh hard L R region → R + fs.length ≤ NO_INDEX →
      split_loop mesh hard fs region R = .ok L' →
      (∃ R', SplitLoopInv mesh hard L R' L') ∧
      (∀ g, region.getD g 0 ≠ NO_INDEX → L'.getD g 0 = region.getD g 0) ∧
      (∀ g ∈ fs, L'.getD g 0 ≠ NO_INDEX) := by
  intro fs
  induction fs with
  | nil =>
    intro region R L' hP _ h
    simp only [split_loop, Except.ok.injEq] at h
    subst h
    exact ⟨⟨R, hP⟩, fun _ _ => rfl, fun g hg => by simp at hg⟩
  | cons f fs ih =>
    intro region R L' hP hfit h
    simp only [List.length_cons] at hfit
    rw [split_loop] at h
    by_cases hf : region.getD f 0 = NO_INDEX
    · rw [if_pos hf] at h
      cases hfl : split_flood mesh hard R (mesh.facets.length + 1) (region.set f R, [f]) with
      | error e => rw [hfl] at h; cases h
      | ok region' =>
        rw [hfl] at h
        simp only at h
        have hRlt : R < NO_INDEX := by omega
        have hmod : (R + 1) % 2 ^ 32 = R + 1 := by
          apply Nat.mod_eq_of_lt
          have : NO_INDEX = 4294967295 := rfl
          omega
        rw [hmod] at h
        have hS := split_flood_inv mesh hard L (region.set f R) f R (Nat.ne_of_lt hRlt) _ _ _
          (split_start_inv mesh hard L region f R hRlt hP hf) hfl
        have hP' : SplitLoopInv mesh hard L (R + 1) region' := by
          refine ⟨hS.pre, ?_, ?_⟩
          · intro g hg
            rcases hS.bound g hg with h1 | h1
            · exact Or.inl h1
            · exact Or.inr (Nat.lt_succ_of_le h1)
          · intro g1 g2 h1 h2 heq hne
            have hb1 : region'.getD g1 0 ≤ R := by
              rcases hS.bound g1 h1 with h3 | h3
              · exact absurd h3 hne
              · exact h3
            rcases Nat.lt_or_ge (region'.getD g1 0) R with h3 | h3
            · exact hS.old g1 g2 h1 h2 heq h3
            · have e1 : region'.getD g1 0 = R := le_antisymm hb1 h3
              exact Relation.EqvGen.trans _ f _
                (Relation.EqvGen.symm _ _ (hS.cur g1 h1 e1))
                (hS.cur g2 h2 (heq.symm.trans e1))
        obtain ⟨hI, hstab, hlab⟩ := ih region' (R + 1) L' hP' (by omega) h
        have hflt : f < region.length :=
          getD_lt_of_ne_default _ _ 0 (by rw [hf]; exact no_index_ne_zero)
        have hfR : region'.getD f 0 = R := by
          have := hS.stable f (by rw [getD_set_self _ _ _ _ hflt]; exact Nat.ne_of_lt hRlt)
          rw [getD_set_self _ _ _ _ hflt] at this
          exact this
        refine ⟨hI, ?_, ?_⟩
        · intro g hg
          have hgf : g ≠ f := fun h => hg (h ▸ hf)
          have h0 : (region.set f R).getD g 0 = region.getD g 0 :=
            getD_set_ne _ _ _ _ _ (Ne.symm hgf)
          have h1 := hS.stable g (by rw [h0]; exact hg)
          simp only at h1
          rw [hstab g (by rw [h1, h0]; exact hg), h1, h0]
        · intro g hg
          rcases List.mem_cons.1 hg with hg | hg
          · rw [hg, hstab f (by rw [hfR]; exact Nat.ne_of_lt hRlt), hfR]
            exact Nat.ne_of_lt hRlt
          · exact hlab g hg
    · rw [if_neg hf] at h
      obtain ⟨hI, hstab, hlab⟩ := ih region R L' hP (by omega) h
      refine ⟨hI, hstab, ?_⟩
      intro g hg
      rcases List.mem_cons.1 hg with hg | hg
      · rw [hg, hstab f hf]
        exact hf
      · exact hlab g hg

/-- After `split_regions_along_hard_edges`, two facets that were unlabelled carry the
same label only if a chain of non-crease adjacencies between unlabelled facets links
them; labelled facets keep their label and every facet has a label. -/
theorem split_regions_post (mesh : Mesh) (L : List Nat) (hard : Nat → Nat → Bool)
    (L' : List Nat) (hfit : LabelsFit mesh L)
    (h : split_regions_along_hard_edges mesh L hard = .ok L') :
    (∀ g1 g2, L.getD g1 0 = NO_INDEX → L.getD g2 0 = NO_INDEX →
      L'.getD g1 0 = L'.getD g2 0 → L'.getD g1 0 ≠ NO_INDEX →
      NonCreaseLinked mesh hard L g1 g2) ∧
    (∀ g, L.getD g 0 ≠ NO_INDEX → L'.getD g 0 = L.getD g 0) ∧
    (∀ g, g < mesh.facets.length → L'.getD g 0 ≠ NO_INDEX) := by
  unfold split_regions_along_hard_edges at h
  have hinit : SplitLoopInv mesh hard L
      (if max_region mesh L = NO_INDEX then 0 else (max_region mesh L + 1) % 2 ^ 32) L :=
    ⟨fun _ _ => rfl, fun _ hg => Or.inl hg, fun g1 _ h1 _ _ hne => absurd h1 hne⟩
  have hR : (if max_region mesh L = NO_INDEX then 0 else (max_region mesh L + 1) % 2 ^ 32) +
      (List.range mesh.facets.length).length ≤ NO_INDEX := by
    unfold LabelsFit at hfit
    rw [List.length_range]
    split
    · rename_i hm
      rw [if_pos hm] at hfit
      exact hfit
    · rename_i hm
      rw [if_neg hm] at hfit
      have : (max_region mesh L + 1) % 2 ^ 32 ≤ max_region mesh L + 1 := Nat.mod_le _ _
      omega
  obtain ⟨⟨R', hI⟩, hstab, hlab⟩ := split_loop_inv mesh hard L _ _ _ _ hinit hR h
  exact ⟨hI.linked, hstab, fun g hg => hlab g (List.mem_range.2 hg)⟩

/-! ## Step 3 groups facets by label -/

theorem group_flood_marks_region (mesh : Mesh) (L : List Nat) (r fuel : Nat)
    (st st' : FloodState) (h : group_flood mesh L r fuel st = .ok st') :
    ∀ g, st'.facet_status.getD g 0 = 1 → st.facet_status.getD g 0 = 1 ∨ L.getD g 0 = r := by
  refine group_flood_inv mesh L r
    (fun s => ∀ g, s.facet_status.getD g 0 = 1 → st.facet_status.getD g 0 = 1 ∨ L.getD g 0 = r)
    ?_ ?_ fuel st st' (fun _ hg => Or.inl hg) h
  · intro s f2 S hP _
    exact hP
  · intro f2 s lv s' hP hs g hg
    rcases group_corner_cases mesh L r f2 lv s s' hs with h1 | h1
    · rw [h1.1] at hg
      exact hP g hg
    · rw [h1.2.2.2.2.1] at hg
      by_cases hgf : g = mesh.adjacent_facet f2 lv
      · right
        rw [hgf]
        exact h1.2.2.1
      · rw [getD_set_ne _ _ _ _ _ (Ne.symm hgf)] at hg
        exact hP g hg

/-- The facets consumed by the group started at `f` carry the label of `f`. -/
theorem group_consumed_label (mesh : Mesh) (region1 : List Nat) (keep : Bool)
    (ic : List Bool) (f : Nat) (st : SimplifyState) (fl : FloodState)
    (hlen : region1.length = mesh.facets.length)
    (hsg : StartsGroup keep ic (loop_init mesh region1) f st)
    (hfl : group_flood st.mesh st.facet_region (st.facet_region.getD f 0)
      (st.mesh.facets.length + 1) (flood_start st f) = .ok fl)
    (g : Nat) (hg0 : st.facet_status.getD g 0 = NO_INDEX)
    (hg1 : fl.facet_status.getD g 0 = 1) :
    g < mesh.facets.length ∧ region1.getD g 0 = st.facet_region.getD f 0 := by
  obtain ⟨hst, _, _⟩ := hsg
  have hext := group_loop_extends mesh region1 keep ic _ _ _ _ (extends_init mesh region1) hst
  obtain ⟨news, nl, _, h2, _, _, h5⟩ := hext
  have hglt : g < mesh.facets.length := by
    rw [← h5]
    exact getD_lt_of_ne_default _ _ 0 (by rw [hg0]; exact no_index_ne_zero)
  refine ⟨hglt, ?_⟩
  have hreg : st.facet_region.getD g 0 = region1.getD g 0 := by
    rw [h2, getD_append_left _ _ _ _ (by rw [hlen]; exact hglt)]
  rcases group_flood_marks_region _ _ _ _ _ _ hfl g hg1 with h | h
  · simp only [flood_start] at h
    by_cases hgf : g = f
    · rw [← hreg, hgf]
    · rw [getD_set_ne _ _ _ _ _ (Ne.symm hgf), hg0] at h
      exact absurd h (by decide)
  · rw [← hreg]
    exact h

/-! ## The flood fills terminate within their fuel -/

theorem count_set_no_index (l : List Nat) (i x : Nat) (hx : x ≠ NO_INDEX)
    (hi : l.getD i 0 = NO_INDEX) :
    List.count NO_INDEX (l.set i x) + 1 = List.count NO_INDEX l := by
  induction l generalizing i with
  | nil =>
    simp only [List.getD_nil] at hi
    exact absurd hi.symm no_index_ne_zero
  | cons a l ih =>
    cases i with
    | zero =>
      simp only [List.getD_cons_zero] at hi
      subst hi
      simp only [List.set_cons_zero, List.count_cons_self]
      rw [List.count_cons_of_ne (Ne.symm hx)]
    | succ i =>
      simp only [List.getD_cons_succ] at hi
      simp only [List.set_cons_succ, List.count_cons]
      have := ih i hi
      omega

theorem split_corner_measure (mesh : Mesh) (hard : Nat → Nat → Bool) (R f2 lv : Nat)
    (st : List Nat × List Nat) (hR : R ≠ NO_INDEX) :
    (split_corner mesh hard R f2 st lv).2.length +
        List.count NO_INDEX (split_corner mesh hard R f2 st lv).1 =
      st.2.length + List.count NO_INDEX st.1 := by
  unfold split_corner
  split
  · rfl
  · split
    · rename_i hcond
      have := count_set_no_index st.1 (mesh.adjacent_facet f2 lv) R hR hcond.2
      simp only [List.length_cons]
      omega
    · rfl

theorem foldl_split_corner_measure (mesh : Mesh) (hard : Nat → Nat → Bool) (R f2 : Nat)
    (hR : R ≠ NO_INDEX) (lvs : List Nat) (st : List Nat × List Nat) :
    (lvs.foldl (split_corner mesh hard R f2) st).2.length +
        List.count NO_INDEX (lvs.foldl (split_corner mesh hard R f2) st).1 =
      st.2.length + List.count NO_INDEX st.1 := by
  induction lvs generalizing st with
  | nil => rfl
  | cons lv lvs ih => rw [List.foldl_cons, ih, split_corner_measure _ _ _ _ _ _ hR]

theorem split_flood_total (mesh : Mesh) (hard : Nat → Nat → Bool) (R : Nat)
    (hR : R ≠ NO_INDEX) :
    ∀ (fuel : Nat) (st : List Nat × List Nat),
      st.2.length + List.count NO_INDEX st.1 ≤ fuel →
      ∃ L', split_flood mesh hard R fuel st = .ok L' := by
  intro fuel
  induction fuel with
  | zero =>
    intro st h
    obtain ⟨region, S⟩ := st
    cases S with
    | nil => exact ⟨region, by simp [split_flood]⟩
    | cons f2 S => simp at h
  | succ fuel ih =>
    intro st h
    obtain ⟨region, S⟩ := st
    cases S with
    | nil => exact ⟨region, by simp [split_flood]⟩
    | cons f2 S =>
      simp only [split_flood]
      apply ih
      rw [foldl_split_corner_measure _ _ _ _ hR]
      simp only [List.length_cons] at h ⊢
      omega

theorem split_loop_total (mesh : Mesh) (hard : Nat → Nat → Bool) :
    ∀ (fs : List Nat) (region : List Nat) (R : Nat),
      R + fs.length ≤ NO_INDEX → region.length ≤ mesh.facets.length →
      ∃ L', split_loop mesh hard fs region R = .ok L' := by
  intro fs
  induction fs with
  | nil => intro region R _ _; exact ⟨region, rfl⟩
  | cons f fs ih =>
    intro region R hfit hlen
    simp only [List.length_cons] at hfit
    rw [split_loop]
    by_cases hf : region.getD f 0 = NO_INDEX
    · rw [if_pos hf]
      have hR : R ≠ NO_INDEX := by omega
      have hcount := count_set_no_index region f R hR hf
      have hle : List.count NO_INDEX region ≤ region.length := List.count_le_length _ _
      obtain ⟨region', hfl⟩ := split_flood_total mesh hard R hR (mesh.facets.length + 1)
        (region.set f R, [f]) (by simp only [List.length_singleton]; omega)
      rw [hfl]
      simp only
      apply ih
      · have : (R + 1) % 2 ^ 32 ≤ R + 1 := Nat.mod_le _ _
        omega
      · rw [split_flood_length _ _ _ _ _ _ hfl]
        simpa using hlen
    · rw [if_neg hf]
      exact ih region R (by omega) hlen

/-- With labels that fit, `split_regions_along_hard_edges` terminates. -/
theorem split_regions_total (mesh : Mesh) (L : List Nat) (hard : Nat → Nat → Bool)
    (hlen : L.length = mesh.facets.length) (hfit : LabelsFit mesh L) :
    ∃ L', split_regions_along_hard_edges mesh L hard = .ok L' := by
  unfold split_regions_along_hard_edges
  apply split_loop_total
  · unfold LabelsFit at hfit
    rw [List.length_range]
    split
    · rename_i hm
      rw [if_pos hm] at hfit
      exact hfit
    · rename_i hm
      rw [if_neg hm] at hfit
      have : (max_region mesh L + 1) % 2 ^ 32 ≤ max_region mesh L + 1 := Nat.mod_le _ _
      omega
  · exact le_of_eq hlen

theorem group_corner_measure (mesh : Mesh) (L : List Nat) (r f2 lv : Nat)
    (st : FloodState) :
    group_corner mesh L r f2 (.ok st) lv = .error Abort.rollback ∨
    ∃ st', group_corner mesh L r f2 (.ok st) lv = .ok st' ∧
      st'.S.length + List.count NO_INDEX st'.facet_status =
        st.S.length + List.count NO_INDEX st.facet_status := by
  unfold group_corner
  simp only
  split
  · split
    · exact Or.inl rfl
    · exact Or.inr ⟨_, rfl, rfl⟩
  · split
    · rename_i hs
      refine Or.inr ⟨_, rfl, ?_⟩
      have := count_set_no_index st.facet_status (mesh.adjacent_facet f2 lv) 1
        (by decide) hs
      simp only [List.length_cons]
      omega
    · exact Or.inr ⟨_, rfl, rfl⟩

theorem foldl_group_corner_measure (mesh : Mesh) (L : List Nat) (r f2 : Nat) :
    ∀ (lvs : List Nat) (st : FloodState),
      lvs.foldl (group_corner mesh L r f2) (.ok st) = .error Abort.rollback ∨
      ∃ st', lvs.foldl (group_corner mesh L r f2) (.ok st) = .ok st' ∧
        st'.S.length + List.count NO_INDEX st'.facet_status =
          st.S.length + List.count NO_INDEX st.facet_status := by
  intro lvs
  induction lvs with
  | nil => intro st; exact Or.inr ⟨st, rfl, rfl⟩
  | cons lv lvs ih =>
    intro st
    rw [List.foldl_cons]
    rcases group_corner_measure mesh L r f2 lv st with h | ⟨st1, h, hm⟩
    · rw [h, foldl_group_corner_error]
      exact Or.inl rfl
    · rw [h]
      rcases ih st1 with h2 | ⟨st2, h2, hm2⟩
      · exact Or.inl h2
      · exact Or.inr ⟨st2, h2, by omega⟩

/-- The group flood fill of `simplify` never runs out of fuel: it completes or jumps to
`rollback:`. -/
theorem group_flood_total (mesh : Mesh) (L : List Nat) (r : Nat) :
    ∀ (fuel : Nat) (st : FloodState),
      st.S.length + List.count NO_INDEX st.facet_status ≤ fuel →
      group_flood mesh L r fuel st = .error Abort.rollback ∨
      ∃ st', group_flood mesh L r fuel st = .ok st' := by
  intro fuel
  induction fuel with
  | zero =>
    intro st h
    have hS : st.S = [] := List.length_eq_zero.1 (by omega)
    right
    exact ⟨st, by rw [group_flood, hS]⟩
  | succ fuel ih =>
    intro st h
    rw [group_flood]
    cases hS : st.S with
    | nil => exact Or.inr ⟨st, rfl⟩
    | cons f2 S =>
      simp only
      rw [hS] at h
      simp only [List.length_cons] at h
      rcases foldl_group_corner_measure mesh L r f2 (List.range (mesh.facet_nb_vertices f2))
        { facet_status := st.facet_status, S := S, border_next := st.border_next }
        with h1 | ⟨st1, h1, hm⟩
      · left
        unfold group_corners
        rw [h1]
      · unfold group_corners
        rw [h1]
        simp only
        exact ih st1 (by simp only at hm; omega)

end RPD

namespace RPD

/-! ## Table indices -/

theorem cell_lt (n i j : Nat) (hi : i < n) (hj : j < n) : i * n + j < n * n := by
  have : i * n + n ≤ n * n := by
    have := Nat.mul_le_mul_right n (Nat.succ_le_of_lt hi)
    rw [Nat.succ_mul] at this
    exact this
  omega

theorem cell_inj (n i j i' j' : Nat) (hj : j < n) (hj' : j' < n)
    (h : i * n + j = i' * n + j') : i = i' ∧ j = j' := by
  have hn : 0 < n := by omega
  have h1 : (i * n + j) / n = i := by
    rw [Nat.add_comm, Nat.add_mul_div_right _ _ hn, Nat.div_eq_of_lt hj, Nat.zero_add]
  have h2 : (i' * n + j') / n = i' := by
    rw [Nat.add_comm, Nat.add_mul_div_right _ _ hn, Nat.div_eq_of_lt hj', Nat.zero_add]
  have hi : i = i' := by rw [← h1, ← h2, h]
  subst hi
  exact ⟨rfl, by omega⟩

theorem cell_div (n i j : Nat) (hj : j < n) : (i * n + j) / n = i := by
  have hn : 0 < n := by omega
  rw [Nat.add_comm, Nat.add_mul_div_right _ _ hn, Nat.div_eq_of_lt hj, Nat.zero_add]

theorem cell_mod (n i j : Nat) (hj : j < n) : (i * n + j) % n = j := by
  rw [Nat.add_comm, Nat.add_mul_mod_self_right, Nat.mod_eq_of_lt hj]

theorem getElem?_eq_some_getD {α : Type} (l : List α) (i : Nat) (d : α) (h : i < l.length) :
    l[i]? = some (l.getD i d) := by
  rw [List.getD_eq_getElem l d h, List.getElem?_eq_getElem h]

/-! ## The loop over `k` -/

section KLoop

variable {K : Type} [LinearOrderedCommRing K]

/-- The value `val` computed for the split `k` of the subproblem `(i, j)`. -/
theorem k_loop_spec (cost : Nat → Nat → Nat → K) (n : Nat) (table : List K) (i j : Nat)
    (hlen : table.length = n * n) (hj : j < n) :
    ∀ (ks : List Nat) (acc : K × Nat), (∀ k ∈ ks, i < k ∧ k < j) →
      ∃ acc', k_loop cost n table i j ks acc = .ok acc' ∧ acc'.1 ≤ acc.1 ∧
        (∀ k ∈ ks, acc'.1 ≤ table.getD (i * n + k) 0 + table.getD (k * n + j) 0 + cost i k j) ∧
        (acc' = acc ∨ (acc'.2 ∈ ks ∧
          acc'.1 = table.getD (i * n + acc'.2) 0 + table.getD (acc'.2 * n + j) 0 +
            cost i acc'.2 j)) := by
  intro ks
  induction ks with
  | nil =>
    intro acc _
    exact ⟨acc, rfl, le_refl _, fun k hk => by simp at hk, Or.inl rfl⟩
  | cons k ks ih =>
    intro acc hks
    have hk := hks k (List.mem_cons_self _ _)
    have h1 : table[i * n + k]? = some (table.getD (i * n + k) 0) :=
      getElem?_eq_some_getD _ _ _ (by rw [hlen]; exact cell_lt n i k (by omega) (by omega))
    have h2 : table[k * n + j]? = some (table.getD (k * n + j) 0) :=
      getElem?_eq_some_getD _ _ _ (by rw [hlen]; exact cell_lt n k j (by omega) hj)
    rw [k_loop]
    simp only [h1, h2]
    obtain ⟨acc', hrun, hle, hall, hcase⟩ := ih
      (if acc.1 ≤ table.getD (i * n + k) 0 + table.getD (k * n + j) 0 + cost i k j then acc
        else (table.getD (i * n + k) 0 + table.getD (k * n + j) 0 + cost i k j, k))
      (fun x hx => hks x (List.mem_cons_of_mem _ hx))
    refine ⟨acc', hrun, ?_, ?_, ?_⟩
    · split at hle
      · exact hle
      · rename_i hnot
        simp only at hle
        exact le_trans hle (le_of_lt (not_le.1 hnot))
    · intro x hx
      rcases List.mem_cons.1 hx with hx | hx
      · rw [hx]
        split at hle
        · rename_i hyes
          exact le_trans hle hyes
        · exact hle
      · exact hall x hx
    · rcases hcase with hc | hc
      · split at hc
        · exact Or.inl hc
        · right
          rw [hc]
          exact ⟨List.mem_cons_self _ _, rfl⟩
      · exact Or.inr ⟨List.mem_cons_of_mem _ hc.1, hc.2⟩

end KLoop

/-! ## The recorded triangulation -/

theorem build_leaf (n : Nat) (tri : List Nat) (d i j : Nat) (h : j ≤ i + 1) :
    build n tri d i j = .leaf := by
  cases d with
  | zero => rfl
  | succ d => rw [build, if_pos h]

theorem build_node (n : Nat) (tri : List Nat) (d i j : Nat) (h : i + 2 ≤ j) :
    build n tri (d + 1) i j =
      .node (tri.getD (i * n + j) 0) (build n tri d i (tri.getD (i * n + j) 0))
        (build n tri d (tri.getD (i * n + j) 0) j) := by
  rw [build, if_neg (by omega)]

theorem build_congr (n : Nat) (tri tri' : List Nat) :
    ∀ (d i j : Nat),
      (∀ a b, i ≤ a → b ≤ j → a + 2 ≤ b →
        tri'.getD (a * n + b) 0 = tri.getD (a * n + b) 0 ∧
        a < tri.getD (a * n + b) 0 ∧ tri.getD (a * n + b) 0 < b) →
      build n tri' d i j = build n tri d i j := by
  intro d
  induction d with
  | zero => intro i j _; rfl
  | succ d ih =>
    intro i j h
    by_cases hij : j ≤ i + 1
    · rw [build_leaf _ _ _ _ _ hij, build_leaf _ _ _ _ _ hij]
    · have hij' : i + 2 ≤ j := by omega
      obtain ⟨h1, h2, h3⟩ := h i j (le_refl _) (le_refl _) hij'
      rw [build_node _ _ _ _ _ hij', build_node _ _ _ _ _ hij', h1]
      rw [ih i _ (fun a b ha hb hab => h a b ha (by omega) hab),
        ih _ j (fun a b ha hb hab => h a b (by omega) hb hab)]

theorem isTriang_adjacent (i j : Nat) (T : Triangulation) (h : IsTriang i j T)
    (hj : j ≤ i + 1) : T = .leaf := by
  cases T with
  | leaf => rfl
  | node k l r =>
    simp only [IsTriang] at h
    omega

theorem isTriang_split (i j : Nat) (T : Triangulation) (h : IsTriang i j T)
    (hj : i + 2 ≤ j) :
    ∃ k l r, T = .node k l r ∧ i < k ∧ k < j ∧ IsTriang i k l ∧ IsTriang k j r := by
  cases T with
  | leaf =>
    simp only [IsTriang] at h
    omega
  | node k l r =>
    simp only [IsTriang] at h
    exact ⟨k, l, r, rfl, h⟩

section DP

variable {K : Type} [LinearOrderedCommRing K]

theorem subOK_adjacent (cost : Nat → Nat → Nat → K) (n : Nat) (tb : List K × List Nat)
    (a : Nat) (h : tb.1.getD (a * n + (a + 1)) 0 = 0) : SubOK cost n tb a (a + 1) := by
  intro d _
  rw [build_leaf _ _ _ _ _ (le_refl _)]
  refine ⟨rfl, by rw [h]; rfl, ?_, ?_⟩
  · intro T hT
    rw [isTriang_adjacent _ _ T hT (le_refl _)]
  · simp [tcost]

theorem DPInv.sub {cost : Nat → Nat → Nat → K} {n p m : Nat} {tb : List K × List Nat}
    (hI : DPInv cost n p m tb) (a b : Nat) (hab : a < b) (hb : b < n) (hsz : b - a < p) :
    SubOK cost n tb a b := by
  by_cases h : b = a + 1
  · subst h
    exact subOK_adjacent cost n tb a (hI.adj a hb)
  · exact hI.filled a b (by omega) hb (Or.inl hsz)

theorem cast_bound (m : Nat) (hm : m ≤ NO_INDEX) : (1024 : K) * (m : K) < 10 ^ 20 := by
  have h1 : (m : K) ≤ ((NO_INDEX : Nat) : K) := Nat.cast_le.2 hm
  have h2 : ((NO_INDEX : Nat) : K) = 4294967295 := by
    simp [NO_INDEX]
  rw [h2] at h1
  have h3 : (1024 : K) * (m : K) ≤ 1024 * 4294967295 :=
    mul_le_mul_of_nonneg_left h1 (by norm_num)
  have h4 : (1024 : K) * 4294967295 < 10 ^ 20 := by norm_num
  exact lt_of_le_of_lt h3 h4

end DP

theorem getD_set_ne' {α : Type} (l : List α) (i j : Nat) (x d : α) (h : i ≠ j) :
    (l.set i x).getD j d = l.getD j d := by
  simp [List.getD_eq_getElem?_getD, List.getElem?_set_ne h]

theorem getD_set_self' {α : Type} (l : List α) (i : Nat) (x d : α) (h : i < l.length) :
    (l.set i x).getD i d = x := by
  simp [List.getD_eq_getElem?_getD, List.getElem?_set_self h]

section DPCell

variable {K : Type} [LinearOrderedCommRing K]

/-- The value of every candidate split is at most `1024` per triangle. -/
theorem split_value_le (cost : Nat → Nat → Nat → K) (hc : ∀ a k b, cost a k b ≤ 1024)
    (n p m : Nat) (tb : List K × List Nat) (hI : DPInv cost n p m tb) (i j k : Nat)
    (hik : i < k) (hkj : k < j) (hj : j < n) (hp : j - i ≤ p) :
    tb.1.getD (i * n + k) 0 + tb.1.getD (k * n + j) 0 + cost i k j ≤
      1024 * ((j - i - 1 : Nat) : K) := by
  obtain ⟨_, h1, _, h2⟩ := hI.sub i k hik (by omega) (by omega) p (by omega)
  obtain ⟨_, h3, _, h4⟩ := hI.sub k j hkj hj (by omega) p (by omega)
  rw [h1, h3]
  have e : j - i - 1 = (k - i - 1) + (j - k - 1) + 1 := by omega
  rw [e]
  push_cast
  have := hc i k j
  linarith

theorem dp_cell_spec (cost : Nat → Nat → Nat → K) (hc : ∀ a k b, cost a k b ≤ 1024)
    (n p i : Nat) (tb : List K × List Nat) (hn : n ≤ NO_INDEX) (hp : 2 ≤ p)
    (hj : i + p < n) (hI : DPInv cost n p i tb) :
    ∃ tb', dp_cell cost n tb i (i + p) = .ok tb' ∧ DPInv cost n p (i + 1) tb' := by
  have hmem : ∀ k ∈ List.range' (i + 1) (i + p - (i + 1)), i < k ∧ k < i + p := by
    intro k hk
    rw [List.mem_range'_1] at hk
    omega
  obtain ⟨acc', hrun, _, hall, hcase⟩ := k_loop_spec cost n tb.1 i (i + p) hI.len1 hj
    (List.range' (i + 1) (i + p - (i + 1))) (10 ^ 20, NO_INDEX) hmem
  have hval := fun k hik hkj =>
    split_value_le cost hc n p i tb hI i (i + p) k hik hkj hj (by omega)
  have hk0 : i + 1 ∈ List.range' (i + 1) (i + p - (i + 1)) := by
    rw [List.mem_range'_1]
    omega
  have hlt : acc'.1 < 10 ^ 20 :=
    lt_of_le_of_lt (le_trans (hall _ hk0) (hval (i + 1) (by omega) (by omega)))
      (cast_bound _ (by omega))
  have hmin : acc'.2 ∈ List.range' (i + 1) (i + p - (i + 1)) ∧
      acc'.1 = tb.1.getD (i * n + acc'.2) 0 + tb.1.getD (acc'.2 * n + (i + p)) 0 +
        cost i acc'.2 (i + p) := by
    rcases hcase with h | h
    · rw [h] at hlt
      exact absurd hlt (lt_irrefl _)
    · exact h
  obtain ⟨hk1, hk2⟩ := hmem _ hmin.1
  have hidx : i * n + (i + p) < n * n := cell_lt n i (i + p) (by omega) hj
  refine ⟨(tb.1.set (i * n + (i + p)) acc'.1, tb.2.set (i * n + (i + p)) acc'.2), ?_, ?_⟩
  · unfold dp_cell
    rw [hrun]
    simp only
    rw [if_neg (by omega), if_pos ⟨by rw [hI.len1]; exact hidx, by rw [hI.len2]; exact hidx⟩]
  · -- frame facts
    have hne : ∀ a b, b < n → (a, b) ≠ (i, i + p) → i * n + (i + p) ≠ a * n + b := by
      intro a b hb hab heq
      obtain ⟨h1, h2⟩ := cell_inj n i (i + p) a b hj hb heq
      exact hab (by rw [← h1, ← h2])
    have hold : ∀ a b, a + 2 ≤ b → b < n → (b - a < p ∨ (b - a = p ∧ a < i + 1)) →
        (a, b) ≠ (i, i + p) → (b - a < p ∨ (b - a = p ∧ a < i)) := by
      intro a b _ _ h hab
      rcases h with h | h
      · exact Or.inl h
      · right
        refine ⟨h.1, ?_⟩
        by_contra hnot
        have ha : a = i := by omega
        exact hab (by rw [ha]; congr 1; omega)
    have hcongr : ∀ a b, a + 2 ≤ b → b < n → (b - a < p ∨ (b - a = p ∧ a < i)) →
        ∀ d, build n (tb.2.set (i * n + (i + p)) acc'.2) d a b = build n tb.2 d a b := by
      intro a b hab hb hsz d
      apply build_congr
      intro a' b' ha' hb' hab'
      have hsz' : b' - a' < p ∨ (b' - a' = p ∧ a' < i) := by
        rcases hsz with h | h
        · left; omega
        · by_cases h2 : b' - a' < p
          · exact Or.inl h2
          · right
            constructor
            · omega
            · have : a' = a := by omega
              omega
      have hne' : (a', b') ≠ (i, i + p) := by
        intro heq
        simp only [Prod.mk.injEq] at heq
        omega
      exact ⟨getD_set_ne' _ _ _ _ _ (hne a' b' (by omega) hne'),
        hI.split a' b' hab' (by omega) hsz'⟩
    refine ⟨by simp [hI.len1], by simp [hI.len2], ?_, ?_, ?_⟩
    · intro a ha
      simp only
      rw [getD_set_ne' _ _ _ _ _ (hne a (a + 1) ha (by
        intro heq
        simp only [Prod.mk.injEq] at heq
        omega))]
      exact hI.adj a ha
    · intro a b hab hb hsz
      simp only
      by_cases hcell : (a, b) = (i, i + p)
      · simp only [Prod.mk.injEq] at hcell
        rw [hcell.1, hcell.2, getD_set_self' _ _ _ _ (by rw [hI.len2]; exact hidx)]
        exact ⟨hk1, hk2⟩
      · rw [getD_set_ne' _ _ _ _ _ (hne a b hb hcell)]
        exact hI.split a b hab hb (hold a b hab hb hsz hcell)
    · intro a b hab hb hsz
      by_cases hcell : (a, b) = (i, i + p)
      · simp only [Prod.mk.injEq] at hcell
        rw [hcell.1, hcell.2]
        intro d hd
        obtain ⟨d', rfl⟩ : ∃ d', d = d' + 1 := ⟨d - 1, by omega⟩
        simp only
        rw [build_node _ _ _ _ _ (by omega),
          getD_set_self' _ _ _ _ (by rw [hI.len2]; exact hidx),
          getD_set_self' _ _ _ _ (by rw [hI.len1]; exact hidx)]
        have hbl : build n (tb.2.set (i * n + (i + p)) acc'.2) d' i acc'.2 =
            build n tb.2 d' i acc'.2 := by
          by_cases h1 : acc'.2 = i + 1
          · rw [h1, build_leaf _ _ _ _ _ (le_refl _), build_leaf _ _ _ _ _ (le_refl _)]
          · exact hcongr i acc'.2 (by omega) (by omega) (Or.inl (by omega)) d'
        have hbr : build n (tb.2.set (i * n + (i + p)) acc'.2) d' acc'.2 (i + p) =
            build n tb.2 d' acc'.2 (i + p) := by
          by_cases h1 : i + p = acc'.2 + 1
          · rw [build_leaf _ _ _ _ _ (le_of_eq h1), build_leaf _ _ _ _ _ (le_of_eq h1)]
          · exact hcongr acc'.2 (i + p) (by omega) hj (Or.inl (by omega)) d'
        rw [hbl, hbr]
        obtain ⟨l1, l2, _, _⟩ := hI.sub i acc'.2 hk1 (by omega) (by omega) d' (by omega)
        obtain ⟨r1, r2, _, _⟩ := hI.sub acc'.2 (i + p) hk2 hj (by omega) d' (by omega)
        have hcost : tcost cost i (i + p)
            (.node acc'.2 (build n tb.2 d' i acc'.2) (build n tb.2 d' acc'.2 (i + p))) =
            acc'.1 := by
          rw [hmin.2, l2, r2]
          rfl
        refine ⟨⟨hk1, hk2, l1, r1⟩, hcost.symm, ?_, ?_⟩
        · intro T hT
          obtain ⟨k, l, r, rfl, h1, h2, h3, h4⟩ := isTriang_split _ _ T hT (by omega)
          rw [hcost]
          have hk : k ∈ List.range' (i + 1) (i + p - (i + 1)) := by
            rw [List.mem_range'_1]
            omega
          obtain ⟨_, e1, o1, _⟩ := hI.sub i k h1 (by omega) (by omega) p (by omega)
          obtain ⟨_, e2, o2, _⟩ := hI.sub k (i + p) h2 hj (by omega) p (by omega)
          have := hall k hk
          have := o1 l h3
          have := o2 r h4
          simp only [tcost]
          linarith
        · rw [hcost, hmin.2]
          exact hval acc'.2 hk1 hk2
      · have hsz' := hold a b hab hb hsz hcell
        intro d hd
        simp only
        rw [hcongr a b hab hb hsz' d, getD_set_ne' _ _ _ _ _ (hne a b hb hcell)]
        exact hI.filled a b hab hb hsz' d hd

end DPCell

section DPLoops

variable {K : Type} [LinearOrderedCommRing K]

theorem dp_row_spec (cost : Nat → Nat → Nat → K) (hc : ∀ a k b, cost a k b ≤ 1024)
    (n p : Nat) (hn : n ≤ NO_INDEX) (hp : 2 ≤ p) :
    ∀ (len m : Nat) (tb : List K × List Nat), m + len = n - p → DPInv cost n p m tb →
      ∃ tb', dp_row cost n p (List.range' m len) tb = .ok tb' ∧
        DPInv cost n p (n - p) tb' := by
  intro len
  induction len with
  | zero =>
    intro m tb hm hI
    have : m = n - p := by omega
    rw [this] at hI
    exact ⟨tb, rfl, hI⟩
  | succ len ih =>
    intro m tb hm hI
    obtain ⟨tb1, h1, hI1⟩ := dp_cell_spec cost hc n p m tb hn hp (by omega) hI
    obtain ⟨tb2, h2, hI2⟩ := ih (m + 1) tb1 (by omega) hI1
    refine ⟨tb2, ?_, hI2⟩
    rw [List.range'_succ, dp_row, h1]
    exact h2

theorem DPInv.next {cost : Nat → Nat → Nat → K} {n p : Nat} {tb : List K × List Nat}
    (hI : DPInv cost n p (n - p) tb) : DPInv cost n (p + 1) 0 tb := by
  have hcond : ∀ i j, i + 2 ≤ j → j < n → (j - i < p + 1 ∨ (j - i = p + 1 ∧ i < 0)) →
      (j - i < p ∨ (j - i = p ∧ i < n - p)) := by
    intro i j hij hj h
    rcases h with h | h
    · by_cases h2 : j - i < p
      · exact Or.inl h2
      · exact Or.inr ⟨by omega, by omega⟩
    · omega
  exact ⟨hI.len1, hI.len2, hI.adj,
    fun i j hij hj h => hI.split i j hij hj (hcond i j hij hj h),
    fun i j hij hj h => hI.filled i j hij hj (hcond i j hij hj h)⟩

theorem dp_fill_spec (cost : Nat → Nat → Nat → K) (hc : ∀ a k b, cost a k b ≤ 1024)
    (n : Nat) (hn : n ≤ NO_INDEX) :
    ∀ (len p : Nat) (tb : List K × List Nat), 2 ≤ p → DPInv cost n p 0 tb →
      ∃ tb', dp_fill cost n (List.range' p len) tb = .ok tb' ∧
        DPInv cost n (p + len) 0 tb' := by
  intro len
  induction len with
  | zero =>
    intro p tb _ hI
    exact ⟨tb, rfl, hI⟩
  | succ len ih =>
    intro p tb hp hI
    obtain ⟨tb1, h1, hI1⟩ := dp_row_spec cost hc n p hn hp (n - p) 0 tb (by omega) hI
    obtain ⟨tb2, h2, hI2⟩ := ih (p + 1) tb1 (by omega) hI1.next
    refine ⟨tb2, ?_, ?_⟩
    · rw [List.range'_succ, dp_fill, List.range_eq_range', h1]
      exact h2
    · have : p + (len + 1) = p + 1 + len := by omega
      rw [this]
      exact hI2

theorem DPInv.init (cost : Nat → Nat → Nat → K) (n : Nat) :
    DPInv cost n 2 0 (List.replicate (n * n) (0 : K), List.replicate (n * n) NO_INDEX) := by
  refine ⟨by simp, by simp, ?_, ?_, ?_⟩
  · intro i _
    simp only [List.getD_eq_getElem?_getD, List.getElem?_replicate]
    split <;> rfl
  · intro i j hij _ h
    omega
  · intro i j hij _ h
    omega

/-- The dynamic programming loops run to their end and solve every subproblem. -/
theorem dp_tables_spec (cost : Nat → Nat → Nat → K) (hc : ∀ a k b, cost a k b ≤ 1024)
    (n : Nat) (hn : n ≤ NO_INDEX) (h2 : 2 ≤ n) :
    ∃ tb, dp_tables cost n = .ok tb ∧ DPInv cost n n 0 tb := by
  obtain ⟨tb, h, hI⟩ := dp_fill_spec cost hc n hn (n - 2) 2 _ (le_refl _) (DPInv.init cost n)
  refine ⟨tb, h, ?_⟩
  have : 2 + (n - 2) = n := by omega
  rw [this] at hI
  exact hI

end DPLoops

/-! ## The replay of the split table -/

theorem cell_triangles_append (n : Nat) (tri : List Nat) (a b : List (Nat × Nat × Nat)) :
    cell_triangles n tri (a ++ b) = cell_triangles n tri a ++ cell_triangles n tri b := by
  induction a with
  | nil => rfl
  | cons c cs ih => simp [cell_triangles, ih]

theorem cells_size_append (a b : List (Nat × Nat × Nat)) :
    cells_size (a ++ b) = cells_size a + cells_size b := by
  induction a with
  | nil => simp [cells_size]
  | cons c cs ih => simp [cells_size, ih]; omega

theorem flat_triples_append (a b : List (Nat × Nat × Nat)) :
    flat_triples (a ++ b) = flat_triples a ++ flat_triples b := by
  induction a with
  | nil => rfl
  | cons c cs ih => simp [flat_triples, ih]

theorem triples_flat (ts : List (Nat × Nat × Nat)) : triples (flat_triples ts) = ts := by
  induction ts with
  | nil => rfl
  | cons t ts ih => simp [flat_triples, triples, ih]

theorem replay_spec (n : Nat) (tri : List Nat) (hn : n ≤ NO_INDEX)
    (hlen : tri.length = n * n)
    (hsplit : ∀ i j, i + 2 ≤ j → j < n →
      i < tri.getD (i * n + j) 0 ∧ tri.getD (i * n + j) 0 < j) :
    ∀ (fuel : Nat) (cells : List (Nat × Nat × Nat)) (acc : List Nat),
      (∀ c ∈ cells, c.1 + 2 ≤ c.2.1 ∧ c.2.1 < n ∧ c.2.1 - c.1 ≤ c.2.2) →
      cells_size cells ≤ fuel →
      ∃ ts, replay n tri fuel (cells.map (fun c => c.1 * n + c.2.1)) acc =
          .ok (acc ++ flat_triples ts) ∧
        ts.Perm (cell_triangles n tri cells) := by
  intro fuel
  induction fuel with
  | zero =>
    intro cells acc hv hsz
    cases cells with
    | nil => exact ⟨[], by simp [replay, flat_triples], by simp [cell_triangles]⟩
    | cons c rest =>
      have := hv c (List.mem_cons_self _ _)
      simp only [cells_size] at hsz
      omega
  | succ fuel ih =>
    intro cells acc hv hsz
    cases cells with
    | nil => exact ⟨[], by simp [replay, flat_triples], by simp [cell_triangles]⟩
    | cons c rest =>
      obtain ⟨i, j, d⟩ := c
      obtain ⟨hij, hj, hd⟩ := hv (i, j, d) (List.mem_cons_self _ _)
      simp only at hij hj hd
      obtain ⟨hk1, hk2⟩ := hsplit i j hij hj
      obtain ⟨d', rfl⟩ : ∃ d', d = d' + 1 := ⟨d - 1, by omega⟩
      have hidx : i * n + j < tri.length := by
        rw [hlen]
        exact cell_lt n i j (by omega) hj
      have hget : tri[i * n + j]? = some (tri.getD (i * n + j) 0) :=
        getElem?_eq_some_getD _ _ _ hidx
      have hcells : ∀ c ∈ rest ++
          (if tri.getD (i * n + j) 0 + 2 ≤ j then [(tri.getD (i * n + j) 0, j, d')] else []) ++
          (if i + 2 ≤ tri.getD (i * n + j) 0 then [(i, tri.getD (i * n + j) 0, d')] else []),
          c.1 + 2 ≤ c.2.1 ∧ c.2.1 < n ∧ c.2.1 - c.1 ≤ c.2.2 := by
        intro c hc
        rcases List.mem_append.1 hc with hc | hc
        · rcases List.mem_append.1 hc with hc | hc
          · exact hv c (List.mem_cons_of_mem _ hc)
          · split at hc
            · simp only [List.mem_singleton] at hc
              subst hc
              simp only
              omega
            · simp at hc
        · split at hc
          · simp only [List.mem_singleton] at hc
            subst hc
            simp only
            omega
          · simp at hc
      have hsize : cells_size (rest ++
          (if tri.getD (i * n + j) 0 + 2 ≤ j then [(tri.getD (i * n + j) 0, j, d')] else []) ++
          (if i + 2 ≤ tri.getD (i * n + j) 0 then [(i, tri.getD (i * n + j) 0, d')] else []))
          ≤ fuel := by
        rw [cells_size_append, cells_size_append]
        simp only [cells_size] at hsz
        split <;> split <;> simp only [cells_size] <;> omega
      obtain ⟨ts', hrun, hperm⟩ := ih _ (acc ++ [i, tri.getD (i * n + j) 0, j]) hcells hsize
      refine ⟨(i, tri.getD (i * n + j) 0, j) :: ts', ?_, ?_⟩
      · rw [List.map_cons, replay]
        simp only [hget, cell_div n i j hj, cell_mod n i j hj]
        rw [if_neg (by omega)]
        have hmap : List.map (fun c : Nat × Nat × Nat => c.1 * n + c.2.1) rest ++
            (if tri.getD (i * n + j) 0 + 2 ≤ j then [tri.getD (i * n + j) 0 * n + j] else []) ++
            (if i + 2 ≤ tri.getD (i * n + j) 0 then [i * n + tri.getD (i * n + j) 0] else []) =
            List.map (fun c : Nat × Nat × Nat => c.1 * n + c.2.1) (rest ++
              (if tri.getD (i * n + j) 0 + 2 ≤ j then [(tri.getD (i * n + j) 0, j, d')]
                else []) ++
              (if i + 2 ≤ tri.getD (i * n + j) 0 then [(i, tri.getD (i * n + j) 0, d')]
                else [])) := by
          rw [List.map_append, List.map_append]
          split <;> split <;> rfl
        rw [hmap, hrun]
        simp [flat_triples]
      · rw [cell_triangles_append, cell_triangles_append] at hperm
        have hB : cell_triangles n tri
            (if tri.getD (i * n + j) 0 + 2 ≤ j then [(tri.getD (i * n + j) 0, j, d')] else []) =
            triangles_of (tri.getD (i * n + j) 0) j
              (build n tri d' (tri.getD (i * n + j) 0) j) := by
          split
          · simp [cell_triangles]
          · rw [build_leaf _ _ _ _ _ (by omega)]
            rfl
        have hA : cell_triangles n tri
            (if i + 2 ≤ tri.getD (i * n + j) 0 then [(i, tri.getD (i * n + j) 0, d')] else []) =
            triangles_of i (tri.getD (i * n + j) 0)
              (build n tri d' i (tri.getD (i * n + j) 0)) := by
          split
          · simp [cell_triangles]
          · rw [build_leaf _ _ _ _ _ (by omega)]
            rfl
        rw [hA, hB] at hperm
        simp only [cell_triangles]
        rw [build_node _ _ _ _ _ hij]
        simp only [triangles_of, List.cons_append]
        refine List.Perm.cons _ (hperm.trans ?_)
        rw [List.append_assoc]
        exact List.perm_append_comm.trans
          (List.Perm.append_right _ List.perm_append_comm)

/-! ## The whole of `triangulate_polygon` -/

section Whole

variable {K : Type} [LinearOrderedCommRing K]

/-- For at least four vertices and costs of at most `1024`, `triangulate_polygon` runs
to its end; the tables record a minimum-cost triangulation `T` of the chain `0..n-1`,
`table[n-1]` is its cost, the returned triangles are those of `T`, and the returned
boolean tells whether the cost is below `1024`. -/
theorem triangulate_cost_spec (cost : Nat → Nat → Nat → K)
    (hc : ∀ a k b, cost a k b ≤ 1024) (n : Nat) (h4 : 4 ≤ n) (hn : n ≤ NO_INDEX) :
    ∃ tb triangles T,
      dp_tables cost n = .ok tb ∧
      triangulate_cost cost n = .ok (decide (tcost cost 0 (n - 1) T < 1024), triangles) ∧
      IsTriang 0 (n - 1) T ∧
      tb.1[n - 1]? = some (tcost cost 0 (n - 1) T) ∧
      (∀ T', IsTriang 0 (n - 1) T' → tcost cost 0 (n - 1) T ≤ tcost cost 0 (n - 1) T') ∧
      (triples triangles).Perm (triangles_of 0 (n - 1) T) := by
  obtain ⟨tb, htb, hI⟩ := dp_tables_spec cost hc n hn (by omega)
  have hsplit : ∀ i j, i + 2 ≤ j → j < n →
      i < tb.2.getD (i * n + j) 0 ∧ tb.2.getD (i * n + j) 0 < j :=
    fun i j hij hj => hI.split i j hij hj (Or.inl (by omega))
  obtain ⟨ts, hrun, hperm⟩ := replay_spec n tb.2 hn hI.len2 hsplit n [(0, n - 1, n - 1)] []
    (by
      intro c hc
      simp only [List.mem_singleton] at hc
      subst hc
      simp only
      omega)
    (by simp only [cells_size]; omega)
  simp only [List.map_cons, List.map_nil, Nat.zero_mul, Nat.zero_add, List.nil_append] at hrun
  simp only [cell_triangles, List.append_nil] at hperm
  obtain ⟨hT, hval, hopt, _⟩ := hI.filled 0 (n - 1) (by omega) (by omega) (Or.inl (by omega))
    (n - 1) (by omega)
  simp only [Nat.zero_mul, Nat.zero_add] at hval
  have hread : tb.1[n - 1]? = some (tcost cost 0 (n - 1) (build n tb.2 (n - 1) 0 (n - 1))) := by
    rw [← hval]
    apply getElem?_eq_some_getD
    rw [hI.len1]
    have := cell_lt n 0 (n - 1) (by omega) (by omega)
    simpa using this
  refine ⟨tb, flat_triples ts, build n tb.2 (n - 1) 0 (n - 1), htb, ?_, hT, hread, hopt, ?_⟩
  · unfold triangulate_cost
    rw [if_neg (by omega), if_neg (by omega), htb]
    simp only [hrun, hread]
  · rw [triples_flat]
    exact hperm

theorem angle_loop_le (compl : K → K → K) (C : Nat → vec2 K) (B : K)
    (hB : ∀ y x, compl y x ≤ B) :
    ∀ (vs : List Nat) (m m' : K), m ≤ B → angle_loop compl C vs m = some m' → m' ≤ B := by
  intro vs
  induction vs with
  | nil =>
    intro m m' hm h
    simp only [angle_loop, Option.some.injEq] at h
    rw [← h]
    exact hm
  | cons v vs ih =>
    intro m m' hm h
    rw [angle_loop] at h
    split at h
    · cases h
    · exact ih _ m' (max_le hm (hB _ _)) h

/-- The value of `triangle_cost` is the sentinel or at most the bound of `compl`. -/
theorem triangle_cost_le (compl : K → K → K) (pts : List (vec2 K)) (i j k : Nat) (B : K)
    (hB : ∀ y x, compl y x ≤ B) (h0 : 0 ≤ B) :
    triangle_cost compl pts i j k = 1024 ∨ triangle_cost compl pts i j k ≤ B := by
  unfold triangle_cost
  cases h : angle_loop compl (corner3 pts i j k) [0, 1, 2] 0 with
  | none => exact Or.inl rfl
  | some m =>
    simp only
    split
    · exact Or.inl rfl
    · exact Or.inr (angle_loop_le compl _ B hB _ _ _ h0 h)

end Whole

/-! ## Triangles of a strictly convex polygon -/

section Convex

variable {K : Type} [LinearOrderedCommRing K]

theorem angle_nonpos_of_pos (y x : K) (h : 0 < y) : angle_nonpos y x = false := by
  unfold angle_nonpos
  have h1 : ¬ y < 0 := not_lt.2 (le_of_lt h)
  have h2 : ¬ y = 0 := ne_of_gt h
  simp [h1, h2]

theorem det_turn (p q r : vec2 K) :
    det (q.sub p) (r.sub q) = det (q.sub p) (r.sub p) := by
  simp only [det, vec2.sub]
  ring

theorem det_turn_rot (p q r : vec2 K) :
    det (r.sub q) (p.sub r) = det (q.sub p) (r.sub p) := by
  simp only [det, vec2.sub]
  ring

theorem det_turn_rot2 (p q r : vec2 K) :
    det (p.sub r) (q.sub p) = det (q.sub p) (r.sub p) := by
  simp only [det, vec2.sub]
  ring

theorem det_flip (p q r : vec2 K) :
    det (r.sub p) (q.sub p) = - det (q.sub p) (r.sub p) := by
  simp only [det, vec2.sub]
  ring

theorem inside_eq (C : Nat → vec2 K) (P : vec2 K) :
    inside C P = (decide (0 < det ((C 1).sub (C 0)) (P.sub (C 0))) &&
      (decide (0 < det ((C 2).sub (C 1)) (P.sub (C 1))) &&
        decide (0 < det ((C 3).sub (C 2)) (P.sub (C 2))))) := by
  unfold inside
  simp [List.range_succ]

end Convex

end RPD

namespace RPD

/-! ## Lemmas about `tessellate_non_convex_facets` -/

theorem keep_unflagged_congr {α : Type} (xs : List α) (d d' : List Nat)
    (h : ∀ g, g < xs.length → d.getD g 0 = d'.getD g 0) :
    keep_unflagged xs d = keep_unflagged xs d' := by
  induction xs generalizing d d' with
  | nil => cases d <;> cases d' <;> rfl
  | cons x xs ih =>
    have h0 := h 0 (by simp)
    have hs : ∀ (e e' : List Nat), (∀ g, g < (x :: xs).length → e.getD g 0 = e'.getD g 0) →
        ∀ g, g < xs.length → (e.drop 1).getD g 0 = (e'.drop 1).getD g 0 := by
      intro e e' he g hg
      have := he (g + 1) (by simp; omega)
      cases e <;> cases e' <;>
        simp only [List.drop_nil, List.drop_succ_cons, List.drop_zero, List.getD_nil,
          List.getD_cons_succ] at this ⊢ <;> exact this
    cases d with
    | nil =>
      cases d' with
      | nil => rfl
      | cons e' ds' =>
        simp only [List.getD_nil, List.getD_cons_zero] at h0
        simp only [keep_unflagged, ← h0, if_true]
        rw [← ih [] ds' (by simpa using hs [] (e' :: ds') h), keep_unflagged_nil_flags]
    | cons e ds =>
      cases d' with
      | nil =>
        simp only [List.getD_nil, List.getD_cons_zero] at h0
        simp only [keep_unflagged, h0, if_true]
        rw [ih ds [] (by simpa using hs (e :: ds) [] h), keep_unflagged_nil_flags]
      | cons e' ds' =>
        simp only [List.getD_cons_zero] at h0
        simp only [keep_unflagged, h0]
        rw [ih ds ds' (by simpa using hs (e :: ds) (e' :: ds') h)]

theorem keep_unflagged_append_zero {α : Type} (a b : List α) (d : List Nat)
    (h : ∀ g, a.length ≤ g → d.getD g 0 = 0) :
    keep_unflagged (a ++ b) d = keep_unflagged a d ++ b := by
  induction a generalizing d with
  | nil =>
    simp only [List.nil_append]
    rw [keep_unflagged_congr b d [] (by intro g _; simpa using h g (by simp)),
      keep_unflagged_nil_flags]
    cases d <;> rfl
  | cons x xs ih =>
    cases d with
    | nil => simp [keep_unflagged_nil_flags]
    | cons e ds =>
      have hds : ∀ g, xs.length ≤ g → ds.getD g 0 = 0 := by
        intro g hg
        simpa using h (g + 1) (by simp; omega)
      have ih' := ih ds hds
      rw [List.cons_append]
      simp only [keep_unflagged]
      split
      · rw [ih', List.cons_append]
      · exact ih'

theorem kept_index_cons (e : Nat) (ds : List Nat) (f : Nat) :
    kept_index (e :: ds) (f + 1) = (if e = 0 then 1 else 0) + kept_index ds f := by
  unfold kept_index
  rw [List.range_succ_eq_map]
  have hl := keep_unflagged_length_eq ((List.range f).map Nat.succ) (List.range f) ds (by simp)
  simp only [keep_unflagged]
  split
  · simp [hl]; omega
  · simp [hl]

theorem keep_unflagged_kept {α : Type} (xs : List α) (d : List Nat) (f : Nat)
    (hd : d.getD f 0 = 0) :
    (keep_unflagged xs d)[kept_index d f]? = xs[f]? := by
  induction f generalizing xs d with
  | zero =>
    have hk : kept_index d 0 = 0 := by
      unfold kept_index
      cases d <;> rfl
    rw [hk]
    cases xs with
    | nil => cases d <;> rfl
    | cons x xs =>
      cases d with
      | nil => rfl
      | cons e ds =>
        simp only [List.getD_cons_zero] at hd
        simp [keep_unflagged, hd]
  | succ f ih =>
    cases d with
    | nil =>
      have hk : kept_index [] (f + 1) = f + 1 := by
        unfold kept_index
        rw [keep_unflagged_nil_flags]
        simp
      rw [hk, keep_unflagged_nil_flags]
    | cons e ds =>
      have hds : ds.getD f 0 = 0 := by simpa using hd
      rw [kept_index_cons]
      cases xs with
      | nil =>
        simp [keep_unflagged]
      | cons x xs =>
        simp only [keep_unflagged]
        split
        · rw [Nat.add_comm, List.getElem?_cons_succ, List.getElem?_cons_succ]
          exact ih xs ds hds
        · rw [Nat.zero_add, List.getElem?_cons_succ]
          exact ih xs ds hds

section TessLemmas

variable {K : Type} [LinearOrderedCommRing K] {A : Type}

theorem orient_2d_same_left (p r : vec2 K) : orient_2d p p r = 0 := by
  simp [orient_2d, det, vec2.sub]

theorem orient_2d_same_right (p q : vec2 K) : orient_2d p q p = 0 := by
  simp [orient_2d, det, vec2.sub]

/-- A polygon with fewer than three vertices passes `polygon_is_convex`. -/
theorem polygon_is_convex_small (P : List (vec2 K)) (h : P.length < 3) :
    polygon_is_convex P = true := by
  match P, h with
  | [], _ => rfl
  | [a], _ =>
    simp [polygon_is_convex, convex_loop, List.range_succ, orient_2d_same_left]
  | [a, b], _ =>
    simp [polygon_is_convex, convex_loop, List.range_succ, orient_2d_same_left,
      orient_2d_same_right]

theorem triangles_of_bounds (i j : Nat) (T : Triangulation) (h : IsTriang i j T) :
    ∀ t ∈ triangles_of i j T, i ≤ t.1 ∧ t.1 < t.2.1 ∧ t.2.1 < t.2.2 ∧ t.2.2 ≤ j := by
  induction T generalizing i j with
  | leaf => intro t ht; simp [triangles_of] at ht
  | node k l r ihl ihr =>
    obtain ⟨h1, h2, h3, h4⟩ := h
    intro t ht
    simp only [triangles_of, List.mem_cons, List.mem_append] at ht
    rcases ht with ht | ht | ht
    · subst ht
      exact ⟨le_refl _, h1, h2, le_refl _⟩
    · have := ihl i k h3 t ht
      omega
    · have := ihr k j h4 t ht
      omega

/-- For at least four vertices and costs of at most `1024`, `triangulate_polygon` runs
to its end and returns the flat list of the triangles of a triangulation of the chain
`0..n-1`. -/
theorem triangulate_cost_flat (cost : Nat → Nat → Nat → K)
    (hc : ∀ a k b, cost a k b ≤ 1024) (n : Nat) (h4 : 4 ≤ n) (hn : n ≤ NO_INDEX) :
    ∃ b ts T,
      triangulate_cost cost n = .ok (b, flat_triples ts) ∧
      IsTriang 0 (n - 1) T ∧ ts.Perm (triangles_of 0 (n - 1) T) ∧
      b = decide (tcost cost 0 (n - 1) T < 1024) ∧
      (∀ T', IsTriang 0 (n - 1) T' → tcost cost 0 (n - 1) T ≤ tcost cost 0 (n - 1) T') := by
  obtain ⟨tb, htb, hI⟩ := dp_tables_spec cost hc n hn (by omega)
  have hsplit : ∀ i j, i + 2 ≤ j → j < n →
      i < tb.2.getD (i * n + j) 0 ∧ tb.2.getD (i * n + j) 0 < j :=
    fun i j hij hj => hI.split i j hij hj (Or.inl (by omega))
  obtain ⟨ts, hrun, hperm⟩ := replay_spec n tb.2 hn hI.len2 hsplit n [(0, n - 1, n - 1)] []
    (by
      intro c hc
      simp only [List.mem_singleton] at hc
      subst hc
      simp only
      omega)
    (by simp only [cells_size]; omega)
  simp only [List.map_cons, List.map_nil, Nat.zero_mul, Nat.zero_add, List.nil_append] at hrun
  simp only [cell_triangles, List.append_nil] at hperm
  obtain ⟨hT, hval, hopt, _⟩ := hI.filled 0 (n - 1) (by omega) (by omega) (Or.inl (by omega))
    (n - 1) (by omega)
  simp only [Nat.zero_mul, Nat.zero_add] at hval
  have hread : tb.1[n - 1]? = some (tcost cost 0 (n - 1) (build n tb.2 (n - 1) 0 (n - 1))) := by
    rw [← hval]
    apply getElem?_eq_some_getD
    rw [hI.len1]
    have := cell_lt n 0 (n - 1) (by omega) (by omega)
    simpa using this
  refine ⟨_, ts, build n tb.2 (n - 1) 0 (n - 1), ?_, hT, hperm, rfl, hopt⟩
  unfold triangulate_cost
  rw [if_neg (by omega), if_neg (by omega), htb]
  simp only [hrun, hread]

theorem create_polygons_facets (m : Mesh) (loops : List (List Nat)) :
    (create_polygons m loops).facets = m.facets ++ loops ∧
    (create_polygons m loops).nb_vertices = m.nb_vertices := by
  induction loops generalizing m with
  | nil => simp [create_polygons]
  | cons l ls ih =>
    have := ih (m.create_polygon l)
    simp only [create_polygons, List.foldl_cons] at this ⊢
    rw [this.1, this.2]
    simp [Mesh.create_polygon]

theorem create_triangles_flat (P_ind : List Nat) (f : Nat) (x : A)
    (ts : List (Nat × Nat × Nat))
    (hts : ∀ t ∈ ts, t.1 < P_ind.length ∧ t.2.1 < P_ind.length ∧ t.2.2 < P_ind.length)
    (st : TessState A) (hx : st.attrs[f]? = some x) :
    create_triangles P_ind f (flat_triples ts) st =
      .ok { mesh := create_polygons st.mesh (triangle_loops P_ind ts),
            attrs := st.attrs ++ List.replicate ts.length x,
            to_delete := st.to_delete } := by
  induction ts generalizing st with
  | nil =>
    simp [flat_triples, create_triangles, create_polygons, triangle_loops]
  | cons t ts ih =>
    obtain ⟨h1, h2, h3⟩ := hts t (List.mem_cons_self _ _)
    have hx' : (st.attrs ++ [x])[f]? = some x := by
      have hf : f < st.attrs.length := by
        by_contra hn
        rw [List.getElem?_eq_none (by omega)] at hx
        cases hx
      rw [List.getElem?_append_left hf]
      exact hx
    have := ih (fun t' ht' => hts t' (List.mem_cons_of_mem _ ht'))
      { mesh := st.mesh.create_polygon
          [P_ind.getD t.1 0, P_ind.getD t.2.1 0, P_ind.getD t.2.2 0],
        attrs := st.attrs ++ [x], to_delete := st.to_delete } hx'
    simp only [flat_triples, create_triangles]
    rw [getElem?_eq_some_getD P_ind t.1 0 h1, getElem?_eq_some_getD P_ind t.2.1 0 h2,
      getElem?_eq_some_getD P_ind t.2.2 0 h3, hx]
    simp only
    rw [this]
    simp [create_polygons, triangle_loops, List.replicate_succ]

theorem getD_resize_zero (d : List Nat) (n g : Nat) (h : d.length ≤ n) :
    (resize d n 0).getD g 0 = d.getD g 0 := by
  rw [resize_of_le d n 0 h]
  simp only [List.getD_eq_getElem?_getD]
  by_cases hg : g < d.length
  · rw [List.getElem?_append_left hg]
  · rw [List.getElem?_append_right (by omega), List.getElem?_eq_none (by omega : d.length ≤ g)]
    by_cases hg2 : g - d.length < n - d.length
    · rw [List.getElem?_replicate_of_lt hg2]
      rfl
    · rw [List.getElem?_eq_none (by simp; omega)]

theorem triangles_of_length (i j : Nat) (T : Triangulation) (h : IsTriang i j T) :
    (triangles_of i j T).length = j - i - 1 := by
  induction T generalizing i j with
  | leaf =>
    simp only [IsTriang] at h
    simp [triangles_of, h]
  | node k l r ihl ihr =>
    obtain ⟨h1, h2, h3, h4⟩ := h
    simp only [triangles_of, List.length_cons, List.length_append, ihl i k h3, ihr k j h4]
    omega

/-- One pass of the facet loop of `tessellate_non_convex_facets`: it runs to its end,
and either leaves the state as it is (`flag = false`: the polygon is convex or
`triangulate_polygon` returned `false`) or flags the facet and appends the triangles of a
triangulation of the vertex chain (`flag = true`). -/
theorem tessellate_facet_step (compl : K → K → K) (proj : Nat → Nat → vec2 K)
    (hcompl : ∀ y x, compl y x ≤ 1024) (st : TessState A) (f : Nat) (x : A)
    (hx : st.attrs[f]? = some x) (hn : (st.mesh.loop f).length ≤ NO_INDEX) :
    ∃ (flag : Bool) (ts : List (Nat × Nat × Nat)),
      tessellate_facet compl proj st f =
        .ok { mesh := create_polygons st.mesh (triangle_loops (st.mesh.loop f) ts),
              attrs := st.attrs ++ List.replicate ts.length x,
              to_delete := if flag = true then
                  (resize st.to_delete st.mesh.facets.length 0).set f 1
                else st.to_delete } ∧
      (flag = false → ts = [] ∧
        (polygon_is_convex (get_mesh_polygon2d st.mesh f proj).1 = true ∨
          ∃ tr, triangulate_polygon compl (get_mesh_polygon2d st.mesh f proj).1 =
            .ok (false, tr))) ∧
      (flag = true →
        polygon_is_convex (get_mesh_polygon2d st.mesh f proj).1 = false ∧
        triangulate_polygon compl (get_mesh_polygon2d st.mesh f proj).1 =
          .ok (true, flat_triples ts) ∧
        ∃ T, IsTriang 0 ((st.mesh.loop f).length - 1) T ∧
          ts.Perm (triangles_of 0 ((st.mesh.loop f).length - 1) T)) := by
  have hlen : (get_mesh_polygon2d st.mesh f proj).1.length = (st.mesh.loop f).length := by
    simp [get_mesh_polygon2d]
  have hP2 : (get_mesh_polygon2d st.mesh f proj).2 = st.mesh.loop f := rfl
  have hsame : ∀ (s : TessState A),
      s = { mesh := create_polygons s.mesh (triangle_loops (s.mesh.loop f) []),
            attrs := s.attrs ++ List.replicate ([] : List (Nat × Nat × Nat)).length x,
            to_delete := s.to_delete } := by
    intro s
    cases s
    simp [create_polygons, triangle_loops]
  by_cases hconv : polygon_is_convex (get_mesh_polygon2d st.mesh f proj).1 = true
  · refine ⟨false, [], ?_, fun _ => ⟨rfl, Or.inl hconv⟩, fun h => by cases h⟩
    unfold tessellate_facet
    rw [if_pos hconv]
    simp only [Bool.false_eq_true, if_false]
    exact congrArg Except.ok (hsame st)
  · have h3 : 3 ≤ (st.mesh.loop f).length := by
      by_contra hlt
      exact hconv (polygon_is_convex_small _ (by rw [hlen]; omega))
    have hc : ∀ a k b,
        triangle_cost compl (get_mesh_polygon2d st.mesh f proj).1 a k b ≤ 1024 := by
      intro a k b
      rcases triangle_cost_le compl _ a k b 1024 hcompl (by norm_num) with h1 | h1
      · exact le_of_eq h1
      · exact h1
    have hrun : ∃ b ts T,
        triangulate_polygon compl (get_mesh_polygon2d st.mesh f proj).1 =
          .ok (b, flat_triples ts) ∧
        IsTriang 0 ((st.mesh.loop f).length - 1) T ∧
        ts.Perm (triangles_of 0 ((st.mesh.loop f).length - 1) T) := by
      by_cases h4 : 4 ≤ (st.mesh.loop f).length
      · obtain ⟨b, ts, T, h1, h2, h3', _, _⟩ := triangulate_cost_flat
          (fun a k b => triangle_cost compl (get_mesh_polygon2d st.mesh f proj).1 a k b) hc
          (get_mesh_polygon2d st.mesh f proj).1.length (by rw [hlen]; exact h4)
          (by rw [hlen]; exact hn)
        rw [hlen] at h2 h3'
        exact ⟨b, ts, T, h1, h2, h3'⟩
      · have e3 : (st.mesh.loop f).length = 3 := by omega
        refine ⟨true, [(0, 1, 2)], .node 1 .leaf .leaf, ?_, ?_, ?_⟩
        · unfold triangulate_polygon triangulate_cost
          rw [hlen, if_neg (by omega), if_pos e3]
          rfl
        · rw [e3]
          simp [IsTriang]
        · rw [e3]
          simp [triangles_of]
    obtain ⟨b, ts, T, hrun, hT, hperm⟩ := hrun
    have hfalse : polygon_is_convex (get_mesh_polygon2d st.mesh f proj).1 = false := by
      simpa using hconv
    cases b with
    | false =>
      refine ⟨false, [], ?_, fun _ => ⟨rfl, Or.inr ⟨_, hrun⟩⟩, fun h => by cases h⟩
      unfold tessellate_facet
      rw [if_neg hconv, hrun]
      simp only [Bool.false_eq_true, if_false]
      exact congrArg Except.ok (hsame st)
    | true =>
      refine ⟨true, ts, ?_, fun h => (by cases h), fun _ => ⟨hfalse, hrun, T, hT, hperm⟩⟩
      unfold tessellate_facet
      rw [if_neg hconv, hrun]
      simp only [if_true]
      rw [hP2]
      have hb : ∀ t ∈ ts, t.1 < (st.mesh.loop f).length ∧ t.2.1 < (st.mesh.loop f).length ∧
          t.2.2 < (st.mesh.loop f).length := by
        intro t ht
        have := triangles_of_bounds 0 _ T hT t (hperm.mem_iff.1 ht)
        omega
      exact create_triangles_flat (st.mesh.loop f) f x ts hb
        { mesh := st.mesh, attrs := st.attrs,
          to_delete := (resize st.to_delete st.mesh.facets.length 0).set f 1 } hx

theorem angle_loop_ge (compl : K → K → K) (C : Nat → vec2 K) :
    ∀ (vs : List Nat) (m m' : K), angle_loop compl C vs m = some m' → m ≤ m' := by
  intro vs
  induction vs with
  | nil =>
    intro m m' h
    simp only [angle_loop, Option.some.injEq] at h
    exact le_of_eq h
  | cons v vs ih =>
    intro m m' h
    rw [angle_loop] at h
    split at h
    · cases h
    · exact le_trans (le_max_left _ _) (ih _ m' h)

/-- The value of `triangle_cost` is never negative. -/
theorem triangle_cost_nonneg (compl : K → K → K) (pts : List (vec2 K)) (i j k : Nat) :
    0 ≤ triangle_cost compl pts i j k := by
  unfold triangle_cost
  cases h : angle_loop compl (corner3 pts i j k) [0, 1, 2] 0 with
  | none => norm_num
  | some m =>
    simp only
    split
    · norm_num
    · exact angle_loop_ge compl _ _ _ _ h

/-- A triangle that turns strictly right costs the sentinel. -/
theorem triangle_cost_of_neg (compl : K → K → K) (pts : List (vec2 K)) (i j k : Nat)
    (h : det ((pts.getD j vec2.zero).sub (pts.getD i vec2.zero))
      ((pts.getD k vec2.zero).sub (pts.getD i vec2.zero)) < 0) :
    triangle_cost compl pts i j k = 1024 := by
  have e0 : corner3 pts i j k 0 = pts.getD i vec2.zero := rfl
  have e1 : corner3 pts i j k 1 = pts.getD j vec2.zero := rfl
  have e2 : corner3 pts i j k 2 = pts.getD k vec2.zero := rfl
  have hloop : angle_loop compl (corner3 pts i j k) [0, 1, 2] 0 = none := by
    rw [angle_loop]
    simp only [Nat.zero_add, Nat.reduceAdd, e0, e1, e2]
    rw [if_pos]
    unfold angle_nonpos
    rw [det_turn, decide_eq_true h]
    rfl
  unfold triangle_cost
  rw [hloop]

/-- A triangle that turns strictly left and has none of the other polygon vertices
strictly inside costs at most the bound of `compl`. -/
theorem triangle_cost_admissible (compl : K → K → K) (pts : List (vec2 K)) (i j k : Nat)
    (B : K) (hB : ∀ y x, compl y x ≤ B) (h0 : 0 ≤ B)
    (hor : 0 < det ((pts.getD j vec2.zero).sub (pts.getD i vec2.zero))
      ((pts.getD k vec2.zero).sub (pts.getD i vec2.zero)))
    (hout : ∀ o, o < pts.length → o ≠ i → o ≠ j → o ≠ k →
      inside (corner3 pts i j k) (pts.getD o vec2.zero) = false) :
    triangle_cost compl pts i j k ≤ B := by
  have e0 : corner3 pts i j k 0 = pts.getD i vec2.zero := rfl
  have e1 : corner3 pts i j k 1 = pts.getD j vec2.zero := rfl
  have e2 : corner3 pts i j k 2 = pts.getD k vec2.zero := rfl
  have e3 : corner3 pts i j k 3 = pts.getD i vec2.zero := rfl
  have e4 : corner3 pts i j k 4 = pts.getD j vec2.zero := rfl
  have hloop : ∃ m, angle_loop compl (corner3 pts i j k) [0, 1, 2] 0 = some m := by
    simp only [angle_loop, Nat.zero_add, Nat.reduceAdd, e0, e1, e2, e3, e4]
    rw [if_neg (by rw [angle_nonpos_of_pos _ _ (by rw [det_turn]; exact hor)]; simp),
      if_neg (by rw [angle_nonpos_of_pos _ _ (by rw [det_turn_rot]; exact hor)]; simp),
      if_neg (by rw [angle_nonpos_of_pos _ _ (by rw [det_turn_rot2]; exact hor)]; simp)]
    exact ⟨_, rfl⟩
  obtain ⟨m, hm⟩ := hloop
  have hany : (List.range pts.length).any (fun other =>
      !(decide (other = i) || decide (other = j) || decide (other = k)) &&
      inside (corner3 pts i j k) (pts.getD other vec2.zero)) = false := by
    rw [List.any_eq_false]
    intro o ho
    rw [List.mem_range] at ho
    by_cases h1 : o = i
    · simp [h1]
    · by_cases h2 : o = j
      · simp [h2]
      · by_cases h3 : o = k
        · simp [h3]
        · rw [hout o ho h1 h2 h3]
          simp
  unfold triangle_cost
  rw [hm]
  simp only [hany]
  exact angle_loop_le compl _ B hB _ _ _ h0 hm

/-- The two triangulations of a chain of four vertices. -/
theorem isTriang_quad (T : Triangulation) (h : IsTriang 0 3 T) :
    T = .node 1 .leaf (.node 2 .leaf .leaf) ∨ T = .node 2 (.node 1 .leaf .leaf) .leaf := by
  have leaf_of : ∀ (i : Nat) (U : Triangulation), IsTriang i (i + 1) U → U = .leaf := by
    intro i U hU
    cases U with
    | leaf => rfl
    | node k l r =>
      simp only [IsTriang] at hU
      omega
  have tri_of : ∀ (i : Nat) (U : Triangulation), IsTriang i (i + 2) U →
      U = .node (i + 1) .leaf .leaf := by
    intro i U hU
    cases U with
    | leaf =>
      simp only [IsTriang] at hU
      omega
    | node k l r =>
      simp only [IsTriang] at hU
      obtain ⟨h1, h2, h3, h4⟩ := hU
      have hk : k = i + 1 := by omega
      subst hk
      rw [leaf_of i l h3, leaf_of (i + 1) r h4]
  cases T with
  | leaf =>
    simp only [IsTriang] at h
    omega
  | node k l r =>
    simp only [IsTriang] at h
    obtain ⟨h1, h2, h3, h4⟩ := h
    have hk : k = 1 ∨ k = 2 := by omega
    rcases hk with rfl | rfl
    · left
      rw [leaf_of 0 l h3, tri_of 1 r h4]
    · right
      rw [tri_of 0 l h3, leaf_of 2 r h4]

theorem loop_append_left (mesh : Mesh) (st : Mesh) (extra : List (List Nat)) (f : Nat)
    (h : st.facets = mesh.facets ++ extra) (hf : f < mesh.facets.length) :
    st.loop f = mesh.loop f := by
  unfold Mesh.loop
  rw [h]
  simp [List.getD_eq_getElem?_getD, List.getElem?_append_left hf]

theorem tessellate_loop_inv (compl : K → K → K) (proj : Nat → Nat → vec2 K)
    (hcompl : ∀ y x, compl y x ≤ 1024) (mesh : Mesh) (attrs : List A)
    (hattrs : attrs.length = mesh.facets.length)
    (hsize : ∀ f, mesh.facet_nb_vertices f ≤ NO_INDEX) :
    ∀ (fs : List Nat), (∀ f ∈ fs, f < mesh.facets.length) →
      ∀ (st : TessState A) (created : List (List Nat × A)),
        TessInv compl proj mesh attrs st created →
        ∃ st' created', tessellate_loop compl proj fs st = .ok st' ∧
          TessInv compl proj mesh attrs st' created' := by
  intro fs
  induction fs with
  | nil =>
    intro _ st created hI
    exact ⟨st, created, rfl, hI⟩
  | cons f fs ih =>
    intro hfs st created hI
    have hf : f < mesh.facets.length := hfs f (List.mem_cons_self _ _)
    have hloop : st.mesh.loop f = mesh.loop f :=
      loop_append_left mesh st.mesh _ f hI.facets hf
    have hpoly : get_mesh_polygon2d st.mesh f proj = get_mesh_polygon2d mesh f proj := by
      unfold get_mesh_polygon2d
      rw [hloop]
    obtain ⟨x, hx0⟩ : ∃ x, attrs[f]? = some x :=
      ⟨attrs[f], List.getElem?_eq_getElem (by omega)⟩
    have hx : st.attrs[f]? = some x := by
      rw [hI.attrs_eq, List.getElem?_append_left (by omega)]
      exact hx0
    obtain ⟨flag, ts, hstep, hno, hyes⟩ := tessellate_facet_step compl proj hcompl st f x hx
      (by rw [hloop]; exact hsize f)
    have hI' : TessInv compl proj mesh attrs
        { mesh := create_polygons st.mesh (triangle_loops (st.mesh.loop f) ts),
          attrs := st.attrs ++ List.replicate ts.length x,
          to_delete := if flag = true then
              (resize st.to_delete st.mesh.facets.length 0).set f 1
            else st.to_delete }
        (created ++ (triangle_loops (st.mesh.loop f) ts).map (fun l => (l, x))) := by
      have hfac := (create_polygons_facets st.mesh (triangle_loops (st.mesh.loop f) ts)).1
      constructor
      · simp only [hfac, hI.facets, List.map_append, List.map_map, List.append_assoc]
        congr 2
        simp [Function.comp_def]
      · simp only [hI.attrs_eq, List.map_append, List.map_map, List.append_assoc]
        congr 2
        simp [Function.comp_def, triangle_loops, List.eq_replicate_iff]
      · simp only [hfac, List.length_append]
        split
        · simp [resize, List.length_set]
          have := hI.flags_len
          omega
        · have := hI.flags_len
          omega
      · intro g hg
        split
        · rw [getD_set_ne _ _ _ _ _ (by omega), getD_resize_zero _ _ _ hI.flags_len]
          exact hI.flags_new g hg
        · exact hI.flags_new g hg
      · intro g hg
        split
        · rename_i hflag
          obtain ⟨hnc, hok, _⟩ := hyes hflag
          rw [hpoly] at hnc hok
          have hne : f ≠ g := by
            rintro rfl
            rcases hg with hg | ⟨tr, hg⟩
            · rw [hg] at hnc
              cases hnc
            · rw [hok] at hg
              cases hg
          rw [getD_set_ne _ _ _ _ _ hne, getD_resize_zero _ _ _ hI.flags_len]
          exact hI.flags_kept g hg
        · exact hI.flags_kept g hg
    obtain ⟨st', created', hrun, hfin⟩ :=
      ih (fun g hg => hfs g (List.mem_cons_of_mem _ hg)) _ _ hI'
    refine ⟨st', created', ?_, hfin⟩
    simp only [tessellate_loop, hstep]
    exact hrun

/-- The function `tessellate_non_convex_facets` runs to its end on every mesh whose
angle values are at most the sentinel; the result is the list of the original facets
without the flagged ones, followed by the created triangles, and no facet that is convex
or whose triangulation failed is flagged. -/
theorem tessellate_spec (compl : K → K → K) (proj : Nat → Nat → vec2 K)
    (hcompl : ∀ y x, compl y x ≤ 1024) (mesh : Mesh) (attrs : List A)
    (hattrs : attrs.length = mesh.facets.length)
    (hsize : ∀ f, mesh.facet_nb_vertices f ≤ NO_INDEX) :
    ∃ (result : Mesh × List A) (to_delete : List Nat) (created : List (List Nat × A)),
      tessellate_non_convex_facets compl proj mesh attrs = .ok result ∧
      result.1.facets = keep_unflagged mesh.facets to_delete ++ created.map Prod.fst ∧
      result.2 = keep_unflagged attrs to_delete ++ created.map Prod.snd ∧
      ∀ g, (polygon_is_convex (get_mesh_polygon2d mesh g proj).1 = true ∨
          ∃ tr, triangulate_polygon compl (get_mesh_polygon2d mesh g proj).1 =
            .ok (false, tr)) →
        to_delete.getD g 0 = 0 := by
  obtain ⟨st, created, hrun, hI⟩ := tessellate_loop_inv compl proj hcompl mesh attrs hattrs
    hsize (List.range mesh.facets.length) (fun f hf => List.mem_range.1 hf)
    { mesh := mesh, attrs := attrs, to_delete := [] } []
    { facets := by simp
      attrs_eq := by simp
      flags_len := by simp
      flags_new := by intro g _; rfl
      flags_kept := by intro g _; rfl }
  unfold tessellate_non_convex_facets
  rw [hrun]
  by_cases hz : st.to_delete.length ≠ 0
  · refine ⟨_, st.to_delete, created, by simp only []; rw [if_pos hz], ?_, ?_, hI.flags_kept⟩
    · simp only [delete_facets]
      rw [keep_unflagged_congr _ _ st.to_delete
        (fun g _ => getD_resize_zero _ _ g hI.flags_len), hI.facets]
      exact keep_unflagged_append_zero _ _ _ hI.flags_new
    · simp only [delete_facets]
      rw [keep_unflagged_congr _ _ st.to_delete
        (fun g _ => getD_resize_zero _ _ g hI.flags_len), hI.attrs_eq]
      exact keep_unflagged_append_zero _ _ _ (by rw [hattrs]; exact hI.flags_new)
  · have hnil : st.to_delete = [] := by
      have : st.to_delete.length = 0 := by
        by_contra h
        exact hz h
      exact List.length_eq_zero.1 this
    refine ⟨_, [], created, by simp only []; rw [if_neg hz], ?_, ?_, fun _ _ => rfl⟩
    · simp only [keep_unflagged_nil_flags]
      exact hI.facets
    · simp only [keep_unflagged_nil_flags]
      exact hI.attrs_eq

end TessLemmas

end RPD

namespace RPD

/-! ## Lemmas about the traversal callback -/

theorem SameCell.refl {G S : Type} (cb : Callback G S) : SameCell cb cb :=
  ⟨rfl, rfl, rfl, rfl, rfl, rfl, rfl⟩

theorem SameCell.trans {G S : Type} {a b c : Callback G S} (h1 : SameCell a b)
    (h2 : SameCell b c) : SameCell a c :=
  ⟨h2.seed.trans h1.seed, h2.simplex.trans h1.simplex, h2.last_seed.trans h1.last_seed,
    h2.internal.trans h1.internal, h2.voronoi.trans h1.voronoi,
    h2.tessellate.trans h1.tessellate, h2.use_mesh.trans h1.use_mesh⟩

section CallbackLemmas

variable {G S : Type} [DecidableEq S]

theorem run_calls_append (cb : Callback G S) (a b : List (Call G S)) :
    run_calls cb (a ++ b) =
      match run_calls cb a with
      | .error e => .error e
      | .ok cb' => run_calls cb' b := by
  induction a generalizing cb with
  | nil => rfl
  | cons c cs ih =>
    simp only [List.cons_append, run_calls]
    cases run_call cb c with
    | error e => rfl
    | ok cb' => exact ih cb'

/-- What every call of a facet method leaves as it is, and what it appends to the
output. -/
theorem run_call_effect (cb cb' : Callback G S) (c : Call G S) (h : run_call cb c = .ok cb') :
    SameCell cb cb' ∧
    ∃ ev, cb'.out = cb.out ++ ev ∧ (∀ e ∈ ev, e.is_facet_event = true) ∧
      (cb.use_mesh_ = true → ev = []) ∧
      (cb.use_mesh_ = false → cb'.mesh_ = cb.mesh_ ∧ cb'.vertex_map_ = cb.vertex_map_ ∧
        cb'.base_current_facet_ = cb.base_current_facet_) := by
  cases c with
  | begin_facet_internal fs ft =>
    simp only [run_call, Except.ok.injEq] at h
    subst h
    unfold begin_facet_internal
    split
    · exact ⟨⟨rfl, rfl, rfl, rfl, rfl, rfl, rfl⟩, [], by simp, by simp, fun _ => rfl,
        fun _ => ⟨rfl, rfl, rfl⟩⟩
    · split
      · exact ⟨⟨rfl, rfl, rfl, rfl, rfl, rfl, rfl⟩, [], by simp, by simp, fun _ => rfl,
          fun _ => ⟨rfl, rfl, rfl⟩⟩
      · rename_i hm
        exact ⟨⟨rfl, rfl, rfl, rfl, rfl, rfl, rfl⟩, [Event.begin_facet fs ft], rfl,
          by simp [Event.is_facet_event], fun hu => absurd hu hm, fun _ => ⟨rfl, rfl, rfl⟩⟩
  | vertex_internal g s =>
    simp only [run_call] at h
    unfold vertex_internal at h
    split at h
    · simp only [Except.ok.injEq] at h
      subst h
      exact ⟨SameCell.refl _, [], by simp, by simp, fun _ => rfl, fun _ => ⟨rfl, rfl, rfl⟩⟩
    · split at h
      · rename_i hu
        split at h
        · cases h
        · split at h
          · simp only [Except.ok.injEq] at h
            subst h
            exact ⟨⟨rfl, rfl, rfl, rfl, rfl, rfl, rfl⟩, [], by simp, by simp, fun _ => rfl,
              fun hf => by rw [hu] at hf; cases hf⟩
          · split at h
            · simp only [Except.ok.injEq] at h
              subst h
              exact ⟨⟨rfl, rfl, rfl, rfl, rfl, rfl, rfl⟩, [], by simp, by simp, fun _ => rfl,
                fun hf => by rw [hu] at hf; cases hf⟩
            · cases h
      · rename_i hu
        simp only [Except.ok.injEq] at h
        subst h
        exact ⟨⟨rfl, rfl, rfl, rfl, rfl, rfl, rfl⟩, [Event.vertex g s], rfl,
          by simp [Event.is_facet_event], fun hf => absurd hf hu, fun _ => ⟨rfl, rfl, rfl⟩⟩
  | end_facet_internal =>
    simp only [run_call, Except.ok.injEq] at h
    subst h
    unfold end_facet_internal
    split
    · exact ⟨⟨rfl, rfl, rfl, rfl, rfl, rfl, rfl⟩, [], by simp, by simp, fun _ => rfl,
        fun _ => ⟨rfl, rfl, rfl⟩⟩
    · split
      · rename_i hu
        exact ⟨⟨rfl, rfl, rfl, rfl, rfl, rfl, rfl⟩, [], by simp, by simp, fun _ => rfl,
          fun hf => by rw [hu] at hf; cases hf⟩
      · rename_i hm
        exact ⟨⟨rfl, rfl, rfl, rfl, rfl, rfl, rfl⟩, [Event.end_facet], rfl,
          by simp [Event.is_facet_event], fun hu => absurd hu hm, fun _ => ⟨rfl, rfl, rfl⟩⟩

/-- What a sequence of calls of the facet methods leaves as it is, and what it appends to
the output. -/
theorem run_calls_effect (calls : List (Call G S)) :
    ∀ (cb cb' : Callback G S), run_calls cb calls = .ok cb' →
      SameCell cb cb' ∧
      ∃ ev, cb'.out = cb.out ++ ev ∧ (∀ e ∈ ev, e.is_facet_event = true) ∧
        (cb.use_mesh_ = true → ev = []) ∧
        (cb.use_mesh_ = false → cb'.mesh_ = cb.mesh_ ∧ cb'.vertex_map_ = cb.vertex_map_ ∧
          cb'.base_current_facet_ = cb.base_current_facet_) := by
  induction calls with
  | nil =>
    intro cb cb' h
    simp only [run_calls, Except.ok.injEq] at h
    subst h
    exact ⟨SameCell.refl _, [], by simp, by simp, fun _ => rfl, fun _ => ⟨rfl, rfl, rfl⟩⟩
  | cons c cs ih =>
    intro cb cb' h
    simp only [run_calls] at h
    cases h1 : run_call cb c with
    | error e => rw [h1] at h; cases h
    | ok cb1 =>
      rw [h1] at h
      obtain ⟨s1, ev1, ho1, hf1, hb1, hd1⟩ := run_call_effect cb cb1 c h1
      obtain ⟨s2, ev2, ho2, hf2, hb2, hd2⟩ := ih cb1 cb' h
      refine ⟨s1.trans s2, ev1 ++ ev2, ?_, ?_, ?_, ?_⟩
      · rw [ho2, ho1, List.append_assoc]
      · intro e he
        rcases List.mem_append.1 he with he | he
        · exact hf1 e he
        · exact hf2 e he
      · intro hu
        rw [hb1 hu, hb2 (by rw [s1.use_mesh]; exact hu)]
        rfl
      · intro hu
        obtain ⟨a1, a2, a3⟩ := hd1 hu
        obtain ⟨b1, b2, b3⟩ := hd2 (by rw [s1.use_mesh]; exact hu)
        exact ⟨b1.trans a1, b2.trans a2, b3.trans a3⟩

theorem run_calls_begin (cb : Callback G S) (a b : Nat) (cs : List (Call G S)) :
    run_calls cb (Call.begin_facet_internal a b :: cs) =
      run_calls (begin_facet_internal cb a b) cs := rfl

theorem run_calls_vertex (cb : Callback G S) (g : G) (s : S) (cs : List (Call G S)) :
    run_calls cb (Call.vertex_internal g s :: cs) =
      match vertex_internal cb g s with
      | .error e => .error e
      | .ok cb' => run_calls cb' cs := rfl

theorem run_calls_end (cb : Callback G S) :
    run_calls cb [Call.end_facet_internal] = .ok (end_facet_internal cb) := rfl

/-- In the direct-forwarding variant the vertex calls of a facet that is not skipped
append one `vertex` event each. -/
theorem run_calls_vertices_direct (verts : List (G × S)) :
    ∀ (cb : Callback G S), cb.use_mesh_ = false → cb.facet_is_skipped_ = false →
      run_calls cb (verts.map (fun p => Call.vertex_internal p.1 p.2)) =
        .ok { cb with out := cb.out ++ verts.map (fun p => Event.vertex p.1 p.2) } := by
  induction verts with
  | nil =>
    intro cb _ _
    simp [run_calls]
  | cons p ps ih =>
    intro cb hu hs
    have hv : vertex_internal cb p.1 p.2 =
        .ok { cb with out := cb.out ++ [Event.vertex p.1 p.2] } := by
      unfold vertex_internal
      rw [if_neg (by rw [hs]; simp), if_neg (by rw [hu]; simp)]
    rw [List.map_cons, run_calls_vertex, hv]
    simp only
    rw [ih { cb with out := cb.out ++ [Event.vertex p.1 p.2] } hu hs]
    simp

/-- The vertex calls of a skipped facet do nothing. -/
theorem run_calls_vertices_skipped (verts : List (G × S)) (cb : Callback G S)
    (hs : cb.facet_is_skipped_ = true) :
    run_calls cb (verts.map (fun p => Call.vertex_internal p.1 p.2)) = .ok cb := by
  induction verts with
  | nil => rfl
  | cons p ps ih =>
    have hv : vertex_internal cb p.1 p.2 = .ok cb := by
      unfold vertex_internal
      rw [if_pos hs]
    rw [List.map_cons, run_calls_vertex, hv]
    exact ih

/-- The direct-forwarding variant delivers `facet_events` for one dual vertex. -/
theorem run_calls_facet_direct (dv : DualVertex G S) (cb : Callback G S)
    (hu : cb.use_mesh_ = false) :
    ∃ cb', run_calls cb (facet_calls dv) = .ok cb' ∧
      cb'.out = cb.out ++ facet_events cb.simplify_internal_tet_facets_ dv := by
  unfold facet_calls facet_events
  by_cases ht : dv.vertex_triangle = -1
  · rw [if_pos ht, if_pos ht]
    exact ⟨cb, rfl, by simp⟩
  · rw [if_neg ht, if_neg ht, run_calls_begin, run_calls_append]
    by_cases hskip : (cb.simplify_internal_tet_facets_ &&
        decide ((decode_adjacent dv.vertex_id).2 ≠ NO_INDEX)) = true
    · have hb : (begin_facet_internal cb (decode_adjacent dv.vertex_id).1
          (decode_adjacent dv.vertex_id).2).facet_is_skipped_ = true := by
        unfold begin_facet_internal
        rw [if_pos hskip]
      have hout : (begin_facet_internal cb (decode_adjacent dv.vertex_id).1
          (decode_adjacent dv.vertex_id).2).out = cb.out := by
        unfold begin_facet_internal
        rw [if_pos hskip]
      rw [run_calls_vertices_skipped _ _ hb, if_pos hskip]
      simp only [run_calls_end]
      refine ⟨_, rfl, ?_⟩
      unfold end_facet_internal
      rw [if_pos hb]
      simp [hout]
    · have hb : (begin_facet_internal cb (decode_adjacent dv.vertex_id).1
          (decode_adjacent dv.vertex_id).2).facet_is_skipped_ = false := by
        unfold begin_facet_internal
        rw [if_neg hskip, if_neg (by rw [hu]; simp)]
      have hbu : (begin_facet_internal cb (decode_adjacent dv.vertex_id).1
          (decode_adjacent dv.vertex_id).2).use_mesh_ = false := by
        unfold begin_facet_internal
        rw [if_neg hskip, if_neg (by rw [hu]; simp)]
        exact hu
      have hout : (begin_facet_internal cb (decode_adjacent dv.vertex_id).1
          (decode_adjacent dv.vertex_id).2).out = cb.out ++
            [Event.begin_facet (decode_adjacent dv.vertex_id).1
              (decode_adjacent dv.vertex_id).2] := by
        unfold begin_facet_internal
        rw [if_neg hskip, if_neg (by rw [hu]; simp)]
      rw [run_calls_vertices_direct _ _ hbu hb, if_neg hskip]
      simp only [run_calls_end]
      refine ⟨_, rfl, ?_⟩
      unfold end_facet_internal
      simp only [hb, hbu, Bool.false_eq_true, if_false, hout]
      simp

/-- The direct-forwarding variant delivers `cell_events` for the facets of a cell. -/
theorem run_calls_cell_direct (dvs : List (DualVertex G S)) :
    ∀ (cb : Callback G S), cb.use_mesh_ = false →
      ∃ cb', run_calls cb (cell_calls dvs) = .ok cb' ∧
        cb'.out = cb.out ++ dvs.flatMap (facet_events cb.simplify_internal_tet_facets_) := by
  induction dvs with
  | nil =>
    intro cb _
    exact ⟨cb, rfl, by simp⟩
  | cons dv dvs ih =>
    intro cb hu
    obtain ⟨cb1, h1, ho1⟩ := run_calls_facet_direct dv cb hu
    obtain ⟨s1, _⟩ := run_calls_effect _ _ _ h1
    obtain ⟨cb2, h2, ho2⟩ := ih cb1 (by rw [s1.use_mesh]; exact hu)
    refine ⟨cb2, ?_, ?_⟩
    · simp only [cell_calls, List.flatMap_cons] at h2 ⊢
      rw [run_calls_append, h1]
      exact h2
    · rw [ho2, ho1, s1.internal]
      simp

end CallbackLemmas

section ReplayLemmas

variable {G S : Type}

theorem replay_loop_effect (vertices : List (G × S)) (loop : List Nat) :
    ∀ (cb cb' : Callback G S), replay_loop vertices loop cb = .ok cb' →
      SameCell cb cb' ∧ cb'.mesh_ = cb.mesh_ ∧ cb'.vertex_map_ = cb.vertex_map_ ∧
      cb'.base_current_facet_ = cb.base_current_facet_ ∧
      ∃ ev, cb'.out = cb.out ++ ev ∧ (∀ e ∈ ev, e.is_facet_event = true) ∧
        loop_events vertices loop = some ev := by
  induction loop with
  | nil =>
    intro cb cb' h
    simp only [replay_loop, Except.ok.injEq] at h
    subst h
    exact ⟨SameCell.refl _, rfl, rfl, rfl, [], by simp, by simp, rfl⟩
  | cons v vs ih =>
    intro cb cb' h
    simp only [replay_loop] at h
    cases hv : vertices[v]? with
    | none => rw [hv] at h; cases h
    | some p =>
      rw [hv] at h
      simp only at h
      obtain ⟨s1, m1, v1, b1, ev, ho, hf, hl⟩ := ih _ cb' h
      refine ⟨⟨s1.seed, s1.simplex, s1.last_seed, s1.internal, s1.voronoi, s1.tessellate,
        s1.use_mesh⟩, m1, v1, b1, Event.vertex p.1 p.2 :: ev, ?_, ?_, ?_⟩
      · rw [ho]
        simp
      · intro e he
        rcases List.mem_cons.1 he with rfl | he
        · rfl
        · exact hf e he
      · simp only [loop_events, hv, hl]

theorem replay_loop_of_events (vertices : List (G × S)) (loop : List Nat) :
    ∀ (cb : Callback G S) (es : List (Event G S)), loop_events vertices loop = some es →
      replay_loop vertices loop cb = .ok { cb with out := cb.out ++ es } := by
  induction loop with
  | nil =>
    intro cb es h
    simp only [loop_events, Option.some.injEq] at h
    subst h
    simp [replay_loop]
  | cons v vs ih =>
    intro cb es h
    simp only [loop_events] at h
    cases hv : vertices[v]? with
    | none => rw [hv] at h; cases h
    | some p =>
      cases hl : loop_events vertices vs with
      | none => rw [hv, hl] at h; cases h
      | some es' =>
        rw [hv, hl] at h
        simp only [Option.some.injEq] at h
        subst h
        simp only [replay_loop, hv]
        rw [ih _ es' hl]
        simp

theorem replay_facets_effect (vertices : List (G × S)) (fs : List WorkFacet) :
    ∀ (cb cb' : Callback G S), replay_facets vertices fs cb = .ok cb' →
      SameCell cb cb' ∧ cb'.mesh_ = cb.mesh_ ∧ cb'.vertex_map_ = cb.vertex_map_ ∧
      cb'.base_current_facet_ = cb.base_current_facet_ ∧
      ∃ ev, cb'.out = cb.out ++ ev ∧ (∀ e ∈ ev, e.is_facet_event = true) ∧
        facets_events vertices fs = some ev := by
  induction fs with
  | nil =>
    intro cb cb' h
    simp only [replay_facets, Except.ok.injEq] at h
    subst h
    exact ⟨SameCell.refl _, rfl, rfl, rfl, [], by simp, by simp, rfl⟩
  | cons f fs ih =>
    intro cb cb' h
    simp only [replay_facets] at h
    cases h1 : replay_loop vertices f.loop
        { cb with facet_seed_ := f.seed, facet_tet_ := f.tet,
                  out := cb.out ++ [Event.begin_facet f.seed f.tet] } with
    | error e => rw [h1] at h; cases h
    | ok cb1 =>
      rw [h1] at h
      simp only at h
      obtain ⟨s1, m1, v1, b1, ev1, ho1, hf1, hl1⟩ := replay_loop_effect _ _ _ _ h1
      obtain ⟨s2, m2, v2, b2, ev2, ho2, hf2, hl2⟩ := ih _ cb' h
      refine ⟨⟨s2.seed.trans s1.seed, s2.simplex.trans s1.simplex,
        s2.last_seed.trans s1.last_seed, s2.internal.trans s1.internal,
        s2.voronoi.trans s1.voronoi, s2.tessellate.trans s1.tessellate,
        s2.use_mesh.trans s1.use_mesh⟩, m2.trans m1, v2.trans v1, b2.trans b1,
        Event.begin_facet f.seed f.tet :: (ev1 ++ Event.end_facet :: ev2), ?_, ?_, ?_⟩
      · rw [ho2]
        simp only [ho1]
        simp
      · intro e he
        simp only [List.mem_cons, List.mem_append] at he
        rcases he with rfl | he | rfl | he
        · rfl
        · exact hf1 e he
        · rfl
        · exact hf2 e he
      · simp only [facets_events, hl1, hl2]

theorem replay_facets_of_events (vertices : List (G × S)) (fs : List WorkFacet) :
    ∀ (cb : Callback G S) (es : List (Event G S)), facets_events vertices fs = some es →
      ∃ cb', replay_facets vertices fs cb = .ok cb' ∧ cb'.out = cb.out ++ es := by
  induction fs with
  | nil =>
    intro cb es h
    simp only [facets_events, Option.some.injEq] at h
    subst h
    exact ⟨cb, rfl, by simp⟩
  | cons f fs ih =>
    intro cb es h
    simp only [facets_events] at h
    cases hl : loop_events vertices f.loop with
    | none => rw [hl] at h; cases h
    | some a =>
      cases hr : facets_events vertices fs with
      | none => rw [hl, hr] at h; cases h
      | some b =>
        rw [hl, hr] at h
        simp only [Option.some.injEq] at h
        subst h
        simp only [replay_facets]
        rw [replay_loop_of_events vertices f.loop _ a hl]
        simp only
        obtain ⟨cb', h1, h2⟩ := ih
          { cb with facet_seed_ := f.seed, facet_tet_ := f.tet,
                    out := cb.out ++ [Event.begin_facet f.seed f.tet] ++ a ++
                      [Event.end_facet] } b hr
        exact ⟨cb', h1, by rw [h2]; simp⟩

theorem loop_events_append_vertices (vs ws : List (G × S)) (l : List Nat) :
    ∀ (es : List (Event G S)), loop_events vs l = some es → loop_events (vs ++ ws) l = some es := by
  induction l with
  | nil => intro es h; exact h
  | cons v l ih =>
    intro es h
    simp only [loop_events] at h ⊢
    cases hv : vs[v]? with
    | none => rw [hv] at h; cases h
    | some p =>
      cases hl : loop_events vs l with
      | none => rw [hv, hl] at h; cases h
      | some es' =>
        rw [hv, hl] at h
        have hlt : v < vs.length := (List.getElem?_eq_some_iff.1 hv).1
        rw [List.getElem?_append_left hlt, hv, ih es' hl]
        exact h

theorem facets_events_append_vertices (vs ws : List (G × S)) (fs : List WorkFacet) :
    ∀ (E : List (Event G S)), facets_events vs fs = some E →
      facets_events (vs ++ ws) fs = some E := by
  induction fs with
  | nil => intro E h; exact h
  | cons f fs ih =>
    intro E h
    simp only [facets_events] at h ⊢
    cases hl : loop_events vs f.loop with
    | none => rw [hl] at h; cases h
    | some a =>
      cases hr : facets_events vs fs with
      | none => rw [hl, hr] at h; cases h
      | some b =>
        rw [hl, hr] at h
        rw [loop_events_append_vertices vs ws f.loop a hl, ih b hr]
        exact h

theorem facets_events_snoc (vs : List (G × S)) (fs : List WorkFacet) (f : WorkFacet) :
    ∀ (E a : List (Event G S)), facets_events vs fs = some E → loop_events vs f.loop = some a →
      facets_events vs (fs ++ [f]) =
        some (E ++ Event.begin_facet f.seed f.tet :: (a ++ [Event.end_facet])) := by
  induction fs with
  | nil =>
    intro E a h ha
    simp only [facets_events, Option.some.injEq] at h
    subst h
    simp only [List.nil_append, facets_events, ha]
  | cons g fs ih =>
    intro E a h ha
    simp only [facets_events] at h
    cases hl : loop_events vs g.loop with
    | none => rw [hl] at h; cases h
    | some a' =>
      cases hr : facets_events vs fs with
      | none => rw [hl, hr] at h; cases h
      | some b =>
        rw [hl, hr] at h
        simp only [Option.some.injEq] at h
        subst h
        have hi := ih b a hr ha
        rw [List.cons_append]
        simp only [facets_events]
        rw [hl, hi]
        simp

theorem facets_events_facet_only (vs : List (G × S)) (fs : List WorkFacet) :
    ∀ (E : List (Event G S)), facets_events vs fs = some E →
      ∀ e ∈ E, e.is_facet_event = true := by
  intro E h
  have hr := replay_facets_of_events vs fs (Callback.init G S 0 0 false false false false) E h
  obtain ⟨cb', h1, _⟩ := hr
  obtain ⟨_, _, _, _, ev, _, hf, he⟩ := replay_facets_effect vs fs _ _ h1
  rw [h] at he
  simp only [Option.some.injEq] at he
  subst he
  exact hf

theorem loop_events_of_lt (vs : List (G × S)) (l : List Nat) (h : ∀ v ∈ l, v < vs.length) :
    ∃ es : List (Event G S), loop_events vs l = some es := by
  induction l with
  | nil => exact ⟨[], rfl⟩
  | cons v l ih =>
    obtain ⟨es, he⟩ := ih (fun w hw => h w (List.mem_cons_of_mem _ hw))
    have hv : v < vs.length := h v (List.mem_cons_self _ _)
    refine ⟨Event.vertex vs[v].1 vs[v].2 :: es, ?_⟩
    simp only [loop_events, List.getElem?_eq_getElem hv, he]

theorem lt_of_loop_events (vs : List (G × S)) (l : List Nat) :
    ∀ (es : List (Event G S)), loop_events vs l = some es → ∀ v ∈ l, v < vs.length := by
  induction l with
  | nil => intro es _ v hv; cases hv
  | cons w l ih =>
    intro es h v hv
    simp only [loop_events] at h
    cases hw : vs[w]? with
    | none => rw [hw] at h; cases h
    | some p =>
      cases hl : loop_events vs l with
      | none => rw [hw, hl] at h; cases h
      | some es' =>
        rcases List.mem_cons.1 hv with rfl | hv
        · exact (List.getElem?_eq_some_iff.1 hw).1
        · exact ih es' hl v hv

theorem facets_events_of_valid (m : WorkMesh G S) (h : m.valid) :
    ∃ E : List (Event G S), facets_events m.vertices m.facets = some E := by
  unfold WorkMesh.valid at h
  generalize m.facets = fs at h
  induction fs with
  | nil => exact ⟨[], rfl⟩
  | cons f fs ih =>
    obtain ⟨E, hE⟩ := ih (fun g hg => h g (List.mem_cons_of_mem _ hg))
    obtain ⟨a, ha⟩ := loop_events_of_lt m.vertices f.loop (h f (List.mem_cons_self _ _))
    exact ⟨Event.begin_facet f.seed f.tet :: (a ++ Event.end_facet :: E),
      by simp only [facets_events, ha, hE]⟩

theorem valid_of_facets_events (m : WorkMesh G S) (E : List (Event G S))
    (h : facets_events m.vertices m.facets = some E) : m.valid := by
  unfold WorkMesh.valid
  generalize m.facets = fs at h
  induction fs generalizing E with
  | nil => intro f hf; cases hf
  | cons g fs ih =>
    intro f hf
    simp only [facets_events] at h
    cases hl : loop_events m.vertices g.loop with
    | none => rw [hl] at h; cases h
    | some a =>
      cases hr : facets_events m.vertices fs with
      | none => rw [hl, hr] at h; cases h
      | some b =>
        rcases List.mem_cons.1 hf with rfl | hf
        · exact lt_of_loop_events _ _ a hl
        · exact ih b hr f hf

theorem process_polyhedron_mesh_total (proc : Processing G S) (cb : Callback G S)
    (hv : proc.valid cb.simplify_voronoi_facets_ cb.tessellate_non_convex_facets_)
    (hm : cb.mesh_.valid) :
    ∃ cb' body, process_polyhedron_mesh proc cb = .ok cb' ∧
      cb'.out = cb.out ++
        Event.begin_polyhedron cb.seed_ cb.simplex_ :: (body ++ [Event.end_polyhedron]) ∧
      (∀ e ∈ body, e.is_facet_event = true) ∧ SameCell cb cb' ∧
      cb'.base_current_facet_ = cb.base_current_facet_ ∧
      (cb.simplify_voronoi_facets_ = false → cb.tessellate_non_convex_facets_ = false →
        facets_events cb.mesh_.vertices cb.mesh_.facets = some body) := by
  have h1 : ∃ m1, (if cb.simplify_voronoi_facets_ = true then proc.simplify cb.mesh_
      else .ok cb.mesh_) = .ok m1 ∧ m1.valid ∧
      (cb.simplify_voronoi_facets_ = false → m1 = cb.mesh_) := by
    by_cases hc : cb.simplify_voronoi_facets_ = true
    · obtain ⟨m1, e1, v1⟩ := hv.1 hc cb.mesh_ hm
      exact ⟨m1, by rw [if_pos hc]; exact e1, v1, fun hf => by rw [hc] at hf; cases hf⟩
    · exact ⟨cb.mesh_, by rw [if_neg hc], hm, fun _ => rfl⟩
  obtain ⟨m1, e1, v1, x1⟩ := h1
  have h2 : ∃ m2, (if cb.tessellate_non_convex_facets_ = true then proc.tessellate m1
      else .ok m1) = .ok m2 ∧ m2.valid ∧
      (cb.tessellate_non_convex_facets_ = false → m2 = m1) := by
    by_cases hc : cb.tessellate_non_convex_facets_ = true
    · obtain ⟨m2, e2, v2⟩ := hv.2 hc m1 v1
      exact ⟨m2, by rw [if_pos hc]; exact e2, v2, fun hf => by rw [hc] at hf; cases hf⟩
    · exact ⟨m1, by rw [if_neg hc], v1, fun _ => rfl⟩
  obtain ⟨m2, e2, v2, x2⟩ := h2
  obtain ⟨E, hE⟩ := facets_events_of_valid m2 v2
  obtain ⟨cb1, hr, ho⟩ := replay_facets_of_events m2.vertices m2.facets
    { cb with mesh_ := m2, out := cb.out ++ [Event.begin_polyhedron cb.seed_ cb.simplex_] } E hE
  obtain ⟨sc, _, _, hb, _⟩ := replay_facets_effect _ _ _ _ hr
  refine ⟨{ cb1 with out := cb1.out ++ [Event.end_polyhedron] }, E, ?_, ?_, ?_, ?_, ?_, ?_⟩
  · unfold process_polyhedron_mesh
    rw [e1]
    simp only
    rw [e2]
    simp only
    rw [hr]
  · simp only [ho]
    simp
  · exact facets_events_facet_only _ _ E hE
  · exact ⟨sc.seed, sc.simplex, sc.last_seed, sc.internal, sc.voronoi, sc.tessellate,
      sc.use_mesh⟩
  · exact hb
  · intro hf1 hf2
    rw [← x1 hf1, ← x2 hf2]
    exact hE

theorem process_polyhedron_mesh_effect (proc : Processing G S) (cb cb' : Callback G S)
    (h : process_polyhedron_mesh proc cb = .ok cb') : SameCell cb cb' := by
  unfold process_polyhedron_mesh at h
  cases h1 : (if cb.simplify_voronoi_facets_ = true then proc.simplify cb.mesh_
      else .ok cb.mesh_) with
  | error e => rw [h1] at h; cases h
  | ok m1 =>
    rw [h1] at h
    simp only at h
    cases h2 : (if cb.tessellate_non_convex_facets_ = true then proc.tessellate m1
        else .ok m1) with
    | error e => rw [h2] at h; cases h
    | ok m2 =>
      rw [h2] at h
      simp only at h
      cases h3 : replay_facets m2.vertices m2.facets
          { cb with mesh_ := m2,
                    out := cb.out ++ [Event.begin_polyhedron cb.seed_ cb.simplex_] } with
      | error e => rw [h3] at h; cases h
      | ok cb1 =>
        rw [h3] at h
        simp only [Except.ok.injEq] at h
        subst h
        obtain ⟨sc, _⟩ := replay_facets_effect _ _ _ _ h3
        exact ⟨sc.seed, sc.simplex, sc.last_seed, sc.internal, sc.voronoi, sc.tessellate,
          sc.use_mesh⟩

theorem process_polyhedron_mesh_replay (proc : Processing G S) (cb cb' : Callback G S)
    (hvf : cb.simplify_voronoi_facets_ = false) (htf : cb.tessellate_non_convex_facets_ = false)
    (h : process_polyhedron_mesh proc cb = .ok cb') :
    ∃ E, facets_events cb.mesh_.vertices cb.mesh_.facets = some E ∧
      cb'.out = cb.out ++
        Event.begin_polyhedron cb.seed_ cb.simplex_ :: (E ++ [Event.end_polyhedron]) := by
  unfold process_polyhedron_mesh at h
  rw [if_neg (by rw [hvf]; simp)] at h
  simp only at h
  rw [if_neg (by rw [htf]; simp)] at h
  simp only at h
  cases h3 : replay_facets cb.mesh_.vertices cb.mesh_.facets
      { cb with mesh_ := cb.mesh_,
                out := cb.out ++ [Event.begin_polyhedron cb.seed_ cb.simplex_] } with
  | error e => rw [h3] at h; cases h
  | ok cb1 =>
    rw [h3] at h
    simp only [Except.ok.injEq] at h
    subst h
    obtain ⟨_, _, _, _, ev, ho, _, he⟩ := replay_facets_effect _ _ _ _ h3
    refine ⟨ev, he, ?_⟩
    simp only [ho]
    simp

theorem end_polyhedron_internal_effect (proc : Processing G S) (cb cb' : Callback G S)
    (h : end_polyhedron_internal proc cb = .ok cb') :
    SameOptions cb cb' ∧ cb'.seed_ = NO_INDEX := by
  unfold end_polyhedron_internal at h
  split at h
  · cases h1 : process_polyhedron_mesh proc cb with
    | error e => rw [h1] at h; cases h
    | ok cb1 =>
      rw [h1] at h
      simp only [Except.ok.injEq] at h
      subst h
      have sc := process_polyhedron_mesh_effect proc cb cb1 h1
      exact ⟨⟨sc.last_seed, sc.internal, sc.voronoi, sc.tessellate, sc.use_mesh⟩, rfl⟩
  · simp only [Except.ok.injEq] at h
    subst h
    exact ⟨⟨rfl, rfl, rfl, rfl, rfl⟩, rfl⟩

theorem end_polyhedron_internal_direct (proc : Processing G S) (cb : Callback G S)
    (hu : cb.use_mesh_ = false) :
    end_polyhedron_internal proc cb =
      .ok { cb with out := cb.out ++ [Event.end_polyhedron], seed_ := NO_INDEX,
                    simplex_ := NO_INDEX } := by
  unfold end_polyhedron_internal
  rw [if_neg (by rw [hu]; simp)]

theorem end_polyhedron_internal_buffered (proc : Processing G S) (cb : Callback G S)
    (hu : cb.use_mesh_ = true)
    (hv : proc.valid cb.simplify_voronoi_facets_ cb.tessellate_non_convex_facets_)
    (hm : cb.mesh_.valid) :
    ∃ cb' body, end_polyhedron_internal proc cb = .ok cb' ∧
      cb'.out = cb.out ++
        Event.begin_polyhedron cb.seed_ cb.simplex_ :: (body ++ [Event.end_polyhedron]) ∧
      (∀ e ∈ body, e.is_facet_event = true) ∧
      cb'.mesh_ = WorkMesh.empty ∧
      cb'.base_current_facet_ = cb.base_current_facet_ ∧
      (cb.simplify_voronoi_facets_ = false → cb.tessellate_non_convex_facets_ = false →
        facets_events cb.mesh_.vertices cb.mesh_.facets = some body) := by
  obtain ⟨cb1, body, h1, ho, hf, _, hb, hx⟩ := process_polyhedron_mesh_total proc cb hv hm
  refine ⟨{ cb1 with mesh_ := WorkMesh.empty, vertex_map_ := none, seed_ := NO_INDEX,
                     simplex_ := NO_INDEX }, body, ?_, ho, hf, rfl, hb, hx⟩
  unfold end_polyhedron_internal
  rw [if_pos hu, h1]

theorem runs_cons (c : Cell G S) (cs : List (Cell G S)) :
    runs (c :: cs) = (c :: cs.takeWhile (fun x => decide (x.v = c.v))) ::
      runs (cs.dropWhile (fun x => decide (x.v = c.v))) := by
  induction cs generalizing c with
  | nil => rfl
  | cons d ds ih =>
    have hd := ih d
    by_cases h : d.v = c.v
    · rw [List.takeWhile_cons_of_pos (by simpa using h),
        List.dropWhile_cons_of_pos (by simpa using h)]
      rw [show runs (c :: d :: ds) = (match runs (d :: ds) with
        | [] => [[c]]
        | r :: rs => if (r.head?.map Cell.v) = some c.v then (c :: r) :: rs
            else [c] :: r :: rs) from rfl, hd]
      simp only [List.head?_cons, Option.map_some', h, if_true]
    · rw [List.takeWhile_cons_of_neg (by simpa using h),
        List.dropWhile_cons_of_neg (by simpa using h)]
      rw [show runs (c :: d :: ds) = (match runs (d :: ds) with
        | [] => [[c]]
        | r :: rs => if (r.head?.map Cell.v) = some c.v then (c :: r) :: rs
            else [c] :: r :: rs) from rfl, hd]
      simp only [List.head?_cons, Option.map_some', Option.some.injEq, h, if_false]

theorem runs_spec (cells : List (Cell G S)) :
    ∀ r ∈ runs cells, r ≠ [] ∧ (∀ x ∈ r, x ∈ cells) ∧ (∀ x ∈ r, ∀ y ∈ r, x.v = y.v) := by
  induction cells with
  | nil => intro r hr; cases hr
  | cons c cs ih =>
    intro r hr
    rw [show runs (c :: cs) = (match runs cs with
        | [] => [[c]]
        | r :: rs => if (r.head?.map Cell.v) = some c.v then (c :: r) :: rs
            else [c] :: r :: rs) from rfl] at hr
    cases hrs : runs cs with
    | nil =>
      rw [hrs] at hr
      simp only [List.mem_singleton] at hr
      subst hr
      refine ⟨by simp, ?_, ?_⟩
      · intro x hx
        simp only [List.mem_singleton] at hx
        subst hx
        exact List.mem_cons_self _ _
      · intro x hx y hy
        simp only [List.mem_singleton] at hx hy
        rw [hx, hy]
    | cons r0 rs =>
      rw [hrs] at hr
      have h0 := ih r0 (by rw [hrs]; exact List.mem_cons_self _ _)
      have htail : ∀ q ∈ rs, q ≠ [] ∧ (∀ x ∈ q, x ∈ c :: cs) ∧
          (∀ x ∈ q, ∀ y ∈ q, x.v = y.v) := by
        intro q hq
        obtain ⟨a, b, d⟩ := ih q (by rw [hrs]; exact List.mem_cons_of_mem _ hq)
        exact ⟨a, fun x hx => List.mem_cons_of_mem _ (b x hx), d⟩
      have hr0 : r0 ≠ [] ∧ (∀ x ∈ r0, x ∈ c :: cs) ∧ (∀ x ∈ r0, ∀ y ∈ r0, x.v = y.v) :=
        ⟨h0.1, fun x hx => List.mem_cons_of_mem _ (h0.2.1 x hx), h0.2.2⟩
      change r ∈ (if (r0.head?.map Cell.v) = some c.v then (c :: r0) :: rs
        else [c] :: r0 :: rs) at hr
      by_cases hh : (r0.head?.map Cell.v) = some c.v
      · rw [if_pos hh] at hr
        rcases List.mem_cons.1 hr with rfl | hr
        · have hall : ∀ x ∈ r0, x.v = c.v := by
            intro x hx
            cases r0 with
            | nil => cases hx
            | cons z zs =>
              simp only [List.head?_cons, Option.map_some', Option.some.injEq] at hh
              rw [← hh]
              exact h0.2.2 x hx z (List.mem_cons_self _ _)
          refine ⟨by simp, ?_, ?_⟩
          · intro x hx
            rcases List.mem_cons.1 hx with rfl | hx
            · exact List.mem_cons_self _ _
            · exact List.mem_cons_of_mem _ (h0.2.1 x hx)
          · intro x hx y hy
            have hx' : x.v = c.v := by
              rcases List.mem_cons.1 hx with rfl | hx
              · rfl
              · exact hall x hx
            have hy' : y.v = c.v := by
              rcases List.mem_cons.1 hy with rfl | hy
              · rfl
              · exact hall y hy
            rw [hx', hy']
        · exact htail r hr
      · rw [if_neg hh] at hr
        rcases List.mem_cons.1 hr with rfl | hr
        · refine ⟨by simp, ?_, ?_⟩
          · intro x hx
            simp only [List.mem_singleton] at hx
            subst hx
            exact List.mem_cons_self _ _
          · intro x hx y hy
            simp only [List.mem_singleton] at hx hy
            rw [hx, hy]
        · rcases List.mem_cons.1 hr with rfl | hr
          · exact hr0
          · exact htail r hr

theorem begin_polyhedron_internal_fields (cb : Callback G S) (s t : Nat) :
    (begin_polyhedron_internal cb s t).seed_ = s ∧
    (begin_polyhedron_internal cb s t).simplex_ = t ∧
    (begin_polyhedron_internal cb s t).last_seed_ = s ∧
    (begin_polyhedron_internal cb s t).simplify_internal_tet_facets_ =
      cb.simplify_internal_tet_facets_ ∧
    (begin_polyhedron_internal cb s t).simplify_voronoi_facets_ =
      cb.simplify_voronoi_facets_ ∧
    (begin_polyhedron_internal cb s t).tessellate_non_convex_facets_ =
      cb.tessellate_non_convex_facets_ ∧
    (begin_polyhedron_internal cb s t).use_mesh_ = cb.use_mesh_ ∧
    (begin_polyhedron_internal cb s t).mesh_ = cb.mesh_ ∧
    (begin_polyhedron_internal cb s t).base_current_facet_ = cb.base_current_facet_ := by
  unfold begin_polyhedron_internal
  split <;> exact ⟨rfl, rfl, rfl, rfl, rfl, rfl, rfl, rfl, rfl⟩

theorem group_calls_cons (c : Cell G S) (cs : List (Cell G S)) :
    group_calls (c :: cs) = cell_calls c.dual_vertices ++ group_calls cs := by
  simp [group_calls]

theorem loop_events_of_forall2 (V : List (G × S)) (l : List Nat) (verts : List (G × S))
    (h : List.Forall₂ (fun v p => ∃ g', V[v]? = some (g', p.2)) l verts) :
    ∃ a : List (Event G S), loop_events V l = some a ∧
      (Consistent V verts → a = verts.map (fun p => Event.vertex p.1 p.2)) := by
  induction h with
  | nil => exact ⟨[], rfl, fun _ => rfl⟩
  | @cons v p l' verts' hvp _ ih =>
    obtain ⟨g', hg⟩ := hvp
    obtain ⟨a, ha, hc⟩ := ih
    refine ⟨Event.vertex g' p.2 :: a, by simp only [loop_events, hg, ha], ?_⟩
    intro hcons
    have hg' : g' = p.1 :=
      hcons (g', p.2) (List.mem_iff_getElem?.2 ⟨_, hg⟩) p (List.mem_cons_self _ _) rfl
    rw [hg', hc (fun x hx y hy => hcons x hx y (List.mem_cons_of_mem _ hy))]
    rfl

theorem consistent_append (V new W : List (G × S)) (h1 : Consistent V W)
    (h2 : Consistent W W) (hn : ∀ q ∈ new, q ∈ W) : Consistent (V ++ new) W := by
  intro p hp q hq hpq
  rcases List.mem_append.1 hp with hp | hp
  · exact h1 p hp q hq hpq
  · exact h2 p (hn p hp) q hq hpq

theorem Consistent.mono {V W V' W' : List (G × S)} (h : Consistent V W)
    (hV : ∀ p ∈ V', p ∈ V) (hW : ∀ q ∈ W', q ∈ W) : Consistent V' W' :=
  fun p hp q hq hpq => h p (hV p hp) q (hW q hq) hpq

theorem group_calls_eq (r : List (Cell G S)) :
    group_calls r = cell_calls (r.flatMap Cell.dual_vertices) := by
  unfold group_calls cell_calls
  rw [List.flatMap_assoc]

theorem flatMap_cell_events (i : Bool) (r : List (Cell G S)) :
    r.flatMap (cell_events i) = (r.flatMap Cell.dual_vertices).flatMap (facet_events i) := by
  rw [List.flatMap_assoc]
  rfl

theorem flatMap_cell_vertices (r : List (Cell G S)) :
    r.flatMap cell_vertices = (r.flatMap Cell.dual_vertices).flatMap DualVertex.visited := by
  rw [List.flatMap_assoc]
  rfl

theorem entries_append_vertices (V W : List (G × S)) (l : List Nat) :
    ∀ (D : List (G × S)),
      l.map (fun v => V[v]?.map Prod.snd) = D.map (fun p => some p.2) →
      l.map (fun v => (V ++ W)[v]?.map Prod.snd) = D.map (fun p => some p.2) := by
  induction l with
  | nil => intro D h; exact h
  | cons v l ih =>
    intro D h
    cases D with
    | nil => cases h
    | cons p D =>
      simp only [List.map_cons, List.cons.injEq] at h ⊢
      obtain ⟨h1, h2⟩ := h
      refine ⟨?_, ih D h2⟩
      cases hv : V[v]? with
      | none => rw [hv] at h1; cases h1
      | some q =>
        rw [List.getElem?_append_left (List.getElem?_eq_some_iff.1 hv).1, ← h1, hv]

theorem runs_flatten (cells : List (Cell G S)) : (runs cells).flatten = cells := by
  induction cells with
  | nil => rfl
  | cons c cs ih =>
    rw [show runs (c :: cs) = (match runs cs with
        | [] => [[c]]
        | r :: rs => if (r.head?.map Cell.v) = some c.v then (c :: r) :: rs
            else [c] :: r :: rs) from rfl]
    cases hrs : runs cs with
    | nil =>
      rw [hrs] at ih
      simp only [List.flatten_cons, List.flatten_nil, List.append_nil]
      rw [← ih]
      rfl
    | cons r0 rs =>
      rw [hrs] at ih
      simp only
      split
      · rw [List.flatten_cons, List.cons_append, ← List.flatten_cons, ih]
      · rw [List.flatten_cons, ih]
        rfl

theorem runs_chain (cells : List (Cell G S)) :
    List.Chain' (fun r1 r2 : List (Cell G S) => r1.head?.map Cell.v ≠ r2.head?.map Cell.v)
      (runs cells) := by
  induction cells with
  | nil => exact List.chain'_nil
  | cons c cs ih =>
    rw [show runs (c :: cs) = (match runs cs with
        | [] => [[c]]
        | r :: rs => if (r.head?.map Cell.v) = some c.v then (c :: r) :: rs
            else [c] :: r :: rs) from rfl]
    cases hrs : runs cs with
    | nil => exact List.chain'_singleton _
    | cons r0 rs =>
      rw [hrs] at ih
      simp only
      split
      · rename_i hh
        cases rs with
        | nil => exact List.chain'_singleton _
        | cons r1 rs =>
          rw [List.chain'_cons] at ih ⊢
          refine ⟨?_, ih.2⟩
          have h1 := ih.1
          rw [hh] at h1
          exact h1
      · rename_i hh
        rw [List.chain'_cons]
        exact ⟨fun h => hh h.symm, ih⟩

/-- The groups of `polyhedron_groups` partition the cells in their order; in the merging
mode each group has one seed and consecutive groups have different seeds, otherwise each
group is one cell. -/
theorem polyhedron_groups_spec (i : Bool) (cells : List (Cell G S)) :
    (polyhedron_groups i cells).flatten = cells ∧
    (∀ r ∈ polyhedron_groups i cells,
      r ≠ [] ∧ (i = true → ∀ x ∈ r, ∀ y ∈ r, x.v = y.v) ∧ (i = false → r.length = 1)) ∧
    (i = true →
      List.Chain' (fun r1 r2 : List (Cell G S) => r1.head?.map Cell.v ≠ r2.head?.map Cell.v)
        (polyhedron_groups i cells)) := by
  unfold polyhedron_groups
  cases i with
  | true =>
    rw [if_pos rfl]
    refine ⟨runs_flatten cells, ?_, fun _ => runs_chain cells⟩
    intro r hr
    obtain ⟨h1, _, h3⟩ := runs_spec cells r hr
    exact ⟨h1, fun _ => h3, fun h => (by cases h)⟩
  | false =>
    rw [if_neg (by decide)]
    refine ⟨?_, ?_, fun h => (by cases h)⟩
    · induction cells with
      | nil => rfl
      | cons c cs ih =>
        rw [List.map_cons, List.flatten_cons, ih]
        rfl
    · intro r hr
      obtain ⟨c, _, rfl⟩ := List.mem_map.1 hr
      exact ⟨by simp, fun h => (by cases h), fun _ => rfl⟩

end ReplayLemmas

section RegroupLemmas

variable {G S : Type} [DecidableEq S]

theorem traverse_cons (proc : Processing G S) (cb : Callback G S) (c : Cell G S)
    (cs : List (Cell G S)) :
    traverse proc cb (c :: cs) =
      match operator_call proc cb c with
      | .error e => .error e
      | .ok cb' => traverse proc cb' cs := by
  unfold traverse
  simp only [operator_calls]
  cases operator_call proc cb c <;> rfl

/-- In the merging mode, with a polyhedron of the seed `last_seed_` open, the traversal of
the cells `cells` first feeds the cells of that seed to the open polyhedron, ends it,
and then makes one polyhedron per run of the other cells. -/
theorem traverse_open_run (proc : Processing G S) (cells : List (Cell G S)) :
    ∀ (cb : Callback G S), cb.simplify_internal_tet_facets_ = true →
      cb.seed_ = cb.last_seed_ → cb.last_seed_ ≠ NO_INDEX → (∀ c ∈ cells, c.v ≠ NO_INDEX) →
      traverse proc cb cells =
        match run_calls cb
            (group_calls (cells.takeWhile (fun c => decide (c.v = cb.last_seed_)))) with
        | .error e => .error e
        | .ok cb1 =>
          match end_polyhedron_internal proc cb1 with
          | .error e => .error e
          | .ok cb2 =>
            run_groups proc cb2
              (runs (cells.dropWhile (fun c => decide (c.v = cb.last_seed_)))) := by
  induction cells with
  | nil =>
    intro cb hi hs hl _
    simp only [traverse, operator_calls, List.takeWhile_nil, List.dropWhile_nil, group_calls,
      List.flatMap_nil, run_calls, runs, run_groups]
    unfold callback_end
    rw [if_pos ⟨hi, by rw [hs]; exact hl⟩]
    cases end_polyhedron_internal proc cb <;> rfl
  | cons c cs ih =>
    intro cb hi hs hl hc
    have hcs : ∀ x ∈ cs, x.v ≠ NO_INDEX := fun x hx => hc x (List.mem_cons_of_mem _ hx)
    rw [traverse_cons]
    by_cases hv : c.v = cb.last_seed_
    · have hb : operator_begin proc cb c = .ok cb := by
        unfold operator_begin
        rw [if_pos hi, if_neg (not_not.2 hv)]
      rw [List.takeWhile_cons_of_pos (by simpa using hv),
        List.dropWhile_cons_of_pos (by simpa using hv), group_calls_cons, run_calls_append]
      unfold operator_call
      rw [hb]
      simp only
      cases h1 : run_calls cb (cell_calls c.dual_vertices) with
      | error e => rfl
      | ok cb2 =>
        obtain ⟨sc, _⟩ := run_calls_effect _ _ _ h1
        simp only
        rw [if_pos (sc.internal.trans hi)]
        simp only
        rw [ih cb2 (sc.internal.trans hi) (sc.seed.trans (hs.trans sc.last_seed.symm))
          (by rw [sc.last_seed]; exact hl) hcs, sc.last_seed]
    · have hb : operator_begin proc cb c =
          match end_polyhedron_internal proc cb with
          | .error e => .error e
          | .ok cb' => .ok (begin_polyhedron_internal cb' c.v c.t) := by
        unfold operator_begin
        rw [if_pos hi, if_pos hv, if_pos hl]
        try rfl
      rw [List.takeWhile_cons_of_neg (by simpa using hv),
        List.dropWhile_cons_of_neg (by simpa using hv)]
      simp only [group_calls, List.flatMap_nil, run_calls]
      unfold operator_call
      rw [hb]
      cases h0 : end_polyhedron_internal proc cb with
      | error e => rfl
      | ok cb' =>
        obtain ⟨so, _⟩ := end_polyhedron_internal_effect proc cb cb' h0
        obtain ⟨f1, _, f3, f4, _⟩ := begin_polyhedron_internal_fields cb' c.v c.t
        simp only
        rw [runs_cons]
        simp only [run_groups, run_group]
        rw [group_calls_cons, run_calls_append]
        cases h1 : run_calls (begin_polyhedron_internal cb' c.v c.t)
            (cell_calls c.dual_vertices) with
        | error e => rfl
        | ok cb2 =>
          obtain ⟨sc, _⟩ := run_calls_effect _ _ _ h1
          have hi2 : cb2.simplify_internal_tet_facets_ = true :=
            sc.internal.trans (f4.trans (so.internal.trans hi))
          have hl2 : cb2.last_seed_ = c.v := sc.last_seed.trans f3
          simp only
          rw [if_pos hi2]
          simp only
          rw [ih cb2 hi2 ((sc.seed.trans f1).trans hl2.symm)
            (by rw [hl2]; exact hc c (List.mem_cons_self _ _)) hcs, hl2]
          cases run_calls cb2 (group_calls (cs.takeWhile (fun x => decide (x.v = c.v)))) with
          | error e => rfl
          | ok cb3 => rfl

/-- In the merging mode a traversal of a fresh callback makes one polyhedron per maximal
run of cells with equal seed. -/
theorem traverse_merge (proc : Processing G S) (cb : Callback G S) (cells : List (Cell G S))
    (hi : cb.simplify_internal_tet_facets_ = true) (hl : cb.last_seed_ = NO_INDEX)
    (hne : cells ≠ []) (hc : ∀ c ∈ cells, c.v ≠ NO_INDEX) :
    traverse proc cb cells = run_groups proc cb (runs cells) := by
  cases cells with
  | nil => exact absurd rfl hne
  | cons c cs =>
    have hcv : c.v ≠ NO_INDEX := hc c (List.mem_cons_self _ _)
    have hb : operator_begin proc cb c = .ok (begin_polyhedron_internal cb c.v c.t) := by
      unfold operator_begin
      rw [if_pos hi, if_pos (by rw [hl]; exact hcv), if_neg (not_not.2 hl)]
    obtain ⟨f1, _, f3, f4, _⟩ := begin_polyhedron_internal_fields cb c.v c.t
    rw [traverse_cons, runs_cons]
    simp only [run_groups, run_group]
    rw [group_calls_cons, run_calls_append]
    unfold operator_call
    rw [hb]
    simp only
    cases h1 : run_calls (begin_polyhedron_internal cb c.v c.t)
        (cell_calls c.dual_vertices) with
    | error e => rfl
    | ok cb2 =>
      obtain ⟨sc, _⟩ := run_calls_effect _ _ _ h1
      have hi2 : cb2.simplify_internal_tet_facets_ = true := sc.internal.trans (f4.trans hi)
      have hl2 : cb2.last_seed_ = c.v := sc.last_seed.trans f3
      simp only
      rw [if_pos hi2]
      simp only
      rw [traverse_open_run proc cs cb2 hi2 ((sc.seed.trans f1).trans hl2.symm)
        (by rw [hl2]; exact hcv) (fun x hx => hc x (List.mem_cons_of_mem _ hx)), hl2]
      cases run_calls cb2 (group_calls (cs.takeWhile (fun x => decide (x.v = c.v)))) with
      | error e => rfl
      | ok cb3 => rfl

/-- Without the merging mode a traversal makes one polyhedron per cell. -/
theorem traverse_single (proc : Processing G S) (cells : List (Cell G S)) :
    ∀ (cb : Callback G S), cb.simplify_internal_tet_facets_ = false →
      traverse proc cb cells = run_groups proc cb (cells.map (fun c => [c])) := by
  induction cells with
  | nil =>
    intro cb hi
    simp only [traverse, operator_calls, List.map_nil, run_groups]
    unfold callback_end
    rw [if_neg (by rw [hi]; simp)]
  | cons c cs ih =>
    intro cb hi
    have hb : operator_begin proc cb c = .ok (begin_polyhedron_internal cb c.v c.t) := by
      unfold operator_begin
      rw [if_neg (by rw [hi]; simp)]
    obtain ⟨_, _, _, f4, _⟩ := begin_polyhedron_internal_fields cb c.v c.t
    rw [traverse_cons, List.map_cons]
    simp only [run_groups, run_group]
    rw [group_calls_cons, run_calls_append]
    unfold operator_call
    rw [hb]
    simp only [group_calls, List.flatMap_nil, run_calls]
    cases h1 : run_calls (begin_polyhedron_internal cb c.v c.t)
        (cell_calls c.dual_vertices) with
    | error e => rfl
    | ok cb2 =>
      obtain ⟨sc, _⟩ := run_calls_effect _ _ _ h1
      have hi2 : cb2.simplify_internal_tet_facets_ = false := sc.internal.trans (f4.trans hi)
      simp only
      rw [if_neg (by rw [hi2]; simp)]
      cases h2 : end_polyhedron_internal proc cb2 with
      | error e => rfl
      | ok cb3 =>
        obtain ⟨so, _⟩ := end_polyhedron_internal_effect proc cb2 cb3 h2
        simp only
        exact ih cb3 (so.internal.trans hi2)

end RegroupLemmas

section BufferedLemmas

variable {G S : Type} [DecidableEq S]

theorem indexOf_key_lt (l : List (Nat × S)) (a : Nat × S) :
    List.indexOf a l < l.length ↔ a ∈ l := by
  unfold List.indexOf
  rw [List.findIdx_lt_length]
  simp

theorem getElem_indexOf_key (l : List (Nat × S)) (a : Nat × S)
    (h : List.indexOf a l < l.length) : l[List.indexOf a l] = a := by
  have := @List.findIdx_getElem _ (fun x => x == a) l h
  simpa using this

theorem find_or_create_vertex_old (V : List (G × S)) (seed : Nat) (s : S)
    (h : s ∈ V.map Prod.snd) :
    ∃ i g', V[i]? = some (g', s) ∧ i < V.length ∧
      RPDVertexMap.find_or_create_vertex { keys := V.map (fun p => (seed, p.2)) } seed s =
        (i, { keys := V.map (fun p => (seed, p.2)) }) := by
  have hmem : (seed, s) ∈ V.map (fun p => (seed, p.2)) := by
    obtain ⟨p, hp, hs⟩ := List.mem_map.1 h
    exact List.mem_map.2 ⟨p, hp, by rw [hs]⟩
  have hlt : List.indexOf (seed, s) (V.map (fun p => (seed, p.2))) <
      (V.map (fun p => (seed, p.2))).length := (indexOf_key_lt _ _).2 hmem
  have hlt' : List.indexOf (seed, s) (V.map (fun p => (seed, p.2))) < V.length := by
    rw [List.length_map] at hlt
    exact hlt
  have hget := getElem_indexOf_key _ _ hlt
  rw [List.getElem_map] at hget
  refine ⟨List.indexOf (seed, s) (V.map (fun p => (seed, p.2))),
    (V[List.indexOf (seed, s) (V.map (fun p => (seed, p.2)))]).1, ?_, hlt', ?_⟩
  · rw [List.getElem?_eq_getElem hlt']
    have h2 := congrArg Prod.snd hget
    simp only at h2
    exact congrArg some (Prod.ext rfl h2)
  · unfold RPDVertexMap.find_or_create_vertex
    rw [if_pos hlt]

theorem find_or_create_vertex_new (V : List (G × S)) (seed : Nat) (g : G) (s : S)
    (h : s ∉ V.map Prod.snd) :
    RPDVertexMap.find_or_create_vertex { keys := V.map (fun p => (seed, p.2)) } seed s =
      (V.length, { keys := (V ++ [(g, s)]).map (fun p => (seed, p.2)) }) := by
  have hmem : (seed, s) ∉ V.map (fun p => (seed, p.2)) := by
    intro hm
    obtain ⟨p, hp, hs⟩ := List.mem_map.1 hm
    exact h (List.mem_map.2 ⟨p, hp, (Prod.mk.inj hs).2⟩)
  unfold RPDVertexMap.find_or_create_vertex
  simp only []
  rw [if_neg (fun hlt => hmem ((indexOf_key_lt _ _).1 hlt))]
  simp

/-- In the buffering variant, a vertex call with a descriptor that is stored appends the
index of the stored vertex to the current loop and nothing else. -/
theorem vertex_internal_old (b : Callback G S) (g : G) (s : S) (huse : b.use_mesh_ = true)
    (hskip : b.facet_is_skipped_ = false)
    (hmap : b.vertex_map_ = some { keys := b.mesh_.vertices.map (fun p => (b.seed_, p.2)) })
    (h : s ∈ b.mesh_.vertices.map Prod.snd) :
    ∃ i g', b.mesh_.vertices[i]? = some (g', s) ∧
      vertex_internal b g s =
        .ok { b with base_current_facet_ := b.base_current_facet_ ++ [i] } := by
  obtain ⟨i, g', hi, hlt, hf⟩ := find_or_create_vertex_old b.mesh_.vertices b.seed_ s h
  refine ⟨i, g', hi, ?_⟩
  unfold vertex_internal
  rw [if_neg (by rw [hskip]; simp), if_pos huse, hmap]
  simp only [hf]
  rw [if_pos hlt, ← hmap]

/-- In the buffering variant, a vertex call with a descriptor that is not stored creates
the vertex and appends its index to the current loop. -/
theorem vertex_internal_new (b : Callback G S) (g : G) (s : S) (huse : b.use_mesh_ = true)
    (hskip : b.facet_is_skipped_ = false)
    (hmap : b.vertex_map_ = some { keys := b.mesh_.vertices.map (fun p => (b.seed_, p.2)) })
    (h : s ∉ b.mesh_.vertices.map Prod.snd) :
    vertex_internal b g s =
      .ok { b with
        vertex_map_ :=
          some { keys := (b.mesh_.vertices ++ [(g, s)]).map (fun p => (b.seed_, p.2)) },
        mesh_ := { vertices := b.mesh_.vertices ++ [(g, s)], facets := b.mesh_.facets },
        base_current_facet_ := b.base_current_facet_ ++ [b.mesh_.vertices.length] } := by
  have hf := find_or_create_vertex_new b.mesh_.vertices b.seed_ g s h
  unfold vertex_internal
  rw [if_neg (by rw [hskip]; simp), if_pos huse, hmap]
  simp only [hf]
  rw [if_neg (Nat.lt_irrefl _)]
  simp

/-- In the buffering variant the vertex calls of a facet that is not skipped append one
index per call to the current loop; each index refers to a stored vertex with the
descriptor of the call, and the vertices created are vertices of the calls. -/
theorem run_calls_vertices_buffered (verts : List (G × S)) :
    ∀ (b : Callback G S), b.use_mesh_ = true → b.facet_is_skipped_ = false →
      b.vertex_map_ = some { keys := b.mesh_.vertices.map (fun p => (b.seed_, p.2)) } →
      ∃ new l,
        run_calls b (verts.map (fun p => Call.vertex_internal p.1 p.2)) =
          .ok { b with
            vertex_map_ :=
              some { keys := (b.mesh_.vertices ++ new).map (fun p => (b.seed_, p.2)) },
            mesh_ := { vertices := b.mesh_.vertices ++ new, facets := b.mesh_.facets },
            base_current_facet_ := b.base_current_facet_ ++ l } ∧
        List.Forall₂ (fun v p => ∃ g', (b.mesh_.vertices ++ new)[v]? = some (g', p.2))
          l verts ∧
        (∀ q ∈ new, q ∈ verts) := by
  induction verts with
  | nil =>
    intro b _ _ hmap
    refine ⟨[], [], ?_, List.Forall₂.nil, by simp⟩
    simp only [List.map_nil, run_calls, List.append_nil]
    rw [← hmap]
  | cons p ps ih =>
    intro b huse hskip hmap
    by_cases hs : p.2 ∈ b.mesh_.vertices.map Prod.snd
    · obtain ⟨i, g', hi, hv⟩ := vertex_internal_old b p.1 p.2 huse hskip hmap hs
      obtain ⟨new, l, hr, hf, hn⟩ :=
        ih { b with base_current_facet_ := b.base_current_facet_ ++ [i] } huse hskip hmap
      refine ⟨new, i :: l, ?_, ?_, ?_⟩
      · rw [List.map_cons, run_calls_vertex, hv]
        simp only
        rw [hr]
        simp
      · refine List.Forall₂.cons ⟨g', ?_⟩ hf
        have hlt := (List.getElem?_eq_some_iff.1 hi).1
        rw [List.getElem?_append_left hlt]
        exact hi
      · intro q hq
        exact List.mem_cons_of_mem _ (hn q hq)
    · have hv := vertex_internal_new b p.1 p.2 huse hskip hmap hs
      obtain ⟨new, l, hr, hf, hn⟩ :=
        ih { b with
          vertex_map_ :=
            some { keys := (b.mesh_.vertices ++ [(p.1, p.2)]).map (fun q => (b.seed_, q.2)) },
          mesh_ := { vertices := b.mesh_.vertices ++ [(p.1, p.2)], facets := b.mesh_.facets },
          base_current_facet_ := b.base_current_facet_ ++ [b.mesh_.vertices.length] }
          huse hskip rfl
      refine ⟨p :: new, b.mesh_.vertices.length :: l, ?_, ?_, ?_⟩
      · rw [List.map_cons, run_calls_vertex, hv]
        simp only
        rw [hr]
        simp
      · simp only [List.append_assoc, List.singleton_append] at hf
        refine List.Forall₂.cons ⟨p.1, ?_⟩ hf
        rw [List.getElem?_append_right (Nat.le_refl _), Nat.sub_self, List.getElem?_cons_zero]
      · intro q hq
        rcases List.mem_cons.1 hq with rfl | hq
        · exact List.mem_cons_self _ _
        · exact List.mem_cons_of_mem _ (hn q hq)

/-- In the buffering variant the calls of one dual vertex store its facet, unless it is
skipped, and deliver nothing. -/
theorem run_calls_facet_buffered (dv : DualVertex G S) (b : Callback G S)
    (E : List (Event G S)) (hB : Buffering b E) :
    ∃ b' E' new, run_calls b (facet_calls dv) = .ok b' ∧ Buffering b' (E ++ E') ∧
      b'.mesh_.vertices = b.mesh_.vertices ++ new ∧
      (∀ q ∈ new, q ∈ dv.visited) ∧
      (Consistent b.mesh_.vertices dv.visited → Consistent dv.visited dv.visited →
        E' = facet_events b.simplify_internal_tet_facets_ dv) := by
  unfold facet_calls facet_events DualVertex.visited
  by_cases ht : dv.vertex_triangle = -1
  · rw [if_pos ht, if_pos ht, if_pos ht]
    exact ⟨b, [], [], rfl, by rw [List.append_nil]; exact hB, by simp, by simp,
      fun _ _ => rfl⟩
  · rw [if_neg ht, if_neg ht, if_neg ht, run_calls_begin, run_calls_append]
    by_cases hskip : (b.simplify_internal_tet_facets_ &&
        decide ((decode_adjacent dv.vertex_id).2 ≠ NO_INDEX)) = true
    · have hb1 : begin_facet_internal b (decode_adjacent dv.vertex_id).1
          (decode_adjacent dv.vertex_id).2 =
          { b with facet_seed_ := (decode_adjacent dv.vertex_id).1,
                   facet_tet_ := (decode_adjacent dv.vertex_id).2,
                   facet_is_skipped_ := true } := by
        unfold begin_facet_internal
        rw [if_pos hskip]
      rw [hb1, run_calls_vertices_skipped _ _ rfl, if_pos hskip]
      simp only [run_calls_end]
      refine ⟨_, [], [], rfl, ?_, by simp [end_facet_internal], by simp,
        fun _ _ => rfl⟩
      rw [List.append_nil]
      exact ⟨hB.use_mesh, hB.map, hB.base, hB.events⟩
    · have hb1 : begin_facet_internal b (decode_adjacent dv.vertex_id).1
          (decode_adjacent dv.vertex_id).2 =
          { b with facet_seed_ := (decode_adjacent dv.vertex_id).1,
                   facet_tet_ := (decode_adjacent dv.vertex_id).2,
                   facet_is_skipped_ := false } := by
        unfold begin_facet_internal
        rw [if_neg hskip, if_pos hB.use_mesh]
      obtain ⟨new, l, hr, hf, hn⟩ := run_calls_vertices_buffered (dv.first :: dv.rest)
        { b with facet_seed_ := (decode_adjacent dv.vertex_id).1,
                 facet_tet_ := (decode_adjacent dv.vertex_id).2,
                 facet_is_skipped_ := false } hB.use_mesh rfl hB.map
      obtain ⟨a, ha, hc⟩ := loop_events_of_forall2 _ _ _ hf
      rw [hb1, hr, if_neg hskip]
      simp only [run_calls_end]
      refine ⟨_, Event.begin_facet (decode_adjacent dv.vertex_id).1
        (decode_adjacent dv.vertex_id).2 :: (a ++ [Event.end_facet]), new, rfl, ?_, ?_, hn,
        ?_⟩
      · have hev := facets_events_snoc (b.mesh_.vertices ++ new) b.mesh_.facets
          { loop := l, seed := (decode_adjacent dv.vertex_id).1,
            tet := (decode_adjacent dv.vertex_id).2 } E a
          (facets_events_append_vertices _ _ _ E hB.events) ha
        refine ⟨?_, ?_, ?_, ?_⟩
        · simp [end_facet_internal, hB.use_mesh]
        · simp [end_facet_internal, hB.use_mesh]
        · simp [end_facet_internal, hB.use_mesh]
        · simp only [end_facet_internal, hB.use_mesh, hB.base, List.nil_append]
          simpa using hev
      · simp [end_facet_internal, hB.use_mesh]
      · intro h1 h2
        rw [hc (consistent_append _ _ _ h1 h2 hn)]

/-- In the buffering variant the calls of the dual vertices `dvs` store their facets and
deliver nothing. -/
theorem run_calls_cell_buffered (dvs : List (DualVertex G S)) :
    ∀ (b : Callback G S) (E : List (Event G S)), Buffering b E →
      ∃ b' E' new, run_calls b (cell_calls dvs) = .ok b' ∧ Buffering b' (E ++ E') ∧
        b'.mesh_.vertices = b.mesh_.vertices ++ new ∧
        (∀ q ∈ new, q ∈ dvs.flatMap DualVertex.visited) ∧
        (Consistent b.mesh_.vertices (dvs.flatMap DualVertex.visited) →
          Consistent (dvs.flatMap DualVertex.visited) (dvs.flatMap DualVertex.visited) →
          E' = dvs.flatMap (facet_events b.simplify_internal_tet_facets_)) := by
  induction dvs with
  | nil =>
    intro b E hB
    exact ⟨b, [], [], rfl, by rw [List.append_nil]; exact hB, by simp, by simp,
      fun _ _ => rfl⟩
  | cons dv dvs ih =>
    intro b E hB
    obtain ⟨b1, E1, new1, h1, hB1, hv1, hn1, hx1⟩ := run_calls_facet_buffered dv b E hB
    obtain ⟨sc, _⟩ := run_calls_effect _ _ _ h1
    obtain ⟨b2, E2, new2, h2, hB2, hv2, hn2, hx2⟩ := ih b1 (E ++ E1) hB1
    refine ⟨b2, E1 ++ E2, new1 ++ new2, ?_, ?_, ?_, ?_, ?_⟩
    · simp only [cell_calls, List.flatMap_cons] at h2 ⊢
      rw [run_calls_append, h1]
      exact h2
    · rw [← List.append_assoc]
      exact hB2
    · rw [hv2, hv1, List.append_assoc]
    · intro q hq
      rw [List.flatMap_cons]
      rcases List.mem_append.1 hq with hq | hq
      · exact List.mem_append_left _ (hn1 q hq)
      · exact List.mem_append_right _ (hn2 q hq)
    · intro hc1 hc2
      rw [List.flatMap_cons] at hc1 hc2
      have e1 := hx1 (hc1.mono (fun _ h => h) (fun _ h => List.mem_append_left _ h))
        (hc2.mono (fun _ h => List.mem_append_left _ h) (fun _ h => List.mem_append_left _ h))
      have e2 := hx2
        (by
          rw [hv1]
          intro p hp q hq hpq
          rcases List.mem_append.1 hp with hp | hp
          · exact hc1 p hp q (List.mem_append_right _ hq) hpq
          · exact hc2 p (List.mem_append_left _ (hn1 p hp)) q (List.mem_append_right _ hq)
              hpq)
        (hc2.mono (fun _ h => List.mem_append_right _ h) (fun _ h => List.mem_append_right _ h))
      rw [e1, e2, sc.internal, List.flatMap_cons]

/-- The direct-forwarding variant delivers one polyhedron block for a group of cells. -/
theorem run_group_direct (proc : Processing G S) (cb : Callback G S) (r : List (Cell G S))
    (hne : r ≠ []) (hu : cb.use_mesh_ = false) :
    ∃ cb', run_group proc cb r = .ok cb' ∧
      cb'.out = cb.out ++
        polyhedron_block r (r.flatMap (cell_events cb.simplify_internal_tet_facets_)) ∧
      cb'.use_mesh_ = false ∧
      cb'.simplify_internal_tet_facets_ = cb.simplify_internal_tet_facets_ := by
  cases r with
  | nil => exact absurd rfl hne
  | cons c cs =>
    obtain ⟨_, _, _, f4, _, _, f7, _, _⟩ := begin_polyhedron_internal_fields cb c.v c.t
    have hu0 : (begin_polyhedron_internal cb c.v c.t).use_mesh_ = false := f7.trans hu
    have ho0 : (begin_polyhedron_internal cb c.v c.t).out =
        cb.out ++ [Event.begin_polyhedron c.v c.t] := by
      unfold begin_polyhedron_internal
      rw [if_neg (by rw [hu]; simp)]
    obtain ⟨cb1, h1, ho1⟩ := run_calls_cell_direct ((c :: cs).flatMap Cell.dual_vertices)
      (begin_polyhedron_internal cb c.v c.t) hu0
    obtain ⟨sc, _⟩ := run_calls_effect _ _ _ h1
    have hu1 : cb1.use_mesh_ = false := sc.use_mesh.trans hu0
    refine ⟨{ cb1 with out := cb1.out ++ [Event.end_polyhedron], seed_ := NO_INDEX,
                       simplex_ := NO_INDEX }, ?_, ?_, ?_, ?_⟩
    · simp only [run_group]
      rw [group_calls_eq, h1]
      exact end_polyhedron_internal_direct proc cb1 hu1
    · simp only [ho1, ho0, f4, polyhedron_block, List.head?_cons, Option.map_some',
        Option.getD_some, flatMap_cell_events]
      simp
    · exact hu1
    · exact sc.internal.trans f4

/-- The buffering variant delivers one polyhedron block for a group of cells, and its
facet events are those of the direct-forwarding variant when the mesh is replayed as it
was stored and equal descriptors carry equal positions. -/
theorem run_group_buffered (proc : Processing G S) (cb : Callback G S) (r : List (Cell G S))
    (hne : r ≠ []) (hu : cb.use_mesh_ = true) (hm : cb.mesh_ = WorkMesh.empty)
    (hb : cb.base_current_facet_ = [])
    (hv : proc.valid cb.simplify_voronoi_facets_ cb.tessellate_non_convex_facets_) :
    ∃ cb' body, run_group proc cb r = .ok cb' ∧
      cb'.out = cb.out ++ polyhedron_block r body ∧
      (∀ e ∈ body, e.is_facet_event = true) ∧
      cb'.mesh_ = WorkMesh.empty ∧ cb'.base_current_facet_ = [] ∧
      cb'.use_mesh_ = true ∧
      cb'.simplify_internal_tet_facets_ = cb.simplify_internal_tet_facets_ ∧
      cb'.simplify_voronoi_facets_ = cb.simplify_voronoi_facets_ ∧
      cb'.tessellate_non_convex_facets_ = cb.tessellate_non_convex_facets_ ∧
      (cb.simplify_voronoi_facets_ = false → cb.tessellate_non_convex_facets_ = false →
        Consistent (r.flatMap cell_vertices) (r.flatMap cell_vertices) →
        body = r.flatMap (cell_events cb.simplify_internal_tet_facets_)) := by
  cases r with
  | nil => exact absurd rfl hne
  | cons c cs =>
    obtain ⟨f1, f2, _, f4, f5, f6, f7, f8, f9⟩ := begin_polyhedron_internal_fields cb c.v c.t
    have ho0 : (begin_polyhedron_internal cb c.v c.t).out = cb.out := by
      unfold begin_polyhedron_internal
      rw [if_pos hu]
    have hmap0 : (begin_polyhedron_internal cb c.v c.t).vertex_map_ = some { keys := [] } := by
      unfold begin_polyhedron_internal
      rw [if_pos hu]
    have hB0 : Buffering (begin_polyhedron_internal cb c.v c.t) [] := by
      refine ⟨f7.trans hu, ?_, f9.trans hb, ?_⟩
      · rw [hmap0, f8, hm]
        rfl
      · rw [f8, hm]
        rfl
    obtain ⟨b1, E1, new, h1, hB1, hv1, hn1, hx1⟩ :=
      run_calls_cell_buffered ((c :: cs).flatMap Cell.dual_vertices) _ [] hB0
    obtain ⟨sc, ev, hev, _, hnil, _⟩ := run_calls_effect _ _ _ h1
    have ho1 : b1.out = cb.out := by
      rw [hev, hnil (f7.trans hu), List.append_nil, ho0]
    have hv' : proc.valid b1.simplify_voronoi_facets_ b1.tessellate_non_convex_facets_ := by
      rw [sc.voronoi, sc.tessellate, f5, f6]
      exact hv
    obtain ⟨cb', body, h2, ho2, hf2, hm2, hb2, hx2⟩ :=
      end_polyhedron_internal_buffered proc b1 hB1.use_mesh hv'
        (valid_of_facets_events _ _ hB1.events)
    obtain ⟨so, _⟩ := end_polyhedron_internal_effect proc b1 cb' h2
    refine ⟨cb', body, ?_, ?_, hf2, hm2, hb2.trans hB1.base, ?_, ?_, ?_, ?_, ?_⟩
    · simp only [run_group]
      rw [group_calls_eq, h1]
      exact h2
    · rw [ho2, ho1, sc.seed, sc.simplex, f1, f2]
      rfl
    · exact so.use_mesh.trans hB1.use_mesh
    · exact so.internal.trans (sc.internal.trans f4)
    · exact so.voronoi.trans (sc.voronoi.trans f5)
    · exact so.tessellate.trans (sc.tessellate.trans f6)
    · intro hvf htf hc
      have hbody := hx2 (by rw [sc.voronoi, f5]; exact hvf) (by rw [sc.tessellate, f6]; exact htf)
      rw [hB1.events] at hbody
      simp only [List.nil_append, Option.some.injEq] at hbody
      rw [← hbody, flatMap_cell_events, ← f4]
      rw [flatMap_cell_vertices] at hc
      refine hx1 ?_ hc
      rw [f8, hm]
      intro p hp
      cases hp

theorem run_groups_direct (proc : Processing G S) (gs : List (List (Cell G S))) :
    ∀ (cb : Callback G S), (∀ r ∈ gs, r ≠ []) → cb.use_mesh_ = false →
      ∃ cb', run_groups proc cb gs = .ok cb' ∧
        cb'.out = cb.out ++ polyhedron_blocks gs
          (gs.map (fun r => r.flatMap (cell_events cb.simplify_internal_tet_facets_))) := by
  induction gs with
  | nil =>
    intro cb _ _
    exact ⟨cb, rfl, by simp [polyhedron_blocks]⟩
  | cons r gs ih =>
    intro cb hne hu
    obtain ⟨cb1, h1, ho1, hu1, hi1⟩ :=
      run_group_direct proc cb r (hne r (List.mem_cons_self _ _)) hu
    obtain ⟨cb2, h2, ho2⟩ := ih cb1 (fun q hq => hne q (List.mem_cons_of_mem _ hq)) hu1
    refine ⟨cb2, ?_, ?_⟩
    · simp only [run_groups]
      rw [h1]
      exact h2
    · rw [ho2, ho1, hi1]
      simp only [List.map_cons, polyhedron_blocks, List.append_assoc]

theorem run_groups_buffered (proc : Processing G S) (gs : List (List (Cell G S))) :
    ∀ (cb : Callback G S), (∀ r ∈ gs, r ≠ []) → cb.use_mesh_ = true →
      cb.mesh_ = WorkMesh.empty → cb.base_current_facet_ = [] →
      proc.valid cb.simplify_voronoi_facets_ cb.tessellate_non_convex_facets_ →
      ∃ cb' bodies, run_groups proc cb gs = .ok cb' ∧
        cb'.out = cb.out ++ polyhedron_blocks gs bodies ∧
        bodies.length = gs.length ∧
        (∀ body ∈ bodies, ∀ e ∈ body, e.is_facet_event = true) ∧
        (cb.simplify_voronoi_facets_ = false → cb.tessellate_non_convex_facets_ = false →
          (∀ r ∈ gs, Consistent (r.flatMap cell_vertices) (r.flatMap cell_vertices)) →
          bodies = gs.map
            (fun r => r.flatMap (cell_events cb.simplify_internal_tet_facets_))) := by
  induction gs with
  | nil =>
    intro cb _ _ _ _ _
    exact ⟨cb, [], rfl, by simp [polyhedron_blocks], rfl, by simp, fun _ _ _ => rfl⟩
  | cons r gs ih =>
    intro cb hne hu hm hb hv
    obtain ⟨cb1, body, h1, ho1, hf1, hm1, hb1, hu1, hi1, hv1, ht1, hx1⟩ :=
      run_group_buffered proc cb r (hne r (List.mem_cons_self _ _)) hu hm hb hv
    obtain ⟨cb2, bodies, h2, ho2, hl2, hf2, hx2⟩ :=
      ih cb1 (fun q hq => hne q (List.mem_cons_of_mem _ hq)) hu1 hm1 hb1
        (by rw [hv1, ht1]; exact hv)
    refine ⟨cb2, body :: bodies, ?_, ?_, ?_, ?_, ?_⟩
    · simp only [run_groups]
      rw [h1]
      exact h2
    · rw [ho2, ho1]
      simp only [polyhedron_blocks, List.append_assoc]
    · simp only [List.length_cons, hl2]
    · intro x hx
      rcases List.mem_cons.1 hx with rfl | hx
      · exact hf1
      · exact hf2 x hx
    · intro hvf htf hc
      rw [hx1 hvf htf (hc r (List.mem_cons_self _ _)),
        hx2 (by rw [hv1]; exact hvf) (by rw [ht1]; exact htf)
          (fun q hq => hc q (List.mem_cons_of_mem _ hq)), hi1]
      rfl

theorem dedup_begin (b : Callback G S) (D : List (G × S)) (fs ft : Nat) (h : Dedup b D) :
    Dedup (begin_facet_internal b fs ft) D ∧
    (begin_facet_internal b fs ft).facet_is_skipped_ =
      (b.simplify_internal_tet_facets_ && decide (ft ≠ NO_INDEX)) ∧
    (begin_facet_internal b fs ft).simplify_internal_tet_facets_ =
      b.simplify_internal_tet_facets_ := by
  unfold begin_facet_internal
  by_cases hskip : (b.simplify_internal_tet_facets_ && decide (ft ≠ NO_INDEX)) = true
  · rw [if_pos hskip]
    exact ⟨⟨h.use_mesh, h.map, h.nodup, h.mem_iff, h.first, h.entries⟩, hskip.symm, rfl⟩
  · rw [if_neg hskip, if_pos h.use_mesh]
    refine ⟨⟨h.use_mesh, h.map, h.nodup, h.mem_iff, h.first, h.entries⟩, ?_, rfl⟩
    cases hc : (b.simplify_internal_tet_facets_ && decide (ft ≠ NO_INDEX))
    · rfl
    · exact absurd hc hskip

theorem dedup_end (b : Callback G S) (D : List (G × S)) (h : Dedup b D) :
    Dedup (end_facet_internal b) D ∧
    (end_facet_internal b).facet_is_skipped_ = b.facet_is_skipped_ ∧
    (end_facet_internal b).simplify_internal_tet_facets_ =
      b.simplify_internal_tet_facets_ := by
  unfold end_facet_internal
  by_cases hskip : b.facet_is_skipped_ = true
  · rw [if_pos hskip]
    exact ⟨⟨h.use_mesh, h.map, h.nodup, h.mem_iff, h.first, h.entries⟩, rfl, rfl⟩
  · rw [if_neg hskip, if_pos h.use_mesh]
    refine ⟨⟨h.use_mesh, h.map, h.nodup, h.mem_iff, h.first, ?_⟩, rfl, rfl⟩
    have he := h.entries
    simp only [List.flatMap_append, List.flatMap_cons, List.flatMap_nil, List.append_nil]
    exact he

theorem dedup_vertex (b : Callback G S) (D : List (G × S)) (g : G) (s : S) (h : Dedup b D)
    (hskip : b.facet_is_skipped_ = false) :
    ∃ b', vertex_internal b g s = .ok b' ∧ Dedup b' (D ++ [(g, s)]) ∧
      b'.facet_is_skipped_ = false ∧
      b'.simplify_internal_tet_facets_ = b.simplify_internal_tet_facets_ ∧
      (s ∈ D.map Prod.snd → b'.mesh_ = b.mesh_ ∧ b'.vertex_map_ = b.vertex_map_) := by
  by_cases hs : s ∈ b.mesh_.vertices.map Prod.snd
  · obtain ⟨i, g', hi, hv⟩ := vertex_internal_old b g s h.use_mesh hskip h.map hs
    refine ⟨_, hv, ⟨h.use_mesh, h.map, h.nodup, ?_, ?_, ?_⟩, hskip, rfl, fun _ => ⟨rfl, rfl⟩⟩
    · intro t
      simp only [List.map_append, List.map_cons, List.map_nil, List.mem_append,
        List.mem_singleton]
      constructor
      · intro ht
        exact Or.inl ((h.mem_iff t).1 ht)
      · intro ht
        rcases ht with ht | rfl
        · exact (h.mem_iff t).2 ht
        · exact hs
    · intro p hp
      rw [List.find?_append, h.first p hp]
      rfl
    · have he := h.entries
      simp only [← List.append_assoc, List.map_append, List.map_cons, List.map_nil] at he ⊢
      rw [he, hi]
      rfl
  · have hv := vertex_internal_new b g s h.use_mesh hskip h.map hs
    have hsD : s ∉ D.map Prod.snd := fun hd => hs ((h.mem_iff s).2 hd)
    refine ⟨_, hv, ⟨h.use_mesh, rfl, ?_, ?_, ?_, ?_⟩, hskip, rfl,
      fun hd => absurd hd hsD⟩
    · simp only [List.map_append, List.map_cons, List.map_nil]
      exact List.Nodup.append h.nodup (List.nodup_singleton s)
        (by
          intro t ht1 ht2
          rw [List.mem_singleton] at ht2
          subst ht2
          exact hs ht1)
    · intro t
      simp only [List.map_append, List.map_cons, List.map_nil, List.mem_append,
        List.mem_singleton]
      rw [h.mem_iff t]
    · intro p hp
      rw [List.find?_append]
      rcases List.mem_append.1 hp with hp | hp
      · rw [h.first p hp]
        rfl
      · rw [List.mem_singleton] at hp
        subst hp
        have hnone : D.find? (fun q => decide (q.2 = s)) = none := by
          rw [List.find?_eq_none]
          intro q hq hq2
          exact hsD (List.mem_map.2 ⟨q, hq, of_decide_eq_true hq2⟩)
        rw [hnone]
        simp
    · have he := entries_append_vertices b.mesh_.vertices [(g, s)] _ D h.entries
      simp only [← List.append_assoc, List.map_append, List.map_cons, List.map_nil] at he ⊢
      rw [he, List.getElem?_append_right (Nat.le_refl _), Nat.sub_self,
        List.getElem?_cons_zero]
      rfl

/-- The invariant `Dedup` holds after every sequence of calls of the facet methods, for
the vertex calls delivered so far, and the calls do not fault. -/
theorem dedup_run_calls (calls : List (Call G S)) :
    ∀ (b : Callback G S) (D : List (G × S)), Dedup b D →
      ∃ b', run_calls b calls = .ok b' ∧
        Dedup b' (D ++ delivered b.simplify_internal_tet_facets_ b.facet_is_skipped_ calls) ∧
        b'.simplify_internal_tet_facets_ = b.simplify_internal_tet_facets_ := by
  induction calls with
  | nil =>
    intro b D h
    exact ⟨b, rfl, by simpa [delivered] using h, rfl⟩
  | cons c cs ih =>
    intro b D h
    cases c with
    | begin_facet_internal fs ft =>
      obtain ⟨h1, hs1, hi1⟩ := dedup_begin b D fs ft h
      obtain ⟨b', hr, hd, hi⟩ := ih _ D h1
      refine ⟨b', ?_, ?_, hi.trans hi1⟩
      · rw [run_calls_begin]
        exact hr
      · rw [hs1, hi1] at hd
        exact hd
    | vertex_internal g s =>
      by_cases hskip : b.facet_is_skipped_ = true
      · have hv : vertex_internal b g s = .ok b := by
          unfold vertex_internal
          rw [if_pos hskip]
        obtain ⟨b', hr, hd, hi⟩ := ih b D h
        refine ⟨b', ?_, ?_, hi⟩
        · rw [run_calls_vertex, hv]
          exact hr
        · simp only [delivered, hskip, if_true]
          rw [hskip] at hd
          exact hd
      · have hskip' : b.facet_is_skipped_ = false := by
          cases hc : b.facet_is_skipped_
          · rfl
          · exact absurd hc hskip
        obtain ⟨b1, hv, h1, hs1, hi1, _⟩ := dedup_vertex b D g s h hskip'
        obtain ⟨b', hr, hd, hi⟩ := ih b1 _ h1
        refine ⟨b', ?_, ?_, hi.trans hi1⟩
        · rw [run_calls_vertex, hv]
          exact hr
        · simp only [delivered, hskip', Bool.false_eq_true, if_false]
          rw [hs1, hi1, List.append_assoc] at hd
          exact hd
    | end_facet_internal =>
      obtain ⟨h1, hs1, hi1⟩ := dedup_end b D h
      obtain ⟨b', hr, hd, hi⟩ := ih _ D h1
      refine ⟨b', ?_, ?_, hi.trans hi1⟩
      · exact hr
      · rw [hs1, hi1] at hd
        exact hd

/-- A traversal delivers one block `begin_polyhedron`, facet events, `end_polyhedron` per
group of cells. -/
theorem traverse_blocks (proc : Processing G S)
    (cb : Callback G S) (cells : List (Cell G S))
    (hmerge : cb.simplify_internal_tet_facets_ = true →
      cb.last_seed_ = NO_INDEX ∧ cells ≠ [] ∧ ∀ c ∈ cells, c.v ≠ NO_INDEX)
    (hbuf : cb.use_mesh_ = true →
      cb.mesh_ = WorkMesh.empty ∧ cb.base_current_facet_ = [] ∧
      proc.valid cb.simplify_voronoi_facets_ cb.tessellate_non_convex_facets_) :
    ∃ cb' bodies,
      traverse proc cb cells = .ok cb' ∧
      cb'.out = cb.out ++
        polyhedron_blocks (polyhedron_groups cb.simplify_internal_tet_facets_ cells) bodies ∧
      bodies.length = (polyhedron_groups cb.simplify_internal_tet_facets_ cells).length ∧
      (∀ body ∈ bodies, ∀ e ∈ body, e.is_facet_event = true) ∧
      (cb.use_mesh_ = false ∨
        (cb.simplify_voronoi_facets_ = false ∧ cb.tessellate_non_convex_facets_ = false ∧
          ∀ r ∈ polyhedron_groups cb.simplify_internal_tet_facets_ cells,
            Consistent (r.flatMap cell_vertices) (r.flatMap cell_vertices)) →
        bodies = (polyhedron_groups cb.simplify_internal_tet_facets_ cells).map
          (fun r => r.flatMap (cell_events cb.simplify_internal_tet_facets_))) := by
  have hgroups : traverse proc cb cells =
      run_groups proc cb (polyhedron_groups cb.simplify_internal_tet_facets_ cells) ∧
      ∀ r ∈ polyhedron_groups cb.simplify_internal_tet_facets_ cells, r ≠ [] := by
    by_cases hi : cb.simplify_internal_tet_facets_ = true
    · obtain ⟨hl, hne, hc⟩ := hmerge hi
      refine ⟨?_, ?_⟩
      · rw [traverse_merge proc cb cells hi hl hne hc]
        unfold polyhedron_groups
        rw [if_pos hi]
      · intro r hr
        unfold polyhedron_groups at hr
        rw [if_pos hi] at hr
        exact (runs_spec cells r hr).1
    · have hi' : cb.simplify_internal_tet_facets_ = false := by
        cases h : cb.simplify_internal_tet_facets_
        · rfl
        · exact absurd h hi
      refine ⟨?_, ?_⟩
      · rw [traverse_single proc cells cb hi']
        unfold polyhedron_groups
        rw [if_neg hi]
      · intro r hr
        unfold polyhedron_groups at hr
        rw [if_neg hi] at hr
        obtain ⟨c, _, rfl⟩ := List.mem_map.1 hr
        simp
  obtain ⟨htr, hne⟩ := hgroups
  rw [htr]
  by_cases hu : cb.use_mesh_ = true
  · obtain ⟨hm, hb, hv⟩ := hbuf hu
    obtain ⟨cb', bodies, h1, ho, hl, hf, hx⟩ := run_groups_buffered proc _ cb hne hu hm hb hv
    refine ⟨cb', bodies, h1, ho, hl, hf, ?_⟩
    intro h
    rcases h with h | ⟨h1, h2, h3⟩
    · rw [hu] at h
      cases h
    · exact hx h1 h2 h3
  · have hu' : cb.use_mesh_ = false := by
      cases h : cb.use_mesh_
      · rfl
      · exact absurd h hu
    obtain ⟨cb', h1, ho⟩ := run_groups_direct proc _ cb hne hu'
    refine ⟨cb', _, h1, ho, by simp, ?_, fun _ => rfl⟩
    intro body hb e he
    obtain ⟨r, _, rfl⟩ := List.mem_map.1 hb
    obtain ⟨c, _, hc⟩ := List.mem_flatMap.1 he
    unfold cell_events at hc
    obtain ⟨dv, _, hdv⟩ := List.mem_flatMap.1 hc
    unfold facet_events at hdv
    split at hdv
    · cases hdv
    · split at hdv
      · cases hdv
      · simp only [List.mem_cons, List.mem_append, List.mem_map, List.mem_singleton] at hdv
        rcases hdv with rfl | ⟨p, _, rfl⟩ | rfl | h
        · rfl
        · rfl
        · rfl
        · cases h

end BufferedLemmas

end RPD

namespace RPD

/-! ## The convexity test -/

section ConvexTest

variable {K : Type} [LinearOrderedCommRing K]

theorem orient_2d_cases (p q r : vec2 K) :
    orient_2d p q r = 1 ∨ orient_2d p q r = 0 ∨ orient_2d p q r = -1 := by
  unfold orient_2d
  split
  · exact Or.inl rfl
  · split
    · exact Or.inr (Or.inr rfl)
    · exact Or.inr (Or.inl rfl)

theorem convex_loop_eq (P : List (vec2 K)) (i : Nat) (is : List Nat) (s : Int) :
    convex_loop P (i :: is) s =
      if turn_sign P i * s = -1 then false
      else convex_loop P is (if s = 0 then turn_sign P i else s) := rfl

/-- The loop of `polygon_is_convex` started with the sign `s` returns `false` exactly
when a later sign is opposite to `s`, or two later signs are opposite to each other. -/
theorem convex_loop_false_iff (P : List (vec2 K)) :
    ∀ (is : List Nat) (s : Int), (s = 1 ∨ s = 0 ∨ s = -1) →
      (convex_loop P is s = false ↔
        (∃ i ∈ is, turn_sign P i * s = -1) ∨
        (∃ i ∈ is, ∃ j ∈ is, turn_sign P i = 1 ∧ turn_sign P j = -1)) := by
  intro is
  induction is with
  | nil =>
    intro s _
    simp [convex_loop]
  | cons i is ih =>
    intro s hs
    rw [convex_loop_eq]
    have ho : turn_sign P i = 1 ∨ turn_sign P i = 0 ∨ turn_sign P i = -1 :=
      orient_2d_cases _ _ _
    by_cases hopp : turn_sign P i * s = -1
    · rw [if_pos hopp]
      simp only [true_iff]
      exact Or.inl ⟨i, List.mem_cons_self _ _, hopp⟩
    · rw [if_neg hopp]
      have hs' : ((if s = 0 then turn_sign P i else s) = 1 ∨
          (if s = 0 then turn_sign P i else s) = 0 ∨
          (if s = 0 then turn_sign P i else s) = -1) := by
        split
        · exact ho
        · exact hs
      rw [ih _ hs']
      constructor
      · rintro (⟨k, hk, hks⟩ | ⟨a, ha, b, hb, h1, h2⟩)
        · by_cases hs0 : s = 0
          · rw [if_pos hs0] at hks
            rcases ho with h | h | h
            · rw [h] at hks
              refine Or.inr ⟨i, List.mem_cons_self _ _, k, List.mem_cons_of_mem _ hk, h, ?_⟩
              omega
            · rw [h] at hks
              omega
            · rw [h] at hks
              refine Or.inr ⟨k, List.mem_cons_of_mem _ hk, i, List.mem_cons_self _ _, ?_, h⟩
              omega
          · rw [if_neg hs0] at hks
            exact Or.inl ⟨k, List.mem_cons_of_mem _ hk, hks⟩
        · exact Or.inr ⟨a, List.mem_cons_of_mem _ ha, b, List.mem_cons_of_mem _ hb, h1, h2⟩
      · rintro (⟨k, hk, hks⟩ | ⟨a, ha, b, hb, h1, h2⟩)
        · rcases List.mem_cons.1 hk with rfl | hk
          · exact absurd hks hopp
          · have hs0 : s ≠ 0 := by
              intro h0
              rw [h0] at hks
              omega
            exact Or.inl ⟨k, hk, by rw [if_neg hs0]; exact hks⟩
        · rcases List.mem_cons.1 ha with ha' | ha'
          · rcases List.mem_cons.1 hb with hb' | hb'
            · rw [ha'] at h1
              rw [hb', h1] at h2
              omega
            · rw [ha'] at h1
              by_cases hs0 : s = 0
              · exact Or.inl ⟨b, hb', by rw [if_pos hs0, h1, h2]; rfl⟩
              · rcases hs with h | h | h
                · exact Or.inl ⟨b, hb', by rw [if_neg hs0, h, h2]; rfl⟩
                · exact absurd h hs0
                · exact absurd (by rw [h1, h]; rfl) hopp
          · rcases List.mem_cons.1 hb with hb' | hb'
            · rw [hb'] at h2
              by_cases hs0 : s = 0
              · exact Or.inl ⟨a, ha', by rw [if_pos hs0, h1, h2]; rfl⟩
              · rcases hs with h | h | h
                · exact absurd (by rw [h2, h]; rfl) hopp
                · exact absurd h hs0
                · exact Or.inl ⟨a, ha', by rw [if_neg hs0, h, h1]; rfl⟩
            · exact Or.inr ⟨a, ha', b, hb', h1, h2⟩

end ConvexTest

end RPD

namespace RPD

/-! ## The cost of a triangle and the shape of the triangulation -/

section TriangleCost

variable {K : Type} [LinearOrderedCommRing K]

/-- The cost of a triangulation with non-negative triangle costs is not negative. -/
theorem tcost_nonneg (cost : Nat → Nat → Nat → K) (hc : ∀ a k b, 0 ≤ cost a k b) :
    ∀ (T : Triangulation) (i j : Nat), 0 ≤ tcost cost i j T := by
  intro T
  induction T with
  | leaf => intro i j; exact le_refl _
  | node k l r ihl ihr =>
    intro i j
    simp only [tcost]
    have h1 := ihl i k
    have h2 := ihr k j
    have h3 := hc i k j
    linarith

/-- With non-negative triangle costs, every triangle of a triangulation costs at most the
whole triangulation. -/
theorem triangles_of_cost_le (cost : Nat → Nat → Nat → K) (hc : ∀ a k b, 0 ≤ cost a k b) :
    ∀ (T : Triangulation) (i j : Nat), ∀ t ∈ triangles_of i j T,
      cost t.1 t.2.1 t.2.2 ≤ tcost cost i j T := by
  intro T
  induction T with
  | leaf => intro i j t ht; simp [triangles_of] at ht
  | node k l r ihl ihr =>
    intro i j t ht
    simp only [triangles_of, List.mem_cons, List.mem_append] at ht
    have h1 := tcost_nonneg cost hc l i k
    have h2 := tcost_nonneg cost hc r k j
    have h3 := hc i k j
    simp only [tcost]
    rcases ht with ht | ht | ht
    · subst ht
      simp only
      linarith
    · have := ihl i k t ht
      linarith
    · have := ihr k j t ht
      linarith

/-- Three vectors with sum zero, the first two of which are parallel: one of the three
dot products of consecutive vectors is not negative. -/
theorem collinear_dot (ux uy wx wy : K) (hdet : ux * wy - uy * wx = 0)
    (h0 : ux * wx + uy * wy < 0)
    (h1 : wx * (-(ux + wx)) + wy * (-(uy + wy)) < 0) :
    0 ≤ (-(ux + wx)) * ux + (-(uy + wy)) * uy := by
  by_contra h2
  rw [not_le] at h2
  have hd : 0 < -(ux * wx + uy * wy) := by linarith
  have hu : 0 < ux * ux + uy * uy + (ux * wx + uy * wy) := by linarith
  have hw : 0 < wx * wx + wy * wy + (ux * wx + uy * wy) := by linarith
  have hlag : (ux * ux + uy * uy) * (wx * wx + wy * wy) =
      (ux * wx + uy * wy) * (ux * wx + uy * wy) + (ux * wy - uy * wx) * (ux * wy - uy * wx) := by
    ring
  rw [hdet, mul_zero, add_zero] at hlag
  have hp := mul_pos hu hw
  have hq := mul_pos hd (add_pos hu hw)
  have e : (ux * ux + uy * uy + (ux * wx + uy * wy)) *
      (wx * wx + wy * wy + (ux * wx + uy * wy)) =
      (ux * ux + uy * uy) * (wx * wx + wy * wy) +
      (ux * wx + uy * wy) * (ux * wx + uy * wy) -
      (-(ux * wx + uy * wy)) * (ux * ux + uy * uy + (ux * wx + uy * wy) +
        (wx * wx + wy * wy + (ux * wx + uy * wy))) -
      2 * ((ux * wx + uy * wy) * (ux * wx + uy * wy)) := by
    ring
  rw [e, hlag] at hp
  linarith

theorem angle_nonpos_zero (x : K) : angle_nonpos 0 x = decide (0 ≤ x) := by
  simp [angle_nonpos]

/-- A triangle of signed area zero costs the sentinel: one of its three turns has a zero
determinant and a non-negative dot product, so that `atan2` returns zero. -/
theorem triangle_cost_of_zero (compl : K → K → K) (pts : List (vec2 K)) (i j k : Nat)
    (h : det ((pts.getD j vec2.zero).sub (pts.getD i vec2.zero))
      ((pts.getD k vec2.zero).sub (pts.getD i vec2.zero)) = 0) :
    triangle_cost compl pts i j k = 1024 := by
  have e0 : corner3 pts i j k 0 = pts.getD i vec2.zero := rfl
  have e1 : corner3 pts i j k 1 = pts.getD j vec2.zero := rfl
  have e2 : corner3 pts i j k 2 = pts.getD k vec2.zero := rfl
  have e3 : corner3 pts i j k 3 = pts.getD i vec2.zero := rfl
  have e4 : corner3 pts i j k 4 = pts.getD j vec2.zero := rfl
  have d0 := det_turn (pts.getD i vec2.zero) (pts.getD j vec2.zero) (pts.getD k vec2.zero)
  have d1 := det_turn_rot (pts.getD i vec2.zero) (pts.getD j vec2.zero) (pts.getD k vec2.zero)
  have d2 := det_turn_rot2 (pts.getD i vec2.zero) (pts.getD j vec2.zero) (pts.getD k vec2.zero)
  rw [h] at d0 d1 d2
  have hloop : angle_loop compl (corner3 pts i j k) [0, 1, 2] 0 = none := by
    simp only [angle_loop, Nat.zero_add, Nat.reduceAdd, e0, e1, e2, e3, e4]
    rw [d0, d1, d2]
    by_cases c0 : 0 ≤ dot ((pts.getD j vec2.zero).sub (pts.getD i vec2.zero))
        ((pts.getD k vec2.zero).sub (pts.getD j vec2.zero))
    · rw [if_pos (by rw [angle_nonpos_zero, decide_eq_true c0])]
    · rw [if_neg (by rw [angle_nonpos_zero, decide_eq_false c0]; decide)]
      by_cases c1 : 0 ≤ dot ((pts.getD k vec2.zero).sub (pts.getD j vec2.zero))
          ((pts.getD i vec2.zero).sub (pts.getD k vec2.zero))
      · rw [if_pos (by rw [angle_nonpos_zero, decide_eq_true c1])]
      · rw [if_neg (by rw [angle_nonpos_zero, decide_eq_false c1]; decide)]
        have c2 : 0 ≤ dot ((pts.getD i vec2.zero).sub (pts.getD k vec2.zero))
            ((pts.getD j vec2.zero).sub (pts.getD i vec2.zero)) := by
          have hd : det ((pts.getD j vec2.zero).sub (pts.getD i vec2.zero))
              ((pts.getD k vec2.zero).sub (pts.getD j vec2.zero)) = 0 := d0
          simp only [det, dot, vec2.sub] at hd c0 c1 ⊢
          rw [not_le] at c0 c1
          have := collinear_dot
            ((pts.getD j vec2.zero).x - (pts.getD i vec2.zero).x)
            ((pts.getD j vec2.zero).y - (pts.getD i vec2.zero).y)
            ((pts.getD k vec2.zero).x - (pts.getD j vec2.zero).x)
            ((pts.getD k vec2.zero).y - (pts.getD j vec2.zero).y) hd c0
            (by
              have e : ((pts.getD k vec2.zero).x - (pts.getD j vec2.zero).x) *
                  (-((pts.getD j vec2.zero).x - (pts.getD i vec2.zero).x +
                    ((pts.getD k vec2.zero).x - (pts.getD j vec2.zero).x))) +
                  ((pts.getD k vec2.zero).y - (pts.getD j vec2.zero).y) *
                  (-((pts.getD j vec2.zero).y - (pts.getD i vec2.zero).y +
                    ((pts.getD k vec2.zero).y - (pts.getD j vec2.zero).y))) =
                  ((pts.getD k vec2.zero).x - (pts.getD j vec2.zero).x) *
                    ((pts.getD i vec2.zero).x - (pts.getD k vec2.zero).x) +
                  ((pts.getD k vec2.zero).y - (pts.getD j vec2.zero).y) *
                    ((pts.getD i vec2.zero).y - (pts.getD k vec2.zero).y) := by ring
              rw [e]
              exact c1)
          have e : ((pts.getD i vec2.zero).x - (pts.getD k vec2.zero).x) *
              ((pts.getD j vec2.zero).x - (pts.getD i vec2.zero).x) +
              ((pts.getD i vec2.zero).y - (pts.getD k vec2.zero).y) *
              ((pts.getD j vec2.zero).y - (pts.getD i vec2.zero).y) =
              -((pts.getD j vec2.zero).x - (pts.getD i vec2.zero).x +
                ((pts.getD k vec2.zero).x - (pts.getD j vec2.zero).x)) *
                ((pts.getD j vec2.zero).x - (pts.getD i vec2.zero).x) +
              -((pts.getD j vec2.zero).y - (pts.getD i vec2.zero).y +
                ((pts.getD k vec2.zero).y - (pts.getD j vec2.zero).y)) *
                ((pts.getD j vec2.zero).y - (pts.getD i vec2.zero).y) := by ring
          rw [e]
          exact this
        rw [if_pos (by rw [angle_nonpos_zero, decide_eq_true c2])]
  unfold triangle_cost
  rw [hloop]

/-- A triangle that has another polygon vertex strictly inside costs the sentinel. -/
theorem triangle_cost_of_inside (compl : K → K → K) (pts : List (vec2 K)) (i j k o : Nat)
    (ho : o < pts.length) (hi : o ≠ i) (hj : o ≠ j) (hk : o ≠ k)
    (hin : inside (corner3 pts i j k) (pts.getD o vec2.zero) = true) :
    triangle_cost compl pts i j k = 1024 := by
  unfold triangle_cost
  cases h : angle_loop compl (corner3 pts i j k) [0, 1, 2] 0 with
  | none => rfl
  | some m =>
    simp only
    rw [if_pos]
    rw [List.any_eq_true]
    refine ⟨o, List.mem_range.2 ho, ?_⟩
    rw [hin, decide_eq_false hi, decide_eq_false hj, decide_eq_false hk]
    rfl

/-- The function `triangle_cost` returns the sentinel exactly for the triangles whose
signed area is not positive or that have another polygon vertex strictly inside. -/
theorem triangle_cost_sentinel_iff (compl : K → K → K) (pts : List (vec2 K)) (B : K)
    (hB : ∀ y x, compl y x ≤ B) (h0 : 0 ≤ B) (hlt : B < 1024) (i j k : Nat) :
    triangle_cost compl pts i j k = 1024 ↔
      (det ((pts.getD j vec2.zero).sub (pts.getD i vec2.zero))
        ((pts.getD k vec2.zero).sub (pts.getD i vec2.zero)) ≤ 0 ∨
       ∃ o, o < pts.length ∧ o ≠ i ∧ o ≠ j ∧ o ≠ k ∧
        inside (corner3 pts i j k) (pts.getD o vec2.zero) = true) := by
  constructor
  · intro h
    by_contra hcon
    rw [not_or, not_le] at hcon
    have := triangle_cost_admissible compl pts i j k B hB h0 hcon.1 (by
      intro o ho hi hj hk
      by_contra hin
      rw [Bool.not_eq_false] at hin
      exact hcon.2 ⟨o, ho, hi, hj, hk, hin⟩)
    rw [h] at this
    linarith
  · rintro (h | ⟨o, ho, hi, hj, hk, hin⟩)
    · rcases lt_or_eq_of_le h with h | h
      · exact triangle_cost_of_neg compl pts i j k h
      · exact triangle_cost_of_zero compl pts i j k h
    · exact triangle_cost_of_inside compl pts i j k o ho hi hj hk hin

end TriangleCost

/-! ## The order of the returned triangles -/

/-- The replay loop only appends to the vector `triangles`. -/
theorem replay_extends (n : Nat) (tri : List Nat) :
    ∀ (fuel : Nat) (pending acc res : List Nat),
      replay n tri fuel pending acc = .ok res → ∃ rest, res = acc ++ rest := by
  intro fuel
  induction fuel with
  | zero =>
    intro pending acc res h
    cases pending with
    | nil =>
      simp only [replay] at h
      cases h
      exact ⟨[], (List.append_nil _).symm⟩
    | cons idx pending => simp only [replay] at h; cases h
  | succ fuel ih =>
    intro pending acc res h
    cases pending with
    | nil =>
      simp only [replay] at h
      cases h
      exact ⟨[], (List.append_nil _).symm⟩
    | cons idx pending =>
      simp only [replay] at h
      cases hk : tri[idx]? with
      | none => rw [hk] at h; cases h
      | some k =>
        rw [hk] at h
        simp only at h
        split at h
        · cases h
        · obtain ⟨rest, hrest⟩ := ih _ _ _ h
          exact ⟨[idx / n, k, idx % n] ++ rest, by rw [hrest, List.append_assoc]⟩

/-- The first triangle written by the replay loop started on the whole chain is
`(0, tri[n - 1], n - 1)`. -/
theorem replay_first (n : Nat) (tri : List Nat) (hn : 2 ≤ n) (fuel : Nat) (res : List Nat)
    (h : replay n tri fuel [n - 1] [] = .ok res) :
    ∃ k rest, res = 0 :: k :: (n - 1) :: rest := by
  cases fuel with
  | zero => simp only [replay] at h; cases h
  | succ fuel =>
    simp only [replay] at h
    cases hk : tri[n - 1]? with
    | none => rw [hk] at h; cases h
    | some k =>
      rw [hk] at h
      simp only at h
      split at h
      · cases h
      · obtain ⟨rest, hrest⟩ := replay_extends n tri _ _ _ _ h
        have hd : (n - 1) / n = 0 := Nat.div_eq_of_lt (by omega)
        have hm : (n - 1) % n = n - 1 := Nat.mod_eq_of_lt (by omega)
        rw [hd, hm] at hrest
        exact ⟨k, rest, by rw [hrest]; rfl⟩

/-- For at least three vertices `triangulate_polygon` runs to its end and returns
`n - 2` index triples `(i, k, j)` with `i < k < j <= n - 1`, the first of which spans the
whole chain. -/
theorem triangulate_output_shape {K : Type} [LinearOrderedCommRing K]
    (compl : K → K → K) (pts : List (vec2 K)) (hcompl : ∀ y x, compl y x ≤ 1024)
    (h3 : 3 ≤ pts.length) (hn : pts.length * pts.length ≤ NO_INDEX) :
    ∃ b triangles,
      triangulate_polygon compl pts = .ok (b, triangles) ∧
      triangles.length = 3 * (pts.length - 2) ∧
      (triples triangles).length = pts.length - 2 ∧
      flat_triples (triples triangles) = triangles ∧
      (∀ t ∈ triples triangles, t.1 < t.2.1 ∧ t.2.1 < t.2.2 ∧ t.2.2 ≤ pts.length - 1) ∧
      ∃ k, (triples triangles).head? = some (0, k, pts.length - 1) := by
  have hflat_len : ∀ ts : List (Nat × Nat × Nat), (flat_triples ts).length = 3 * ts.length := by
    intro ts
    induction ts with
    | nil => rfl
    | cons t ts ih =>
      simp only [flat_triples, List.length_cons, ih]
      omega
  rcases Nat.eq_or_lt_of_le h3 with h | h4
  · refine ⟨true, [0, 1, 2], ?_, ?_, ?_, rfl, ?_, ⟨1, ?_⟩⟩
    · unfold triangulate_polygon triangulate_cost
      rw [← h]
      rfl
    · rw [← h]
      rfl
    · rw [← h]
      rfl
    · intro t ht
      simp only [triples, List.mem_singleton] at ht
      subst ht
      rw [← h]
      decide
    · rw [← h]
      rfl
  · have hc : ∀ a k b, triangle_cost compl pts a k b ≤ 1024 := by
      intro a k b
      rcases triangle_cost_le compl pts a k b 1024 hcompl (by norm_num) with h | h
      · exact le_of_eq h
      · exact h
    have hn' : pts.length ≤ NO_INDEX := le_trans (Nat.le_mul_self _) hn
    obtain ⟨b, ts, T, hrun, hT, hperm, hb, _⟩ :=
      triangulate_cost_flat (fun i k j => triangle_cost compl pts i k j) hc pts.length h4 hn'
    have hlen : ts.length = pts.length - 2 := by
      rw [hperm.length_eq, triangles_of_length 0 (pts.length - 1) T hT]
      omega
    refine ⟨b, flat_triples ts, hrun, ?_, ?_, ?_, ?_, ?_⟩
    · rw [hflat_len, hlen]
    · rw [triples_flat, hlen]
    · rw [triples_flat]
    · intro t ht
      rw [triples_flat] at ht
      have := triangles_of_bounds 0 (pts.length - 1) T hT t ((hperm.mem_iff).1 ht)
      exact ⟨this.2.1, this.2.2.1, this.2.2.2⟩
    · rw [triples_flat]
      have hrun2 := hrun
      unfold triangulate_cost at hrun2
      rw [if_neg (by omega), if_neg (by omega)] at hrun2
      cases htb : dp_tables (fun i k j => triangle_cost compl pts i k j) pts.length with
      | error e => rw [htb] at hrun2; cases hrun2
      | ok tb =>
        rw [htb] at hrun2
        simp only at hrun2
        cases hrep : replay pts.length tb.2 pts.length [pts.length - 1] [] with
        | error e => rw [hrep] at hrun2; cases hrun2
        | ok res =>
          rw [hrep] at hrun2
          simp only at hrun2
          obtain ⟨k, rest, hres⟩ := replay_first pts.length tb.2 (by omega) _ _ hrep
          cases hv : tb.1[pts.length - 1]? with
          | none => rw [hv] at hrun2; cases hrun2
          | some v =>
            rw [hv] at hrun2
            simp only at hrun2
            have hres2 : res = flat_triples ts := by
              injection hrun2 with h
              exact congrArg Prod.snd h
            rw [hres2] at hres
            have := congrArg triples hres
            rw [triples_flat] at this
            rw [this]
            exact ⟨k, rfl⟩

end RPD

namespace RPD

/-! ## The fresh labels of `split_regions_along_hard_edges` -/

/-- One corner of the flood fill leaves a label as it is or turns `index_t(-1)` into
the current label `R`. -/
theorem split_corner_cases (mesh : Mesh) (hard : Nat → Nat → Bool) (R f2 lv : Nat)
    (st : List Nat × List Nat) (g : Nat) :
    (split_corner mesh hard R f2 st lv).1.getD g 0 = st.1.getD g 0 ∨
    (st.1.getD g 0 = NO_INDEX ∧ (split_corner mesh hard R f2 st lv).1.getD g 0 = R) := by
  unfold split_corner
  split
  · exact Or.inl rfl
  · split
    · rename_i hcond
      obtain ⟨_, hno⟩ := hcond
      have hlt : mesh.adjacent_facet f2 lv < st.1.length :=
        getD_lt_of_ne_default _ _ 0 (by rw [hno]; exact no_index_ne_zero)
      by_cases h : g = mesh.adjacent_facet f2 lv
      · right
        rw [h]
        exact ⟨hno, getD_set_self _ _ _ _ hlt⟩
      · left
        exact getD_set_ne _ _ _ _ _ (Ne.symm h)
    · exact Or.inl rfl

theorem foldl_split_corner_cases (mesh : Mesh) (hard : Nat → Nat → Bool) (R f2 : Nat)
    (hR : R ≠ NO_INDEX) (g : Nat) :
    ∀ (lvs : List Nat) (st : List Nat × List Nat),
      (lvs.foldl (split_corner mesh hard R f2) st).1.getD g 0 = st.1.getD g 0 ∨
      (st.1.getD g 0 = NO_INDEX ∧
        (lvs.foldl (split_corner mesh hard R f2) st).1.getD g 0 = R) := by
  intro lvs
  induction lvs with
  | nil => intro st; exact Or.inl rfl
  | cons lv lvs ih =>
    intro st
    rw [List.foldl_cons]
    rcases ih (split_corner mesh hard R f2 st lv) with h | ⟨h1, h2⟩
    · rcases split_corner_cases mesh hard R f2 lv st g with h' | ⟨h1', h2'⟩
      · exact Or.inl (h.trans h')
      · exact Or.inr ⟨h1', h.trans h2'⟩
    · rcases split_corner_cases mesh hard R f2 lv st g with h' | ⟨h1', h2'⟩
      · exact Or.inr ⟨h'.symm.trans h1, h2⟩
      · exact absurd (h2'.symm.trans h1) hR

theorem split_flood_cases (mesh : Mesh) (hard : Nat → Nat → Bool) (R : Nat)
    (hR : R ≠ NO_INDEX) (g : Nat) :
    ∀ (fuel : Nat) (st : List Nat × List Nat) (L' : List Nat),
      split_flood mesh hard R fuel st = .ok L' →
      L'.getD g 0 = st.1.getD g 0 ∨ (st.1.getD g 0 = NO_INDEX ∧ L'.getD g 0 = R) := by
  intro fuel
  induction fuel with
  | zero =>
    intro st L' h
    obtain ⟨region, S⟩ := st
    cases S with
    | nil =>
      simp only [split_flood, Except.ok.injEq] at h
      rw [← h]
      exact Or.inl rfl
    | cons f2 S => simp only [split_flood] at h; cases h
  | succ fuel ih =>
    intro st L' h
    obtain ⟨region, S⟩ := st
    cases S with
    | nil =>
      simp only [split_flood, Except.ok.injEq] at h
      rw [← h]
      exact Or.inl rfl
    | cons f2 S =>
      simp only [split_flood] at h
      rcases ih _ _ h with h1 | ⟨h1, h2⟩
      · rcases foldl_split_corner_cases mesh hard R f2 hR g
            (List.range (mesh.facet_nb_vertices f2)) (region, S) with h' | ⟨h1', h2'⟩
        · exact Or.inl (h1.trans h')
        · exact Or.inr ⟨h1', h1.trans h2'⟩
      · rcases foldl_split_corner_cases mesh hard R f2 hR g
            (List.range (mesh.facet_nb_vertices f2)) (region, S) with h' | ⟨h1', h2'⟩
        · exact Or.inr ⟨h'.symm.trans h1, h2⟩
        · exact absurd (h2'.symm.trans h1) hR

/-- The last loop of `split_regions_along_hard_edges` leaves a label as it is or turns
`index_t(-1)` into one of the fresh labels `R`, `R + 1`, ... -/
theorem split_loop_cases (mesh : Mesh) (hard : Nat → Nat → Bool) (g : Nat) :
    ∀ (fs : List Nat) (region : List Nat) (R : Nat) (L' : List Nat),
      R + fs.length ≤ NO_INDEX → split_loop mesh hard fs region R = .ok L' →
      L'.getD g 0 = region.getD g 0 ∨
      (region.getD g 0 = NO_INDEX ∧ R ≤ L'.getD g 0 ∧ L'.getD g 0 < R + fs.length) := by
  intro fs
  induction fs with
  | nil =>
    intro region R L' _ h
    simp only [split_loop, Except.ok.injEq] at h
    rw [← h]
    exact Or.inl rfl
  | cons f fs ih =>
    intro region R L' hfit h
    rw [List.length_cons] at hfit
    have hRlt : R < NO_INDEX := by omega
    have hmod : (R + 1) % 2 ^ 32 = R + 1 := by
      apply Nat.mod_eq_of_lt
      unfold NO_INDEX at hRlt
      omega
    rw [split_loop] at h
    split at h
    · rename_i hf
      cases hfl : split_flood mesh hard R (mesh.facets.length + 1) (region.set f R, [f]) with
      | error e => rw [hfl] at h; cases h
      | ok region' =>
        rw [hfl] at h
        simp only at h
        rw [hmod] at h
        have hflt : f < region.length :=
          getD_lt_of_ne_default _ _ 0 (by rw [hf]; exact no_index_ne_zero)
        have hmid : region'.getD g 0 = region.getD g 0 ∨
            (region.getD g 0 = NO_INDEX ∧ region'.getD g 0 = R) := by
          rcases split_flood_cases mesh hard R (Nat.ne_of_lt hRlt) g _ _ _ hfl with h1 | ⟨h1, h2⟩
          · simp only at h1
            by_cases hg : g = f
            · right
              rw [hg] at h1 ⊢
              rw [getD_set_self _ _ _ _ hflt] at h1
              exact ⟨hf, h1⟩
            · left
              rw [h1]
              exact getD_set_ne _ _ _ _ _ (Ne.symm hg)
          · simp only at h1
            by_cases hg : g = f
            · right
              rw [hg]
              rw [hg] at h2
              exact ⟨hf, h2⟩
            · right
              rw [getD_set_ne _ _ _ _ _ (Ne.symm hg)] at h1
              exact ⟨h1, h2⟩
        rcases ih region' (R + 1) L' (by omega) h with h1 | ⟨h1, h2, h3⟩
        · rcases hmid with h' | ⟨h1', h2'⟩
          · exact Or.inl (h1.trans h')
          · right
            rw [h1, h2', List.length_cons]
            exact ⟨h1', le_refl _, by omega⟩
        · rcases hmid with h' | ⟨h1', h2'⟩
          · right
            rw [List.length_cons]
            exact ⟨h'.symm.trans h1, by omega, by omega⟩
          · exfalso
            rw [h2'] at h1
            omega
    · rcases ih region R L' (by omega) h with h1 | ⟨h1, h2, h3⟩
      · exact Or.inl h1
      · right
        rw [List.length_cons]
        exact ⟨h1, h2, by omega⟩

/-- The last loop of `split_regions_along_hard_edges` passes over labelled facets. -/
theorem split_loop_skip (mesh : Mesh) (hard : Nat → Nat → Bool) (region : List Nat)
    (R : Nat) (fs2 : List Nat) :
    ∀ (fs1 : List Nat), (∀ f ∈ fs1, region.getD f 0 ≠ NO_INDEX) →
      split_loop mesh hard (fs1 ++ fs2) region R = split_loop mesh hard fs2 region R := by
  intro fs1
  induction fs1 with
  | nil => intro _; rfl
  | cons f fs1 ih =>
    intro h
    rw [List.cons_append, split_loop, if_neg (h f (List.mem_cons_self _ _))]
    exact ih (fun f' hf' => h f' (List.mem_cons_of_mem _ hf'))

/-! ## The function `max_region` -/

/-- The loop of `max_region` over the facets `fs`, started with `result`. -/
theorem max_region_fold (L : List Nat) :
    ∀ (fs : List Nat) (res : Nat),
      (∀ f ∈ fs, L.getD f 0 ≠ NO_INDEX →
        fs.foldl (fun result f =>
          if L.getD f 0 ≠ NO_INDEX then
            if result = NO_INDEX then L.getD f 0 else max result (L.getD f 0)
          else result) res ≠ NO_INDEX ∧
        L.getD f 0 ≤ fs.foldl (fun result f =>
          if L.getD f 0 ≠ NO_INDEX then
            if result = NO_INDEX then L.getD f 0 else max result (L.getD f 0)
          else result) res) ∧
      (res ≠ NO_INDEX →
        fs.foldl (fun result f =>
          if L.getD f 0 ≠ NO_INDEX then
            if result = NO_INDEX then L.getD f 0 else max result (L.getD f 0)
          else result) res ≠ NO_INDEX ∧
        res ≤ fs.foldl (fun result f =>
          if L.getD f 0 ≠ NO_INDEX then
            if result = NO_INDEX then L.getD f 0 else max result (L.getD f 0)
          else result) res) ∧
      ((∀ f ∈ fs, L.getD f 0 = NO_INDEX) →
        fs.foldl (fun result f =>
          if L.getD f 0 ≠ NO_INDEX then
            if result = NO_INDEX then L.getD f 0 else max result (L.getD f 0)
          else result) res = res) := by
  intro fs
  induction fs with
  | nil =>
    intro res
    refine ⟨fun f hf => absurd hf (List.not_mem_nil _), fun h => ⟨h, le_refl _⟩, fun _ => rfl⟩
  | cons a fs ih =>
    intro res
    rw [List.foldl_cons]
    by_cases ha : L.getD a 0 = NO_INDEX
    · have hstep : (if L.getD a 0 ≠ NO_INDEX then
          if res = NO_INDEX then L.getD a 0 else max res (L.getD a 0) else res) = res := by
        rw [if_neg (by simpa using ha)]
      rw [hstep]
      obtain ⟨h1, h2, h3⟩ := ih res
      refine ⟨?_, h2, ?_⟩
      · intro f hf hne
        rcases List.mem_cons.1 hf with hfa | hf'
        · rw [hfa] at hne
          exact absurd ha hne
        · exact h1 f hf' hne
      · intro hall
        exact h3 (fun f hf => hall f (List.mem_cons_of_mem _ hf))
    · have hstep : (if L.getD a 0 ≠ NO_INDEX then
          if res = NO_INDEX then L.getD a 0 else max res (L.getD a 0) else res) =
          (if res = NO_INDEX then L.getD a 0 else max res (L.getD a 0)) := by
        rw [if_pos ha]
      rw [hstep]
      have hne : (if res = NO_INDEX then L.getD a 0 else max res (L.getD a 0)) ≠ NO_INDEX := by
        split
        · exact ha
        · rename_i hres
          rcases max_choice res (L.getD a 0) with hm | hm
          · rw [hm]; exact hres
          · rw [hm]; exact ha
      have hge : L.getD a 0 ≤ (if res = NO_INDEX then L.getD a 0 else max res (L.getD a 0)) := by
        split
        · exact le_refl _
        · exact le_max_right _ _
      obtain ⟨h1, h2, h3⟩ := ih (if res = NO_INDEX then L.getD a 0 else max res (L.getD a 0))
      obtain ⟨h2a, h2b⟩ := h2 hne
      refine ⟨?_, ?_, ?_⟩
      · intro f hf hfne
        rcases List.mem_cons.1 hf with hfa | hf'
        · rw [hfa]
          exact ⟨h2a, le_trans hge h2b⟩
        · exact h1 f hf' hfne
      · intro hres
        refine ⟨h2a, le_trans ?_ h2b⟩
        rw [if_neg hres]
        exact le_max_left _ _
      · intro hall
        exact absurd (hall a (List.mem_cons_self _ _)) ha

/-- The function `max_region` bounds every label other than `index_t(-1)`, and returns
`index_t(-1)` when there is none. -/
theorem max_region_spec (mesh : Mesh) (L : List Nat) :
    (∀ g, g < mesh.facets.length → L.getD g 0 ≠ NO_INDEX →
      max_region mesh L ≠ NO_INDEX ∧ L.getD g 0 ≤ max_region mesh L) ∧
    ((∀ g, g < mesh.facets.length → L.getD g 0 = NO_INDEX) →
      max_region mesh L = NO_INDEX) := by
  obtain ⟨h1, _, h3⟩ := max_region_fold L (List.range mesh.facets.length) NO_INDEX
  exact ⟨fun g hg hne => h1 g (List.mem_range.2 hg) hne,
    fun hall => h3 (fun f hf => hall f (List.mem_range.1 hf))⟩

theorem range_split_at (n g : Nat) (h : g < n) :
    List.range n = List.range g ++ g :: List.range' (g + 1) (n - g - 1) := by
  have e1 : List.range' 0 g ++ List.range' (0 + g) (n - g) = List.range' 0 (n - g + g) :=
    List.range'_append_1 0 g (n - g)
  rw [Nat.zero_add, Nat.sub_add_cancel (Nat.le_of_lt h)] at e1
  have e2 : n - g = (n - g - 1) + 1 := by omega
  rw [List.range_eq_range', List.range_eq_range', ← e1]
  conv_lhs => rw [e2, List.range'_succ]

/-- The first unlabelled facet receives the first fresh label. -/
theorem split_regions_first (mesh : Mesh) (L : List Nat) (hard : Nat → Nat → Bool)
    (L' : List Nat) (hlen : L.length = mesh.facets.length) (hfit : LabelsFit mesh L)
    (h : split_regions_along_hard_edges mesh L hard = .ok L')
    (g0 : Nat) (hg0 : g0 < mesh.facets.length) (hno : L.getD g0 0 = NO_INDEX)
    (hfirst : ∀ g, g < g0 → L.getD g 0 ≠ NO_INDEX) :
    L'.getD g0 0 = if max_region mesh L = NO_INDEX then 0 else max_region mesh L + 1 := by
  have hR0 : (if max_region mesh L = NO_INDEX then 0
      else (max_region mesh L + 1) % 2 ^ 32) =
      (if max_region mesh L = NO_INDEX then 0 else max_region mesh L + 1) := by
    unfold LabelsFit at hfit
    split
    · rfl
    · rename_i hm
      rw [if_neg hm] at hfit
      apply Nat.mod_eq_of_lt
      unfold NO_INDEX at hfit
      omega
  unfold split_regions_along_hard_edges at h
  rw [hR0] at h
  unfold LabelsFit at hfit
  generalize (if max_region mesh L = NO_INDEX then 0 else max_region mesh L + 1) = R0
    at h hfit ⊢
  have hsplit : List.range mesh.facets.length =
      List.range g0 ++ g0 :: List.range' (g0 + 1) (mesh.facets.length - g0 - 1) :=
    range_split_at _ _ hg0
  rw [hsplit, split_loop_skip mesh hard L R0 _ _
    (fun f hf => hfirst f (List.mem_range.1 hf))] at h
  rw [split_loop, if_pos hno] at h
  have hRlt : R0 < NO_INDEX := by omega
  cases hfl : split_flood mesh hard R0 (mesh.facets.length + 1) (L.set g0 R0, [g0]) with
  | error e => rw [hfl] at h; cases h
  | ok region' =>
    rw [hfl] at h
    simp only at h
    have hmid : region'.getD g0 0 = R0 := by
      rcases split_flood_cases mesh hard R0 (Nat.ne_of_lt hRlt) g0 _ _ _ hfl with h1 | ⟨_, h2⟩
      · rw [h1]
        exact getD_set_self _ _ _ _ (by omega)
      · exact h2
    have hmod : (R0 + 1) % 2 ^ 32 = R0 + 1 := by
      apply Nat.mod_eq_of_lt
      unfold NO_INDEX at hRlt
      omega
    rw [hmod] at h
    rcases split_loop_cases mesh hard g0 _ region' (R0 + 1) L'
        (by rw [List.length_range']; omega) h with h1 | ⟨h1, _, _⟩
    · rw [h1, hmid]
    · rw [hmid] at h1
      omega

/-- Every fresh label lies between the first fresh label and the first fresh label plus
the number of facets. -/
theorem split_regions_fresh (mesh : Mesh) (L : List Nat) (hard : Nat → Nat → Bool)
    (L' : List Nat) (hfit : LabelsFit mesh L)
    (h : split_regions_along_hard_edges mesh L hard = .ok L') (g : Nat) :
    L'.getD g 0 = L.getD g 0 ∨
    (L.getD g 0 = NO_INDEX ∧
      (if max_region mesh L = NO_INDEX then 0 else max_region mesh L + 1) ≤ L'.getD g 0 ∧
      L'.getD g 0 < (if max_region mesh L = NO_INDEX then 0 else max_region mesh L + 1) +
        mesh.facets.length) := by
  have hR0 : (if max_region mesh L = NO_INDEX then 0
      else (max_region mesh L + 1) % 2 ^ 32) =
      (if max_region mesh L = NO_INDEX then 0 else max_region mesh L + 1) := by
    unfold LabelsFit at hfit
    split
    · rfl
    · rename_i hm
      rw [if_neg hm] at hfit
      apply Nat.mod_eq_of_lt
      unfold NO_INDEX at hfit
      omega
  unfold split_regions_along_hard_edges at h
  rw [hR0] at h
  have := split_loop_cases mesh hard g _ L _ L' (by
    rw [List.length_range]
    exact hfit) h
  rw [List.length_range] at this
  exact this

end RPD

namespace RPD

/-! ## The exits of the facet loop of `simplify` -/

/-- A group jumps to `rollback:` exactly through one of the four merge checks: the
non-manifold border found by the flood fill, the singular border found by the walk, the
test for multiple borders, or the test for fewer than three corners. -/
theorem merge_group_rollback_iff (ic : List Bool) (st : SimplifyState) (f : Nat) :
    merge_group ic st f = .error Abort.rollback ↔
      (group_flood st.mesh st.facet_region (st.facet_region.getD f 0)
        (st.mesh.facets.length + 1) (flood_start st f) = .error Abort.rollback ∨
       ∃ fl first,
        group_flood st.mesh st.facet_region (st.facet_region.getD f 0)
          (st.mesh.facets.length + 1) (flood_start st f) = .ok fl ∧
        BorderMap.begin_first fl.border_next = .ok first ∧
        (border_walk st.mesh.nb_vertices ic (st.mesh.nb_vertices + 1)
            { border_next := fl.border_next, v := first, nb_border_visited := 0,
              new_facet := [] } = .error Abort.rollback ∨
         ∃ w, border_walk st.mesh.nb_vertices ic (st.mesh.nb_vertices + 1)
            { border_next := fl.border_next, v := first, nb_border_visited := 0,
              new_facet := [] } = .ok w ∧
          (w.nb_border_visited ≠ w.border_next.length ∨ w.new_facet.length < 3))) := by
  unfold merge_group
  cases hfl : group_flood st.mesh st.facet_region (st.facet_region.getD f 0)
      (st.mesh.facets.length + 1) (flood_start st f) with
  | error e =>
    simp only
    constructor
    · intro h
      injection h with h
      exact Or.inl (by rw [h])
    · rintro (h | ⟨fl, first, h, _⟩)
      · injection h with h
        rw [h]
      · cases h
  | ok fl =>
    simp only
    cases hb : BorderMap.begin_first fl.border_next with
    | error e =>
      simp only
      constructor
      · intro h
        have he : e = Abort.empty_border := by
          cases hm : fl.border_next with
          | nil =>
            rw [hm] at hb
            simp only [BorderMap.begin_first] at hb
            injection hb with hb
            exact hb.symm
          | cons p m =>
            rw [hm] at hb
            simp only [BorderMap.begin_first] at hb
            cases hb
        rw [he] at h
        cases h
      · rintro (h | ⟨fl2, first, h1, h2, _⟩)
        · cases h
        · injection h1 with h1
          rw [← h1, hb] at h2
          cases h2
    | ok first =>
      simp only
      cases hw : border_walk st.mesh.nb_vertices ic (st.mesh.nb_vertices + 1)
          { border_next := fl.border_next, v := first, nb_border_visited := 0,
            new_facet := [] } with
      | error e =>
        simp only
        constructor
        · intro h
          right
          injection h with h
          refine ⟨fl, first, rfl, hb, Or.inl ?_⟩
          rw [hw, h]
        · rintro (h | ⟨fl2, first2, h1, h2, h3⟩)
          · cases h
          · injection h1 with h1
            subst h1
            rw [hb] at h2
            injection h2 with h2
            subst h2
            rcases h3 with h3 | ⟨w, h3, _⟩
            · rw [hw] at h3
              injection h3 with h3
              rw [h3]
            · rw [hw] at h3
              cases h3
      | ok w =>
        simp only
        constructor
        · intro h
          right
          refine ⟨fl, first, rfl, hb, Or.inr ⟨w, hw, ?_⟩⟩
          by_cases h1 : w.nb_border_visited ≠ w.border_next.length
          · exact Or.inl h1
          · rw [if_neg h1] at h
            by_cases h2 : w.new_facet.length < 3
            · exact Or.inr h2
            · rw [if_neg h2] at h
              cases h
        · rintro (h | ⟨fl2, first2, h1, h2, h3⟩)
          · cases h
          · injection h1 with h1
            subst h1
            rw [hb] at h2
            injection h2 with h2
            subst h2
            rcases h3 with h3 | ⟨w2, h3, h4⟩
            · rw [hw] at h3
              cases h3
            · rw [hw] at h3
              injection h3 with h3
              subst h3
              by_cases h1 : w.nb_border_visited ≠ w.border_next.length
              · rw [if_pos h1]
              · rw [if_neg h1]
                rcases h4 with h4 | h4
                · exact absurd h4 h1
                · rw [if_pos h4]

/-- A jump to `rollback:` in the pass of the facet loop over `f` ends the loop. -/
theorem group_loop_cons_rollback (keep : Bool) (ic : List Bool) (f : Nat) (fs : List Nat)
    (st : SimplifyState) (h : group_step keep ic st f = .error Abort.rollback) :
    group_loop keep ic (f :: fs) st = .ok (false, st) := by
  rw [group_loop, h]

/-- The facet loop that reaches the facet `f` and jumps to `rollback:` there ends with
the state before the group of `f`; no later facet is examined. -/
theorem group_loop_stops (keep : Bool) (ic : List Bool) (init st : SimplifyState)
    (f n : Nat) (hf : f < n)
    (hreach : group_loop keep ic (List.range f) init = .ok (true, st))
    (htrip : group_step keep ic st f = .error Abort.rollback) :
    group_loop keep ic (List.range n) init = .ok (false, st) := by
  rw [range_split_at n f hf, group_loop_append keep ic _ _ init st hreach]
  exact group_loop_cons_rollback keep ic f _ st htrip

theorem group_loop_append_false (keep : Bool) (ic : List Bool) (l1 l2 : List Nat) :
    ∀ (s s1 : SimplifyState), group_loop keep ic l1 s = .ok (false, s1) →
      group_loop keep ic (l1 ++ l2) s = .ok (false, s1) := by
  induction l1 with
  | nil =>
    intro s s1 h
    simp only [group_loop] at h
    injection h with h
    injection h with h
    cases h
  | cons f fs ih =>
    intro s s1 h
    rw [List.cons_append, group_loop]
    rw [group_loop] at h
    cases hs : group_step keep ic s f with
    | error e =>
      rw [hs] at h
      cases e with
      | rollback => exact h
      | empty_border => cases h
      | out_of_fuel => cases h
    | ok s2 =>
      rw [hs] at h
      exact ih s2 s1 h

/-- The facet loop ends with `false` only by a jump to `rollback:` in the pass over some
facet `f` that the loop has reached. -/
theorem group_loop_false_cases (keep : Bool) (ic : List Bool) (init : SimplifyState) :
    ∀ (n : Nat) (st : SimplifyState),
      group_loop keep ic (List.range n) init = .ok (false, st) →
      ∃ f, f < n ∧ group_loop keep ic (List.range f) init = .ok (true, st) ∧
        group_step keep ic st f = .error Abort.rollback := by
  intro n
  induction n with
  | zero =>
    intro st h
    simp only [List.range_zero, group_loop] at h
    injection h with h
    injection h with h
    cases h
  | succ n ih =>
    intro st h
    rw [List.range_succ] at h
    cases hp : group_loop keep ic (List.range n) init with
    | error e =>
      exfalso
      have : ∀ (l1 l2 : List Nat) (s : SimplifyState) (e : Abort),
          group_loop keep ic l1 s = .error e →
          group_loop keep ic (l1 ++ l2) s = .error e := by
        intro l1
        induction l1 with
        | nil => intro l2 s e h; simp only [group_loop] at h; cases h
        | cons a l1 ih2 =>
          intro l2 s e h
          rw [List.cons_append, group_loop]
          rw [group_loop] at h
          cases hs : group_step keep ic s a with
          | error e2 =>
            rw [hs] at h
            cases e2 with
            | rollback => cases h
            | empty_border => exact h
            | out_of_fuel => exact h
          | ok s2 =>
            rw [hs] at h
            exact ih2 l2 s2 e h
      rw [this _ _ _ _ hp] at h
      cases h
    | ok r =>
      obtain ⟨b, s1⟩ := r
      cases b with
      | false =>
        rw [group_loop_append_false keep ic _ _ _ _ hp] at h
        injection h with h
        injection h with _ h
        subst h
        obtain ⟨f, hf, h1, h2⟩ := ih s1 hp
        exact ⟨f, by omega, h1, h2⟩
      | true =>
        rw [group_loop_append keep ic _ _ _ _ hp] at h
        rw [group_loop] at h
        cases hs : group_step keep ic s1 n with
        | error e =>
          rw [hs] at h
          cases e with
          | rollback =>
            injection h with h
            injection h with _ h
            subst h
            exact ⟨n, Nat.lt_succ_self n, hp, hs⟩
          | empty_border => cases h
          | out_of_fuel => cases h
        | ok s2 =>
          rw [hs] at h
          simp only [group_loop] at h
          injection h with h
          injection h with h
          cases h

/-- A pass of the facet loop jumps to `rollback:` only in the merge of a group that the
pass starts. -/
theorem group_step_rollback (keep : Bool) (ic : List Bool) (st : SimplifyState) (f : Nat)
    (h : group_step keep ic st f = .error Abort.rollback) :
    st.facet_status.getD f 0 = NO_INDEX ∧
    ¬ (keep = true ∧ st.facet_region.getD f 0 = NO_INDEX) ∧
    merge_group ic st f = .error Abort.rollback := by
  unfold group_step at h
  by_cases h1 : st.facet_status.getD f 0 = NO_INDEX
  · rw [if_pos h1] at h
    by_cases h2 : keep = true ∧ st.facet_region.getD f 0 = NO_INDEX
    · rw [if_pos h2] at h
      cases h
    · rw [if_neg h2] at h
      exact ⟨h1, h2, h⟩
  · rw [if_neg h1] at h
    cases h

/-- The result of `simplify` in terms of the result of its facet loop. -/
theorem simplify_of_loop (mesh : Mesh) (L : List Nat) (thr : ℚ) (hard : Nat → Nat → Bool)
    (region1 : List Nat) (finished : Bool) (st : SimplifyState)
    (hstep1 : (if decide (thr = 0) = true then Except.ok L
      else split_regions_along_hard_edges mesh L hard) = .ok region1)
    (hloop : group_loop (decide (thr = 0))
      (compute_is_corner mesh region1 (decide (thr = 0)))
      (List.range mesh.facets.length) (loop_init mesh region1) = .ok (finished, st)) :
    simplify mesh L thr hard =
      .ok (simplify_finish (decide (thr = 0))
        (if decide (thr = 0) = true then 0 else max_region mesh L)
        mesh.facets.length finished st) := by
  unfold simplify
  simp only [hstep1, hloop]

end RPD

namespace RPD

/-! ## The triangles created by the tessellation -/

section TessTraceLemmas

variable {K : Type} [LinearOrderedCommRing K] {A : Type}

theorem replaced_by_of_success (compl : K → K → K) (proj : Nat → Nat → vec2 K) (mesh : Mesh)
    (f : Nat) (tr : List Nat)
    (hnc : polygon_is_convex (get_mesh_polygon2d mesh f proj).1 = false)
    (hok : triangulate_polygon compl (get_mesh_polygon2d mesh f proj).1 = .ok (true, tr)) :
    replaced_by compl proj mesh f = triples tr := by
  unfold replaced_by
  rw [if_neg (by rw [hnc]; decide), hok]

theorem replaced_by_of_not (compl : K → K → K) (proj : Nat → Nat → vec2 K) (mesh : Mesh)
    (f : Nat)
    (h : polygon_is_convex (get_mesh_polygon2d mesh f proj).1 = true ∨
      ∃ tr, triangulate_polygon compl (get_mesh_polygon2d mesh f proj).1 = .ok (false, tr)) :
    replaced_by compl proj mesh f = [] ∧ ¬ Replaced compl proj mesh f := by
  unfold replaced_by Replaced
  rcases h with h | ⟨tr, h⟩
  · rw [if_pos h]
    refine ⟨rfl, fun hr => ?_⟩
    rw [h] at hr
    exact absurd hr.1 (by decide)
  · constructor
    · split
      · rfl
      · rw [h]
    · rintro ⟨_, tr2, h2⟩
      rw [h] at h2
      cases h2

theorem created_triangles_snoc (compl : K → K → K) (proj : Nat → Nat → vec2 K) (mesh : Mesh)
    (attrs : List A) (done : List Nat) (f : Nat) (x : A) (hx : attrs[f]? = some x) :
    created_triangles compl proj mesh attrs (done ++ [f]) =
      created_triangles compl proj mesh attrs done ++
        (triangle_loops (mesh.loop f) (replaced_by compl proj mesh f)).map (fun l => (l, x)) := by
  unfold created_triangles
  rw [List.flatMap_append]
  congr 1
  simp only [List.flatMap_cons, List.flatMap_nil, List.append_nil, hx]

theorem length_resize_of_le {α : Type} (v : List α) (n : Nat) (x : α) (h : v.length ≤ n) :
    (resize v n x).length = n := by
  simp only [resize, List.length_append, List.length_take, List.length_replicate]
  omega

/-- The facet loop of `tessellate_non_convex_facets` runs to its end and keeps the trace
invariant. -/
theorem tessellate_loop_trace (compl : K → K → K) (proj : Nat → Nat → vec2 K)
    (hcompl : ∀ y x, compl y x ≤ 1024) (mesh : Mesh) (attrs : List A)
    (hattrs : attrs.length = mesh.facets.length)
    (hsize : ∀ f, mesh.facet_nb_vertices f ≤ NO_INDEX) :
    ∀ (fs : List Nat), (∀ f ∈ fs, f < mesh.facets.length) →
      ∀ (st : TessState A) (done : List Nat),
        TessTrace compl proj mesh attrs st done →
        ∃ st', tessellate_loop compl proj fs st = .ok st' ∧
          TessTrace compl proj mesh attrs st' (done ++ fs) := by
  intro fs
  induction fs with
  | nil =>
    intro _ st done hI
    rw [List.append_nil]
    exact ⟨st, rfl, hI⟩
  | cons f fs ih =>
    intro hfs st done hI
    have hf : f < mesh.facets.length := hfs f (List.mem_cons_self _ _)
    have hloop : st.mesh.loop f = mesh.loop f :=
      loop_append_left mesh st.mesh _ f hI.facets hf
    have hpoly : get_mesh_polygon2d st.mesh f proj = get_mesh_polygon2d mesh f proj := by
      unfold get_mesh_polygon2d
      rw [hloop]
    obtain ⟨x, hx0⟩ : ∃ x, attrs[f]? = some x :=
      ⟨attrs[f], List.getElem?_eq_getElem (by omega)⟩
    have hx : st.attrs[f]? = some x := by
      rw [hI.attrs_eq, List.getElem?_append_left (by omega)]
      exact hx0
    obtain ⟨flag, ts, hstep, hno, hyes⟩ := tessellate_facet_step compl proj hcompl st f x hx
      (by rw [hloop]; exact hsize f)
    rw [hpoly] at hno hyes
    have hts : replaced_by compl proj mesh f = ts := by
      cases flag with
      | false =>
        obtain ⟨h1, h2⟩ := hno rfl
        rw [h1]
        exact (replaced_by_of_not compl proj mesh f h2).1
      | true =>
        obtain ⟨h1, h2, _⟩ := hyes rfl
        rw [replaced_by_of_success compl proj mesh f _ h1 h2, triples_flat]
    have hrep : flag = true ↔ Replaced compl proj mesh f := by
      cases flag with
      | false =>
        obtain ⟨_, h2⟩ := hno rfl
        exact ⟨fun h => (by cases h), fun h =>
          absurd h (replaced_by_of_not compl proj mesh f h2).2⟩
      | true =>
        obtain ⟨h1, h2, _⟩ := hyes rfl
        exact ⟨fun _ => ⟨h1, _, h2⟩, fun _ => rfl⟩
    have hI' : TessTrace compl proj mesh attrs
        { mesh := create_polygons st.mesh (triangle_loops (st.mesh.loop f) ts),
          attrs := st.attrs ++ List.replicate ts.length x,
          to_delete := if flag = true then
              (resize st.to_delete st.mesh.facets.length 0).set f 1
            else st.to_delete }
        (done ++ [f]) := by
      have hfac := create_polygons_facets st.mesh (triangle_loops (st.mesh.loop f) ts)
      have hcr := created_triangles_snoc compl proj mesh attrs done f x hx0
      rw [hts] at hcr
      have hflt : f < st.mesh.facets.length := by
        rw [hI.facets, List.length_append]
        omega
      constructor
      · simp only
        rw [hfac.1, hI.facets, hcr, hloop, List.map_append, List.map_map, List.append_assoc]
        congr 2
        simp [Function.comp_def]
      · simp only [hI.attrs_eq, hcr, List.map_append, List.map_map, List.append_assoc]
        congr 2
        simp [Function.comp_def, triangle_loops, List.eq_replicate_iff]
      · simp only [hfac.2]
        exact hI.vertices
      · simp only [hfac.1, List.length_append]
        split
        · rw [List.length_set, length_resize_of_le _ _ _ hI.flags_len]
          omega
        · have := hI.flags_len
          omega
      · intro g hg hr
        simp only
        by_cases hgf : g = f
        · subst hgf
          rw [if_pos (hrep.2 hr)]
          exact getD_set_self _ _ _ _ (by rw [length_resize_of_le _ _ _ hI.flags_len]; exact hflt)
        · have hgd : g ∈ done := by
            rcases List.mem_append.1 hg with h | h
            · exact h
            · exact absurd (List.mem_singleton.1 h) hgf
          split
          · rw [getD_set_ne _ _ _ _ _ (Ne.symm hgf), getD_resize_zero _ _ _ hI.flags_len]
            exact hI.flagged g hgd hr
          · exact hI.flagged g hgd hr
      · intro g hg
        simp only
        by_cases hgf : g = f
        · subst hgf
          have hnr : ¬ Replaced compl proj mesh g :=
            fun hr => hg ⟨List.mem_append_right _ (List.mem_singleton_self _), hr⟩
          have hfl : ¬ flag = true := fun h => hnr (hrep.1 h)
          rw [if_neg hfl]
          exact hI.unflagged g (fun h => hnr h.2)
        · have hold : ¬ (g ∈ done ∧ Replaced compl proj mesh g) :=
            fun h => hg ⟨List.mem_append_left _ h.1, h.2⟩
          split
          · rw [getD_set_ne _ _ _ _ _ (Ne.symm hgf), getD_resize_zero _ _ _ hI.flags_len]
            exact hI.unflagged g hold
          · exact hI.unflagged g hold
    obtain ⟨st', hrun, hfin⟩ :=
      ih (fun g hg => hfs g (List.mem_cons_of_mem _ hg)) _ _ hI'
    rw [List.append_assoc] at hfin
    refine ⟨st', ?_, hfin⟩
    simp only [tessellate_loop, hstep]
    exact hrun

/-- The function `tessellate_non_convex_facets` runs to its end; its result is the list
of the original facets without the replaced ones, followed by the triangles created for
the replaced facets in facet order, with the attributes alongside; no vertex is
created. -/
theorem tessellate_trace (compl : K → K → K) (proj : Nat → Nat → vec2 K)
    (hcompl : ∀ y x, compl y x ≤ 1024) (mesh : Mesh) (attrs : List A)
    (hattrs : attrs.length = mesh.facets.length)
    (hsize : ∀ f, mesh.facet_nb_vertices f ≤ NO_INDEX) :
    ∃ (result : Mesh × List A) (to_delete : List Nat),
      tessellate_non_convex_facets compl proj mesh attrs = .ok result ∧
      result.1.nb_vertices = mesh.nb_vertices ∧
      result.1.facets = keep_unflagged mesh.facets to_delete ++
        (created_triangles compl proj mesh attrs (List.range mesh.facets.length)).map Prod.fst ∧
      result.2 = keep_unflagged attrs to_delete ++
        (created_triangles compl proj mesh attrs (List.range mesh.facets.length)).map Prod.snd ∧
      (∀ g, g < mesh.facets.length → Replaced compl proj mesh g → to_delete.getD g 0 = 1) ∧
      (∀ g, ¬ (g < mesh.facets.length ∧ Replaced compl proj mesh g) →
        to_delete.getD g 0 = 0) := by
  obtain ⟨st, hrun, hI⟩ := tessellate_loop_trace compl proj hcompl mesh attrs hattrs
    hsize (List.range mesh.facets.length) (fun f hf => List.mem_range.1 hf)
    { mesh := mesh, attrs := attrs, to_delete := [] } []
    { facets := by simp [created_triangles]
      attrs_eq := by simp [created_triangles]
      vertices := rfl
      flags_len := by simp
      flagged := by intro g hg; exact absurd hg (List.not_mem_nil _)
      unflagged := by intro g _; rfl }
  rw [List.nil_append] at hI
  have hnew : ∀ g, mesh.facets.length ≤ g → st.to_delete.getD g 0 = 0 := by
    intro g hg
    apply hI.unflagged
    intro h
    have := List.mem_range.1 h.1
    omega
  have hfl : ∀ g, g < mesh.facets.length → Replaced compl proj mesh g →
      st.to_delete.getD g 0 = 1 := fun g hg hr => hI.flagged g (List.mem_range.2 hg) hr
  have hunfl : ∀ g, ¬ (g < mesh.facets.length ∧ Replaced compl proj mesh g) →
      st.to_delete.getD g 0 = 0 :=
    fun g hg => hI.unflagged g (fun h => hg ⟨List.mem_range.1 h.1, h.2⟩)
  unfold tessellate_non_convex_facets
  rw [hrun]
  by_cases hz : st.to_delete.length ≠ 0
  · refine ⟨_, st.to_delete, by simp only []; rw [if_pos hz], ?_, ?_, ?_, hfl, hunfl⟩
    · simp only [delete_facets]
      exact hI.vertices
    · simp only [delete_facets]
      rw [keep_unflagged_congr _ _ st.to_delete
        (fun g _ => getD_resize_zero _ _ g hI.flags_len), hI.facets]
      exact keep_unflagged_append_zero _ _ _ hnew
    · simp only [delete_facets]
      rw [keep_unflagged_congr _ _ st.to_delete
        (fun g _ => getD_resize_zero _ _ g hI.flags_len), hI.attrs_eq]
      exact keep_unflagged_append_zero _ _ _ (by rw [hattrs]; exact hnew)
  · have hnil : st.to_delete = [] := by
      have : st.to_delete.length = 0 := by
        by_contra h
        exact hz h
      exact List.length_eq_zero.1 this
    refine ⟨_, st.to_delete, by simp only []; rw [if_neg hz], hI.vertices, ?_, ?_, hfl, hunfl⟩
    · rw [hnil, keep_unflagged_nil_flags]
      exact hI.facets
    · rw [hnil, keep_unflagged_nil_flags]
      exact hI.attrs_eq

/-- A facet whose polygon is not convex has at least three vertices. -/
theorem non_convex_length (proj : Nat → Nat → vec2 K) (mesh : Mesh) (f : Nat)
    (hnc : polygon_is_convex (get_mesh_polygon2d mesh f proj).1 = false) :
    3 ≤ (mesh.loop f).length := by
  by_contra h
  have hlen : (get_mesh_polygon2d mesh f proj).1.length < 3 := by
    simp only [get_mesh_polygon2d, List.length_map]
    omega
  rw [polygon_is_convex_small _ hlen] at hnc
  cases hnc

theorem getD_mem_of_lt (l : List Nat) (i : Nat) (h : i < l.length) : l.getD i 0 ∈ l := by
  rw [List.getD_eq_getElem?_getD, List.getElem?_eq_getElem h]
  exact List.getElem_mem h

end TessTraceLemmas

end RPD

namespace RPD

/-! ## The corner flags of `simplify` -/

theorem corner_vertex_length (r : Nat) (st : CornerState) (u : Nat) :
    (corner_vertex r st u).rgn1.length = st.rgn1.length ∧
    (corner_vertex r st u).rgn2.length = st.rgn2.length ∧
    (corner_vertex r st u).is_corner.length = st.is_corner.length := by
  unfold corner_vertex
  split
  · exact ⟨rfl, rfl, rfl⟩
  · split
    · exact ⟨List.length_set _ _ _, rfl, rfl⟩
    · split
      · exact ⟨rfl, List.length_set _ _ _, rfl⟩
      · exact ⟨rfl, rfl, List.length_set _ _ _⟩

/-- The pass of the corner detection over a vertex `u` leaves the entries of every other
vertex as they are. -/
theorem corner_vertex_other (r : Nat) (st : CornerState) (u v : Nat) (h : u ≠ v) :
    (corner_vertex r st u).rgn1.getD v 0 = st.rgn1.getD v 0 ∧
    (corner_vertex r st u).rgn2.getD v 0 = st.rgn2.getD v 0 ∧
    (corner_vertex r st u).is_corner.getD v false = st.is_corner.getD v false := by
  unfold corner_vertex
  split
  · exact ⟨rfl, rfl, rfl⟩
  · split
    · exact ⟨getD_set_ne _ _ _ _ _ h, rfl, rfl⟩
    · split
      · exact ⟨rfl, getD_set_ne _ _ _ _ _ h, rfl⟩
      · exact ⟨rfl, rfl, getD_set_ne' _ _ _ _ _ h⟩

/-- The pass of the corner detection over the vertex `v` for a facet with label `r`
records the label `r` at `v`. -/
theorem corner_vertex_self (r v : Nat) (st : CornerState) (S : Finset Nat)
    (hr : r ≠ NO_INDEX2) (h1 : v < st.rgn1.length) (h2 : v < st.rgn2.length)
    (h3 : v < st.is_corner.length)
    (hI : CornerInv S (st.rgn1.getD v 0) (st.rgn2.getD v 0) (st.is_corner.getD v false)) :
    CornerInv (insert r S) ((corner_vertex r st v).rgn1.getD v 0)
      ((corner_vertex r st v).rgn2.getD v 0)
      ((corner_vertex r st v).is_corner.getD v false) := by
  obtain ⟨hS, hA, hB⟩ := hI
  have hS' : NO_INDEX2 ∉ insert r S := by
    rw [Finset.mem_insert]
    rintro (h | h)
    · exact hr h.symm
    · exact hS h
  unfold corner_vertex
  split
  · rename_i hseen
    have hmem : r ∈ S := by
      rcases hseen with h | h
      · have ha : st.rgn1.getD v 0 ≠ NO_INDEX2 := by rw [h]; exact hr
        rw [← h]
        exact (hB ha).1
      · have hb : st.rgn2.getD v 0 ≠ NO_INDEX2 := by rw [h]; exact hr
        have ha : st.rgn1.getD v 0 ≠ NO_INDEX2 := fun ha => hb (hA ha).2.1
        rw [← h]
        exact ((hB ha).2.2 hb).2.1
    rw [Finset.insert_eq_of_mem hmem]
    exact ⟨hS, hA, hB⟩
  · rename_i hseen
    rw [not_or] at hseen
    obtain ⟨hna, hnb⟩ := hseen
    split
    · rename_i ha
      obtain ⟨hempty, hb, hc⟩ := hA ha
      simp only
      rw [getD_set_self _ _ _ _ h1, hempty]
      refine ⟨by rw [← hempty]; exact hS', fun h => absurd h hr, fun _ => ?_⟩
      refine ⟨Finset.mem_insert_self _ _, fun _ => ⟨rfl, hc⟩, fun h => absurd hb h⟩
    · rename_i ha
      obtain ⟨haS, hB1, hB2⟩ := hB ha
      split
      · rename_i hb
        obtain ⟨hsingle, hc⟩ := hB1 hb
        simp only
        rw [getD_set_self _ _ _ _ h2]
        refine ⟨hS', fun h => absurd h ha, fun _ => ?_⟩
        refine ⟨Finset.mem_insert_of_mem haS, fun h => absurd h hr, fun _ => ?_⟩
        refine ⟨hna, Finset.mem_insert_self _ _, fun _ => ?_, fun h => ?_⟩
        · rw [hsingle]
          exact Finset.pair_comm _ _
        · rw [hc] at h
          cases h
      · rename_i hb
        obtain ⟨hab, hbS, _, _⟩ := hB2 hb
        simp only
        rw [getD_set_self' _ _ _ _ h3]
        refine ⟨hS', fun h => absurd h ha, fun _ => ?_⟩
        refine ⟨Finset.mem_insert_of_mem haS, fun h => absurd h hb, fun _ => ?_⟩
        refine ⟨hab, Finset.mem_insert_of_mem hbS, fun h => (by cases h), fun _ => ?_⟩
        have hsub : ({r, st.rgn1.getD v 0, st.rgn2.getD v 0} : Finset Nat) ⊆ insert r S := by
          intro x hx
          simp only [Finset.mem_insert, Finset.mem_singleton] at hx
          rcases hx with hx | hx | hx
          · rw [hx]; exact Finset.mem_insert_self _ _
          · rw [hx]; exact Finset.mem_insert_of_mem haS
          · rw [hx]; exact Finset.mem_insert_of_mem hbS
        have hcard : ({r, st.rgn1.getD v 0, st.rgn2.getD v 0} : Finset Nat).card = 3 := by
          rw [Finset.card_insert_of_not_mem, Finset.card_insert_of_not_mem,
            Finset.card_singleton]
          · rw [Finset.mem_singleton]
            exact hab
          · simp only [Finset.mem_insert, Finset.mem_singleton]
            rintro (h | h)
            · exact hna h.symm
            · exact hnb h.symm
        rw [← hcard]
        exact Finset.card_le_card hsub

/-- The loop over the vertices `us` of a facet with label `r`, seen from the vertex
`v`. -/
theorem corner_loop_at (r v : Nat) (hr : r ≠ NO_INDEX2) :
    ∀ (us : List Nat) (st : CornerState) (S : Finset Nat),
      v < st.rgn1.length → v < st.rgn2.length → v < st.is_corner.length →
      CornerInv S (st.rgn1.getD v 0) (st.rgn2.getD v 0) (st.is_corner.getD v false) →
      v < (us.foldl (corner_vertex r) st).rgn1.length ∧
      v < (us.foldl (corner_vertex r) st).rgn2.length ∧
      v < (us.foldl (corner_vertex r) st).is_corner.length ∧
      CornerInv (if v ∈ us then insert r S else S)
        ((us.foldl (corner_vertex r) st).rgn1.getD v 0)
        ((us.foldl (corner_vertex r) st).rgn2.getD v 0)
        ((us.foldl (corner_vertex r) st).is_corner.getD v false) := by
  intro us
  induction us with
  | nil =>
    intro st S h1 h2 h3 hI
    rw [if_neg (List.not_mem_nil _)]
    exact ⟨h1, h2, h3, hI⟩
  | cons u us ih =>
    intro st S h1 h2 h3 hI
    rw [List.foldl_cons]
    obtain ⟨l1, l2, l3⟩ := corner_vertex_length r st u
    by_cases huv : u = v
    · subst huv
      have hI' := corner_vertex_self r u st S hr h1 h2 h3 hI
      obtain ⟨g1, g2, g3, hfin⟩ := ih (corner_vertex r st u) (insert r S)
        (by rw [l1]; exact h1) (by rw [l2]; exact h2) (by rw [l3]; exact h3) hI'
      refine ⟨g1, g2, g3, ?_⟩
      rw [if_pos (List.mem_cons_self _ _)]
      have e : (if u ∈ us then insert r (insert r S) else insert r S) = insert r S := by
        split
        · exact Finset.insert_idem _ _
        · rfl
      rw [e] at hfin
      exact hfin
    · obtain ⟨e1, e2, e3⟩ := corner_vertex_other r st u v huv
      obtain ⟨g1, g2, g3, hfin⟩ := ih (corner_vertex r st u) S
        (by rw [l1]; exact h1) (by rw [l2]; exact h2) (by rw [l3]; exact h3)
        (by rw [e1, e2, e3]; exact hI)
      refine ⟨g1, g2, g3, ?_⟩
      have e : (v ∈ u :: us) ↔ v ∈ us := by
        rw [List.mem_cons]
        exact ⟨fun h => h.resolve_left (fun h' => huv h'.symm), Or.inr⟩
      simp only [e]
      exact hfin

theorem labels_over_cons (mesh : Mesh) (L : List Nat) (v f : Nat) (fs : List Nat) :
    labels_over mesh L v (f :: fs) =
      if v ∈ mesh.loop f then insert (L.getD f 0) (labels_over mesh L v fs)
      else labels_over mesh L v fs := by
  unfold labels_over
  by_cases h : v ∈ mesh.loop f
  · rw [if_pos h, List.filter_cons_of_pos (by simpa using h), List.map_cons,
      List.toFinset_cons]
  · rw [if_neg h, List.filter_cons_of_neg (by simpa using h)]

/-- The loop of the corner detection over the facets `fs`, seen from the vertex `v`. -/
theorem corner_facets_at (mesh : Mesh) (L : List Nat) (v : Nat) :
    ∀ (fs : List Nat) (st : CornerState) (S : Finset Nat),
      (∀ f ∈ fs, v ∈ mesh.loop f → L.getD f 0 ≠ NO_INDEX2) →
      v < st.rgn1.length → v < st.rgn2.length → v < st.is_corner.length →
      CornerInv S (st.rgn1.getD v 0) (st.rgn2.getD v 0) (st.is_corner.getD v false) →
      v < (fs.foldl (fun st f => (mesh.loop f).foldl (corner_vertex (L.getD f 0)) st)
        st).is_corner.length ∧
      CornerInv (S ∪ labels_over mesh L v fs)
        ((fs.foldl (fun st f => (mesh.loop f).foldl (corner_vertex (L.getD f 0)) st)
          st).rgn1.getD v 0)
        ((fs.foldl (fun st f => (mesh.loop f).foldl (corner_vertex (L.getD f 0)) st)
          st).rgn2.getD v 0)
        ((fs.foldl (fun st f => (mesh.loop f).foldl (corner_vertex (L.getD f 0)) st)
          st).is_corner.getD v false) := by
  intro fs
  induction fs with
  | nil =>
    intro st S _ _ _ h3 hI
    have e : labels_over mesh L v [] = ∅ := rfl
    rw [e, Finset.union_empty]
    exact ⟨h3, hI⟩
  | cons f fs ih =>
    intro st S hlab h1 h2 h3 hI
    rw [List.foldl_cons]
    by_cases hv : v ∈ mesh.loop f
    · obtain ⟨g1, g2, g3, hstep⟩ := corner_loop_at (L.getD f 0) v
        (hlab f (List.mem_cons_self _ _) hv) (mesh.loop f) st S h1 h2 h3 hI
      rw [if_pos hv] at hstep
      obtain ⟨k3, hfin⟩ := ih _ _ (fun g hg => hlab g (List.mem_cons_of_mem _ hg))
        g1 g2 g3 hstep
      refine ⟨k3, ?_⟩
      rw [labels_over_cons, if_pos hv, Finset.union_insert, ← Finset.insert_union]
      exact hfin
    · have hstep : v < ((mesh.loop f).foldl (corner_vertex (L.getD f 0)) st).rgn1.length ∧
          v < ((mesh.loop f).foldl (corner_vertex (L.getD f 0)) st).rgn2.length ∧
          v < ((mesh.loop f).foldl (corner_vertex (L.getD f 0)) st).is_corner.length ∧
          CornerInv S
            (((mesh.loop f).foldl (corner_vertex (L.getD f 0)) st).rgn1.getD v 0)
            (((mesh.loop f).foldl (corner_vertex (L.getD f 0)) st).rgn2.getD v 0)
            (((mesh.loop f).foldl (corner_vertex (L.getD f 0)) st).is_corner.getD v false) := by
        have hgen : ∀ (us : List Nat) (st : CornerState), v ∉ us →
            v < st.rgn1.length → v < st.rgn2.length → v < st.is_corner.length →
            CornerInv S (st.rgn1.getD v 0) (st.rgn2.getD v 0) (st.is_corner.getD v false) →
            v < (us.foldl (corner_vertex (L.getD f 0)) st).rgn1.length ∧
            v < (us.foldl (corner_vertex (L.getD f 0)) st).rgn2.length ∧
            v < (us.foldl (corner_vertex (L.getD f 0)) st).is_corner.length ∧
            CornerInv S
              ((us.foldl (corner_vertex (L.getD f 0)) st).rgn1.getD v 0)
              ((us.foldl (corner_vertex (L.getD f 0)) st).rgn2.getD v 0)
              ((us.foldl (corner_vertex (L.getD f 0)) st).is_corner.getD v false) := by
          intro us
          induction us with
          | nil => intro st _ a1 a2 a3 aI; exact ⟨a1, a2, a3, aI⟩
          | cons u us ih2 =>
            intro st hnot a1 a2 a3 aI
            rw [List.foldl_cons]
            have huv : u ≠ v := fun h => hnot (h ▸ List.mem_cons_self _ _)
            obtain ⟨l1, l2, l3⟩ := corner_vertex_length (L.getD f 0) st u
            obtain ⟨e1, e2, e3⟩ := corner_vertex_other (L.getD f 0) st u v huv
            exact ih2 _ (fun h => hnot (List.mem_cons_of_mem _ h))
              (by rw [l1]; exact a1) (by rw [l2]; exact a2) (by rw [l3]; exact a3)
              (by rw [e1, e2, e3]; exact aI)
        exact hgen (mesh.loop f) st hv h1 h2 h3 hI
      obtain ⟨g1, g2, g3, hstep'⟩ := hstep
      obtain ⟨k3, hfin⟩ := ih _ _ (fun g hg => hlab g (List.mem_cons_of_mem _ hg))
        g1 g2 g3 hstep'
      refine ⟨k3, ?_⟩
      rw [labels_over_cons, if_neg hv]
      exact hfin

/-- The loop "keep also the vertices adjacent to region -1 and to another region" over
the vertices `vs`, seen from the vertex `v`. -/
theorem corner_outer_at (st : CornerState) (v : Nat) :
    ∀ (vs : List Nat) (ic : List Bool), v < ic.length →
      (vs.foldl (fun is_corner v =>
        if (st.rgn1.getD v 0 = NO_INDEX ∧ st.rgn2.getD v 0 ≠ NO_INDEX) ∨
           (st.rgn2.getD v 0 = NO_INDEX ∧ st.rgn1.getD v 0 ≠ NO_INDEX)
        then is_corner.set v true else is_corner) ic).getD v false =
      (ic.getD v false || (decide (v ∈ vs) &&
        decide ((st.rgn1.getD v 0 = NO_INDEX ∧ st.rgn2.getD v 0 ≠ NO_INDEX) ∨
           (st.rgn2.getD v 0 = NO_INDEX ∧ st.rgn1.getD v 0 ≠ NO_INDEX)))) := by
  intro vs
  induction vs with
  | nil =>
    intro ic _
    simp
  | cons u vs ih =>
    intro ic hlen
    rw [List.foldl_cons]
    by_cases huv : u = v
    · subst huv
      by_cases hc : (st.rgn1.getD u 0 = NO_INDEX ∧ st.rgn2.getD u 0 ≠ NO_INDEX) ∨
          (st.rgn2.getD u 0 = NO_INDEX ∧ st.rgn1.getD u 0 ≠ NO_INDEX)
      · rw [if_pos hc, ih _ (by rw [List.length_set]; exact hlen),
          getD_set_self' _ _ _ _ hlen, decide_eq_true hc]
        simp
      · rw [if_neg hc, ih _ hlen, decide_eq_false hc]
        simp
    · have hmem : decide (v ∈ u :: vs) = decide (v ∈ vs) := by
        apply decide_eq_decide.2
        rw [List.mem_cons]
        exact ⟨fun h => h.resolve_left (fun h' => huv h'.symm), Or.inr⟩
      rw [hmem]
      split
      · rw [ih _ (by rw [List.length_set]; exact hlen), getD_set_ne' _ _ _ _ _ huv]
      · exact ih _ hlen

theorem no_index_ne_no_index2 : NO_INDEX ≠ NO_INDEX2 := by decide

/-- Under the invariant of the corner detection the flag of a vertex is set exactly when
three labels or more were seen. -/
theorem cornerInv_flag (S : Finset Nat) (a b : Nat) (c : Bool) (h : CornerInv S a b c) :
    c = true ↔ 3 ≤ S.card := by
  obtain ⟨_, hA, hB⟩ := h
  by_cases ha : a = NO_INDEX2
  · obtain ⟨hS, _, hc⟩ := hA ha
    rw [hS, hc, Finset.card_empty]
    exact ⟨fun h => (by cases h), fun h => absurd h (by decide)⟩
  · obtain ⟨_, hB1, hB2⟩ := hB ha
    by_cases hb : b = NO_INDEX2
    · obtain ⟨hS, hc⟩ := hB1 hb
      rw [hS, hc, Finset.card_singleton]
      exact ⟨fun h => (by cases h), fun h => absurd h (by decide)⟩
    · obtain ⟨hab, _, hf, ht⟩ := hB2 hb
      cases c with
      | false =>
        rw [hf rfl, Finset.card_pair hab]
        exact ⟨fun h => (by cases h), fun h => absurd h (by decide)⟩
      | true => exact ⟨fun _ => ht rfl, fun _ => rfl⟩

/-- Under the invariant of the corner detection the test of the second loop, joined with
the flag, holds exactly when three labels or more were seen or the outer label was
seen. -/
theorem cornerInv_outer (S : Finset Nat) (a b : Nat) (c : Bool) (h : CornerInv S a b c) :
    (c = true ∨ ((a = NO_INDEX ∧ b ≠ NO_INDEX) ∨ (b = NO_INDEX ∧ a ≠ NO_INDEX))) ↔
      (3 ≤ S.card ∨ NO_INDEX ∈ S) := by
  have hflag := cornerInv_flag S a b c h
  obtain ⟨_, hA, hB⟩ := h
  by_cases ha : a = NO_INDEX2
  · obtain ⟨hS, hb, hc⟩ := hA ha
    rw [hS, hc, ha, hb]
    constructor
    · rintro (h | ⟨h, _⟩ | ⟨h, _⟩)
      · cases h
      · exact absurd h.symm no_index_ne_no_index2
      · exact absurd h.symm no_index_ne_no_index2
    · rintro (h | h)
      · rw [Finset.card_empty] at h
        exact absurd h (by decide)
      · exact absurd h (Finset.not_mem_empty _)
  · obtain ⟨haS, hB1, hB2⟩ := hB ha
    by_cases hb : b = NO_INDEX2
    · obtain ⟨hS, hc⟩ := hB1 hb
      rw [hS, hc, hb]
      constructor
      · rintro (h | ⟨h, _⟩ | ⟨h, _⟩)
        · cases h
        · exact Or.inr (by rw [h]; exact Finset.mem_singleton_self _)
        · exact absurd h.symm no_index_ne_no_index2
      · rintro (h | h)
        · rw [Finset.card_singleton] at h
          exact absurd h (by decide)
        · rw [Finset.mem_singleton] at h
          exact Or.inr (Or.inl ⟨h.symm, fun h2 => no_index_ne_no_index2 h2.symm⟩)
    · obtain ⟨hab, hbS, hf, ht⟩ := hB2 hb
      cases c with
      | true => exact ⟨fun _ => Or.inl (ht rfl), fun _ => Or.inl rfl⟩
      | false =>
        have hS := hf rfl
        constructor
        · rintro (h | ⟨h, _⟩ | ⟨h, _⟩)
          · cases h
          · exact Or.inr (by rw [← h]; exact haS)
          · exact Or.inr (by rw [← h]; exact hbS)
        · rintro (h | h)
          · exact absurd (hflag.2 h) (by decide)
          · rw [hS, Finset.mem_insert, Finset.mem_singleton] at h
            rcases h with h | h
            · exact Or.inr (Or.inl ⟨h.symm, fun h2 => hab (h.symm.trans h2.symm)⟩)
            · exact Or.inr (Or.inr ⟨h.symm, fun h2 => hab (h2.trans h)⟩)

/-- The rule computed by the corner detection of `simplify`: a vertex is flagged exactly
when it touches three labels or more, or, in keep-outer-region mode, when it touches the
outer region. -/
theorem compute_is_corner_rule (mesh : Mesh) (L : List Nat) (keep : Bool) (v : Nat)
    (hv : v < mesh.nb_vertices)
    (hlab : ∀ f, f < mesh.facets.length → v ∈ mesh.loop f → L.getD f 0 ≠ NO_INDEX2) :
    (compute_is_corner mesh L keep).getD v false = true ↔
      3 ≤ (labels_at mesh L v).card ∨ (keep = true ∧ NO_INDEX ∈ labels_at mesh L v) := by
  have hinit : CornerInv ∅ ((List.replicate mesh.nb_vertices NO_INDEX2).getD v 0)
      ((List.replicate mesh.nb_vertices NO_INDEX2).getD v 0)
      ((List.replicate mesh.nb_vertices false).getD v false) := by
    have e1 : (List.replicate mesh.nb_vertices NO_INDEX2).getD v 0 = NO_INDEX2 := by
      rw [List.getD_eq_getElem?_getD, List.getElem?_replicate_of_lt hv]
      rfl
    have e2 : (List.replicate mesh.nb_vertices false).getD v false = false := by
      rw [List.getD_eq_getElem?_getD, List.getElem?_replicate_of_lt hv]
      rfl
    rw [e1, e2]
    exact ⟨Finset.not_mem_empty _, fun _ => ⟨rfl, rfl, rfl⟩, fun h => absurd rfl h⟩
  obtain ⟨hlen, hI⟩ := corner_facets_at mesh L v (List.range mesh.facets.length)
    { rgn1 := List.replicate mesh.nb_vertices NO_INDEX2,
      rgn2 := List.replicate mesh.nb_vertices NO_INDEX2,
      is_corner := List.replicate mesh.nb_vertices false } ∅
    (fun f hf => hlab f (List.mem_range.1 hf))
    (by simp only [List.length_replicate]; exact hv)
    (by simp only [List.length_replicate]; exact hv)
    (by simp only [List.length_replicate]; exact hv) hinit
  rw [Finset.empty_union] at hI
  have hcomp : compute_is_corner mesh L keep =
      if keep = true then corner_outer mesh.nb_vertices
        (corner_facets mesh L
          { rgn1 := List.replicate mesh.nb_vertices NO_INDEX2,
            rgn2 := List.replicate mesh.nb_vertices NO_INDEX2,
            is_corner := List.replicate mesh.nb_vertices false })
      else (corner_facets mesh L
          { rgn1 := List.replicate mesh.nb_vertices NO_INDEX2,
            rgn2 := List.replicate mesh.nb_vertices NO_INDEX2,
            is_corner := List.replicate mesh.nb_vertices false }).is_corner := rfl
  rw [hcomp]
  change v < (corner_facets mesh L _).is_corner.length at hlen
  change CornerInv (labels_at mesh L v) ((corner_facets mesh L _).rgn1.getD v 0)
    ((corner_facets mesh L _).rgn2.getD v 0) ((corner_facets mesh L _).is_corner.getD v false)
    at hI
  generalize corner_facets mesh L
    { rgn1 := List.replicate mesh.nb_vertices NO_INDEX2,
      rgn2 := List.replicate mesh.nb_vertices NO_INDEX2,
      is_corner := List.replicate mesh.nb_vertices false } = st at hlen hI ⊢
  cases keep with
  | false =>
    rw [if_neg (by decide)]
    rw [cornerInv_flag _ _ _ _ hI]
    exact ⟨Or.inl, fun h => h.resolve_right (fun h2 => by cases h2.1)⟩
  | true =>
    rw [if_pos rfl]
    unfold corner_outer
    rw [corner_outer_at st v (List.range mesh.nb_vertices) st.is_corner hlen,
      decide_eq_true (List.mem_range.2 hv), Bool.true_and, Bool.or_eq_true,
      decide_eq_true_eq, cornerInv_outer _ _ _ _ hI]
    exact ⟨fun h => h.imp id (fun h2 => ⟨rfl, h2⟩), fun h => h.imp id (fun h2 => h2.2)⟩

end RPD

namespace RPD

/-! ## The map `border_next` -/

theorem find_assign_self (m : BorderMap) (k x : Nat) :
    BorderMap.find (BorderMap.assign m k x) k = some x := by
  induction m with
  | nil => simp [BorderMap.assign, BorderMap.find]
  | cons p m ih =>
    obtain ⟨a, b⟩ := p
    simp only [BorderMap.assign]
    split
    · simp [BorderMap.find]
    · split
      · rename_i h
        simp [BorderMap.find, h]
      · rename_i h
        simp only [BorderMap.find]
        rw [if_neg h]
        exact ih

theorem find_assign_ne (m : BorderMap) (k x k2 : Nat) (h : k2 ≠ k) :
    BorderMap.find (BorderMap.assign m k x) k2 = BorderMap.find m k2 := by
  induction m with
  | nil =>
    simp only [BorderMap.assign, BorderMap.find]
    rw [if_neg (Ne.symm h)]
  | cons p m ih =>
    obtain ⟨a, b⟩ := p
    simp only [BorderMap.assign]
    split
    · simp only [BorderMap.find]
      rw [if_neg (Ne.symm h)]
    · split
      · rename_i h2
        simp only [BorderMap.find]
        rw [h2, if_neg (Ne.symm h), if_neg (Ne.symm h)]
      · simp only [BorderMap.find]
        split
        · rfl
        · exact ih

theorem find_none_of_not_isSome (m : BorderMap) (k : Nat)
    (h : ¬ (BorderMap.find m k).isSome = true) : BorderMap.find m k = none := by
  cases hf : BorderMap.find m k with
  | none => rfl
  | some x =>
    rw [hf] at h
    exact absurd rfl h

/-! ## One corner of the group flood fill -/

theorem handled_mono (mesh : Mesh) (L : List Nat) (r : Nat) (s s2 : FloodState) (g lv : Nat)
    (hfind : ∀ k x, BorderMap.find s.border_next k = some x →
      BorderMap.find s2.border_next k = some x)
    (hstat : ∀ h, s.facet_status.getD h 0 ≠ NO_INDEX → s2.facet_status.getD h 0 ≠ NO_INDEX)
    (h : Handled mesh L r s g lv) : Handled mesh L r s2 g lv :=
  ⟨fun hb => hfind _ _ (h.1 hb), fun hb => hstat _ (h.2 hb)⟩

theorem floodGrow_refl (mesh : Mesh) (L : List Nat) (r f2 : Nat) (s : FloodState) :
    FloodGrow mesh L r f2 [] s s :=
  { finds := fun _ _ h => h
    status := fun _ => Or.inl rfl
    stack_old := fun _ h => h
    stack_new := fun _ h => Or.inl h
    handled := fun _ h => absurd h (List.not_mem_nil _)
    entries := fun _ _ h => Or.inl h }

theorem floodGrow_trans (mesh : Mesh) (L : List Nat) (r f2 : Nat) (l1 l2 : List Nat)
    (s s1 s2 : FloodState) (h1 : FloodGrow mesh L r f2 l1 s s1)
    (h2 : FloodGrow mesh L r f2 l2 s1 s2) : FloodGrow mesh L r f2 (l1 ++ l2) s s2 := by
  have hstat : ∀ h, s1.facet_status.getD h 0 ≠ NO_INDEX →
      s2.facet_status.getD h 0 ≠ NO_INDEX := by
    intro h hh
    rcases h2.status h with e | ⟨e, _⟩
    · rw [e]; exact hh
    · exact absurd e hh
  constructor
  · exact fun k x h => h2.finds k x (h1.finds k x h)
  · intro g
    rcases h2.status g with e2 | ⟨a2, b2, c2, d2⟩
    · rcases h1.status g with e1 | ⟨a1, b1, c1, d1⟩
      · exact Or.inl (e2.trans e1)
      · exact Or.inr ⟨a1, e2.trans b1, h2.stack_old g c1, d1⟩
    · rcases h1.status g with e1 | ⟨a1, b1, c1, d1⟩
      · exact Or.inr ⟨e1 ▸ a2, b2, c2, d2⟩
      · rw [b1] at a2
        exact absurd a2 (by decide)
  · exact fun g hg => h2.stack_old g (h1.stack_old g hg)
  · intro g hg
    rcases h2.stack_new g hg with h | ⟨a2, b2⟩
    · rcases h1.stack_new g h with h' | ⟨a1, b1⟩
      · exact Or.inl h'
      · right
        refine ⟨a1, ?_⟩
        rcases h2.status g with e2 | ⟨a2, b2, _, _⟩
        · rw [e2]; exact b1
        · exact b2
    · rcases h1.status g with e1 | ⟨a1, b1, c1, d1⟩
      · exact Or.inr ⟨e1 ▸ a2, b2⟩
      · rw [b1] at a2
        exact absurd a2 (by decide)
  · intro lv hlv
    rcases List.mem_append.1 hlv with h | h
    · exact handled_mono mesh L r s1 s2 f2 lv h2.finds hstat (h1.handled lv h)
    · exact h2.handled lv h
  · intro k x hk
    rcases h2.entries k x hk with h | ⟨lv, hlv, hb⟩
    · rcases h1.entries k x h with h' | ⟨lv, hlv, hb⟩
      · exact Or.inl h'
      · exact Or.inr ⟨lv, List.mem_append_left _ hlv, hb⟩
    · exact Or.inr ⟨lv, List.mem_append_right _ hlv, hb⟩

/-- One pass of the corner loop of the group flood fill. -/
theorem group_corner_grow (mesh : Mesh) (L : List Nat) (r f2 lv : Nat) (s s2 : FloodState)
    (h : group_corner mesh L r f2 (.ok s) lv = .ok s2) :
    FloodGrow mesh L r f2 [lv] s s2 := by
  simp only [group_corner] at h
  by_cases hb : mesh.adjacent_facet f2 lv = NO_INDEX ∨
      L.getD (mesh.adjacent_facet f2 lv) 0 ≠ r
  · rw [if_pos hb] at h
    by_cases hs : (BorderMap.find s.border_next (mesh.vertex f2 lv)).isSome = true
    · rw [if_pos hs] at h
      cases h
    · rw [if_neg hs] at h
      have hnone := find_none_of_not_isSome _ _ hs
      injection h with h
      subst h
      constructor
      · intro k x hk
        simp only
        by_cases hkv : k = mesh.vertex f2 lv
        · rw [hkv, hnone] at hk
          cases hk
        · rw [find_assign_ne _ _ _ _ hkv]
          exact hk
      · exact fun _ => Or.inl rfl
      · exact fun _ hg => hg
      · exact fun _ hg => Or.inl hg
      · intro lv2 hlv2
        rw [List.mem_singleton] at hlv2
        subst hlv2
        exact ⟨fun _ => find_assign_self _ _ _, fun hnb => absurd hb hnb⟩
      · intro k x hk
        simp only at hk
        by_cases hkv : k = mesh.vertex f2 lv
        · right
          rw [hkv, find_assign_self] at hk
          injection hk with hk
          exact ⟨lv, List.mem_singleton_self _, hb, hkv.symm, hk⟩
        · rw [find_assign_ne _ _ _ _ hkv] at hk
          exact Or.inl hk
  · rw [if_neg hb] at h
    have hb' := hb
    rw [not_or, not_not] at hb'
    by_cases hst : s.facet_status.getD (mesh.adjacent_facet f2 lv) 0 = NO_INDEX
    · rw [if_pos hst] at h
      injection h with h
      subst h
      have hlt : mesh.adjacent_facet f2 lv < s.facet_status.length :=
        getD_lt_of_ne_default _ _ 0 (by rw [hst]; exact no_index_ne_zero)
      constructor
      · exact fun _ _ hk => hk
      · intro g
        simp only
        by_cases hg : g = mesh.adjacent_facet f2 lv
        · right
          rw [hg]
          exact ⟨hst, getD_set_self _ _ _ _ hlt, List.mem_cons_self _ _, hb'.2⟩
        · left
          exact getD_set_ne _ _ _ _ _ (Ne.symm hg)
      · exact fun g hg => List.mem_cons_of_mem _ hg
      · intro g hg
        simp only [List.mem_cons] at hg
        rcases hg with hg | hg
        · right
          rw [hg]
          exact ⟨hst, getD_set_self _ _ _ _ hlt⟩
        · exact Or.inl hg
      · intro lv2 hlv2
        rw [List.mem_singleton] at hlv2
        subst hlv2
        refine ⟨fun hbc => absurd hbc hb, fun _ => ?_⟩
        simp only
        rw [getD_set_self _ _ _ _ hlt]
        decide
      · exact fun _ _ hk => Or.inl hk
    · rw [if_neg hst] at h
      injection h with h
      subst h
      constructor
      · exact fun _ _ hk => hk
      · exact fun _ => Or.inl rfl
      · exact fun _ hg => hg
      · exact fun _ hg => Or.inl hg
      · intro lv2 hlv2
        rw [List.mem_singleton] at hlv2
        subst hlv2
        exact ⟨fun hbc => absurd hbc hb, fun _ => hst⟩
      · exact fun _ _ hk => Or.inl hk

/-- The corner loop of the group flood fill over the corners `lvs`. -/
theorem foldl_group_corner_grow (mesh : Mesh) (L : List Nat) (r f2 : Nat) :
    ∀ (lvs : List Nat) (s s2 : FloodState),
      lvs.foldl (group_corner mesh L r f2) (.ok s) = .ok s2 →
      FloodGrow mesh L r f2 lvs s s2 := by
  intro lvs
  induction lvs with
  | nil =>
    intro s s2 h
    simp only [List.foldl_nil] at h
    injection h with h
    subst h
    exact floodGrow_refl mesh L r f2 s
  | cons lv lvs ih =>
    intro s s2 h
    rw [List.foldl_cons] at h
    cases hc : group_corner mesh L r f2 (.ok s) lv with
    | error e =>
      rw [hc, foldl_group_corner_error] at h
      cases h
    | ok s1 =>
      rw [hc] at h
      exact floodGrow_trans mesh L r f2 [lv] lvs s s1 s2
        (group_corner_grow mesh L r f2 lv s s1 hc) (ih s1 s2 h)

/-! ## The group flood fill -/

/-- The group flood fill keeps its invariant and ends with an empty stack. -/
theorem group_flood_floodInv (mesh : Mesh) (L : List Nat) (r : Nat) (status0 : List Nat) :
    ∀ (fuel : Nat) (s s2 : FloodState), FloodInv mesh L r status0 s →
      group_flood mesh L r fuel s = .ok s2 →
      FloodInv mesh L r status0 s2 ∧ s2.S = [] := by
  have hstep : ∀ (s : FloodState) (f2 : Nat) (S : List Nat) (s2 : FloodState),
      FloodInv mesh L r status0 s → s.S = f2 :: S →
      group_corners mesh L r f2
        { facet_status := s.facet_status, S := S, border_next := s.border_next } = .ok s2 →
      FloodInv mesh L r status0 s2 := by
    intro s f2 S s2 hI hS hc
    have hG := foldl_group_corner_grow mesh L r f2 _ _ _ hc
    have hpers : ∀ g, s.facet_status.getD g 0 ≠ NO_INDEX →
        s2.facet_status.getD g 0 = s.facet_status.getD g 0 := by
      intro g hg
      rcases hG.status g with e | ⟨e, _⟩
      · exact e
      · exact absurd e hg
    have hzero : ∀ g, s.facet_status.getD g 0 = NO_INDEX → status0.getD g 0 = NO_INDEX := by
      intro g hg
      rcases hI.status g with e | ⟨e, _⟩
      · rw [← e]; exact hg
      · exact e
    have hf2 := hI.stack f2 (by rw [hS]; exact List.mem_cons_self _ _)
    constructor
    · intro g
      rcases hG.status g with e | ⟨a, b, _, _⟩
      · rw [e]
        exact hI.status g
      · exact Or.inr ⟨hzero g a, b⟩
    · intro g h0 h1
      rcases hG.status g with e | ⟨_, _, _, d⟩
      · exact hI.label g h0 (e ▸ h1)
      · exact d
    · intro g hg
      rcases hG.stack_new g hg with h | ⟨a, b⟩
      · have := hI.stack g (by rw [hS]; exact List.mem_cons_of_mem _ h)
        refine ⟨this.1, ?_⟩
        rw [hpers g (by rw [this.2]; decide)]
        exact this.2
      · exact ⟨hzero g a, b⟩
    · intro g h0 h1 hnot lv hlv
      have hsame : s2.facet_status.getD g 0 = s.facet_status.getD g 0 := by
        rcases hG.status g with e | ⟨_, _, c, _⟩
        · exact e
        · exact absurd c hnot
      by_cases hg : g = f2
      · subst hg
        exact hG.handled lv (List.mem_range.2 hlv)
      · have hnot2 : g ∉ s.S := by
          rw [hS]
          intro hmem
          rcases List.mem_cons.1 hmem with h | h
          · exact hg h
          · exact hnot (hG.stack_old g h)
        have hold := hI.passed g h0 (hsame ▸ h1) hnot2 lv hlv
        exact handled_mono mesh L r _ s2 g lv hG.finds
          (fun h hh => by rw [hpers h hh]; exact hh) hold
    · intro k x hk
      rcases hG.entries k x hk with h | ⟨lv, hlv, hb, hv1, hv2⟩
      · obtain ⟨g, lv, a, b, c⟩ := hI.entries k x h
        refine ⟨g, lv, a, ?_, c⟩
        rw [hpers g (by rw [b]; decide)]
        exact b
      · refine ⟨f2, lv, hf2.1, ?_, List.mem_range.1 hlv, hb, hv1, hv2⟩
        rw [hpers f2 (by rw [hf2.2]; decide)]
        exact hf2.2
  intro fuel
  induction fuel with
  | zero =>
    intro s s2 hI h
    simp only [group_flood] at h
    cases hS : s.S with
    | nil =>
      rw [hS] at h
      injection h with h
      subst h
      exact ⟨hI, hS⟩
    | cons f2 S =>
      rw [hS] at h
      cases h
  | succ fuel ih =>
    intro s s2 hI h
    simp only [group_flood] at h
    cases hS : s.S with
    | nil =>
      rw [hS] at h
      injection h with h
      subst h
      exact ⟨hI, hS⟩
    | cons f2 S =>
      rw [hS] at h
      simp only at h
      cases hc : group_corners mesh L r f2
          { facet_status := s.facet_status, S := S, border_next := s.border_next } with
      | error e => rw [hc] at h; cases h
      | ok s1 =>
        rw [hc] at h
        exact ih s1 s2 (hstep s f2 S s1 hI hS hc) h

/-- The invariant of the group flood fill holds when the group is started. -/
theorem floodInv_start (st : SimplifyState) (f : Nat)
    (hf : st.facet_status.getD f 0 = NO_INDEX) :
    FloodInv st.mesh st.facet_region (st.facet_region.getD f 0) st.facet_status
      (flood_start st f) := by
  have hlt : f < st.facet_status.length :=
    getD_lt_of_ne_default _ _ 0 (by rw [hf]; exact no_index_ne_zero)
  have hself : (st.facet_status.set f 1).getD f 0 = 1 := getD_set_self _ _ _ _ hlt
  have hne : ∀ g, g ≠ f → (st.facet_status.set f 1).getD g 0 = st.facet_status.getD g 0 :=
    fun g hg => getD_set_ne _ _ _ _ _ (Ne.symm hg)
  constructor
  · intro g
    simp only [flood_start]
    by_cases hg : g = f
    · rw [hg]
      exact Or.inr ⟨hf, hself⟩
    · exact Or.inl (hne g hg)
  · intro g h0 h1
    simp only [flood_start] at h1
    by_cases hg : g = f
    · rw [hg]
    · rw [hne g hg, h0] at h1
      exact absurd h1 (by decide)
  · intro g hg
    simp only [flood_start, List.mem_singleton] at hg ⊢
    rw [hg]
    exact ⟨hf, hself⟩
  · intro g h0 h1 hnot
    simp only [flood_start, List.mem_singleton] at h1 hnot
    rw [hne g hnot, h0] at h1
    exact absurd h1 (by decide)
  · intro k x hk
    simp only [flood_start, BorderMap.find] at hk
    cases hk

/-! ## The facet loop of `simplify` on a well-formed mesh -/

theorem create_polygon_loop (m : Mesh) (l : List Nat) (f : Nat) (hf : f < m.facets.length) :
    (m.create_polygon l).loop f = m.loop f :=
  loop_append_left m (m.create_polygon l) [l] f rfl hf

theorem create_polygon_adjacent (m : Mesh) (l : List Nat) (f lv : Nat) :
    (m.create_polygon l).adjacent_facet f lv = m.adjacent_facet f lv := by
  unfold Mesh.adjacent_facet Mesh.create_polygon
  simp only [List.getD_eq_getElem?_getD]
  by_cases h1 : f < m.adjacent.length
  · rw [List.getElem?_append_left h1]
  · rw [List.getElem?_append_right (by omega), List.getElem?_eq_none (by omega : m.adjacent.length ≤ f)]
    by_cases h2 : f - m.adjacent.length = 0
    · rw [h2]
      simp only [List.getElem?_cons_zero, Option.getD_some, Option.getD_none]
      by_cases h3 : lv < l.length
      · rw [List.getElem?_replicate_of_lt h3]
        rfl
      · rw [List.getElem?_eq_none (by simp only [List.length_replicate]; omega)]
        rfl
    · have hlen : ([List.replicate l.length NO_INDEX] : List (List Nat)).length ≤
          f - m.adjacent.length := by
        simp only [List.length_singleton]
        omega
      rw [List.getElem?_eq_none hlen]

theorem wellFormedBelow_congr (m m2 : Mesh) (n : Nat)
    (hloop : ∀ f, f < n → m2.loop f = m.loop f)
    (hadj : ∀ f lv, m2.adjacent_facet f lv = m.adjacent_facet f lv)
    (hnv : m2.nb_vertices = m.nb_vertices) (h : WellFormedBelow m n) :
    WellFormedBelow m2 n := by
  obtain ⟨h0, h1, h2, h3⟩ := h
  have hnb : ∀ f, f < n → m2.facet_nb_vertices f = m.facet_nb_vertices f := by
    intro f hf
    unfold Mesh.facet_nb_vertices
    rw [hloop f hf]
  have hvx : ∀ f lv, f < n → m2.vertex f lv = m.vertex f lv := by
    intro f lv hf
    unfold Mesh.vertex
    rw [hloop f hf]
  have hnx : ∀ f lv, f < n →
      m2.next_corner_around_facet f lv = m.next_corner_around_facet f lv := by
    intro f lv hf
    unfold Mesh.next_corner_around_facet
    rw [hnb f hf]
  refine ⟨h0, ?_, ?_, ?_⟩
  · intro f hf
    rw [hloop f hf]
    exact h1 f hf
  · intro f hf lv hlv
    rw [hnb f hf] at hlv
    rw [hvx f lv hf, hnv]
    exact h2 f hf lv hlv
  · intro f hf lv hlv hne
    rw [hnb f hf] at hlv
    rw [hadj] at hne ⊢
    obtain ⟨hlt, lv2, a, b, c, d⟩ := h3 f hf lv hlv hne
    refine ⟨hlt, lv2, ?_, ?_, ?_, ?_⟩
    · rw [hnb _ hlt]
      exact a
    · rw [hvx _ _ hlt, hvx _ _ hf, hnx _ _ hf]
      exact b
    · rw [hvx _ _ hlt, hnx _ _ hlt, hvx _ _ hf]
      exact c
    · rw [hadj]
      exact d

/-- The invariant of the facet loop holds at its start. -/
theorem groupsInv_init (keep : Bool) (mesh : Mesh) (L : List Nat) (hwf : WellFormed mesh)
    (hlen : L.length = mesh.facets.length) :
    GroupsInv keep mesh.facets.length (loop_init mesh L) := by
  have hst : ∀ h, h < mesh.facets.length →
      (List.replicate mesh.facets.length NO_INDEX).getD h 0 = NO_INDEX := by
    intro h hh
    rw [List.getD_eq_getElem?_getD, List.getElem?_replicate_of_lt hh]
    rfl
  constructor
  · exact le_refl _
  · simp only [loop_init]
    omega
  · simp only [loop_init, List.length_replicate]
  · exact hwf
  · intro h hh
    simp only [loop_init]
    exact Or.inl (hst h hh)
  · intro h hh h1
    simp only [loop_init] at h1
    rw [hst h hh] at h1
    exact absurd h1 (by decide)

/-- One pass of the facet loop of `simplify` keeps the invariant. -/
theorem group_step_groupsInv (keep : Bool) (n : Nat) (ic : List Bool)
    (st st2 : SimplifyState) (f : Nat) (hI : GroupsInv keep n st)
    (h : group_step keep ic st f = .ok st2) : GroupsInv keep n st2 := by
  unfold group_step at h
  by_cases hf : st.facet_status.getD f 0 = NO_INDEX
  · rw [if_pos hf] at h
    have hflt : f < st.facet_status.length :=
      getD_lt_of_ne_default _ _ 0 (by rw [hf]; exact no_index_ne_zero)
    by_cases hk : keep = true ∧ st.facet_region.getD f 0 = NO_INDEX
    · rw [if_pos hk] at h
      injection h with h
      subst h
      have hself : (st.facet_status.set f 0).getD f 0 = 0 := getD_set_self _ _ _ _ hflt
      have hne : ∀ g, g ≠ f → (st.facet_status.set f 0).getD g 0 = st.facet_status.getD g 0 :=
        fun g hg => getD_set_ne _ _ _ _ _ (Ne.symm hg)
      constructor
      · exact hI.facets_len
      · exact hI.region_len
      · simp only [List.length_set]
        exact hI.status_len
      · exact hI.wf
      · intro h hh
        simp only
        by_cases hg : h = f
        · rw [hg]
          exact Or.inr (Or.inr ⟨hself, hk.1, hk.2⟩)
        · rw [hne h hg]
          exact hI.values h hh
      · intro h hh h1 lv hlv hadj hreg
        simp only at h1 hlv hadj hreg ⊢
        have hg : h ≠ f := by
          intro hg
          rw [hg, hself] at h1
          cases h1
        rw [hne h hg] at h1
        have hold := hI.closed h hh h1 lv hlv hadj hreg
        have hg2 : st.mesh.adjacent_facet h lv ≠ f := by
          intro hg2
          rw [hg2, hf] at hold
          exact absurd hold (by decide)
        rw [hne _ hg2]
        exact hold
    · rw [if_neg hk] at h
      obtain ⟨fl, w, hfl, _, hst2⟩ := merge_group_ok ic st st2 f h
      subst hst2
      obtain ⟨hF, _⟩ := group_flood_floodInv st.mesh st.facet_region
        (st.facet_region.getD f 0) st.facet_status _ _ _ (floodInv_start st f hf) hfl
      have hlenfl : fl.facet_status.length = n := by
        rw [group_flood_status_length _ _ _ _ _ _ hfl]
        simp only [flood_start, List.length_set]
        exact hI.status_len
      have hloop : ∀ g, g < n → (st.mesh.create_polygon w.new_facet).loop g = st.mesh.loop g :=
        fun g hg => create_polygon_loop _ _ _ (lt_of_lt_of_le hg hI.facets_len)
      have hnb : ∀ g, g < n → (st.mesh.create_polygon w.new_facet).facet_nb_vertices g =
          st.mesh.facet_nb_vertices g := by
        intro g hg
        unfold Mesh.facet_nb_vertices
        rw [hloop g hg]
      have hreg : ∀ g, g < n →
          (st.facet_region ++ [st.facet_region.getD f 0]).getD g 0 =
            st.facet_region.getD g 0 :=
        fun g hg => getD_append_left _ _ _ _ (lt_of_lt_of_le hg hI.region_len)
      constructor
      · simp only [Mesh.create_polygon, List.length_append]
        have := hI.facets_len
        omega
      · simp only [List.length_append]
        have := hI.region_len
        omega
      · exact hlenfl
      · exact wellFormedBelow_congr st.mesh _ n hloop
          (fun g lv => create_polygon_adjacent _ _ _ _) rfl hI.wf
      · intro h hh
        simp only
        rw [hreg h hh]
        rcases hF.status h with e | ⟨_, e⟩
        · rw [e]
          exact hI.values h hh
        · exact Or.inr (Or.inl e)
      · intro h hh h1 lv hlv hadj hr
        simp only at h1 hlv hadj hr ⊢
        rw [hnb h hh] at hlv
        rw [create_polygon_adjacent] at hadj hr ⊢
        have hadjlt := (hI.wf.2.2.2 h hh lv hlv hadj).1
        rw [hreg h hh, hreg _ hadjlt] at hr
        rcases hF.status h with e | ⟨e0, _⟩
        · rw [e] at h1
          have hold := hI.closed h hh h1 lv hlv hadj hr
          rcases hF.status (st.mesh.adjacent_facet h lv) with e2 | ⟨_, e2⟩
          · rw [e2]
            exact hold
          · exact e2
        · have hlab := hF.label h e0 h1
          have hnb2 : ¬ BorderCorner st.mesh st.facet_region (st.facet_region.getD f 0) h lv := by
            intro hb
            rcases hb with hb | hb
            · exact hadj hb
            · exact hb (hr.trans hlab)
          have hpass := hF.passed h e0 h1 (by rw [‹fl.S = []›]; exact List.not_mem_nil _)
            lv hlv
          have hvis := hpass.2 hnb2
          rcases hF.status (st.mesh.adjacent_facet h lv) with e2 | ⟨_, e2⟩
          · rw [e2] at hvis ⊢
            rcases hI.values _ hadjlt with v | v | ⟨_, v1, v2⟩
            · exact absurd v hvis
            · exact v
            · exfalso
              apply hk
              refine ⟨v1, ?_⟩
              rw [← hlab, ← hr]
              exact v2
          · exact e2
  · rw [if_neg hf] at h
    injection h with h
    subst h
    exact hI

/-- The invariant of the facet loop holds in every state reached by the loop. -/
theorem group_loop_groupsInv (keep : Bool) (ic : List Bool) (mesh : Mesh) (L : List Nat)
    (hwf : WellFormed mesh) (hlen : L.length = mesh.facets.length) (fs : List Nat)
    (b : Bool) (st : SimplifyState)
    (h : group_loop keep ic fs (loop_init mesh L) = .ok (b, st)) :
    GroupsInv keep mesh.facets.length st :=
  group_loop_inv keep ic (GroupsInv keep mesh.facets.length)
    (fun s f s2 hP hs => group_step_groupsInv keep _ ic s s2 f hP hs) fs _ b st
    (groupsInv_init keep mesh L hwf hlen) h

/-- The facts left behind by the flood fill of a region group of `simplify`. -/
theorem group_facts (keep : Bool) (ic : List Bool) (mesh : Mesh) (L : List Nat)
    (hwf : WellFormed mesh) (hlen : L.length = mesh.facets.length) (f : Nat)
    (st : SimplifyState) (fl : FloodState)
    (hsg : StartsGroup keep ic (loop_init mesh L) f st)
    (hfl : group_flood st.mesh st.facet_region (st.facet_region.getD f 0)
      (st.mesh.facets.length + 1) (flood_start st f) = .ok fl) :
    GroupFacts st.mesh st.facet_region (st.facet_region.getD f 0) mesh.facets.length
      st.facet_status fl := by
  obtain ⟨hloop, hf, hk⟩ := hsg
  have hI := group_loop_groupsInv keep ic mesh L hwf hlen _ _ _ hloop
  obtain ⟨hF, hS⟩ := group_flood_floodInv st.mesh st.facet_region
    (st.facet_region.getD f 0) st.facet_status _ _ _ (floodInv_start st f hf) hfl
  have hlt : ∀ g, InGroup st.facet_status fl g → g < mesh.facets.length := by
    intro g hg
    rw [← hI.status_len]
    exact getD_lt_of_ne_default _ _ 0 (by rw [hg.1]; exact no_index_ne_zero)
  constructor
  · exact hI.wf
  · exact hlt
  · exact fun g hg => hF.label g hg.1 hg.2
  · intro g lv hg hlv hnb
    have hpass := hF.passed g hg.1 hg.2 (by rw [hS]; exact List.not_mem_nil _) lv hlv
    have hvis := hpass.2 hnb
    have hnb2 : st.mesh.adjacent_facet g lv ≠ NO_INDEX ∧
        st.facet_region.getD (st.mesh.adjacent_facet g lv) 0 = st.facet_region.getD f 0 := by
      unfold BorderCorner at hnb
      rw [not_or, not_not] at hnb
      exact hnb
    obtain ⟨hadjlt, lv2, hlv2, _, _, hback⟩ := hI.wf.2.2.2 g (hlt g hg) lv hlv hnb2.1
    rcases hF.status (st.mesh.adjacent_facet g lv) with e | ⟨e0, e1⟩
    · exfalso
      rw [e] at hvis
      rcases hI.values _ hadjlt with v | v | ⟨_, v1, v2⟩
      · exact hvis v
      · have hg2 := hI.closed _ hadjlt v lv2 hlv2
          (by rw [hback]; exact Nat.ne_of_lt (lt_of_lt_of_le (hlt g hg) hI.wf.1))
          (by rw [hback, hnb2.2]; exact hF.label g hg.1 hg.2)
        rw [hback, hg.1] at hg2
        exact absurd hg2 (by decide)
      · exact hk ⟨v1, by rw [← hnb2.2]; exact v2⟩
    · exact ⟨e0, e1⟩
  · intro g lv hg hlv hb
    exact (hF.passed g hg.1 hg.2 (by rw [hS]; exact List.not_mem_nil _) lv hlv).1 hb
  · intro k x hkx
    obtain ⟨g, lv, a, b, c⟩ := hF.entries k x hkx
    exact ⟨g, lv, ⟨a, b⟩, c⟩

/-! ## Corners around a facet -/

theorem next_corner_lt (m : Mesh) (f lv : Nat) (h : lv < m.facet_nb_vertices f) :
    m.next_corner_around_facet f lv < m.facet_nb_vertices f := by
  unfold Mesh.next_corner_around_facet
  split <;> omega

theorem next_corner_inj (m : Mesh) (f lv1 lv2 : Nat)
    (h : m.next_corner_around_facet f lv1 = m.next_corner_around_facet f lv2) : lv1 = lv2 := by
  unfold Mesh.next_corner_around_facet at h
  split at h <;> split at h <;> omega

theorem next_previous_corner (m : Mesh) (f lv : Nat) (h : lv < m.facet_nb_vertices f) :
    previous_corner m f lv < m.facet_nb_vertices f ∧
    m.next_corner_around_facet f (previous_corner m f lv) = lv := by
  unfold Mesh.next_corner_around_facet previous_corner
  constructor
  · split <;> omega
  · split <;> split <;> omega

theorem vertex_mem_loop (m : Mesh) (f lv : Nat) (h : lv < m.facet_nb_vertices f) :
    m.vertex f lv ∈ m.loop f := by
  unfold Mesh.vertex
  unfold Mesh.facet_nb_vertices at h
  rw [List.getD_eq_getElem?_getD, List.getElem?_eq_getElem h]
  exact List.getElem_mem h

theorem corner_of_spec (m : Mesh) (f v : Nat) (h : v ∈ m.loop f) :
    corner_of m f v < m.facet_nb_vertices f ∧ m.vertex f (corner_of m f v) = v := by
  have hlt : (m.loop f).indexOf v < (m.loop f).length := List.indexOf_lt_length.2 h
  refine ⟨hlt, ?_⟩
  unfold Mesh.vertex corner_of
  rw [List.getD_eq_getElem?_getD, List.getElem?_eq_getElem hlt]
  exact List.getElem_indexOf hlt

theorem vertex_inj (m : Mesh) (f lv1 lv2 : Nat) (hnd : (m.loop f).Nodup)
    (h1 : lv1 < m.facet_nb_vertices f) (h2 : lv2 < m.facet_nb_vertices f)
    (h : m.vertex f lv1 = m.vertex f lv2) : lv1 = lv2 :=
  nodup_getD_inj (m.loop f) hnd lv1 lv2 h1 h2 h

/-- The symmetric corner of a well-formed mesh: if the facet `g` has the adjacent facet
`h` across its corner `lv`, then `h` has a corner `lv2` with the reversed edge and the
adjacent facet `g`. -/
theorem wf_back (m : Mesh) (n g lv h : Nat) (hwf : WellFormedBelow m n) (hg : g < n)
    (hlv : lv < m.facet_nb_vertices g) (hadj : m.adjacent_facet g lv = h)
    (hne : h ≠ NO_INDEX) :
    h < n ∧ ∃ lv2, lv2 < m.facet_nb_vertices h ∧
      m.vertex h lv2 = m.vertex g (m.next_corner_around_facet g lv) ∧
      m.vertex h (m.next_corner_around_facet h lv2) = m.vertex g lv ∧
      m.adjacent_facet h lv2 = g := by
  subst hadj
  exact hwf.2.2.2 g hg lv hlv hne

/-! ## The border edges of a region group form cycles -/

/-- Every vertex at which a recorded border edge ends is the start of a recorded border
edge: turning around the vertex from the facet of the edge, across non-border corners,
leads to a facet of the group whose edge leaving the vertex is a border edge. -/
theorem successor_is_key (m : Mesh) (R : List Nat) (r n : Nat) (status0 : List Nat)
    (fl : FloodState) (F : GroupFacts m R r n status0 fl) (k b : Nat)
    (h : BorderMap.find fl.border_next k = some b) :
    ∃ y, BorderMap.find fl.border_next b = some y := by
  obtain ⟨g0, lv0, hg0, hlv0, hb0, _, hv0⟩ := F.entries k b h
  by_contra hno
  have hnb : ∀ g, InGroup status0 fl g → b ∈ m.loop g →
      ¬ BorderCorner m R r g (corner_of m g b) := by
    intro g hg hmem hb
    obtain ⟨hc, hvc⟩ := corner_of_spec m g b hmem
    have := F.recorded g _ hg hc hb
    rw [hvc] at this
    exact hno ⟨_, this⟩
  have hstep : ∀ g, InGroup status0 fl g → b ∈ m.loop g →
      InGroup status0 fl (m.adjacent_facet g (corner_of m g b)) ∧
      m.adjacent_facet g (corner_of m g b) < n ∧
      ∃ lv2, lv2 < m.facet_nb_vertices (m.adjacent_facet g (corner_of m g b)) ∧
        m.vertex (m.adjacent_facet g (corner_of m g b))
          (m.next_corner_around_facet (m.adjacent_facet g (corner_of m g b)) lv2) = b ∧
        m.adjacent_facet (m.adjacent_facet g (corner_of m g b)) lv2 = g := by
    intro g hg hmem
    obtain ⟨hc, hvc⟩ := corner_of_spec m g b hmem
    have hnot := hnb g hg hmem
    have hin := F.closed g _ hg hc hnot
    have hne : m.adjacent_facet g (corner_of m g b) ≠ NO_INDEX :=
      fun he => hnot (Or.inl he)
    obtain ⟨hlt, lv2, a1, _, a3, a4⟩ := wf_back m n g _ _ F.wf (F.lt g hg) hc rfl hne
    exact ⟨hin, hlt, lv2, a1, a3.trans hvc, a4⟩
  have hmemX : ∀ g, g ∈ (Finset.range n).filter
      (fun g => InGroup status0 fl g ∧ b ∈ m.loop g) ↔
      InGroup status0 fl g ∧ b ∈ m.loop g := by
    intro g
    rw [Finset.mem_filter, Finset.mem_range]
    exact ⟨fun h => h.2, fun h => ⟨F.lt g h.1, h⟩⟩
  have hg0X : g0 ∈ (Finset.range n).filter
      (fun g => InGroup status0 fl g ∧ b ∈ m.loop g) := by
    rw [hmemX]
    refine ⟨hg0, ?_⟩
    rw [← hv0]
    exact vertex_mem_loop m g0 _ (next_corner_lt m g0 lv0 hlv0)
  obtain ⟨a, ha, hga⟩ := Finset.surj_on_of_inj_on_of_card_le
    (fun g (_ : g ∈ (Finset.range n).filter
      (fun g => InGroup status0 fl g ∧ b ∈ m.loop g)) =>
      m.adjacent_facet g (corner_of m g b))
    (by
      intro g hg
      rw [hmemX] at hg ⊢
      obtain ⟨hin, hlt, lv2, a1, a3, _⟩ := hstep g hg.1 hg.2
      have hm := vertex_mem_loop m _ _ (next_corner_lt m _ lv2 a1)
      rw [a3] at hm
      exact ⟨hin, hm⟩)
    (by
      intro g1 g2 hg1 hg2 heq
      rw [hmemX] at hg1 hg2
      have heq : m.adjacent_facet g1 (corner_of m g1 b) =
          m.adjacent_facet g2 (corner_of m g2 b) := heq
      obtain ⟨_, hlt1, lv1, a1, a3, a4⟩ := hstep g1 hg1.1 hg1.2
      obtain ⟨_, _, lv2, c1, c3, c4⟩ := hstep g2 hg2.1 hg2.2
      rw [← heq] at c1 c3 c4
      have hnext := vertex_inj m _ _ _ (F.wf.2.1 _ hlt1) (next_corner_lt m _ lv1 a1)
        (next_corner_lt m _ lv2 c1) (a3.trans c3.symm)
      have hlv := next_corner_inj m _ lv1 lv2 hnext
      rw [← a4, ← c4, hlv])
    (le_refl _) g0 hg0X
  rw [hmemX] at ha
  have hga : g0 = m.adjacent_facet a (corner_of m a b) := hga
  obtain ⟨_, _, lv2, a1, a3, a4⟩ := hstep a ha.1 ha.2
  rw [← hga] at a1 a3 a4
  have hnext := vertex_inj m g0 _ _ (F.wf.2.1 g0 (F.lt g0 hg0)) (next_corner_lt m g0 lv2 a1)
    (next_corner_lt m g0 lv0 hlv0) (a3.trans hv0.symm)
  have hlv := next_corner_inj m g0 lv2 lv0 hnext
  rw [hlv] at a4
  rcases hb0 with hb | hb
  · rw [a4] at hb
    exact absurd hb (Nat.ne_of_lt (lt_of_lt_of_le (F.lt a ha.1) F.wf.1))
  · rw [a4] at hb
    exact hb (F.label a ha.1)

/-- Every vertex at which a recorded border edge starts is the end of a recorded border
edge: turning around the vertex the other way leads to a facet of the group whose edge
entering the vertex is a border edge. -/
theorem key_is_successor (m : Mesh) (R : List Nat) (r n : Nat) (status0 : List Nat)
    (fl : FloodState) (F : GroupFacts m R r n status0 fl) (b y : Nat)
    (h : BorderMap.find fl.border_next b = some y) :
    ∃ k, BorderMap.find fl.border_next k = some b := by
  obtain ⟨g0, lv0, hg0, hlv0, hb0, hv0, _⟩ := F.entries b y h
  by_contra hno
  have hnb : ∀ g, InGroup status0 fl g → b ∈ m.loop g →
      ¬ BorderCorner m R r g (previous_corner m g (corner_of m g b)) := by
    intro g hg hmem hb
    obtain ⟨hc, hvc⟩ := corner_of_spec m g b hmem
    obtain ⟨hp, hnp⟩ := next_previous_corner m g _ hc
    have := F.recorded g _ hg hp hb
    rw [hnp, hvc] at this
    exact hno ⟨_, this⟩
  have hstep : ∀ g, InGroup status0 fl g → b ∈ m.loop g →
      InGroup status0 fl (m.adjacent_facet g (previous_corner m g (corner_of m g b))) ∧
      m.adjacent_facet g (previous_corner m g (corner_of m g b)) < n ∧
      ∃ lv2, lv2 < m.facet_nb_vertices
          (m.adjacent_facet g (previous_corner m g (corner_of m g b))) ∧
        m.vertex (m.adjacent_facet g (previous_corner m g (corner_of m g b))) lv2 = b ∧
        m.adjacent_facet (m.adjacent_facet g (previous_corner m g (corner_of m g b))) lv2 =
          g := by
    intro g hg hmem
    obtain ⟨hc, hvc⟩ := corner_of_spec m g b hmem
    obtain ⟨hp, hnp⟩ := next_previous_corner m g _ hc
    have hnot := hnb g hg hmem
    have hin := F.closed g _ hg hp hnot
    have hne : m.adjacent_facet g (previous_corner m g (corner_of m g b)) ≠ NO_INDEX :=
      fun he => hnot (Or.inl he)
    obtain ⟨hlt, lv2, a1, a2, _, a4⟩ := wf_back m n g _ _ F.wf (F.lt g hg) hp rfl hne
    rw [hnp, hvc] at a2
    exact ⟨hin, hlt, lv2, a1, a2, a4⟩
  have hmemX : ∀ g, g ∈ (Finset.range n).filter
      (fun g => InGroup status0 fl g ∧ b ∈ m.loop g) ↔
      InGroup status0 fl g ∧ b ∈ m.loop g := by
    intro g
    rw [Finset.mem_filter, Finset.mem_range]
    exact ⟨fun h => h.2, fun h => ⟨F.lt g h.1, h⟩⟩
  have hg0X : g0 ∈ (Finset.range n).filter
      (fun g => InGroup status0 fl g ∧ b ∈ m.loop g) := by
    rw [hmemX]
    refine ⟨hg0, ?_⟩
    rw [← hv0]
    exact vertex_mem_loop m g0 _ hlv0
  obtain ⟨a, ha, hga⟩ := Finset.surj_on_of_inj_on_of_card_le
    (fun g (_ : g ∈ (Finset.range n).filter
      (fun g => InGroup status0 fl g ∧ b ∈ m.loop g)) =>
      m.adjacent_facet g (previous_corner m g (corner_of m g b)))
    (by
      intro g hg
      rw [hmemX] at hg ⊢
      obtain ⟨hin, hlt, lv2, a1, a2, _⟩ := hstep g hg.1 hg.2
      have hm := vertex_mem_loop m _ _ a1
      rw [a2] at hm
      exact ⟨hin, hm⟩)
    (by
      intro g1 g2 hg1 hg2 heq
      rw [hmemX] at hg1 hg2
      have heq : m.adjacent_facet g1 (previous_corner m g1 (corner_of m g1 b)) =
          m.adjacent_facet g2 (previous_corner m g2 (corner_of m g2 b)) := heq
      obtain ⟨_, hlt1, lv1, a1, a2, a4⟩ := hstep g1 hg1.1 hg1.2
      obtain ⟨_, _, lv2, c1, c2, c4⟩ := hstep g2 hg2.1 hg2.2
      rw [← heq] at c1 c2 c4
      have hlv := vertex_inj m _ _ _ (F.wf.2.1 _ hlt1) a1 c1 (a2.trans c2.symm)
      rw [← a4, ← c4, hlv])
    (le_refl _) g0 hg0X
  rw [hmemX] at ha
  have hga : g0 = m.adjacent_facet a (previous_corner m a (corner_of m a b)) := hga
  obtain ⟨_, _, lv2, a1, a2, a4⟩ := hstep a ha.1 ha.2
  rw [← hga] at a1 a2 a4
  have hlv := vertex_inj m g0 _ _ (F.wf.2.1 g0 (F.lt g0 hg0)) a1 hlv0 (a2.trans hv0.symm)
  rw [hlv] at a4
  rcases hb0 with hb | hb
  · rw [a4] at hb
    exact absurd hb (Nat.ne_of_lt (lt_of_lt_of_le (F.lt a ha.1) F.wf.1))
  · rw [a4] at hb
    exact hb (F.label a ha.1)

/-! ## The walk along a permutation -/

theorem mem_of_find (m : BorderMap) (k x : Nat) (h : BorderMap.find m k = some x) :
    (k, x) ∈ m := by
  induction m with
  | nil => simp [BorderMap.find] at h
  | cons p m ih =>
    obtain ⟨a, b⟩ := p
    simp only [BorderMap.find] at h
    split at h
    · rename_i hk
      injection h with h
      rw [← hk, ← h]
      exact List.mem_cons_self _ _
    · exact List.mem_cons_of_mem _ (ih h)

theorem find_of_mem (m : BorderMap) (k x : Nat) (hnd : (m.map Prod.fst).Nodup)
    (h : (k, x) ∈ m) : BorderMap.find m k = some x := by
  induction m with
  | nil => cases h
  | cons p m ih =>
    obtain ⟨a, b⟩ := p
    rw [List.map_cons, List.nodup_cons] at hnd
    simp only [BorderMap.find]
    rcases List.mem_cons.1 h with h | h
    · injection h with h1 h2
      rw [if_pos h1.symm, h2]
    · have hne : ¬ a = k := by
        intro hak
        apply hnd.1
        rw [hak]
        exact List.mem_map.2 ⟨(k, x), h, rfl⟩
      rw [if_neg hne]
      exact ih hnd.2 h

theorem index_of_find (m : BorderMap) (k x : Nat) (h : BorderMap.find m k = some x) :
    BorderMap.index m k = (x, m) := by
  unfold BorderMap.index
  rw [h]

/-- The border walk along a map whose successor function is total, closed and injective
on the keys: started at the first key it comes back to it, leaves the map as it is, and
visits no more vertices than there are keys. -/
theorem border_walk_closed (nv : Nat) (ic : List Bool) (bn : BorderMap) (first : Nat)
    (hbegin : BorderMap.begin_first bn = .ok first)
    (htotal : ∀ k, k ∈ bn.map Prod.fst →
      ∃ x, BorderMap.find bn k = some x ∧ x ∈ bn.map Prod.fst)
    (hinj : ∀ k1 k2 x, BorderMap.find bn k1 = some x → BorderMap.find bn k2 = some x →
      k1 = k2)
    (hk : bn.length ≤ nv) :
    ∀ (fuel : Nat) (vis : List Nat) (v : Nat) (acc : List Nat),
      (vis ++ [v]).Nodup → (∀ y ∈ vis ++ [v], y ∈ bn.map Prod.fst) →
      (∀ y ∈ vis ++ [v], y = first ∨ ∃ z ∈ vis, BorderMap.find bn z = some y) →
      bn.length ≤ fuel + vis.length →
      ∃ w, border_walk nv ic fuel
          { border_next := bn, v := v, nb_border_visited := vis.length, new_facet := acc } =
          .ok w ∧
        w.border_next = bn ∧ w.v = first ∧ vis.length < w.nb_border_visited ∧
        w.nb_border_visited ≤ bn.length := by
  intro fuel
  induction fuel with
  | zero =>
    intro vis v acc hnd hsub _ hfuel
    exfalso
    have hle := (List.subperm_of_subset hnd hsub).length_le
    rw [List.length_append, List.length_map, List.length_singleton] at hle
    omega
  | succ fuel ih =>
    intro vis v acc hnd hsub hchain hfuel
    have hle := (List.subperm_of_subset hnd hsub).length_le
    rw [List.length_append, List.length_map, List.length_singleton] at hle
    obtain ⟨x, hx, hxk⟩ := htotal v (hsub v (List.mem_append_right _ (List.mem_singleton_self _)))
    rw [border_walk]
    simp only [index_of_find bn v x hx, hbegin]
    rw [if_neg (by omega)]
    by_cases hxf : x = first
    · rw [if_neg (by rw [hxf]; exact fun h => h rfl)]
      exact ⟨_, rfl, rfl, hxf, Nat.lt_succ_self _, hle⟩
    · rw [if_pos hxf]
      have hxnot : x ∉ vis ++ [v] := by
        intro hmem
        rcases hchain x hmem with h | ⟨z, hz, hzx⟩
        · exact hxf h
        · have hzv := hinj z v x hzx hx
          rw [hzv] at hz
          have := List.nodup_append.1 hnd
          exact this.2.2 hz (List.mem_singleton_self _)
      have hnd2 : ((vis ++ [v]) ++ [x]).Nodup := by
        rw [List.nodup_append]
        refine ⟨hnd, List.nodup_singleton _, ?_⟩
        intro a ha hb
        rw [List.mem_singleton] at hb
        rw [hb] at ha
        exact hxnot ha
      have hlen : (vis ++ [v]).length = vis.length + 1 := by
        rw [List.length_append, List.length_singleton]
      obtain ⟨w, hw, h1, h2, h3, h4⟩ := ih (vis ++ [v]) x
        (if ic.getD v false = true then acc ++ [v] else acc) hnd2
        (by
          intro y hy
          rcases List.mem_append.1 hy with h | h
          · exact hsub y h
          · rw [List.mem_singleton] at h
            rw [h]
            exact hxk)
        (by
          intro y hy
          rcases List.mem_append.1 hy with h | h
          · rcases hchain y h with h' | ⟨z, hz, hzy⟩
            · exact Or.inl h'
            · exact Or.inr ⟨z, List.mem_append_left _ hz, hzy⟩
          · rw [List.mem_singleton] at h
            rw [h]
            exact Or.inr ⟨v, List.mem_append_right _ (List.mem_singleton_self _), hx⟩)
        (by rw [hlen]; omega)
      rw [hlen] at hw h3
      exact ⟨w, hw, h1, h2, by omega, h4⟩

/-- The map `border_next` left by the flood fill of a region group of a well-formed mesh
is a permutation of its keys. -/
theorem border_next_permutation (m : Mesh) (R : List Nat) (r n : Nat) (status0 : List Nat)
    (fl : FloodState) (F : GroupFacts m R r n status0 fl) :
    (∀ k, k ∈ fl.border_next.map Prod.fst →
      ∃ x, BorderMap.find fl.border_next k = some x ∧ x ∈ fl.border_next.map Prod.fst) ∧
    (∀ b, b ∈ fl.border_next.map Prod.fst →
      ∃ k, k ∈ fl.border_next.map Prod.fst ∧ BorderMap.find fl.border_next k = some b) ∧
    (∀ k1 k2 x, BorderMap.find fl.border_next k1 = some x →
      BorderMap.find fl.border_next k2 = some x → k1 = k2) ∧
    (∀ k, k ∈ fl.border_next.map Prod.fst → k < m.nb_vertices) := by
  have hkey : ∀ k x, BorderMap.find fl.border_next k = some x →
      k ∈ fl.border_next.map Prod.fst := by
    intro k x h
    rw [← find_isSome_iff, h]
    rfl
  have hsome : ∀ k, k ∈ fl.border_next.map Prod.fst →
      ∃ x, BorderMap.find fl.border_next k = some x := by
    intro k hk
    rw [← find_isSome_iff] at hk
    exact Option.isSome_iff_exists.1 hk
  have htotal : ∀ k, k ∈ fl.border_next.map Prod.fst →
      ∃ x, BorderMap.find fl.border_next k = some x ∧ x ∈ fl.border_next.map Prod.fst := by
    intro k hk
    obtain ⟨x, hx⟩ := hsome k hk
    obtain ⟨y, hy⟩ := successor_is_key m R r n status0 fl F k x hx
    exact ⟨x, hx, hkey x y hy⟩
  have hsurj : ∀ b, b ∈ fl.border_next.map Prod.fst →
      ∃ k, k ∈ fl.border_next.map Prod.fst ∧ BorderMap.find fl.border_next k = some b := by
    intro b hb
    obtain ⟨y, hy⟩ := hsome b hb
    obtain ⟨k, hk⟩ := key_is_successor m R r n status0 fl F b y hy
    exact ⟨k, hkey k b hk, hk⟩
  refine ⟨htotal, hsurj, ?_, ?_⟩
  · intro k1 k2 x h1 h2
    have hinj := Finset.inj_on_of_surj_on_of_card_le
      (s := (fl.border_next.map Prod.fst).toFinset)
      (t := (fl.border_next.map Prod.fst).toFinset)
      (fun a _ => (BorderMap.find fl.border_next a).getD 0)
      (by
        intro a ha
        rw [List.mem_toFinset] at ha ⊢
        obtain ⟨x, hx, hxk⟩ := htotal a ha
        simp only [hx, Option.getD_some]
        exact hxk)
      (by
        intro b hb
        rw [List.mem_toFinset] at hb
        obtain ⟨k, hk, hkb⟩ := hsurj b hb
        refine ⟨k, List.mem_toFinset.2 hk, ?_⟩
        simp only [hkb, Option.getD_some])
      (le_refl _)
      (List.mem_toFinset.2 (hkey k1 x h1)) (List.mem_toFinset.2 (hkey k2 x h2))
    apply hinj
    simp only [h1, h2]
  · intro k hk
    obtain ⟨x, hx⟩ := hsome k hk
    obtain ⟨g, lv, hg, hlv, _, hv, _⟩ := F.entries k x hx
    rw [← hv]
    have := F.wf.2.2.1 g (F.lt g hg) lv hlv
    exact this

/-- The values of a map that is a permutation of its keys are a rearrangement of the
keys. -/
theorem values_perm_keys (bn : BorderMap) (hs : (bn.map Prod.fst).Pairwise (· < ·))
    (htotal : ∀ k, k ∈ bn.map Prod.fst →
      ∃ x, BorderMap.find bn k = some x ∧ x ∈ bn.map Prod.fst)
    (hinj : ∀ k1 k2 x, BorderMap.find bn k1 = some x → BorderMap.find bn k2 = some x →
      k1 = k2) :
    (bn.map Prod.snd).Perm (bn.map Prod.fst) := by
  have hndk : (bn.map Prod.fst).Nodup := hs.imp (fun h => Nat.ne_of_lt h)
  have hnd : bn.Nodup := List.Nodup.of_map _ hndk
  have hfind : ∀ p, p ∈ bn → BorderMap.find bn p.1 = some p.2 :=
    fun p hp => find_of_mem bn p.1 p.2 hndk hp
  have hndv : (bn.map Prod.snd).Nodup := by
    apply List.Nodup.map_on _ hnd
    intro p hp q hq hpq
    have h1 := hfind p hp
    have h2 := hfind q hq
    rw [hpq] at h1
    exact Prod.ext (hinj p.1 q.1 q.2 h1 h2) hpq
  have hsub : bn.map Prod.snd ⊆ bn.map Prod.fst := by
    intro x hx
    obtain ⟨p, hp, hpx⟩ := List.mem_map.1 hx
    obtain ⟨y, hy, hyk⟩ := htotal p.1 (List.mem_map_of_mem Prod.fst hp)
    rw [hfind p hp] at hy
    injection hy with hy
    rw [← hpx, hy]
    exact hyk
  exact (List.subperm_of_subset hndv hsub).perm_of_length_le
    (by rw [List.length_map, List.length_map])

end RPD

namespace RPD

/-! ## Claims about `simplify` -/

/-- C1: rollback invariant of `simplify`, evaluated on the split square with both facets
labelled `-1` and a non-zero threshold: the call returns `false`, the facets are the
original ones, but both region labels are left at the synthetic label `0` instead of
`-1`: with no pre-existing label `max_r` is `index_t(-1)`, which no label exceeds. -/
theorem simplify_rollback_all_outer_labels :
    simplify split_square [NO_INDEX, NO_INDEX] 30 (fun _ _ => false) =
      .ok (false, split_square, [0, 0]) ∧
    max_region split_square [NO_INDEX, NO_INDEX] = NO_INDEX ∧
    ([0, 0] : List Nat) ≠ [NO_INDEX, NO_INDEX] := by
  decide

/-- C2 (as stated, refuted): on the pyramid with the sides `0 1 4` and `1 2 4` sharing
label 5, every group is merged (`0 2 4` replaces the two sides); with one more separate
triangle, whose border has no corner vertex, the call returns `false` and no group is
merged: all original facets are back. -/
theorem simplify_failure_not_local :
    simplify pyramid [10, 5, 5, 6, 7] 0 (fun _ _ => false) =
      .ok (true, { nb_vertices := 5, facets := [[0, 3, 2], [0, 2, 4], [2, 3, 4], [0, 4, 3]],
                   adjacent := List.replicate 4 (List.replicate 3 NO_INDEX) },
           [10, 5, 6, 7]) ∧
    simplify pyramid_and_triangle [10, 5, 5, 6, 7, 9] 0 (fun _ _ => false) =
      .ok (false, pyramid_and_triangle, [10, 5, 5, 6, 7, 9]) := by
  decide

/-- C2 (amended): a failed merge aborts the whole call.  Let `region1` be the labels
after step 1.  If the facet loop of `simplify` reaches a facet `f`, starts its region
group there, and the group trips a merge check (`merge_group` jumps to `rollback:`), then
the loop ends at once in the state before that group, no later facet is examined, and
`simplify` returns `false` with the facet list of the mesh equal to the original facet
list: every polygon created so far is deleted and no group is replaced by its merged
polygon.  Conversely `simplify` returns `false` only in this way.  A group trips a merge
check exactly when its flood fill finds a non-manifold border, its border walk finds a
singular border, the walk does not visit every border edge (multiple borders), or fewer
than three corners are collected. -/
theorem simplify_failure_is_global (mesh : Mesh) (L : List Nat) (thr : ℚ)
    (hard : Nat → Nat → Bool) (region1 : List Nat)
    (hstep1 : (if decide (thr = 0) = true then Except.ok L
      else split_regions_along_hard_edges mesh L hard) = .ok region1) :
    (∀ f st, f < mesh.facets.length →
      StartsGroup (decide (thr = 0)) (compute_is_corner mesh region1 (decide (thr = 0)))
        (loop_init mesh region1) f st →
      merge_group (compute_is_corner mesh region1 (decide (thr = 0))) st f =
        .error Abort.rollback →
      group_loop (decide (thr = 0)) (compute_is_corner mesh region1 (decide (thr = 0)))
        (List.range mesh.facets.length) (loop_init mesh region1) = .ok (false, st) ∧
      ∃ m2 L2, simplify mesh L thr hard = .ok (false, m2, L2) ∧
        m2.facets = mesh.facets) ∧
    (∀ m2 L2, simplify mesh L thr hard = .ok (false, m2, L2) →
      m2.facets = mesh.facets ∧
      ∃ f st, f < mesh.facets.length ∧
        StartsGroup (decide (thr = 0)) (compute_is_corner mesh region1 (decide (thr = 0)))
          (loop_init mesh region1) f st ∧
        merge_group (compute_is_corner mesh region1 (decide (thr = 0))) st f =
          .error Abort.rollback) ∧
    (∀ (st : SimplifyState) (f : Nat),
      merge_group (compute_is_corner mesh region1 (decide (thr = 0))) st f =
        .error Abort.rollback ↔
      (group_flood st.mesh st.facet_region (st.facet_region.getD f 0)
        (st.mesh.facets.length + 1) (flood_start st f) = .error Abort.rollback ∨
       ∃ fl first,
        group_flood st.mesh st.facet_region (st.facet_region.getD f 0)
          (st.mesh.facets.length + 1) (flood_start st f) = .ok fl ∧
        BorderMap.begin_first fl.border_next = .ok first ∧
        (border_walk st.mesh.nb_vertices
            (compute_is_corner mesh region1 (decide (thr = 0))) (st.mesh.nb_vertices + 1)
            { border_next := fl.border_next, v := first, nb_border_visited := 0,
              new_facet := [] } = .error Abort.rollback ∨
         ∃ w, border_walk st.mesh.nb_vertices
            (compute_is_corner mesh region1 (decide (thr = 0))) (st.mesh.nb_vertices + 1)
            { border_next := fl.border_next, v := first, nb_border_visited := 0,
              new_facet := [] } = .ok w ∧
          (w.nb_border_visited ≠ w.border_next.length ∨ w.new_facet.length < 3)))) := by
  have hfacets : ∀ st, group_loop (decide (thr = 0))
      (compute_is_corner mesh region1 (decide (thr = 0)))
      (List.range mesh.facets.length) (loop_init mesh region1) = .ok (false, st) →
      (simplify_finish (decide (thr = 0))
        (if decide (thr = 0) = true then 0 else max_region mesh L)
        mesh.facets.length false st).2.1.facets = mesh.facets := by
    intro st hloop
    have hext := group_loop_extends mesh region1 _ _ _ _ _ _ (extends_init mesh region1) hloop
    exact simplify_finish_rollback_facets mesh region1 (decide (thr = 0)) _ st hext
  refine ⟨?_, ?_, fun st f => merge_group_rollback_iff _ st f⟩
  · intro f st hf hsg htrip
    have hstep : group_step (decide (thr = 0))
        (compute_is_corner mesh region1 (decide (thr = 0))) st f = .error Abort.rollback := by
      unfold group_step
      rw [if_pos hsg.2.1, if_neg hsg.2.2]
      exact htrip
    have hloop := group_loop_stops _ _ _ st f mesh.facets.length hf hsg.1 hstep
    refine ⟨hloop, _, _, simplify_of_loop mesh L thr hard region1 false st hstep1 hloop, ?_⟩
    exact hfacets st hloop
  · intro m2 L2 h
    obtain ⟨region2, finished, st, hr, hloop, hres⟩ := simplify_ok_cases mesh L thr hard _ h
    have hreg : region2 = region1 := by
      rw [hstep1] at hr
      injection hr with hr
      exact hr.symm
    subst hreg
    have hfin : finished = false := by
      have := congrArg Prod.fst hres
      simp only [simplify_finish] at this
      exact this.symm
    subst hfin
    constructor
    · have := hfacets st hloop
      rw [← hres] at this
      exact this
    · obtain ⟨f, hf, hreach, hstep⟩ := group_loop_false_cases _ _ _ _ st hloop
      obtain ⟨h1, h2, h3⟩ := group_step_rollback _ _ st f hstep
      exact ⟨f, st, hf, ⟨hreach, h1, h2⟩, h3⟩

/-- Witness for `simplify_failure_is_global`: the pyramid with a separate triangle; the
four groups of the pyramid are merged, then the group of the triangle has no corner
vertex, and the call returns `false` with the six original facets. -/
theorem simplify_failure_is_global_witness :
    simplify pyramid_and_triangle [10, 5, 5, 6, 7, 9] 0 (fun _ _ => false) =
      .ok (false, pyramid_and_triangle, [10, 5, 5, 6, 7, 9]) ∧
    group_loop (decide ((0 : ℚ) = 0))
        (compute_is_corner pyramid_and_triangle [10, 5, 5, 6, 7, 9] (decide ((0 : ℚ) = 0)))
        (List.range pyramid_and_triangle.facets.length)
        (loop_init pyramid_and_triangle [10, 5, 5, 6, 7, 9]) = .ok (false, pyramid_merged) ∧
    ∃ m2 L2, simplify pyramid_and_triangle [10, 5, 5, 6, 7, 9] 0 (fun _ _ => false) =
        .ok (false, m2, L2) ∧
      m2.facets = pyramid_and_triangle.facets :=
  ⟨by decide,
   (simplify_failure_is_global pyramid_and_triangle [10, 5, 5, 6, 7, 9] 0 (fun _ _ => false)
      [10, 5, 5, 6, 7, 9] (by decide)).1 5 pyramid_merged (by decide)
      ⟨by decide, by decide, by decide⟩ (by decide)⟩

/-- When every region group that the facet loop starts has a border forming one simple
cycle with at least three corner vertices, the loop runs to its end from any of its
prefixes. -/
theorem group_loop_all_cycles (mesh : Mesh) (region1 : List Nat) (keep : Bool)
    (ic : List Bool) (cyc : Nat → List Nat)
    (hgroups : ∀ f st, f < mesh.facets.length →
      StartsGroup keep ic (loop_init mesh region1) f st →
      ∃ fl, group_flood st.mesh st.facet_region (st.facet_region.getD f 0)
          (st.mesh.facets.length + 1) (flood_start st f) = .ok fl ∧
        IsBorderCycle fl.border_next (cyc f) ∧ (∀ v ∈ cyc f, v < mesh.nb_vertices) ∧
        3 ≤ ((cyc f).filter (fun v => ic.getD v false)).length) :
    ∀ n, n ≤ mesh.facets.length →
      ∃ st, group_loop keep ic (List.range n) (loop_init mesh region1) = .ok (true, st) := by
  intro n
  induction n with
  | zero => intro _; exact ⟨_, rfl⟩
  | succ n ih =>
    intro hn
    obtain ⟨st, hst⟩ := ih (by omega)
    have hext := group_loop_extends mesh region1 keep ic _ _ _ _ (extends_init mesh region1) hst
    rw [List.range_succ, group_loop_append keep ic _ _ _ _ hst]
    by_cases h1 : st.facet_status.getD n 0 = NO_INDEX
    · by_cases h2 : keep = true ∧ st.facet_region.getD n 0 = NO_INDEX
      · refine ⟨{ st with facet_status := st.facet_status.set n 0 }, ?_⟩
        rw [group_loop_single]
        unfold group_step
        rw [if_pos h1, if_pos h2]
      · obtain ⟨fl, hfl, hc, hv, h3⟩ := hgroups n st (by omega) ⟨hst, h1, h2⟩
        obtain ⟨_, _, _, _, _, hnv, _⟩ := hext
        have hm := merge_group_cycle ic st n fl (cyc n) hfl hc (by rw [hnv]; exact hv) h3
        have hstep : group_step keep ic st n = merge_group ic st n := by
          unfold group_step
          rw [if_pos h1, if_neg h2]
        rw [hm] at hstep
        exact ⟨_, (group_loop_single keep ic n st _).2 hstep⟩
    · refine ⟨st, ?_⟩
      rw [group_loop_single]
      unfold group_step
      rw [if_neg h1]

/-- Merge round trip, given the labels `region1` produced by step 1. -/
theorem merge_roundtrip_of_step1 (mesh : Mesh) (L : List Nat) (thr : ℚ)
    (hard : Nat → Nat → Bool) (region1 : List Nat) (cyc : Nat → List Nat)
    (hlen : L.length = mesh.facets.length)
    (hstep1 : (if decide (thr = 0) = true then Except.ok L
      else split_regions_along_hard_edges mesh L hard) = .ok region1)
    (hgroups : ∀ f st, f < mesh.facets.length →
      StartsGroup (decide (thr = 0)) (compute_is_corner mesh region1 (decide (thr = 0)))
        (loop_init mesh region1) f st →
      ∃ fl, group_flood st.mesh st.facet_region (st.facet_region.getD f 0)
          (st.mesh.facets.length + 1) (flood_start st f) = .ok fl ∧
        IsBorderCycle fl.border_next (cyc f) ∧ (∀ v ∈ cyc f, v < mesh.nb_vertices) ∧
        3 ≤ ((cyc f).filter (fun v =>
          (compute_is_corner mesh region1 (decide (thr = 0))).getD v false)).length) :
    ∃ m' L' survivors news, simplify mesh L thr hard = .ok (true, m', L') ∧
      m'.facets = survivors ++ news ∧ survivors.Sublist mesh.facets ∧
      ∀ f st, f < mesh.facets.length →
        StartsGroup (decide (thr = 0)) (compute_is_corner mesh region1 (decide (thr = 0)))
          (loop_init mesh region1) f st →
        news.get? (st.mesh.facets.length - mesh.facets.length) =
          some ((cyc f).filter (fun v =>
            (compute_is_corner mesh region1 (decide (thr = 0))).getD v false)) := by
  have hlen1 : region1.length = mesh.facets.length := by
    by_cases hk : decide (thr = 0) = true
    · rw [if_pos hk] at hstep1
      simp only [Except.ok.injEq] at hstep1
      rw [← hstep1, hlen]
    · rw [if_neg hk] at hstep1
      rw [split_regions_length mesh L hard region1 hstep1, hlen]
  obtain ⟨stf, hstf⟩ := group_loop_all_cycles mesh region1 _ _ cyc hgroups
    mesh.facets.length (le_refl _)
  have hextf := group_loop_extends mesh region1 _ _ _ _ _ _ (extends_init mesh region1) hstf
  obtain ⟨news, nl, h1, h2, _, _, h5⟩ := hextf
  obtain ⟨hb, hf, _⟩ := simplify_finish_true mesh region1 (decide (thr = 0))
    (if decide (thr = 0) = true then 0 else max_region mesh L) stf news nl hlen1 h1 h2 h5
  refine ⟨(simplify_finish (decide (thr = 0))
      (if decide (thr = 0) = true then 0 else max_region mesh L)
      mesh.facets.length true stf).2.1,
    (simplify_finish (decide (thr = 0))
      (if decide (thr = 0) = true then 0 else max_region mesh L)
      mesh.facets.length true stf).2.2,
    keep_unflagged mesh.facets stf.facet_status, news, ?_, hf,
    keep_unflagged_sublist _ _, ?_⟩
  · have hs : simplify mesh L thr hard = .ok (simplify_finish (decide (thr = 0))
        (if decide (thr = 0) = true then 0 else max_region mesh L)
        mesh.facets.length true stf) := by
      unfold simplify
      simp only [hstep1, hstf]
    rw [hs]
    congr 1
  · intro f st hfn hsg
    obtain ⟨fl, hfl, hc, hv, h3⟩ := hgroups f st hfn hsg
    obtain ⟨hst, hs1, hs2⟩ := hsg
    have hext := group_loop_extends mesh region1 _ _ _ _ _ _ (extends_init mesh region1) hst
    obtain ⟨news0, nl0, g1, _, _, gnv, _⟩ := hext
    have hmerge := merge_group_cycle _ st f fl (cyc f) hfl hc (by rw [gnv]; exact hv) h3
    have hstep : group_step (decide (thr = 0))
        (compute_is_corner mesh region1 (decide (thr = 0))) st f =
        merge_group (compute_is_corner mesh region1 (decide (thr = 0))) st f := by
      unfold group_step
      rw [if_pos hs1, if_neg hs2]
    rw [hmerge] at hstep
    have hnext := (group_loop_single _ _ f st _).2 hstep
    rw [← group_loop_append _ _ (List.range f) [f] _ _ hst, ← List.range_succ] at hnext
    have hpre := group_loop_range_mono _ _ _ (f + 1) _ hnext mesh.facets.length (by omega)
      stf hstf
    simp only [Mesh.create_polygon] at hpre
    rw [g1, h1, List.append_assoc, List.prefix_append_right_inj] at hpre
    obtain ⟨t, ht⟩ := hpre
    rw [g1, List.length_append, Nat.add_sub_cancel_left, ← ht, List.get?_eq_getElem?,
      List.append_assoc, List.getElem?_append_right (le_refl _)]
    simp

/-- C3: merge round trip.  Assume one label per facet, labels that fit when the
threshold is not zero (no wrap in the label arithmetic of step 1), and that every
region group the facet loop starts (at facet `f`, in loop state `st`, with the labels
`region1` left by step 1) has recorded border edges forming exactly one simple cycle
`cyc f` of mesh vertices with at least three corner-flagged vertices.  Then step 1
terminates, `simplify` returns `true`, the resulting facets are surviving original
facets followed by the new facets, and the new facet of each group, at the position of
its creation, is exactly the list of corner-flagged vertices of the group's cycle in walk
order from the lowest border vertex. -/
theorem simplify_merge_roundtrip (mesh : Mesh) (L : List Nat) (thr : ℚ)
    (hard : Nat → Nat → Bool) (cyc : Nat → List Nat)
    (hlen : L.length = mesh.facets.length) (hfit : thr ≠ 0 → LabelsFit mesh L)
    (hgroups : ∀ region1 f st,
      (if decide (thr = 0) = true then Except.ok L
        else split_regions_along_hard_edges mesh L hard) = .ok region1 →
      f < mesh.facets.length →
      StartsGroup (decide (thr = 0)) (compute_is_corner mesh region1 (decide (thr = 0)))
        (loop_init mesh region1) f st →
      ∃ fl, group_flood st.mesh st.facet_region (st.facet_region.getD f 0)
          (st.mesh.facets.length + 1) (flood_start st f) = .ok fl ∧
        IsBorderCycle fl.border_next (cyc f) ∧ (∀ v ∈ cyc f, v < mesh.nb_vertices) ∧
        3 ≤ ((cyc f).filter (fun v =>
          (compute_is_corner mesh region1 (decide (thr = 0))).getD v false)).length) :
    ∃ region1 m' L' survivors news,
      (if decide (thr = 0) = true then Except.ok L
        else split_regions_along_hard_edges mesh L hard) = .ok region1 ∧
      simplify mesh L thr hard = .ok (true, m', L') ∧
      m'.facets = survivors ++ news ∧ survivors.Sublist mesh.facets ∧
      ∀ f st, f < mesh.facets.length →
        StartsGroup (decide (thr = 0)) (compute_is_corner mesh region1 (decide (thr = 0)))
          (loop_init mesh region1) f st →
        news.get? (st.mesh.facets.length - mesh.facets.length) =
          some ((cyc f).filter (fun v =>
            (compute_is_corner mesh region1 (decide (thr = 0))).getD v false)) := by
  have hstep1 : ∃ region1, (if decide (thr = 0) = true then Except.ok L
      else split_regions_along_hard_edges mesh L hard) = .ok region1 := by
    by_cases hk : decide (thr = 0) = true
    · exact ⟨L, by rw [if_pos hk]⟩
    · rw [if_neg hk]
      exact split_regions_total mesh L hard hlen (hfit (fun h0 => hk (decide_eq_true h0)))
  obtain ⟨region1, hr⟩ := hstep1
  obtain ⟨m', L', survivors, news, h1, h2, h3, h4⟩ :=
    merge_roundtrip_of_step1 mesh L thr hard region1 cyc hlen hr
      (fun f st hf hsg => hgroups region1 f st hr hf hsg)
  exact ⟨region1, m', L', survivors, news, hr, h1, h2, h3, h4⟩

/-- Witness for `simplify_merge_roundtrip`: the pyramid with labels `10 5 5 6 7` in
keep-outer mode; its four groups have the border cycles `pyramid_cycles`. -/
theorem simplify_merge_roundtrip_witness :
    ∃ region1 m' L' survivors news,
      (if decide ((0 : ℚ) = 0) = true then Except.ok [10, 5, 5, 6, 7]
        else split_regions_along_hard_edges pyramid [10, 5, 5, 6, 7] (fun _ _ => false)) =
        .ok region1 ∧
      simplify pyramid [10, 5, 5, 6, 7] 0 (fun _ _ => false) = .ok (true, m', L') ∧
      m'.facets = survivors ++ news ∧ survivors.Sublist pyramid.facets ∧
      ∀ f st, f < pyramid.facets.length →
        StartsGroup (decide ((0 : ℚ) = 0))
          (compute_is_corner pyramid region1 (decide ((0 : ℚ) = 0)))
          (loop_init pyramid region1) f st →
        news.get? (st.mesh.facets.length - pyramid.facets.length) =
          some ((pyramid_cycles f).filter (fun v =>
            (compute_is_corner pyramid region1 (decide ((0 : ℚ) = 0))).getD v false)) :=
  simplify_merge_roundtrip pyramid [10, 5, 5, 6, 7] 0 (fun _ _ => false)
    pyramid_cycles (by decide) (fun _ => by decide) (by
      intro region1 f st hr hf hsg
      have hreg : region1 = [10, 5, 5, 6, 7] := by
        have hd : decide ((0 : ℚ) = 0) = true := by decide
        rw [if_pos hd] at hr
        simp only [Except.ok.injEq] at hr
        exact hr.symm
      subst hreg
      have hst := starts_group_state _ _ _ _ _ hsg
      obtain ⟨_, h1, _⟩ := hsg
      subst hst
      have hf' : f < 5 := hf
      interval_cases f
      · exact ⟨{ facet_status := [1, NO_INDEX, NO_INDEX, NO_INDEX, NO_INDEX], S := [],
                 border_next := [(0, 3), (1, 0), (2, 1), (3, 2)] },
          by decide, by decide, by decide, by decide⟩
      · exact ⟨{ facet_status := [1, 1, 1, NO_INDEX, NO_INDEX], S := [],
                 border_next := [(0, 1), (1, 2), (2, 4), (4, 0)] },
          by decide, by decide, by decide, by decide⟩
      · exact absurd h1 (by decide)
      · exact ⟨{ facet_status := [1, 1, 1, 1, NO_INDEX], S := [],
                 border_next := [(2, 3), (3, 4), (4, 2)] },
          by decide, by decide, by decide, by decide⟩
      · exact ⟨{ facet_status := [1, 1, 1, 1, 1], S := [],
                 border_next := [(0, 4), (3, 0), (4, 3)] },
          by decide, by decide, by decide, by decide⟩)

/-- C4: synthetic labels are restored, evaluated on the tetrahedron with all four
facets labelled `-1`, every edge a crease and a non-zero threshold: the call returns
`true` and the four facets carry the synthetic labels `0, 1, 2, 3`, none is `-1` again:
`max_r` is `index_t(-1)` and `facet_region[f] > max_r` never holds. -/
theorem simplify_keeps_synthetic_labels :
    simplify tetrahedron [NO_INDEX, NO_INDEX, NO_INDEX, NO_INDEX] 30 (fun _ _ => true) =
      .ok (true, { nb_vertices := 4, facets := [[1, 2, 3], [0, 3, 2], [0, 1, 3], [0, 2, 1]],
                   adjacent := List.replicate 4 (List.replicate 3 NO_INDEX) },
           [0, 1, 2, 3]) ∧
    max_region tetrahedron [NO_INDEX, NO_INDEX, NO_INDEX, NO_INDEX] = NO_INDEX := by
  decide

/-- C5 (as stated, refuted): on the pyramid with every edge a crease and a non-zero
threshold, the sides `0 1 4` (facet 1) and `1 2 4` (facet 2) share the pre-existing
label 5 and are adjacent across the crease corner 1 of facet 1; the facet loop starts a
group at facet 1 (after the base was merged into `0 3 2`), its flood fill consumes
facets 1 and 2, and they are replaced by the one polygon `0 2 4`.  Facets originally
labelled `-1` can be merged across a crease as well: on the split tetrahedron with the
one hard edge between facets 0 and 1, step 1 gives facets 0, 1 and 2 the same label 8
(facet 2 links the other two), the flood fill from facet 0 consumes all three, and they
are replaced by the one polygon `1 2 3`. -/
theorem simplify_merges_across_crease :
    is_crease pyramid (fun _ _ => true) 1 1 = true ∧ pyramid.adjacent_facet 1 1 = 2 ∧
    StartsGroup false (compute_is_corner pyramid [10, 5, 5, 6, 7] false)
      (loop_init pyramid [10, 5, 5, 6, 7]) 1
      { mesh := pyramid.create_polygon [0, 3, 2], facet_region := [10, 5, 5, 6, 7, 10],
        facet_status := [1, NO_INDEX, NO_INDEX, NO_INDEX, NO_INDEX] } ∧
    group_flood (pyramid.create_polygon [0, 3, 2]) [10, 5, 5, 6, 7, 10] 5 7
      { facet_status := [1, 1, NO_INDEX, NO_INDEX, NO_INDEX], S := [1], border_next := [] } =
      .ok { facet_status := [1, 1, 1, NO_INDEX, NO_INDEX], S := [],
            border_next := [(0, 1), (1, 2), (2, 4), (4, 0)] } ∧
    simplify pyramid [10, 5, 5, 6, 7] 30 (fun _ _ => true) =
      .ok (true, { nb_vertices := 5, facets := [[0, 3, 2], [0, 2, 4], [2, 3, 4], [0, 4, 3]],
                   adjacent := List.replicate 4 (List.replicate 3 NO_INDEX) },
           [10, 5, 6, 7]) ∧
    is_crease split_tetrahedron hard_edge_0_1 0 2 = true ∧
    split_tetrahedron.adjacent_facet 0 2 = 1 ∧
    split_regions_along_hard_edges split_tetrahedron [NO_INDEX, NO_INDEX, NO_INDEX, 5, 6, 7]
      hard_edge_0_1 = .ok [8, 8, 8, 5, 6, 7] ∧
    group_flood split_tetrahedron [8, 8, 8, 5, 6, 7] 8 7
      { facet_status := [1, NO_INDEX, NO_INDEX, NO_INDEX, NO_INDEX, NO_INDEX], S := [0],
        border_next := [] } =
      .ok { facet_status := [1, 1, 1, NO_INDEX, NO_INDEX, NO_INDEX], S := [],
            border_next := [(1, 2), (2, 3), (3, 1)] } ∧
    simplify split_tetrahedron [NO_INDEX, NO_INDEX, NO_INDEX, 5, 6, 7] 30 hard_edge_0_1 =
      .ok (true, { nb_vertices := 5, facets := [[1, 2, 3], [0, 2, 1], [0, 3, 2], [0, 1, 3]],
                   adjacent := List.replicate 4 (List.replicate 3 NO_INDEX) },
           [NO_INDEX, 5, 6, 7]) := by
  exact ⟨by decide, by decide, ⟨by decide, by decide, by decide⟩, by decide, by decide,
    by decide, by decide, by decide, by decide, by decide⟩

/-- C5 (amended): creases bound the synthetic regions of step 1 only.  In `simplify`
with a non-zero threshold and labels that fit, let `region1` be the labels after step 1.
If the region group started at facet `f` consumes the facets `g1` and `g2` (their status
goes from not visited to 1 in the flood fill) and both were labelled `-1` before the
call, then `g1` and `g2` are linked by a chain of facets originally labelled `-1` in
which consecutive facets are adjacent across a corner not marked as crease. -/
theorem simplify_groups_follow_non_crease (mesh : Mesh) (L : List Nat)
    (hard : Nat → Nat → Bool) (region1 : List Nat) (ic : List Bool) (f : Nat)
    (st : SimplifyState) (fl : FloodState) (g1 g2 : Nat)
    (hlen : L.length = mesh.facets.length) (hfit : LabelsFit mesh L)
    (hs : split_regions_along_hard_edges mesh L hard = .ok region1)
    (hsg : StartsGroup false ic (loop_init mesh region1) f st)
    (hfl : group_flood st.mesh st.facet_region (st.facet_region.getD f 0)
      (st.mesh.facets.length + 1) (flood_start st f) = .ok fl)
    (hg1 : st.facet_status.getD g1 0 = NO_INDEX ∧ fl.facet_status.getD g1 0 = 1)
    (hg2 : st.facet_status.getD g2 0 = NO_INDEX ∧ fl.facet_status.getD g2 0 = 1)
    (hu1 : L.getD g1 0 = NO_INDEX) (hu2 : L.getD g2 0 = NO_INDEX) :
    NonCreaseLinked mesh hard L g1 g2 := by
  have hlen1 : region1.length = mesh.facets.length := by
    rw [split_regions_length mesh L hard region1 hs, hlen]
  obtain ⟨hlt1, hr1⟩ := group_consumed_label mesh region1 false ic f st fl hlen1 hsg hfl
    g1 hg1.1 hg1.2
  obtain ⟨_, hr2⟩ := group_consumed_label mesh region1 false ic f st fl hlen1 hsg hfl
    g2 hg2.1 hg2.2
  obtain ⟨hlinked, _, hlab⟩ := split_regions_post mesh L hard region1 hfit hs
  exact hlinked g1 g2 hu1 hu2 (hr1.trans hr2.symm) (hlab g1 hlt1)

/-- Witness for `simplify_groups_follow_non_crease`: the split square with both facets
unlabelled and no crease; the group started at facet 0 consumes facets 0 and 1. -/
theorem simplify_groups_follow_non_crease_witness :
    NonCreaseLinked split_square (fun _ _ => false) [NO_INDEX, NO_INDEX] 0 1 :=
  simplify_groups_follow_non_crease split_square [NO_INDEX, NO_INDEX] (fun _ _ => false)
    [0, 0] (compute_is_corner split_square [0, 0] false) 0 (loop_init split_square [0, 0])
    { facet_status := [1, 1], S := [],
      border_next := [(0, 1), (1, 2), (2, 3), (3, 0)] } 0 1
    (by decide) (by decide) (by decide) ⟨by decide, by decide, by decide⟩ (by decide)
    ⟨by decide, by decide⟩ ⟨by decide, by decide⟩ (by decide) (by decide)

/-- C6: keep-outer mode (`angle_threshold == 0`) leaves the outer region untouched:
whatever `simplify` returns, the facets labelled `-1` after the call are, in order, the
facets labelled `-1` before the call, with the same vertex loops; in particular no new
facet labelled `-1` appears. -/
theorem simplify_keeps_outer_region (mesh : Mesh) (L : List Nat) (hard : Nat → Nat → Bool)
    (b : Bool) (m' : Mesh) (L' : List Nat) (hlen : L.length = mesh.facets.length)
    (h : simplify mesh L 0 hard = .ok (b, m', L')) :
    outer_facets m'.facets L' = outer_facets mesh.facets L := by
  obtain ⟨region1, finished, st, hr, hloop, hres⟩ := simplify_ok_cases mesh L 0 hard _ h
  have hd : decide ((0 : ℚ) = 0) = true := by decide
  rw [hd] at hloop hres hr
  simp only [if_true, Except.ok.injEq] at hr hres
  subst hr
  obtain ⟨hK, hstat⟩ := group_loop_keep mesh L _ _ _ _ _ (keepInv_init mesh L) hloop
  obtain ⟨news, nl, h1, h2, h3, h5, h6, h7⟩ := hK
  have hm : m' = (simplify_finish true 0 mesh.facets.length finished st).2.1 := by
    rw [← hres]
  have hl : L' = (simplify_finish true 0 mesh.facets.length finished st).2.2 := by
    rw [← hres]
  cases finished with
  | false =>
    have hext : Extends mesh L st := ⟨news, nl, h1, h2, h3, by
      have := group_loop_extends mesh L _ _ _ _ _ _ (extends_init mesh L) hloop
      obtain ⟨_, _, _, _, _, h4, _⟩ := this
      exact h4, h5⟩
    rw [hm, hl, simplify_finish_rollback_facets mesh L true 0 st hext,
      simplify_finish_rollback_labels mesh L true 0 st hlen hext]
    simp
  | true =>
    obtain ⟨_, hf, hlab⟩ := simplify_finish_true mesh L true 0 st news nl hlen h1 h2 h5
    rw [hm, hl, hf, hlab]
    simp only [if_true]
    rw [outer_facets_append _ _ _ _
      (keep_unflagged_length_eq _ _ _ hlen.symm) h6]
    apply outer_keep_unflagged
    intro g hg hgo
    have h0 := hstat rfl g hgo (Or.inl (by simpa [← hlen] using hg))
    have hgl : g < st.facet_status.length := by rw [h5, ← hlen]; exact hg
    simp only [List.getD_eq_getElem?_getD, List.getElem?_eq_getElem hgl,
      Option.getD_some] at h0 ⊢
    exact h0

/-- Witness for `simplify_keeps_outer_region`: the pyramid with its base in the outer
region. -/
theorem simplify_keeps_outer_region_witness :
    ([NO_INDEX, 5, 5, 6, 7] : List Nat).length = pyramid.facets.length ∧
    simplify pyramid [NO_INDEX, 5, 5, 6, 7] 0 (fun _ _ => false) =
      .ok (true, { nb_vertices := 5,
                   facets := [[0, 3, 2, 1], [0, 1, 2, 4], [2, 3, 4], [0, 4, 3]],
                   adjacent := [[4, 3, 2, 1], List.replicate 4 NO_INDEX,
                                List.replicate 3 NO_INDEX, List.replicate 3 NO_INDEX] },
           [NO_INDEX, 5, 6, 7]) ∧
    outer_facets [[0, 3, 2, 1], [0, 1, 2, 4], [2, 3, 4], [0, 4, 3]] [NO_INDEX, 5, 6, 7] =
      outer_facets pyramid.facets [NO_INDEX, 5, 5, 6, 7] :=
  ⟨by decide, by decide,
   simplify_keeps_outer_region pyramid [NO_INDEX, 5, 5, 6, 7] (fun _ _ => false) true
     { nb_vertices := 5, facets := [[0, 3, 2, 1], [0, 1, 2, 4], [2, 3, 4], [0, 4, 3]],
       adjacent := [[4, 3, 2, 1], List.replicate 4 NO_INDEX,
                    List.replicate 3 NO_INDEX, List.replicate 3 NO_INDEX] }
     [NO_INDEX, 5, 6, 7] (by decide) (by decide)⟩

/-- C7: a group without any border edge, evaluated on the closed tetrahedron whose four
facets share label 0 (keep-outer mode): the flood fill records no border edge and the
code reads `border_next.begin()->first` of the empty map; the call neither rolls back
nor returns `false`. -/
theorem simplify_closed_group_empty_border :
    simplify tetrahedron [0, 0, 0, 0] 0 (fun _ _ => false) = .error Abort.empty_border ∧
    group_flood tetrahedron [0, 0, 0, 0] 0 5
      { facet_status := [1, NO_INDEX, NO_INDEX, NO_INDEX], S := [0], border_next := [] } =
      .ok { facet_status := [1, 1, 1, 1], S := [], border_next := [] } := by
  decide

end RPD

namespace RPD

/-! ## Claims about `triangulate_polygon` -/

/-- C10: optimality of the dynamic program.  For a polygon with `n >= 4` vertices,
tables that fit the index type (`n * n` at most `index_t(-1)`) and exact triangle costs
(angle values at most the sentinel), `triangulate_polygon` runs to
its end; there is a triangulation `T` of the vertex chain `0..n-1` such that
`table[n-1]` is the cost of `T`, no triangulation of the chain is cheaper, the returned
triangles are exactly the triangles of `T`, and the returned boolean is `true` exactly
when the cost of `T` is below 1024. -/
theorem triangulate_polygon_optimal {K : Type} [LinearOrderedCommRing K]
    (compl : K → K → K) (pts : List (vec2 K)) (hcompl : ∀ y x, compl y x ≤ 1024)
    (h4 : 4 ≤ pts.length) (hn : pts.length * pts.length ≤ NO_INDEX) :
    ∃ tb triangles T,
      dp_tables (fun i k j => triangle_cost compl pts i k j) pts.length = .ok tb ∧
      triangulate_polygon compl pts =
        .ok (decide (tcost (fun i k j => triangle_cost compl pts i k j) 0 (pts.length - 1) T
          < 1024), triangles) ∧
      IsTriang 0 (pts.length - 1) T ∧
      tb.1[pts.length - 1]? =
        some (tcost (fun i k j => triangle_cost compl pts i k j) 0 (pts.length - 1) T) ∧
      (∀ T', IsTriang 0 (pts.length - 1) T' →
        tcost (fun i k j => triangle_cost compl pts i k j) 0 (pts.length - 1) T ≤
          tcost (fun i k j => triangle_cost compl pts i k j) 0 (pts.length - 1) T') ∧
      (triples triangles).Perm (triangles_of 0 (pts.length - 1) T) := by
  have hc : ∀ a k b, triangle_cost compl pts a k b ≤ 1024 := by
    intro a k b
    rcases triangle_cost_le compl pts a k b 1024 hcompl (by norm_num) with h1 | h1
    · exact le_of_eq h1
    · exact h1
  exact triangulate_cost_spec (fun a k b => triangle_cost compl pts a k b) hc pts.length h4
    (le_trans (Nat.le_mul_self _) hn)

/-- Witness for `triangulate_polygon_optimal`: the counter-clockwise unit square. -/
theorem triangulate_polygon_optimal_witness :
    ∃ tb triangles T,
      dp_tables (fun i k j => triangle_cost (fun _ _ => (2 : Int)) ccw_square i k j)
        ccw_square.length = .ok tb ∧
      triangulate_polygon (fun _ _ => (2 : Int)) ccw_square =
        .ok (decide (tcost (fun i k j => triangle_cost (fun _ _ => (2 : Int)) ccw_square i k j)
          0 (ccw_square.length - 1) T < 1024), triangles) ∧
      IsTriang 0 (ccw_square.length - 1) T ∧
      tb.1[ccw_square.length - 1]? =
        some (tcost (fun i k j => triangle_cost (fun _ _ => (2 : Int)) ccw_square i k j)
          0 (ccw_square.length - 1) T) ∧
      (∀ T', IsTriang 0 (ccw_square.length - 1) T' →
        tcost (fun i k j => triangle_cost (fun _ _ => (2 : Int)) ccw_square i k j)
            0 (ccw_square.length - 1) T ≤
          tcost (fun i k j => triangle_cost (fun _ _ => (2 : Int)) ccw_square i k j)
            0 (ccw_square.length - 1) T') ∧
      (triples triangles).Perm (triangles_of 0 (ccw_square.length - 1) T) :=
  triangulate_polygon_optimal (fun _ _ => (2 : Int)) ccw_square
    (fun _ _ => show (2 : Int) ≤ 1024 by decide) (by decide) (by decide)

end RPD

namespace RPD

/-! ## Claims about `tessellate_non_convex_facets` and the scenarios of the re-triangulator -/

section QuadLemmas

variable {K : Type} [LinearOrderedCommRing K]

/-- A quadrilateral whose triangles `(0,1,2)` and `(0,2,3)` turn left while one of
`(1,2,3)`, `(0,1,3)` turns right is split along the diagonal `0 2`. -/
theorem triangulate_quad_even (compl : K → K → K) (pts : List (vec2 K)) (B : K)
    (hB : ∀ y x, compl y x ≤ B) (h0 : 0 ≤ B) (hbound : B * 2 < 1024) (h4 : pts.length = 4)
    (t1 : 0 < det ((pts.getD 1 vec2.zero).sub (pts.getD 0 vec2.zero))
      ((pts.getD 2 vec2.zero).sub (pts.getD 0 vec2.zero)))
    (t3 : 0 < det ((pts.getD 2 vec2.zero).sub (pts.getD 0 vec2.zero))
      ((pts.getD 3 vec2.zero).sub (pts.getD 0 vec2.zero)))
    (hneg : det ((pts.getD 2 vec2.zero).sub (pts.getD 1 vec2.zero))
        ((pts.getD 3 vec2.zero).sub (pts.getD 1 vec2.zero)) < 0 ∨
      det ((pts.getD 1 vec2.zero).sub (pts.getD 0 vec2.zero))
        ((pts.getD 3 vec2.zero).sub (pts.getD 0 vec2.zero)) < 0) :
    ∃ ts, triangulate_polygon compl pts = .ok (true, flat_triples ts) ∧
      ts.Perm [(0, 1, 2), (0, 2, 3)] ∧
      inside (corner3 pts 0 1 2) (pts.getD 3 vec2.zero) = false ∧
      inside (corner3 pts 0 2 3) (pts.getD 1 vec2.zero) = false := by
  have hin1 : inside (corner3 pts 0 1 2) (pts.getD 3 vec2.zero) = false := by
    rw [inside_eq]
    have e2 : corner3 pts 0 1 2 2 = pts.getD 2 vec2.zero := rfl
    have e3 : corner3 pts 0 1 2 3 = pts.getD 0 vec2.zero := rfl
    have hn : ¬ 0 < det ((pts.getD 0 vec2.zero).sub (pts.getD 2 vec2.zero))
        ((pts.getD 3 vec2.zero).sub (pts.getD 2 vec2.zero)) := by
      have e : det ((pts.getD 0 vec2.zero).sub (pts.getD 2 vec2.zero))
          ((pts.getD 3 vec2.zero).sub (pts.getD 2 vec2.zero)) =
          - det ((pts.getD 2 vec2.zero).sub (pts.getD 0 vec2.zero))
            ((pts.getD 3 vec2.zero).sub (pts.getD 0 vec2.zero)) := by
        simp only [det, vec2.sub]
        ring
      rw [e]
      linarith
    rw [e2, e3, decide_eq_false hn, Bool.and_false, Bool.and_false]
  have hin2 : inside (corner3 pts 0 2 3) (pts.getD 1 vec2.zero) = false := by
    rw [inside_eq]
    have e0 : corner3 pts 0 2 3 0 = pts.getD 0 vec2.zero := rfl
    have e1 : corner3 pts 0 2 3 1 = pts.getD 2 vec2.zero := rfl
    have hn : ¬ 0 < det ((pts.getD 2 vec2.zero).sub (pts.getD 0 vec2.zero))
        ((pts.getD 1 vec2.zero).sub (pts.getD 0 vec2.zero)) := by
      rw [det_flip]
      linarith
    rw [e0, e1, decide_eq_false hn, Bool.false_and]
  have c012 : triangle_cost compl pts 0 1 2 ≤ B :=
    triangle_cost_admissible compl pts 0 1 2 B hB h0 t1 (by
      intro o ho h1 h2 h3
      have : o = 3 := by omega
      subst this
      exact hin1)
  have c023 : triangle_cost compl pts 0 2 3 ≤ B :=
    triangle_cost_admissible compl pts 0 2 3 B hB h0 t3 (by
      intro o ho h1 h2 h3
      have : o = 1 := by omega
      subst this
      exact hin2)
  have hbad : 1024 ≤ triangle_cost compl pts 1 2 3 + triangle_cost compl pts 0 1 3 := by
    rcases hneg with h | h
    · have := triangle_cost_of_neg compl pts 1 2 3 h
      have := triangle_cost_nonneg compl pts 0 1 3
      linarith
    · have := triangle_cost_of_neg compl pts 0 1 3 h
      have := triangle_cost_nonneg compl pts 1 2 3
      linarith
  have hB1024 : B ≤ 1024 := by linarith
  have hc : ∀ a k b, triangle_cost compl pts a k b ≤ 1024 := by
    intro a k b
    rcases triangle_cost_le compl pts a k b B hB h0 with h1 | h1
    · exact le_of_eq h1
    · exact le_trans h1 hB1024
  obtain ⟨b, ts, T, hrun, hT, hperm, hb, hopt⟩ :=
    triangulate_cost_flat (fun a k b => triangle_cost compl pts a k b) hc 4 (by omega)
      (by decide)
  have hT2 : IsTriang 0 3 (.node 2 (.node 1 .leaf .leaf) .leaf) := by simp [IsTriang]
  have hle := hopt _ hT2
  rcases isTriang_quad T hT with rfl | rfl
  · simp only [tcost] at hle
    linarith
  · refine ⟨ts, ?_, ?_, hin1, hin2⟩
    · unfold triangulate_polygon
      rw [h4, hrun, hb]
      have : tcost (fun a k b => triangle_cost compl pts a k b) 0 (4 - 1)
          (.node 2 (.node 1 .leaf .leaf) .leaf) < 1024 := by
        simp only [tcost]
        linarith
      rw [decide_eq_true this]
    · refine hperm.trans ?_
      simp only [triangles_of, List.append_nil, List.nil_append]
      exact List.Perm.swap _ _ _

/-- A quadrilateral whose triangles `(0,1,3)` and `(1,2,3)` turn left while one of
`(0,1,2)`, `(0,2,3)` turns right is split along the diagonal `1 3`. -/
theorem triangulate_quad_odd (compl : K → K → K) (pts : List (vec2 K)) (B : K)
    (hB : ∀ y x, compl y x ≤ B) (h0 : 0 ≤ B) (hbound : B * 2 < 1024) (h4 : pts.length = 4)
    (t0 : 0 < det ((pts.getD 1 vec2.zero).sub (pts.getD 0 vec2.zero))
      ((pts.getD 3 vec2.zero).sub (pts.getD 0 vec2.zero)))
    (t2 : 0 < det ((pts.getD 2 vec2.zero).sub (pts.getD 1 vec2.zero))
      ((pts.getD 3 vec2.zero).sub (pts.getD 1 vec2.zero)))
    (hneg : det ((pts.getD 1 vec2.zero).sub (pts.getD 0 vec2.zero))
        ((pts.getD 2 vec2.zero).sub (pts.getD 0 vec2.zero)) < 0 ∨
      det ((pts.getD 2 vec2.zero).sub (pts.getD 0 vec2.zero))
        ((pts.getD 3 vec2.zero).sub (pts.getD 0 vec2.zero)) < 0) :
    ∃ ts, triangulate_polygon compl pts = .ok (true, flat_triples ts) ∧
      ts.Perm [(0, 1, 3), (1, 2, 3)] ∧
      inside (corner3 pts 0 1 3) (pts.getD 2 vec2.zero) = false ∧
      inside (corner3 pts 1 2 3) (pts.getD 0 vec2.zero) = false := by
  have hin1 : inside (corner3 pts 0 1 3) (pts.getD 2 vec2.zero) = false := by
    rw [inside_eq]
    have e1 : corner3 pts 0 1 3 1 = pts.getD 1 vec2.zero := rfl
    have e2 : corner3 pts 0 1 3 2 = pts.getD 3 vec2.zero := rfl
    have hn : ¬ 0 < det ((pts.getD 3 vec2.zero).sub (pts.getD 1 vec2.zero))
        ((pts.getD 2 vec2.zero).sub (pts.getD 1 vec2.zero)) := by
      rw [det_flip]
      linarith
    rw [e1, e2, decide_eq_false hn, Bool.false_and, Bool.and_false]
  have hin2 : inside (corner3 pts 1 2 3) (pts.getD 0 vec2.zero) = false := by
    rw [inside_eq]
    have e2 : corner3 pts 1 2 3 2 = pts.getD 3 vec2.zero := rfl
    have e3 : corner3 pts 1 2 3 3 = pts.getD 1 vec2.zero := rfl
    have hn : ¬ 0 < det ((pts.getD 1 vec2.zero).sub (pts.getD 3 vec2.zero))
        ((pts.getD 0 vec2.zero).sub (pts.getD 3 vec2.zero)) := by
      have e : det ((pts.getD 1 vec2.zero).sub (pts.getD 3 vec2.zero))
          ((pts.getD 0 vec2.zero).sub (pts.getD 3 vec2.zero)) =
          - det ((pts.getD 1 vec2.zero).sub (pts.getD 0 vec2.zero))
            ((pts.getD 3 vec2.zero).sub (pts.getD 0 vec2.zero)) := by
        simp only [det, vec2.sub]
        ring
      rw [e]
      linarith
    rw [e2, e3, decide_eq_false hn, Bool.and_false, Bool.and_false]
  have c013 : triangle_cost compl pts 0 1 3 ≤ B :=
    triangle_cost_admissible compl pts 0 1 3 B hB h0 t0 (by
      intro o ho h1 h2 h3
      have : o = 2 := by omega
      subst this
      exact hin1)
  have c123 : triangle_cost compl pts 1 2 3 ≤ B :=
    triangle_cost_admissible compl pts 1 2 3 B hB h0 t2 (by
      intro o ho h1 h2 h3
      have : o = 0 := by omega
      subst this
      exact hin2)
  have hbad : 1024 ≤ triangle_cost compl pts 0 1 2 + triangle_cost compl pts 0 2 3 := by
    rcases hneg with h | h
    · have := triangle_cost_of_neg compl pts 0 1 2 h
      have := triangle_cost_nonneg compl pts 0 2 3
      linarith
    · have := triangle_cost_of_neg compl pts 0 2 3 h
      have := triangle_cost_nonneg compl pts 0 1 2
      linarith
  have hB1024 : B ≤ 1024 := by linarith
  have hc : ∀ a k b, triangle_cost compl pts a k b ≤ 1024 := by
    intro a k b
    rcases triangle_cost_le compl pts a k b B hB h0 with h1 | h1
    · exact le_of_eq h1
    · exact le_trans h1 hB1024
  obtain ⟨b, ts, T, hrun, hT, hperm, hb, hopt⟩ :=
    triangulate_cost_flat (fun a k b => triangle_cost compl pts a k b) hc 4 (by omega)
      (by decide)
  have hT1 : IsTriang 0 3 (.node 1 .leaf (.node 2 .leaf .leaf)) := by simp [IsTriang]
  have hle := hopt _ hT1
  rcases isTriang_quad T hT with rfl | rfl
  · refine ⟨ts, ?_, ?_, hin1, hin2⟩
    · unfold triangulate_polygon
      rw [h4, hrun, hb]
      have : tcost (fun a k b => triangle_cost compl pts a k b) 0 (4 - 1)
          (.node 1 .leaf (.node 2 .leaf .leaf)) < 1024 := by
        simp only [tcost]
        linarith
      rw [decide_eq_true this]
    · refine hperm.trans ?_
      simp only [triangles_of, List.append_nil, List.nil_append]
      exact List.Perm.refl _
  · simp only [tcost] at hle
    linarith

end QuadLemmas

section HexagonLemmas

variable {K : Type} [LinearOrderedCommRing K]

theorem regular_hexagon_convex (s : K) (hpos : 0 < s) :
    polygon_is_convex (regular_hexagon s) = true := by
  have h2 : (0 : K) < s * 2 := by linarith
  have h4 : (0 : K) < s * 4 := by linarith
  simp [polygon_is_convex, convex_loop, regular_hexagon, List.range_succ, orient_2d, det,
    vec2.sub]
  ring_nf
  simp [h2, h4, hpos]

theorem hexagon_polygon2d (s : K) (st : Mesh) (h : st.loop 0 = [0, 1, 2, 3, 4, 5]) :
    (get_mesh_polygon2d st 0 (fun _ v => (regular_hexagon s).getD v vec2.zero)).1 =
      regular_hexagon s := by
  simp [get_mesh_polygon2d, h, regular_hexagon]

theorem tessellate_hexagon {A : Type} (compl : K → K → K) (s : K) (x : A)
    (hconv : polygon_is_convex (regular_hexagon s) = true) :
    tessellate_non_convex_facets compl (fun _ v => (regular_hexagon s).getD v vec2.zero)
      hexagon_mesh [x] = .ok (hexagon_mesh, [x]) := by
  have hstep : tessellate_facet compl (fun _ v => (regular_hexagon s).getD v vec2.zero)
      ({ mesh := hexagon_mesh, attrs := [x], to_delete := [] } : TessState A) 0 =
      .ok { mesh := hexagon_mesh, attrs := [x], to_delete := [] } := by
    unfold tessellate_facet
    rw [hexagon_polygon2d s hexagon_mesh rfl, if_pos hconv]
  have hrange : List.range hexagon_mesh.facets.length = [0] := rfl
  unfold tessellate_non_convex_facets
  rw [hrange]
  simp only [tessellate_loop, hstep]
  rfl

end HexagonLemmas

/-- C11: `tessellate_non_convex_facets` deletes a facet only when it is non-convex and
its triangulation succeeded.  On a mesh with one attribute value per facet (angle
values at most the sentinel, `n * n` within the index type for every facet size `n`, as
the tables of `triangulate_polygon` are indexed by `i * n + j`) the function runs to its
end; the result is the list of the original facets not flagged in `to_delete`, in their
order, followed by the created triangles.  A facet `f` whose polygon passes
`polygon_is_convex`, or for which `triangulate_polygon` returns `false`, is not flagged:
it is found in the result at the position `kept_index to_delete f` with its vertex loop
and its attributes, and its pass of the facet loop leaves the state as it is (no
triangle is created for it). -/
theorem tessellate_keeps_convex_and_failed {K : Type} [LinearOrderedCommRing K] {A : Type}
    (compl : K → K → K) (proj : Nat → Nat → vec2 K) (mesh : Mesh) (attrs : List A)
    (hcompl : ∀ y x, compl y x ≤ 1024) (hattrs : attrs.length = mesh.facets.length)
    (hsize : ∀ f, f < mesh.facets.length →
      mesh.facet_nb_vertices f * mesh.facet_nb_vertices f ≤ NO_INDEX) :
    ∃ (result : Mesh × List A) (to_delete : List Nat) (created : List (List Nat × A)),
      tessellate_non_convex_facets compl proj mesh attrs = .ok result ∧
      result.1.facets = keep_unflagged mesh.facets to_delete ++ created.map Prod.fst ∧
      result.2 = keep_unflagged attrs to_delete ++ created.map Prod.snd ∧
      ∀ f, f < mesh.facets.length →
        (polygon_is_convex (get_mesh_polygon2d mesh f proj).1 = true ∨
          ∃ tr, triangulate_polygon compl (get_mesh_polygon2d mesh f proj).1 =
            .ok (false, tr)) →
        to_delete.getD f 0 = 0 ∧
        result.1.facets[kept_index to_delete f]? = some (mesh.loop f) ∧
        result.2[kept_index to_delete f]? = attrs[f]? ∧
        ∀ st : TessState A, st.mesh.loop f = mesh.loop f →
          tessellate_facet compl proj st f = .ok st := by
  have hsize2 : ∀ f, mesh.facet_nb_vertices f ≤ NO_INDEX := by
    intro f
    by_cases hf : f < mesh.facets.length
    · exact le_trans (Nat.le_mul_self _) (hsize f hf)
    · have : mesh.facet_nb_vertices f = 0 := by
        unfold Mesh.facet_nb_vertices Mesh.loop
        rw [List.getD_eq_getElem?_getD, List.getElem?_eq_none (by omega)]
        rfl
      rw [this]
      exact Nat.zero_le _
  obtain ⟨result, to_delete, created, hrun, hfac, hatt, hflag⟩ :=
    tessellate_spec compl proj hcompl mesh attrs hattrs hsize2
  refine ⟨result, to_delete, created, hrun, hfac, hatt, ?_⟩
  intro f hf hkeep
  have hd := hflag f hkeep
  have hloop : mesh.facets[f]? = some (mesh.loop f) := by
    unfold Mesh.loop
    rw [List.getElem?_eq_getElem hf]
    simp [List.getD_eq_getElem?_getD, List.getElem?_eq_getElem hf]
  have k1 := keep_unflagged_kept mesh.facets to_delete f hd
  have k2 := keep_unflagged_kept attrs to_delete f hd
  have hlt1 : kept_index to_delete f < (keep_unflagged mesh.facets to_delete).length := by
    by_contra hn
    rw [List.getElem?_eq_none (by omega), hloop] at k1
    cases k1
  have hlt2 : kept_index to_delete f < (keep_unflagged attrs to_delete).length := by
    rw [keep_unflagged_length_eq attrs mesh.facets to_delete hattrs]
    exact hlt1
  refine ⟨hd, ?_, ?_, ?_⟩
  · rw [hfac, List.getElem?_append_left hlt1, k1, hloop]
  · rw [hatt, List.getElem?_append_left hlt2, k2]
  · intro st hst
    have hpoly : get_mesh_polygon2d st.mesh f proj = get_mesh_polygon2d mesh f proj := by
      unfold get_mesh_polygon2d
      rw [hst]
    unfold tessellate_facet
    rw [hpoly]
    by_cases hconv : polygon_is_convex (get_mesh_polygon2d mesh f proj).1 = true
    · rw [if_pos hconv]
    · rw [if_neg hconv]
      rcases hkeep with h | ⟨tr, h⟩
      · exact absurd h hconv
      · rw [h]

/-- Witness for `tessellate_keeps_convex_and_failed`: a mesh with an arrow (tessellated),
a triangle (convex, kept) and a clockwise arrow (triangulation fails, kept). -/
theorem tessellate_keeps_convex_and_failed_witness :
    ∃ (result : Mesh × List Nat) (to_delete : List Nat) (created : List (List Nat × Nat)),
      tessellate_non_convex_facets (fun _ _ => (2 : Int)) three_facets_proj three_facets
        [10, 20, 30] = .ok result ∧
      result.1.facets = keep_unflagged three_facets.facets to_delete ++ created.map Prod.fst ∧
      result.2 = keep_unflagged [10, 20, 30] to_delete ++ created.map Prod.snd ∧
      ∀ f, f < three_facets.facets.length →
        (polygon_is_convex (get_mesh_polygon2d three_facets f three_facets_proj).1 = true ∨
          ∃ tr, triangulate_polygon (fun _ _ => (2 : Int))
            (get_mesh_polygon2d three_facets f three_facets_proj).1 = .ok (false, tr)) →
        to_delete.getD f 0 = 0 ∧
        result.1.facets[kept_index to_delete f]? = some (three_facets.loop f) ∧
        result.2[kept_index to_delete f]? = [10, 20, 30][f]? ∧
        ∀ st : TessState Nat, st.mesh.loop f = three_facets.loop f →
          tessellate_facet (fun _ _ => (2 : Int)) three_facets_proj st f = .ok st :=
  tessellate_keeps_convex_and_failed (fun _ _ => (2 : Int)) three_facets_proj three_facets
    [10, 20, 30] (fun _ _ => show (2 : Int) ≤ 1024 by decide) rfl (by decide)

/-- C12 (as stated, refuted): the arrow `(0,3), (-2,-1), (0,0), (2,-1)` listed in the
other direction is a simple quadrilateral with exactly one reflex vertex (index 2, the
only vertex at which the clockwise polygon turns left), yet `triangulate_polygon`
returns `false`: of the four candidate triangles only `(1, 2, 3)`, the one at the reflex
corner, is counter-clockwise, so each of the two triangulations `(0,1,2), (0,2,3)` and
`(0,1,3), (1,2,3)` holds a triangle that costs the sentinel. -/
theorem triangulate_clockwise_arrow_fails :
    clockwise_arrow = [arrow.getD 0 vec2.zero, arrow.getD 3 vec2.zero, arrow.getD 2 vec2.zero,
      arrow.getD 1 vec2.zero] ∧
    (∀ i, i < 4 →
      ((i = 2 → 0 < det ((clockwise_arrow.getD i vec2.zero).sub
          (clockwise_arrow.getD ((i + 3) % 4) vec2.zero))
        ((clockwise_arrow.getD ((i + 1) % 4) vec2.zero).sub
          (clockwise_arrow.getD i vec2.zero))) ∧
       (i ≠ 2 → det ((clockwise_arrow.getD i vec2.zero).sub
          (clockwise_arrow.getD ((i + 3) % 4) vec2.zero))
        ((clockwise_arrow.getD ((i + 1) % 4) vec2.zero).sub
          (clockwise_arrow.getD i vec2.zero)) < 0))) ∧
    polygon_is_convex clockwise_arrow = false ∧
    triangulate_polygon (fun _ _ => (0 : Int)) clockwise_arrow =
      .ok (false, [0, 1, 3, 1, 2, 3]) ∧
    triangle_cost (fun _ _ => (0 : Int)) clockwise_arrow 0 1 2 = 1024 ∧
    triangle_cost (fun _ _ => (0 : Int)) clockwise_arrow 0 2 3 = 1024 ∧
    triangle_cost (fun _ _ => (0 : Int)) clockwise_arrow 0 1 3 = 1024 ∧
    triangle_cost (fun _ _ => (0 : Int)) clockwise_arrow 1 2 3 = 0 := by
  decide

/-- C12 (amended): for every arrow quadrilateral listed counter-clockwise (strict right
turn at the reflex vertex `r`, strict left turn at the three others), with angle values
bounded by `B` where `2 * B < 1024`, `triangulate_polygon` returns `true` with exactly
two triangles: `(0,1,2), (0,2,3)` when `r` is 0 or 2 and `(0,1,3), (1,2,3)` when `r` is
1 or 3.  Both contain the reflex vertex and the vertex opposite to it (they share the
diagonal through the reflex vertex), and neither has the remaining polygon vertex
strictly inside. -/
theorem triangulate_arrow_ccw_succeeds {K : Type} [LinearOrderedCommRing K]
    (compl : K → K → K) (pts : List (vec2 K)) (r : Nat) (B : K)
    (hB : ∀ y x, compl y x ≤ B) (h0 : 0 ≤ B) (hbound : B * 2 < 1024)
    (harrow : IsArrowCCW pts r) :
    ∃ ts, triangulate_polygon compl pts = .ok (true, flat_triples ts) ∧
      ts.Perm (if r % 2 = 0 then [(0, 1, 2), (0, 2, 3)] else [(0, 1, 3), (1, 2, 3)]) ∧
      ∀ t ∈ ts,
        (r = t.1 ∨ r = t.2.1 ∨ r = t.2.2) ∧
        ((r + 2) % 4 = t.1 ∨ (r + 2) % 4 = t.2.1 ∨ (r + 2) % 4 = t.2.2) ∧
        ∀ o, o < 4 → o ≠ t.1 → o ≠ t.2.1 → o ≠ t.2.2 →
          inside (corner3 pts t.1 t.2.1 t.2.2) (pts.getD o vec2.zero) = false := by
  obtain ⟨h4, hr, hturn⟩ := harrow
  have T0 : det ((pts.getD 0 vec2.zero).sub (pts.getD 3 vec2.zero))
      ((pts.getD 1 vec2.zero).sub (pts.getD 0 vec2.zero)) =
      det ((pts.getD 1 vec2.zero).sub (pts.getD 0 vec2.zero))
        ((pts.getD 3 vec2.zero).sub (pts.getD 0 vec2.zero)) := by
    simp only [det, vec2.sub]
    ring
  have T3 : det ((pts.getD 3 vec2.zero).sub (pts.getD 2 vec2.zero))
      ((pts.getD 0 vec2.zero).sub (pts.getD 3 vec2.zero)) =
      det ((pts.getD 2 vec2.zero).sub (pts.getD 0 vec2.zero))
        ((pts.getD 3 vec2.zero).sub (pts.getD 0 vec2.zero)) := by
    simp only [det, vec2.sub]
    ring
  have t0 := hturn 0 (by omega)
  have t1 := hturn 1 (by omega)
  have t2 := hturn 2 (by omega)
  have t3 := hturn 3 (by omega)
  simp only [Nat.reduceAdd, Nat.reduceMod, Nat.zero_add] at t0 t1 t2 t3
  rw [T0] at t0
  rw [det_turn] at t1 t2
  rw [T3] at t3
  have hcase : r = 0 ∨ r = 1 ∨ r = 2 ∨ r = 3 := by omega
  rcases hcase with rfl | rfl | rfl | rfl
  · obtain ⟨ts, hrun, hperm, hin1, hin2⟩ := triangulate_quad_even compl pts B hB h0 hbound h4
      (t1.2 (by omega)) (t3.2 (by omega)) (Or.inr (t0.1 rfl))
    refine ⟨ts, hrun, hperm, ?_⟩
    intro t ht
    have hmem := hperm.mem_iff.1 ht
    simp only [List.mem_cons, List.mem_singleton, List.not_mem_nil, or_false] at hmem
    rcases hmem with rfl | rfl
    · refine ⟨by simp, by simp, ?_⟩
      intro o ho h1 h2 h3
      have : o = 3 := by simp only at h1 h2 h3; omega
      subst this
      exact hin1
    · refine ⟨by simp, by simp, ?_⟩
      intro o ho h1 h2 h3
      have : o = 1 := by simp only at h1 h2 h3; omega
      subst this
      exact hin2
  · obtain ⟨ts, hrun, hperm, hin1, hin2⟩ := triangulate_quad_odd compl pts B hB h0 hbound h4
      (t0.2 (by omega)) (t2.2 (by omega)) (Or.inl (t1.1 rfl))
    refine ⟨ts, hrun, hperm, ?_⟩
    intro t ht
    have hmem := hperm.mem_iff.1 ht
    simp only [List.mem_cons, List.mem_singleton, List.not_mem_nil, or_false] at hmem
    rcases hmem with rfl | rfl
    · refine ⟨by simp, by simp, ?_⟩
      intro o ho h1 h2 h3
      have : o = 2 := by simp only at h1 h2 h3; omega
      subst this
      exact hin1
    · refine ⟨by simp, by simp, ?_⟩
      intro o ho h1 h2 h3
      have : o = 0 := by simp only at h1 h2 h3; omega
      subst this
      exact hin2
  · obtain ⟨ts, hrun, hperm, hin1, hin2⟩ := triangulate_quad_even compl pts B hB h0 hbound h4
      (t1.2 (by omega)) (t3.2 (by omega)) (Or.inl (t2.1 rfl))
    refine ⟨ts, hrun, hperm, ?_⟩
    intro t ht
    have hmem := hperm.mem_iff.1 ht
    simp only [List.mem_cons, List.mem_singleton, List.not_mem_nil, or_false] at hmem
    rcases hmem with rfl | rfl
    · refine ⟨by simp, by simp, ?_⟩
      intro o ho h1 h2 h3
      have : o = 3 := by simp only at h1 h2 h3; omega
      subst this
      exact hin1
    · refine ⟨by simp, by simp, ?_⟩
      intro o ho h1 h2 h3
      have : o = 1 := by simp only at h1 h2 h3; omega
      subst this
      exact hin2
  · obtain ⟨ts, hrun, hperm, hin1, hin2⟩ := triangulate_quad_odd compl pts B hB h0 hbound h4
      (t0.2 (by omega)) (t2.2 (by omega)) (Or.inr (t3.1 rfl))
    refine ⟨ts, hrun, hperm, ?_⟩
    intro t ht
    have hmem := hperm.mem_iff.1 ht
    simp only [List.mem_cons, List.mem_singleton, List.not_mem_nil, or_false] at hmem
    rcases hmem with rfl | rfl
    · refine ⟨by simp, by simp, ?_⟩
      intro o ho h1 h2 h3
      have : o = 2 := by simp only at h1 h2 h3; omega
      subst this
      exact hin1
    · refine ⟨by simp, by simp, ?_⟩
      intro o ho h1 h2 h3
      have : o = 0 := by simp only at h1 h2 h3; omega
      subst this
      exact hin2

/-- Witness for `triangulate_arrow_ccw_succeeds`: the arrow `(0,3), (-2,-1), (0,0),
(2,-1)` with its reflex vertex at index 2 and angle values bounded by 4. -/
theorem triangulate_arrow_ccw_succeeds_witness :
    ∃ ts, triangulate_polygon (fun _ _ => (3 : Int)) arrow = .ok (true, flat_triples ts) ∧
      ts.Perm (if 2 % 2 = 0 then [(0, 1, 2), (0, 2, 3)] else [(0, 1, 3), (1, 2, 3)]) ∧
      ∀ t ∈ ts,
        (2 = t.1 ∨ 2 = t.2.1 ∨ 2 = t.2.2) ∧
        ((2 + 2) % 4 = t.1 ∨ (2 + 2) % 4 = t.2.1 ∨ (2 + 2) % 4 = t.2.2) ∧
        ∀ o, o < 4 → o ≠ t.1 → o ≠ t.2.1 → o ≠ t.2.2 →
          inside (corner3 arrow t.1 t.2.1 t.2.2) (arrow.getD o vec2.zero) = false :=
  triangulate_arrow_ccw_succeeds (fun _ _ => (3 : Int)) arrow 2 4
    (fun _ _ => show (3 : Int) ≤ 4 by decide) (by decide) (by decide)
    ⟨rfl, by decide, by
      intro i hi
      interval_cases i <;> decide⟩

/-- C13 (as stated, refuted): the regular hexagon of circumradius 2 (over the reals, with
`s = sqrt 3`) passes `polygon_is_convex`, and `tessellate_non_convex_facets` returns the
mesh as it is: one facet with six vertices, not four triangles. -/
theorem tessellate_regular_hexagon_not_fan :
    Real.sqrt 3 * Real.sqrt 3 = 3 ∧
    polygon_is_convex (regular_hexagon (Real.sqrt 3)) = true ∧
    tessellate_non_convex_facets (fun _ _ => (0 : ℝ))
      (fun _ v => (regular_hexagon (Real.sqrt 3)).getD v vec2.zero) hexagon_mesh [(7 : Nat)] =
      .ok (hexagon_mesh, [7]) ∧
    hexagon_mesh.facets = [[0, 1, 2, 3, 4, 5]] ∧ hexagon_mesh.facets.length ≠ 4 := by
  have hpos : (0 : ℝ) < Real.sqrt 3 := Real.sqrt_pos.2 (by norm_num)
  exact ⟨Real.mul_self_sqrt (by norm_num), regular_hexagon_convex _ hpos,
    tessellate_hexagon _ _ _ (regular_hexagon_convex _ hpos), rfl, by decide⟩

/-- C13 (amended): for a facet that is a regular hexagon (the six points
`regular_hexagon s` with `s * s = 3`, all at squared distance 4 from the centre),
`polygon_is_convex` returns `true`, the pass of the facet loop returns the state as it
is without calling `triangulate_polygon` (whatever the angle values `compl`), and the
facet comes out of `tessellate_non_convex_facets` as the same single hexagon: the
trivial fan is not built. -/
theorem tessellate_regular_hexagon_unchanged {K : Type} [LinearOrderedCommRing K] {A : Type}
    (compl : K → K → K) (s : K) (x : A) (hs : s * s = 3) (hpos : 0 < s) :
    (∀ p ∈ regular_hexagon s, p.x * p.x + p.y * p.y = 4) ∧
    polygon_is_convex (regular_hexagon s) = true ∧
    (∀ st : TessState A, st.mesh.loop 0 = [0, 1, 2, 3, 4, 5] →
      tessellate_facet compl (fun _ v => (regular_hexagon s).getD v vec2.zero) st 0 = .ok st) ∧
    tessellate_non_convex_facets compl (fun _ v => (regular_hexagon s).getD v vec2.zero)
      hexagon_mesh [x] = .ok (hexagon_mesh, [x]) := by
  have hconv := regular_hexagon_convex s hpos
  refine ⟨?_, hconv, ?_, tessellate_hexagon compl s x hconv⟩
  · intro p hp
    simp only [regular_hexagon, List.mem_cons, List.mem_singleton, List.not_mem_nil,
      or_false] at hp
    rcases hp with rfl | rfl | rfl | rfl | rfl | rfl <;> simp only <;> linarith
  · intro st hst
    unfold tessellate_facet
    rw [hexagon_polygon2d s st.mesh hst, if_pos hconv]

/-- Witness for `tessellate_regular_hexagon_unchanged`: the regular hexagon over the
reals. -/
theorem tessellate_regular_hexagon_unchanged_witness :
    (∀ p ∈ regular_hexagon (Real.sqrt 3), p.x * p.x + p.y * p.y = 4) ∧
    polygon_is_convex (regular_hexagon (Real.sqrt 3)) = true ∧
    (∀ st : TessState Nat, st.mesh.loop 0 = [0, 1, 2, 3, 4, 5] →
      tessellate_facet (fun _ _ => (0 : ℝ))
        (fun _ v => (regular_hexagon (Real.sqrt 3)).getD v vec2.zero) st 0 = .ok st) ∧
    tessellate_non_convex_facets (fun _ _ => (0 : ℝ))
      (fun _ v => (regular_hexagon (Real.sqrt 3)).getD v vec2.zero) hexagon_mesh [(7 : Nat)] =
      .ok (hexagon_mesh, [7]) :=
  tessellate_regular_hexagon_unchanged (fun _ _ => (0 : ℝ)) (Real.sqrt 3) 7
    (Real.mul_self_sqrt (by norm_num)) (Real.sqrt_pos.2 (by norm_num))

end RPD

namespace RPD

/-! ## Claims about the traversal callback -/

/-- C14: grouping of the cells into polyhedra.  For one traversal `begin(); operator()`
on the cells `cells`; `end()` of a callback, the traversal returns and the consumer
receives, after what it had received before, one block `begin_polyhedron`, facet events,
`end_polyhedron` per group of cells, in the order of the groups, one after the other (so
the pairs are neither nested nor overlapping), and the `begin_polyhedron` of a block
carries the seed of the group and the tetrahedron of its first cell.  The groups
partition the cells in their order: with `simplify_internal_tet_facets_` on, every group
has one seed and consecutive groups have different seeds (the maximal runs of equal
seed); with the mode off every group is one cell.  In the direct-forwarding variant the
facet events of a block are exactly the facet events of the cells of its group; in the
buffering variant they are the same when the stored mesh is replayed as it is and equal
descriptors carry equal positions in each group.  In the merging mode this is for a
callback whose `last_seed_` is still `index_t(-1)` (the value set by the constructor),
for at least one cell and for seeds other than `index_t(-1)`; in the buffering variant
the working mesh is empty before the traversal and the processing steps that are
switched on return meshes whose loops refer to stored vertices. -/
theorem traverse_one_polyhedron_per_run {G S : Type} [DecidableEq S] (proc : Processing G S)
    (cb : Callback G S) (cells : List (Cell G S))
    (hmerge : cb.simplify_internal_tet_facets_ = true →
      cb.last_seed_ = NO_INDEX ∧ cells ≠ [] ∧ ∀ c ∈ cells, c.v ≠ NO_INDEX)
    (hbuf : cb.use_mesh_ = true →
      cb.mesh_ = WorkMesh.empty ∧ cb.base_current_facet_ = [] ∧
      proc.valid cb.simplify_voronoi_facets_ cb.tessellate_non_convex_facets_) :
    (∃ cb' bodies,
      traverse proc cb cells = .ok cb' ∧
      cb'.out = cb.out ++
        polyhedron_blocks (polyhedron_groups cb.simplify_internal_tet_facets_ cells) bodies ∧
      bodies.length = (polyhedron_groups cb.simplify_internal_tet_facets_ cells).length ∧
      (∀ body ∈ bodies, ∀ e ∈ body, e.is_facet_event = true) ∧
      (cb.use_mesh_ = false ∨
        (cb.simplify_voronoi_facets_ = false ∧ cb.tessellate_non_convex_facets_ = false ∧
          ∀ r ∈ polyhedron_groups cb.simplify_internal_tet_facets_ cells,
            Consistent (r.flatMap cell_vertices) (r.flatMap cell_vertices)) →
        bodies = (polyhedron_groups cb.simplify_internal_tet_facets_ cells).map
          (fun r => r.flatMap (cell_events cb.simplify_internal_tet_facets_)))) ∧
    (polyhedron_groups cb.simplify_internal_tet_facets_ cells).flatten = cells ∧
    (∀ r ∈ polyhedron_groups cb.simplify_internal_tet_facets_ cells,
      r ≠ [] ∧
      (cb.simplify_internal_tet_facets_ = true → ∀ x ∈ r, ∀ y ∈ r, x.v = y.v) ∧
      (cb.simplify_internal_tet_facets_ = false → r.length = 1)) ∧
    (cb.simplify_internal_tet_facets_ = true →
      List.Chain' (fun r1 r2 : List (Cell G S) => r1.head?.map Cell.v ≠ r2.head?.map Cell.v)
        (polyhedron_groups cb.simplify_internal_tet_facets_ cells)) :=
  ⟨traverse_blocks proc cb cells hmerge hbuf,
    polyhedron_groups_spec cb.simplify_internal_tet_facets_ cells⟩

/-- Witness for `traverse_one_polyhedron_per_run`: the three sample cells in the merging
mode of the buffering variant, from the state left by the constructor. -/
theorem traverse_one_polyhedron_per_run_witness :
    (∃ cb' bodies,
      traverse (Processing.id Int Nat)
        (Callback.init Int Nat NO_INDEX NO_INDEX true false false true) sample_cells =
        .ok cb' ∧
      cb'.out = (Callback.init Int Nat NO_INDEX NO_INDEX true false false true).out ++
        polyhedron_blocks (polyhedron_groups true sample_cells) bodies ∧
      bodies.length = (polyhedron_groups true sample_cells).length ∧
      (∀ body ∈ bodies, ∀ e ∈ body, e.is_facet_event = true) ∧
      (true = false ∨
        (false = false ∧ false = false ∧
          ∀ r ∈ polyhedron_groups true sample_cells,
            Consistent (r.flatMap cell_vertices) (r.flatMap cell_vertices)) →
        bodies = (polyhedron_groups true sample_cells).map
          (fun r => r.flatMap (cell_events true)))) ∧
    (polyhedron_groups true sample_cells).flatten = sample_cells ∧
    (∀ r ∈ polyhedron_groups true sample_cells,
      r ≠ [] ∧ (true = true → ∀ x ∈ r, ∀ y ∈ r, x.v = y.v) ∧
      (true = false → r.length = 1)) ∧
    (true = true →
      List.Chain'
        (fun r1 r2 : List (Cell Int Nat) => r1.head?.map Cell.v ≠ r2.head?.map Cell.v)
        (polyhedron_groups true sample_cells)) :=
  traverse_one_polyhedron_per_run (Processing.id Int Nat)
    (Callback.init Int Nat NO_INDEX NO_INDEX true false false true) sample_cells
    (fun _ => ⟨rfl, by decide, by decide⟩)
    (fun _ => ⟨rfl, rfl, fun h => absurd h (by decide), fun h => absurd h (by decide)⟩)

/-- C15: internal facets are skipped in the merging mode.  For the calls
`begin_facet_internal(facet_seed, facet_tet)`, `vertex_internal` on each vertex of
`verts`, `end_facet_internal`: the facet is skipped exactly when
`simplify_internal_tet_facets_` is on and `facet_tet` is not `index_t(-1)`.  A skipped
facet changes nothing but `facet_seed_`, `facet_tet_` and `facet_is_skipped_`: no event
reaches the consumer, and the working mesh, the vertex map and the loop being built are
as before.  A facet that is not skipped is processed: the direct-forwarding variant
delivers `begin_facet`, one `vertex` per vertex and `end_facet`; the buffering variant
(with a vertex map that holds one key per stored vertex) appends one facet with the
attributes `facet_seed`, `facet_tet` and one loop entry per vertex, each entry referring
to a stored vertex with the descriptor of the call. -/
theorem internal_facets_skipped {G S : Type} [DecidableEq S] (cb : Callback G S)
    (facet_seed facet_tet : Nat) (verts : List (G × S)) :
    ((begin_facet_internal cb facet_seed facet_tet).facet_is_skipped_ = true ↔
      (cb.simplify_internal_tet_facets_ = true ∧ facet_tet ≠ NO_INDEX)) ∧
    (cb.simplify_internal_tet_facets_ = true → facet_tet ≠ NO_INDEX →
      run_calls cb (method_calls facet_seed facet_tet verts) =
        .ok { cb with facet_seed_ := NO_INDEX, facet_tet_ := NO_INDEX,
                      facet_is_skipped_ := true }) ∧
    (cb.simplify_internal_tet_facets_ = false ∨ facet_tet = NO_INDEX →
      cb.use_mesh_ = false →
      run_calls cb (method_calls facet_seed facet_tet verts) =
        .ok { cb with facet_seed_ := NO_INDEX, facet_tet_ := NO_INDEX,
                      facet_is_skipped_ := false,
                      out := cb.out ++ Event.begin_facet facet_seed facet_tet ::
                        (verts.map (fun p => Event.vertex p.1 p.2) ++ [Event.end_facet]) }) ∧
    (cb.simplify_internal_tet_facets_ = false ∨ facet_tet = NO_INDEX →
      cb.use_mesh_ = true →
      cb.vertex_map_ = some { keys := cb.mesh_.vertices.map (fun p => (cb.seed_, p.2)) } →
      ∃ new l,
        run_calls cb (method_calls facet_seed facet_tet verts) =
          .ok { cb with
            facet_seed_ := NO_INDEX, facet_tet_ := NO_INDEX, facet_is_skipped_ := false,
            vertex_map_ :=
              some { keys := (cb.mesh_.vertices ++ new).map (fun p => (cb.seed_, p.2)) },
            mesh_ :=
              { vertices := cb.mesh_.vertices ++ new,
                facets := cb.mesh_.facets ++
                  [{ loop := cb.base_current_facet_ ++ l, seed := facet_seed,
                     tet := facet_tet }] },
            base_current_facet_ := [] } ∧
        List.Forall₂ (fun v p => ∃ g', (cb.mesh_.vertices ++ new)[v]? = some (g', p.2))
          l verts ∧
        (∀ q ∈ new, q ∈ verts)) := by
  have hns : (cb.simplify_internal_tet_facets_ = false ∨ facet_tet = NO_INDEX) →
      ¬ (cb.simplify_internal_tet_facets_ && decide (facet_tet ≠ NO_INDEX)) = true := by
    intro h hc
    simp only [Bool.and_eq_true, decide_eq_true_eq] at hc
    rcases h with h | h
    · rw [h] at hc
      exact absurd hc.1 (by decide)
    · exact hc.2 h
  refine ⟨?_, ?_, ?_, ?_⟩
  · unfold begin_facet_internal
    by_cases hskip : (cb.simplify_internal_tet_facets_ && decide (facet_tet ≠ NO_INDEX)) = true
    · rw [if_pos hskip]
      simp only [Bool.and_eq_true, decide_eq_true_eq] at hskip
      simp [hskip]
    · rw [if_neg hskip]
      simp only [Bool.and_eq_true, decide_eq_true_eq] at hskip
      split <;> simp [hskip]
  · intro hi ht
    have hskip : (cb.simplify_internal_tet_facets_ && decide (facet_tet ≠ NO_INDEX)) = true := by
      simp [hi, ht]
    have hb1 : begin_facet_internal cb facet_seed facet_tet =
        { cb with facet_seed_ := facet_seed, facet_tet_ := facet_tet,
                  facet_is_skipped_ := true } := by
      unfold begin_facet_internal
      rw [if_pos hskip]
    unfold method_calls
    rw [run_calls_begin, run_calls_append, hb1, run_calls_vertices_skipped verts
      { cb with facet_seed_ := facet_seed, facet_tet_ := facet_tet,
                facet_is_skipped_ := true } rfl]
    simp only [run_calls_end]
    simp [end_facet_internal]
  · intro h hu
    have hb1 : begin_facet_internal cb facet_seed facet_tet =
        { cb with facet_seed_ := facet_seed, facet_tet_ := facet_tet,
                  facet_is_skipped_ := false,
                  out := cb.out ++ [Event.begin_facet facet_seed facet_tet] } := by
      unfold begin_facet_internal
      rw [if_neg (hns h), if_neg (by rw [hu]; simp)]
    unfold method_calls
    rw [run_calls_begin, run_calls_append, hb1, run_calls_vertices_direct verts
      { cb with facet_seed_ := facet_seed, facet_tet_ := facet_tet,
                facet_is_skipped_ := false,
                out := cb.out ++ [Event.begin_facet facet_seed facet_tet] } hu rfl]
    simp only [run_calls_end]
    simp [end_facet_internal, hu]
  · intro h hu hmap
    have hb1 : begin_facet_internal cb facet_seed facet_tet =
        { cb with facet_seed_ := facet_seed, facet_tet_ := facet_tet,
                  facet_is_skipped_ := false } := by
      unfold begin_facet_internal
      rw [if_neg (hns h), if_pos hu]
    obtain ⟨new, l, hr, hf, hn⟩ := run_calls_vertices_buffered verts
      { cb with facet_seed_ := facet_seed, facet_tet_ := facet_tet,
                facet_is_skipped_ := false } hu rfl hmap
    refine ⟨new, l, ?_, hf, hn⟩
    unfold method_calls
    rw [run_calls_begin, run_calls_append, hb1, hr]
    simp only [run_calls_end]
    simp [end_facet_internal, hu]

/-- Witness for `internal_facets_skipped`: in the merging mode, a facet shared with the
tetrahedron 4 is skipped and a boundary facet is forwarded. -/
theorem internal_facets_skipped_witness :
    run_calls (Callback.init Int Nat 7 0 true false false false)
      (method_calls 2 4 [((10 : Int), 1), (20, 2), (40, 4)]) =
      .ok { Callback.init Int Nat 7 0 true false false false with
        facet_seed_ := NO_INDEX, facet_tet_ := NO_INDEX, facet_is_skipped_ := true } ∧
    run_calls (Callback.init Int Nat 7 0 true false false false)
      (method_calls 2 NO_INDEX [((10 : Int), 1), (20, 2), (30, 3)]) =
      .ok { Callback.init Int Nat 7 0 true false false false with
        facet_seed_ := NO_INDEX, facet_tet_ := NO_INDEX, facet_is_skipped_ := false,
        out := [Event.begin_facet 2 NO_INDEX, Event.vertex 10 1, Event.vertex 20 2,
          Event.vertex 30 3, Event.end_facet] } :=
  ⟨(internal_facets_skipped (Callback.init Int Nat 7 0 true false false false) 2 4
      [((10 : Int), 1), (20, 2), (40, 4)]).2.1 rfl (by decide),
   (internal_facets_skipped (Callback.init Int Nat 7 0 true false false false) 2 NO_INDEX
      [((10 : Int), 1), (20, 2), (30, 3)]).2.2.1 (Or.inr rfl) rfl⟩

/-- C17: deduplication in the working mesh.  In the buffering variant, after
`begin_polyhedron_internal` on an empty working mesh and any sequence `calls` of calls of
the facet methods (so at every point of the processing), the calls have not faulted and,
for the vertex calls `delivered` so far in facets that are not skipped: the stored
descriptors are distinct and are exactly the delivered descriptors; every stored vertex
is the first delivered pair of position and descriptor with its descriptor; the entries
of the stored loops followed by the loop being built refer, call by call, to the stored
vertex with the descriptor of the call; and a further vertex call with a descriptor
already delivered leaves the working mesh and the vertex map as they are.  The vertex map
is the one modelled by `find_or_create_vertex`. -/
theorem working_mesh_deduplicates {G S : Type} [DecidableEq S] (cb : Callback G S)
    (seed tetrahedron : Nat) (calls : List (Call G S))
    (huse : cb.use_mesh_ = true) (hmesh : cb.mesh_ = WorkMesh.empty)
    (hbase : cb.base_current_facet_ = []) :
    ∃ cb', run_calls (begin_polyhedron_internal cb seed tetrahedron) calls = .ok cb' ∧
      (cb'.mesh_.vertices.map Prod.snd).Nodup ∧
      (∀ s, s ∈ cb'.mesh_.vertices.map Prod.snd ↔
        s ∈ (delivered cb.simplify_internal_tet_facets_ cb.facet_is_skipped_ calls).map
          Prod.snd) ∧
      (∀ p ∈ cb'.mesh_.vertices,
        (delivered cb.simplify_internal_tet_facets_ cb.facet_is_skipped_ calls).find?
          (fun q => decide (q.2 = p.2)) = some p) ∧
      (cb'.mesh_.facets.flatMap WorkFacet.loop ++ cb'.base_current_facet_).map
          (fun v => cb'.mesh_.vertices[v]?.map Prod.snd) =
        (delivered cb.simplify_internal_tet_facets_ cb.facet_is_skipped_ calls).map
          (fun p => some p.2) ∧
      (∀ g s, cb'.facet_is_skipped_ = false →
        s ∈ (delivered cb.simplify_internal_tet_facets_ cb.facet_is_skipped_ calls).map
          Prod.snd →
        ∃ cb'', vertex_internal cb' g s = .ok cb'' ∧ cb''.mesh_ = cb'.mesh_ ∧
          cb''.vertex_map_ = cb'.vertex_map_) := by
  obtain ⟨_, _, _, f4, _, _, f7, f8, f9⟩ :=
    begin_polyhedron_internal_fields cb seed tetrahedron
  have hmap0 : (begin_polyhedron_internal cb seed tetrahedron).vertex_map_ =
      some { keys := [] } := by
    unfold begin_polyhedron_internal
    rw [if_pos huse]
  have hskip0 : (begin_polyhedron_internal cb seed tetrahedron).facet_is_skipped_ =
      cb.facet_is_skipped_ := by
    unfold begin_polyhedron_internal
    rw [if_pos huse]
  have h0 : Dedup (begin_polyhedron_internal cb seed tetrahedron) [] := by
    refine ⟨f7.trans huse, ?_, ?_, ?_, ?_, ?_⟩
    · rw [hmap0, f8, hmesh]
      rfl
    · rw [f8, hmesh]
      exact List.nodup_nil
    · intro s
      rw [f8, hmesh]
      rfl
    · intro p hp
      rw [f8, hmesh] at hp
      cases hp
    · rw [f8, f9, hmesh, hbase]
      rfl
  obtain ⟨cb', hr, hd, _⟩ := dedup_run_calls calls _ [] h0
  rw [List.nil_append, f4, hskip0] at hd
  refine ⟨cb', hr, hd.nodup, hd.mem_iff, hd.first, hd.entries, ?_⟩
  intro g s hk hs
  obtain ⟨cb'', hv, _, _, _, hsame⟩ := dedup_vertex cb' _ g s hd hk
  exact ⟨cb'', hv, (hsame hs).1, (hsame hs).2⟩

/-- Witness for `working_mesh_deduplicates`: the facet calls of the first two sample
cells, which share the seed 7. -/
theorem working_mesh_deduplicates_witness :
    ∃ cb', run_calls
        (begin_polyhedron_internal
          (Callback.init Int Nat NO_INDEX NO_INDEX true false false true) 7 0)
        (group_calls (sample_cells.take 2)) = .ok cb' ∧
      (cb'.mesh_.vertices.map Prod.snd).Nodup ∧
      (∀ s, s ∈ cb'.mesh_.vertices.map Prod.snd ↔
        s ∈ (delivered true false (group_calls (sample_cells.take 2))).map Prod.snd) ∧
      (∀ p ∈ cb'.mesh_.vertices,
        (delivered true false (group_calls (sample_cells.take 2))).find?
          (fun q => decide (q.2 = p.2)) = some p) ∧
      (cb'.mesh_.facets.flatMap WorkFacet.loop ++ cb'.base_current_facet_).map
          (fun v => cb'.mesh_.vertices[v]?.map Prod.snd) =
        (delivered true false (group_calls (sample_cells.take 2))).map
          (fun p => some p.2) ∧
      (∀ g s, cb'.facet_is_skipped_ = false →
        s ∈ (delivered true false (group_calls (sample_cells.take 2))).map Prod.snd →
        ∃ cb'', vertex_internal cb' g s = .ok cb'' ∧ cb''.mesh_ = cb'.mesh_ ∧
          cb''.vertex_map_ = cb'.vertex_map_) :=
  working_mesh_deduplicates (Callback.init Int Nat NO_INDEX NO_INDEX true false false true)
    7 0 (group_calls (sample_cells.take 2)) rfl rfl rfl

/-- C16: buffered replay equals direct forwarding.  With `simplify_voronoi_facets_` and
`tessellate_non_convex_facets_` off, a traversal of the cells `cells` by the buffering
variant (`use_mesh_` on) and by the direct-forwarding variant (`use_mesh_` off) of the
same callback both return and deliver the same events, provided equal descriptors carry
equal positions in the cells of one seed (the vertex map is the one modelled by
`find_or_create_vertex`: the existing index for an equal key, else the next unused
index).  The replay itself, `process_polyhedron_mesh`, delivers between
`begin_polyhedron` and `end_polyhedron` one `begin_facet`/`end_facet` pair per stored
facet in facet order, with the stored seed and tetrahedron, and the vertices of each
facet in the order of the stored loop (`facets_events`).  The working mesh is empty
before the traversal; in the merging mode `last_seed_` is `index_t(-1)`, the seeds are
not `index_t(-1)`, and there is a cell or `seed_` is `index_t(-1)`. -/
theorem buffered_replay_equals_direct {G S : Type} [DecidableEq S] (proc : Processing G S)
    (cb : Callback G S) (cells : List (Cell G S))
    (hvf : cb.simplify_voronoi_facets_ = false)
    (htf : cb.tessellate_non_convex_facets_ = false)
    (hmesh : cb.mesh_ = WorkMesh.empty) (hbase : cb.base_current_facet_ = [])
    (hmerge : cb.simplify_internal_tet_facets_ = true →
      cb.last_seed_ = NO_INDEX ∧ (cells ≠ [] ∨ cb.seed_ = NO_INDEX) ∧
      ∀ c ∈ cells, c.v ≠ NO_INDEX)
    (hpos : ∀ c1 ∈ cells, ∀ c2 ∈ cells, c1.v = c2.v →
      Consistent (cell_vertices c1) (cell_vertices c2)) :
    (∃ d b, traverse proc { cb with use_mesh_ := false } cells = .ok d ∧
      traverse proc { cb with use_mesh_ := true } cells = .ok b ∧ b.out = d.out) ∧
    (∀ st st' : Callback G S, st.simplify_voronoi_facets_ = false →
      st.tessellate_non_convex_facets_ = false →
      process_polyhedron_mesh proc st = .ok st' →
      ∃ E, facets_events st.mesh_.vertices st.mesh_.facets = some E ∧
        st'.out = st.out ++
          Event.begin_polyhedron st.seed_ st.simplex_ :: (E ++ [Event.end_polyhedron])) := by
  refine ⟨?_, fun st st' h1 h2 h3 => process_polyhedron_mesh_replay proc st st' h1 h2 h3⟩
  have hvalid : proc.valid cb.simplify_voronoi_facets_ cb.tessellate_non_convex_facets_ :=
    ⟨fun h => absurd (hvf.symm.trans h) (by decide),
      fun h => absurd (htf.symm.trans h) (by decide)⟩
  by_cases hempty : cb.simplify_internal_tet_facets_ = true ∧ cells = []
  · obtain ⟨hi, hc⟩ := hempty
    obtain ⟨_, hs, _⟩ := hmerge hi
    have hseed : cb.seed_ = NO_INDEX := by
      rcases hs with hs | hs
      · exact absurd hc hs
      · exact hs
    subst hc
    refine ⟨{ cb with use_mesh_ := false }, { cb with use_mesh_ := true }, ?_, ?_, rfl⟩
    · simp only [traverse, operator_calls]
      unfold callback_end
      rw [if_neg (fun h => h.2 hseed)]
    · simp only [traverse, operator_calls]
      unfold callback_end
      rw [if_neg (fun h => h.2 hseed)]
  · have hm' : cb.simplify_internal_tet_facets_ = true →
        cb.last_seed_ = NO_INDEX ∧ cells ≠ [] ∧ ∀ c ∈ cells, c.v ≠ NO_INDEX := by
      intro hi
      obtain ⟨hl, _, hc⟩ := hmerge hi
      exact ⟨hl, fun h => hempty ⟨hi, h⟩, hc⟩
    have hcons : ∀ r ∈ polyhedron_groups cb.simplify_internal_tet_facets_ cells,
        Consistent (r.flatMap cell_vertices) (r.flatMap cell_vertices) := by
      intro r hr p hp q hq hpq
      obtain ⟨c1, hc1, hp1⟩ := List.mem_flatMap.1 hp
      obtain ⟨c2, hc2, hq2⟩ := List.mem_flatMap.1 hq
      unfold polyhedron_groups at hr
      by_cases hi : cb.simplify_internal_tet_facets_ = true
      · rw [if_pos hi] at hr
        obtain ⟨_, hin, hsame⟩ := runs_spec cells r hr
        exact hpos c1 (hin c1 hc1) c2 (hin c2 hc2) (hsame c1 hc1 c2 hc2) p hp1 q hq2 hpq
      · rw [if_neg hi] at hr
        obtain ⟨c, hc, rfl⟩ := List.mem_map.1 hr
        rw [List.mem_singleton] at hc1 hc2
        subst hc1
        subst hc2
        exact hpos _ hc _ hc rfl p hp1 q hq2 hpq
    obtain ⟨d, bd, hd, hod, _, _, hxd⟩ :=
      traverse_blocks proc { cb with use_mesh_ := false } cells hm'
        (fun h => by cases h)
    obtain ⟨b, bb, hb, hob, _, _, hxb⟩ :=
      traverse_blocks proc { cb with use_mesh_ := true } cells hm'
        (fun _ => ⟨hmesh, hbase, hvalid⟩)
    refine ⟨d, b, hd, hb, ?_⟩
    rw [hod, hob, hxd (Or.inl rfl), hxb (Or.inr ⟨hvf, htf, hcons⟩)]

/-- Witness for `buffered_replay_equals_direct`: the three sample cells in the merging
mode, from the state left by the constructor. -/
theorem buffered_replay_equals_direct_witness :
    (∃ d b,
      traverse (Processing.id Int Nat)
        { Callback.init Int Nat NO_INDEX NO_INDEX true false false false with
          use_mesh_ := false } sample_cells = .ok d ∧
      traverse (Processing.id Int Nat)
        { Callback.init Int Nat NO_INDEX NO_INDEX true false false false with
          use_mesh_ := true } sample_cells = .ok b ∧ b.out = d.out) ∧
    (∀ st st' : Callback Int Nat, st.simplify_voronoi_facets_ = false →
      st.tessellate_non_convex_facets_ = false →
      process_polyhedron_mesh (Processing.id Int Nat) st = .ok st' →
      ∃ E, facets_events st.mesh_.vertices st.mesh_.facets = some E ∧
        st'.out = st.out ++
          Event.begin_polyhedron st.seed_ st.simplex_ :: (E ++ [Event.end_polyhedron])) :=
  buffered_replay_equals_direct (Processing.id Int Nat)
    (Callback.init Int Nat NO_INDEX NO_INDEX true false false false) sample_cells rfl rfl rfl
    rfl (fun _ => ⟨rfl, Or.inl (by decide), by decide⟩)
    (by unfold Consistent; decide)

end RPD

namespace RPD

/-! ## Claims about `side_exact` -/

/-- C18 (the code does not abort in every build): for a symbolic vertex with 0 boundary
facets and `dim != 3`, `side_exact` aborts when `assert` is active; when `assert` is
compiled out (`NDEBUG`) the control falls through to the block `case 1` and the function
returns the sign of `power_side3_SOS` evaluated on `q.sym().boundary_facet(0)`. -/
theorem side_exact_non3d_falls_through {P W : Type} (pck : Predicates P W) (mesh : TetMesh P)
    (rt : RegularTriangulationNN P W) (q : SymbolicVertex) (pi : P) (wi : W) (pj : P)
    (wj : W) (dim : Nat) (sis : Bool) (hq : q.nb_boundary_facets = 0) (hdim : dim ≠ 3) :
    side_exact pck true mesh rt q pi wi pj wj dim sis = .error ClassifyAbort.assert_false ∧
    side_exact pck false mesh rt q pi wi pj wj dim sis =
      .ok (pck.power_side3_SOS pi wi
        (rt.get_double_vector (q.bisector 0)) (rt.get_weight (q.bisector 0))
        (rt.get_double_vector (q.bisector 1)) (rt.get_weight (q.bisector 1)) pj wj
        (mesh.point_ptr (mesh.tet_vertex (q.boundary_facet 0 / 4)
          (mesh.local_tet_facet_vertex_index (q.boundary_facet 0 % 4) 0)))
        (mesh.point_ptr (mesh.tet_vertex (q.boundary_facet 0 / 4)
          (mesh.local_tet_facet_vertex_index (q.boundary_facet 0 % 4) 1)))
        (mesh.point_ptr (mesh.tet_vertex (q.boundary_facet 0 / 4)
          (mesh.local_tet_facet_vertex_index (q.boundary_facet 0 % 4) 2)))) := by
  unfold side_exact
  rw [hq]
  simp only [if_neg hdim]
  exact ⟨rfl, rfl⟩

/-- Witness for `side_exact_non3d_falls_through`: a vertex with 0 boundary facets
classified in dimension 2. -/
theorem side_exact_non3d_falls_through_witness :
    side_exact toy_predicates true toy_mesh toy_rt (toy_vertex 0) 5 0 3 4 2 false =
      .error ClassifyAbort.assert_false ∧
    side_exact toy_predicates false toy_mesh toy_rt (toy_vertex 0) 5 0 3 4 2 false =
      .ok (toy_predicates.power_side3_SOS 5 0
        (toy_rt.get_double_vector ((toy_vertex 0).bisector 0))
        (toy_rt.get_weight ((toy_vertex 0).bisector 0))
        (toy_rt.get_double_vector ((toy_vertex 0).bisector 1))
        (toy_rt.get_weight ((toy_vertex 0).bisector 1)) 3 4
        (toy_mesh.point_ptr (toy_mesh.tet_vertex ((toy_vertex 0).boundary_facet 0 / 4)
          (toy_mesh.local_tet_facet_vertex_index ((toy_vertex 0).boundary_facet 0 % 4) 0)))
        (toy_mesh.point_ptr (toy_mesh.tet_vertex ((toy_vertex 0).boundary_facet 0 / 4)
          (toy_mesh.local_tet_facet_vertex_index ((toy_vertex 0).boundary_facet 0 % 4) 1)))
        (toy_mesh.point_ptr (toy_mesh.tet_vertex ((toy_vertex 0).boundary_facet 0 / 4)
          (toy_mesh.local_tet_facet_vertex_index ((toy_vertex 0).boundary_facet 0 % 4) 2)))) :=
  side_exact_non3d_falls_through toy_predicates toy_mesh toy_rt (toy_vertex 0) 5 0 3 4 2 false
    rfl (by decide)

/-- C19: the dispatch of `side_exact`.  With 0 boundary facets and `dim == 3` the result
is the sign of `power_side4_3d_SOS(pi, b0, b1, b2, pj)`; with 1 boundary facet `f` it is
the sign of `power_side3_SOS` on `pi`, the two bisector sites, `pj` and the three
vertices of the local facet `f % 4` of the tetrahedron `f / 4`; with 2 it is the sign of
`power_side2_SOS` on `pi`, the bisector site, `pj` and the two edge endpoints; with 3 it
is the sign of `power_side1_SOS(pi, pj, v0)`, which is the same for every regular
triangulation and every symbolic vertex with that boundary vertex.  In none of these
cases does the function abort, whether `assert` is active or not. -/
theorem side_exact_dispatch {P W : Type} (pck : Predicates P W) (assertions : Bool)
    (mesh : TetMesh P) (rt : RegularTriangulationNN P W) (q : SymbolicVertex) (pi : P)
    (wi : W) (pj : P) (wj : W) (dim : Nat) (sis : Bool) :
    (q.nb_boundary_facets = 0 → dim = 3 →
      side_exact pck assertions mesh rt q pi wi pj wj dim sis =
        .ok (pck.power_side4_3d_SOS pi wi
          (rt.get_double_vector (q.bisector 0)) (rt.get_weight (q.bisector 0))
          (rt.get_double_vector (q.bisector 1)) (rt.get_weight (q.bisector 1))
          (rt.get_double_vector (q.bisector 2)) (rt.get_weight (q.bisector 2)) pj wj)) ∧
    (q.nb_boundary_facets = 1 →
      side_exact pck assertions mesh rt q pi wi pj wj dim sis =
        .ok (pck.power_side3_SOS pi wi
          (rt.get_double_vector (q.bisector 0)) (rt.get_weight (q.bisector 0))
          (rt.get_double_vector (q.bisector 1)) (rt.get_weight (q.bisector 1)) pj wj
          (mesh.point_ptr (mesh.tet_vertex (q.boundary_facet 0 / 4)
            (mesh.local_tet_facet_vertex_index (q.boundary_facet 0 % 4) 0)))
          (mesh.point_ptr (mesh.tet_vertex (q.boundary_facet 0 / 4)
            (mesh.local_tet_facet_vertex_index (q.boundary_facet 0 % 4) 1)))
          (mesh.point_ptr (mesh.tet_vertex (q.boundary_facet 0 / 4)
            (mesh.local_tet_facet_vertex_index (q.boundary_facet 0 % 4) 2))))) ∧
    (q.nb_boundary_facets = 2 →
      side_exact pck assertions mesh rt q pi wi pj wj dim sis =
        .ok (pck.power_side2_SOS pi wi
          (rt.get_double_vector (q.bisector 0)) (rt.get_weight (q.bisector 0)) pj wj
          (mesh.point_ptr q.boundary_edge.1) (mesh.point_ptr q.boundary_edge.2))) ∧
    (q.nb_boundary_facets = 3 →
      side_exact pck assertions mesh rt q pi wi pj wj dim sis =
        .ok (pck.power_side1_SOS pi wi pj wj (mesh.point_ptr q.boundary_vertex)) ∧
      ∀ (rt' : RegularTriangulationNN P W) (q' : SymbolicVertex),
        q'.nb_boundary_facets = 3 → q'.boundary_vertex = q.boundary_vertex →
        side_exact pck assertions mesh rt' q' pi wi pj wj dim sis =
          side_exact pck assertions mesh rt q pi wi pj wj dim sis) := by
  refine ⟨?_, ?_, ?_, ?_⟩
  · intro hq hdim
    unfold side_exact
    rw [hq]
    simp only [if_pos hdim]
  · intro hq
    unfold side_exact
    rw [hq]
    rfl
  · intro hq
    unfold side_exact
    rw [hq]
  · intro hq
    refine ⟨?_, ?_⟩
    · unfold side_exact
      rw [hq]
    · intro rt' q' hq' hv
      unfold side_exact
      rw [hq, hq', hv]

/-- Witness for `side_exact_dispatch`: the four cases on concrete vertices. -/
theorem side_exact_dispatch_witness :
    side_exact toy_predicates true toy_mesh toy_rt (toy_vertex 0) 5 0 3 4 3 false = .ok 1 ∧
    side_exact toy_predicates true toy_mesh toy_rt (toy_vertex 1) 5 0 3 4 3 false = .ok (-1) ∧
    side_exact toy_predicates true toy_mesh toy_rt (toy_vertex 2) 5 0 3 4 3 false = .ok 1 ∧
    side_exact toy_predicates true toy_mesh toy_rt (toy_vertex 3) 5 0 3 4 3 false = .ok 1 :=
  ⟨(side_exact_dispatch toy_predicates true toy_mesh toy_rt (toy_vertex 0) 5 0 3 4 3 false).1
      rfl rfl,
   (side_exact_dispatch toy_predicates true toy_mesh toy_rt (toy_vertex 1) 5 0 3 4 3
      false).2.1 rfl,
   (side_exact_dispatch toy_predicates true toy_mesh toy_rt (toy_vertex 2) 5 0 3 4 3
      false).2.2.1 rfl,
   ((side_exact_dispatch toy_predicates true toy_mesh toy_rt (toy_vertex 3) 5 0 3 4 3
      false).2.2.2 rfl).1⟩

/-- C20: consistency of the classifier.  Provided each of the four predicates changes
sign when the two sites `(pi, wi)` and `(pj, wj)` of the call are exchanged,
`side_exact(q, B, A)` is the negation of `side_exact(q, A, B)` (and aborts exactly when
it does); and the result is a function of the values read: two symbolic vertices with the
same boundary count, bisectors, boundary facet, edge and vertex give the same result,
whatever the flag `symbolic_is_surface`. -/
theorem side_exact_antisymmetric {P W : Type} (pck : Predicates P W) (assertions : Bool)
    (mesh : TetMesh P) (rt : RegularTriangulationNN P W)
    (q : SymbolicVertex) (pi : P) (wi : W) (pj : P) (wj : W) (dim : Nat) (sis : Bool)
    (h4 : ∀ b0 w0 b1 w1 b2 w2,
      pck.power_side4_3d_SOS pj wj b0 w0 b1 w1 b2 w2 pi wi =
        - pck.power_side4_3d_SOS pi wi b0 w0 b1 w1 b2 w2 pj wj)
    (h3 : ∀ b0 w0 b1 w1 q0 q1 q2,
      pck.power_side3_SOS pj wj b0 w0 b1 w1 pi wi q0 q1 q2 =
        - pck.power_side3_SOS pi wi b0 w0 b1 w1 pj wj q0 q1 q2)
    (h2 : ∀ b0 w0 q0 q1,
      pck.power_side2_SOS pj wj b0 w0 pi wi q0 q1 =
        - pck.power_side2_SOS pi wi b0 w0 pj wj q0 q1)
    (h1 : ∀ q0,
      pck.power_side1_SOS pj wj pi wi q0 = - pck.power_side1_SOS pi wi pj wj q0) :
    side_exact pck assertions mesh rt q pj wj pi wi dim sis =
      (side_exact pck assertions mesh rt q pi wi pj wj dim sis).map (fun s => - s) ∧
    ∀ (q' : SymbolicVertex) (sis' : Bool),
      q'.nb_boundary_facets = q.nb_boundary_facets →
      (∀ i, i < 3 → q'.bisector i = q.bisector i) →
      q'.boundary_facet 0 = q.boundary_facet 0 →
      q'.boundary_edge = q.boundary_edge → q'.boundary_vertex = q.boundary_vertex →
      side_exact pck assertions mesh rt q' pi wi pj wj dim sis' =
        side_exact pck assertions mesh rt q pi wi pj wj dim sis := by
  refine ⟨?_, ?_⟩
  · unfold side_exact
    rcases hq : q.nb_boundary_facets with _ | _ | _ | _ | n
    · simp only
      by_cases hdim : dim = 3
      · simp only [if_pos hdim, Except.map]
        rw [h4]
      · by_cases ha : assertions = true
        · simp only [if_neg hdim, if_pos ha, Except.map]
        · simp only [if_neg hdim, if_neg ha, Except.map, side_exact_case1]
          rw [h3]
    · simp only [Except.map, side_exact_case1]
      rw [h3]
    · simp only [Except.map]
      rw [h2]
    · simp only [Except.map]
      rw [h1]
    · simp only [Except.map]
  · intro q' sis' hn hb hf he hv
    unfold side_exact side_exact_case1
    rw [hn, hb 0 (by omega), hb 1 (by omega), hb 2 (by omega), hf, he, hv]

theorem toy_sign_swap (pi wi pj wj : Int) : toy_sign pj wj pi wi = - toy_sign pi wi pj wj := by
  unfold toy_sign
  rw [← Int.sign_neg]
  congr 1
  ring

/-- Witness for `side_exact_antisymmetric`: predicates that compare `pi - wi` with
`pj - wj`. -/
theorem side_exact_antisymmetric_witness :
    side_exact toy_predicates true toy_mesh toy_rt (toy_vertex 2) 3 4 5 0 3 false =
      (side_exact toy_predicates true toy_mesh toy_rt (toy_vertex 2) 5 0 3 4 3 false).map
        (fun s => - s) ∧
    ∀ (q' : SymbolicVertex) (sis' : Bool),
      q'.nb_boundary_facets = (toy_vertex 2).nb_boundary_facets →
      (∀ i, i < 3 → q'.bisector i = (toy_vertex 2).bisector i) →
      q'.boundary_facet 0 = (toy_vertex 2).boundary_facet 0 →
      q'.boundary_edge = (toy_vertex 2).boundary_edge →
      q'.boundary_vertex = (toy_vertex 2).boundary_vertex →
      side_exact toy_predicates true toy_mesh toy_rt q' 5 0 3 4 3 sis' =
        side_exact toy_predicates true toy_mesh toy_rt (toy_vertex 2) 5 0 3 4 3 false :=
  side_exact_antisymmetric toy_predicates true toy_mesh toy_rt (toy_vertex 2) 5 0 3 4 3 false
    (fun _ _ _ _ _ _ => toy_sign_swap 5 0 3 4)
    (fun _ _ _ _ _ _ _ => toy_sign_swap 0 4 0 0)
    (fun _ _ _ _ => toy_sign_swap 5 0 3 0)
    (fun _ => toy_sign_swap 5 0 3 4)

end RPD

namespace RPD

/-! ## Claims about the adjacency code, the convexity test and the triangulation -/

/-- C21: the adjacency code.  `operator()` decodes `adjacent = C.vertex_id(cv)` into the
pair (neighbour seed, neighbour tetrahedron): `(index_t(-1), -a - 1)` when `a < 0`,
`(a - 1, index_t(-1))` when `a > 0` and `(index_t(-1), index_t(-1))` when `a == 0`, so at
most one of the two is set; the conversion `index_t(...)` makes the result independent of
the wrap-around of the signed operations.  Composed with the code written by
`initialize_from_mesh_tetrahedron` (`0` for `NO_CELL`, `-t - 1` for the neighbour `t`): a
facet with the neighbour tetrahedron `t`, `0 <= t < 2^31`, is announced by
`begin_facet_internal(index_t(-1), t)`, a facet without neighbour by
`begin_facet_internal(index_t(-1), index_t(-1))`. -/
theorem adjacency_code_round_trip {G S : Type} :
    (∀ a : Int, a < 0 → decode_adjacent a = (NO_INDEX, to_index (-a - 1))) ∧
    (∀ a : Int, 0 < a → decode_adjacent a = (to_index (a - 1), NO_INDEX)) ∧
    decode_adjacent 0 = (NO_INDEX, NO_INDEX) ∧
    (∀ a : Int, (decode_adjacent a).1 = NO_INDEX ∨ (decode_adjacent a).2 = NO_INDEX) ∧
    (∀ a : Int, -2147483648 ≤ a → a < 0 →
      ((decode_adjacent a).2 : Int) = -a - 1 ∧ (decode_adjacent a).2 ≠ NO_INDEX) ∧
    (∀ a : Int, 0 < a → a < 2147483648 →
      ((decode_adjacent a).1 : Int) = a - 1 ∧ (decode_adjacent a).1 ≠ NO_INDEX) ∧
    (∀ x : Int, to_index (to_signed x) = to_index x) ∧
    (∀ t : Nat, t < 2147483648 →
      initial_vertex_id t = -(t : Int) - 1 ∧
      decode_adjacent (initial_vertex_id t) = (NO_INDEX, t)) ∧
    (initial_vertex_id NO_CELL = 0 ∧
      decode_adjacent (initial_vertex_id NO_CELL) = (NO_INDEX, NO_INDEX)) ∧
    (∀ (dv : DualVertex G S) (adj : Nat), dv.vertex_triangle ≠ -1 →
      dv.vertex_id = initial_vertex_id adj →
      (adj < 2147483648 →
        (facet_calls dv).head? = some (Call.begin_facet_internal NO_INDEX adj)) ∧
      (adj = NO_CELL →
        (facet_calls dv).head? = some (Call.begin_facet_internal NO_INDEX NO_INDEX))) := by
  have h1 : ∀ a : Int, a < 0 → decode_adjacent a = (NO_INDEX, to_index (-a - 1)) := by
    intro a ha
    unfold decode_adjacent
    rw [if_pos ha, if_pos ha]
    rfl
  have h2 : ∀ a : Int, 0 < a → decode_adjacent a = (to_index (a - 1), NO_INDEX) := by
    intro a ha
    have hn : ¬ a < 0 := by omega
    unfold decode_adjacent
    rw [if_neg hn, if_neg hn, if_pos ha]
    rfl
  have h3 : decode_adjacent 0 = (NO_INDEX, NO_INDEX) := by decide
  have ht : ∀ t : Nat, t < 2147483648 →
      initial_vertex_id t = -(t : Int) - 1 ∧
      decode_adjacent (initial_vertex_id t) = (NO_INDEX, t) := by
    intro t ht
    have e : initial_vertex_id t = -(t : Int) - 1 := by
      unfold initial_vertex_id to_signed NO_CELL
      have hne : ¬ (((t : Int) + 2147483648) % 4294967296 - 2147483648 =
          (((4294967295 : Nat) : Int) + 2147483648) % 4294967296 - 2147483648) := by
        push_cast
        omega
      rw [if_neg hne]
      omega
    refine ⟨e, ?_⟩
    have hi : to_index (-(-(t : Int) - 1) - 1) = t := by
      unfold to_index
      omega
    rw [e, h1 _ (by omega), hi]
  have hc : initial_vertex_id NO_CELL = 0 := by decide
  refine ⟨h1, h2, h3, ?_, ?_, ?_, ?_, ht, ⟨hc, by rw [hc]; exact h3⟩, ?_⟩
  · intro a
    rcases lt_trichotomy a 0 with h | h | h
    · rw [h1 a h]
      exact Or.inl rfl
    · rw [h, h3]
      exact Or.inl rfl
    · rw [h2 a h]
      exact Or.inr rfl
  · intro a hlo ha
    rw [h1 a ha]
    unfold to_index NO_INDEX
    constructor
    · simp only
      omega
    · simp only
      omega
  · intro a ha hhi
    rw [h2 a ha]
    unfold to_index NO_INDEX
    constructor
    · simp only
      omega
    · simp only
      omega
  · intro x
    unfold to_index to_signed
    omega
  · intro dv adj htri hid
    have hcalls : (facet_calls dv).head? =
        some (Call.begin_facet_internal (decode_adjacent dv.vertex_id).1
          (decode_adjacent dv.vertex_id).2) := by
      unfold facet_calls
      rw [if_neg htri]
      rfl
    constructor
    · intro hadj
      rw [hcalls, hid, (ht adj hadj).2]
    · intro hadj
      rw [hcalls, hid, hadj, hc, h3]

/-- Witness for `adjacency_code_round_trip`: the codes `-5`, `3` and `0`, the neighbour
tetrahedron `4`, and the second sample dual vertex, whose code is the one of the
tetrahedron `4`. -/
theorem adjacency_code_round_trip_witness :
    decode_adjacent (-5) = (NO_INDEX, 4) ∧ decode_adjacent 3 = (2, NO_INDEX) ∧
    decode_adjacent (initial_vertex_id 4) = (NO_INDEX, 4) ∧
    (facet_calls sample_dv2).head? = some (Call.begin_facet_internal NO_INDEX 4) :=
  ⟨(adjacency_code_round_trip (G := Int) (S := Nat)).1 (-5) (by decide),
   (adjacency_code_round_trip (G := Int) (S := Nat)).2.1 3 (by decide),
   ((adjacency_code_round_trip (G := Int) (S := Nat)).2.2.2.2.2.2.2.1 4 (by decide)).2,
   ((adjacency_code_round_trip (G := Int) (S := Nat)).2.2.2.2.2.2.2.2.2 sample_dv2 4
      (by decide) (by decide)).1 (by decide)⟩

/-- C25: the convexity test.  `polygon_is_convex(P)` returns `false` exactly when one of
the cyclic consecutive triples `P[i], P[i+1], P[i+2]` turns strictly left and another one
strictly right, and `true` exactly when no two of their orientation signs are strictly
opposite; a sign is `1`, `0` or `-1`, and a zero sign (collinear triple) plays no part. -/
theorem polygon_is_convex_iff_consistent_sign {K : Type} [LinearOrderedCommRing K]
    (P : List (vec2 K)) :
    (polygon_is_convex P = false ↔
      ∃ i, i < P.length ∧ ∃ j, j < P.length ∧ turn_sign P i = 1 ∧ turn_sign P j = -1) ∧
    (polygon_is_convex P = true ↔
      ¬ ∃ i, i < P.length ∧ ∃ j, j < P.length ∧ turn_sign P i * turn_sign P j = -1) ∧
    (∀ i, turn_sign P i = 1 ∨ turn_sign P i = 0 ∨ turn_sign P i = -1) := by
  have hfalse : polygon_is_convex P = false ↔
      ∃ i, i < P.length ∧ ∃ j, j < P.length ∧ turn_sign P i = 1 ∧ turn_sign P j = -1 := by
    unfold polygon_is_convex
    rw [convex_loop_false_iff P _ 0 (Or.inr (Or.inl rfl))]
    constructor
    · rintro (⟨i, _, hi⟩ | ⟨i, hi, j, hj, h1, h2⟩)
      · rw [mul_zero] at hi
        exact absurd hi (by decide)
      · exact ⟨i, List.mem_range.1 hi, j, List.mem_range.1 hj, h1, h2⟩
    · rintro ⟨i, hi, j, hj, h1, h2⟩
      exact Or.inr ⟨i, List.mem_range.2 hi, j, List.mem_range.2 hj, h1, h2⟩
  have hsign : ∀ i, turn_sign P i = 1 ∨ turn_sign P i = 0 ∨ turn_sign P i = -1 :=
    fun i => orient_2d_cases _ _ _
  refine ⟨hfalse, ?_, hsign⟩
  rw [← Bool.not_eq_false, hfalse]
  apply not_congr
  constructor
  · rintro ⟨i, hi, j, hj, h1, h2⟩
    exact ⟨i, hi, j, hj, by rw [h1, h2]; rfl⟩
  · rintro ⟨i, hi, j, hj, h⟩
    rcases hsign i with h1 | h1 | h1 <;> rcases hsign j with h2 | h2 | h2 <;>
      rw [h1, h2] at h <;> first
        | exact absurd h (by decide)
        | exact ⟨i, hi, j, hj, h1, h2⟩
        | exact ⟨j, hj, i, hi, h2, h1⟩

/-- C23: success implies that every triangle is admissible.  For a polygon with
`n >= 4` vertices (and `M_PI - atan2(..)` bounded by some `B < 1024`),
`triangulate_polygon` returns, and when it returns `true` every returned triangle
`(i, k, j)` has a cost below the sentinel `1024`: its signed area is positive and no other
polygon vertex lies strictly inside it.  Conversely `triangle_cost` returns `1024` exactly
when the signed area of the triangle is `<= 0` or some other polygon vertex lies strictly
inside it. -/
theorem success_implies_admissible {K : Type} [LinearOrderedCommRing K]
    (compl : K → K → K) (pts : List (vec2 K)) (B : K) (hB : ∀ y x, compl y x ≤ B)
    (h0 : 0 ≤ B) (hlt : B < 1024) (h4 : 4 ≤ pts.length)
    (hn : pts.length * pts.length ≤ NO_INDEX) :
    (∃ b tr, triangulate_polygon compl pts = .ok (b, tr)) ∧
    (∀ tr, triangulate_polygon compl pts = .ok (true, tr) →
      ∀ t ∈ triples tr,
        triangle_cost compl pts t.1 t.2.1 t.2.2 < 1024 ∧
        0 < det ((pts.getD t.2.1 vec2.zero).sub (pts.getD t.1 vec2.zero))
          ((pts.getD t.2.2 vec2.zero).sub (pts.getD t.1 vec2.zero)) ∧
        ∀ o, o < pts.length → o ≠ t.1 → o ≠ t.2.1 → o ≠ t.2.2 →
          inside (corner3 pts t.1 t.2.1 t.2.2) (pts.getD o vec2.zero) = false) ∧
    (∀ i j k, triangle_cost compl pts i j k = 1024 ↔
      (det ((pts.getD j vec2.zero).sub (pts.getD i vec2.zero))
        ((pts.getD k vec2.zero).sub (pts.getD i vec2.zero)) ≤ 0 ∨
       ∃ o, o < pts.length ∧ o ≠ i ∧ o ≠ j ∧ o ≠ k ∧
        inside (corner3 pts i j k) (pts.getD o vec2.zero) = true)) := by
  have hc : ∀ a k b, triangle_cost compl pts a k b ≤ 1024 := by
    intro a k b
    rcases triangle_cost_le compl pts a k b B hB h0 with h | h
    · exact le_of_eq h
    · linarith
  have hn' : pts.length ≤ NO_INDEX := le_trans (Nat.le_mul_self _) hn
  obtain ⟨b, ts, T, hrun, hT, hperm, hb, _⟩ :=
    triangulate_cost_flat (fun i k j => triangle_cost compl pts i k j) hc pts.length h4 hn'
  have hiff := triangle_cost_sentinel_iff compl pts B hB h0 hlt
  refine ⟨⟨b, _, hrun⟩, ?_, hiff⟩
  intro tr htr t ht
  have hrun2 : triangulate_polygon compl pts = .ok (b, flat_triples ts) := hrun
  rw [hrun2] at htr
  have hbt : b = true := by
    injection htr with h
    exact congrArg Prod.fst h
  have htrs : tr = flat_triples ts := by
    injection htr with h
    exact (congrArg Prod.snd h).symm
  rw [htrs, triples_flat] at ht
  have hmem := (hperm.mem_iff).1 ht
  have hle := triangles_of_cost_le (fun i k j => triangle_cost compl pts i k j)
    (fun a k b => triangle_cost_nonneg compl pts a k b) T 0 (pts.length - 1) t hmem
  have htot : tcost (fun i k j => triangle_cost compl pts i k j) 0 (pts.length - 1) T
      < 1024 := by
    rw [hbt] at hb
    exact of_decide_eq_true hb.symm
  have hlt2 : triangle_cost compl pts t.1 t.2.1 t.2.2 < 1024 := lt_of_le_of_lt hle htot
  have hne : ¬ (det ((pts.getD t.2.1 vec2.zero).sub (pts.getD t.1 vec2.zero))
        ((pts.getD t.2.2 vec2.zero).sub (pts.getD t.1 vec2.zero)) ≤ 0 ∨
       ∃ o, o < pts.length ∧ o ≠ t.1 ∧ o ≠ t.2.1 ∧ o ≠ t.2.2 ∧
        inside (corner3 pts t.1 t.2.1 t.2.2) (pts.getD o vec2.zero) = true) :=
    fun h => absurd ((hiff t.1 t.2.1 t.2.2).2 h) (ne_of_lt hlt2)
  rw [not_or, not_le] at hne
  refine ⟨hlt2, hne.1, ?_⟩
  intro o ho h1 h2 h3
  by_contra hin
  rw [Bool.not_eq_false] at hin
  exact hne.2 ⟨o, ho, h1, h2, h3, hin⟩

/-- Witness for `success_implies_admissible`: the counter-clockwise unit square with the
angle complement bounded by `2`; the call succeeds with the triangles `(0, 1, 3)` and
`(1, 2, 3)`. -/
theorem success_implies_admissible_witness :
    triangulate_polygon (fun _ _ => (2 : Int)) ccw_square = .ok (true, [0, 1, 3, 1, 2, 3]) ∧
    ∀ t ∈ triples [0, 1, 3, 1, 2, 3],
      triangle_cost (fun _ _ => (2 : Int)) ccw_square t.1 t.2.1 t.2.2 < 1024 ∧
      0 < det ((ccw_square.getD t.2.1 vec2.zero).sub (ccw_square.getD t.1 vec2.zero))
        ((ccw_square.getD t.2.2 vec2.zero).sub (ccw_square.getD t.1 vec2.zero)) ∧
      ∀ o, o < ccw_square.length → o ≠ t.1 → o ≠ t.2.1 → o ≠ t.2.2 →
        inside (corner3 ccw_square t.1 t.2.1 t.2.2) (ccw_square.getD o vec2.zero) = false :=
  ⟨by decide,
   (success_implies_admissible (fun _ _ => (2 : Int)) ccw_square 2 (fun _ _ => le_refl _)
      (by decide) (by decide) (by decide) (by decide)).2.1 [0, 1, 3, 1, 2, 3] (by decide)⟩

/-- C27: the shape of the triangulation output.  For every polygon with `n >= 3` vertices
(`n * n` an index, `M_PI - atan2(..)` at most `1024`), whatever the coordinates and
whatever the returned boolean, `triangulate_polygon` runs to its end: no assertion fails,
no table is read or written out of range.  It returns exactly `n - 2` triangles, that is
`3 (n - 2)` indices, each triple `(i, k, j)` with `0 <= i < k < j <= n - 1`, and the first
triple has `i = 0` and `j = n - 1`. -/
theorem triangulate_polygon_shape {K : Type} [LinearOrderedCommRing K]
    (compl : K → K → K) (pts : List (vec2 K)) (hcompl : ∀ y x, compl y x ≤ 1024)
    (h3 : 3 ≤ pts.length) (hn : pts.length * pts.length ≤ NO_INDEX) :
    ∃ b triangles,
      triangulate_polygon compl pts = .ok (b, triangles) ∧
      triangles.length = 3 * (pts.length - 2) ∧
      (triples triangles).length = pts.length - 2 ∧
      flat_triples (triples triangles) = triangles ∧
      (∀ t ∈ triples triangles, t.1 < t.2.1 ∧ t.2.1 < t.2.2 ∧ t.2.2 ≤ pts.length - 1) ∧
      ∃ k, (triples triangles).head? = some (0, k, pts.length - 1) :=
  triangulate_output_shape compl pts hcompl h3 hn

/-- Witness for `triangulate_polygon_shape`: the counter-clockwise unit square, for which
the call returns the two triangles `(0, 1, 3)` and `(1, 2, 3)`. -/
theorem triangulate_polygon_shape_witness :
    ∃ b triangles,
      triangulate_polygon (fun _ _ => (2 : Int)) ccw_square = .ok (b, triangles) ∧
      triangles.length = 3 * (ccw_square.length - 2) ∧
      (triples triangles).length = ccw_square.length - 2 ∧
      flat_triples (triples triangles) = triangles ∧
      (∀ t ∈ triples triangles,
        t.1 < t.2.1 ∧ t.2.1 < t.2.2 ∧ t.2.2 ≤ ccw_square.length - 1) ∧
      ∃ k, (triples triangles).head? = some (0, k, ccw_square.length - 1) :=
  triangulate_polygon_shape (fun _ _ => (2 : Int)) ccw_square
    (fun _ _ => (by decide : (2 : Int) ≤ 1024))
    (by decide) (by decide)

/-! ## Claims about the region labels -/

/-- C24: the postcondition of region splitting.  For a mesh with one label per facet and
labels small enough for the label arithmetic not to wrap,
`split_regions_along_hard_edges` runs to its end; afterwards no facet has the label
`index_t(-1)`, every facet whose label was not `index_t(-1)` keeps its label, every label
given to an originally unlabelled facet is strictly greater than every pre-existing label
and lies among the fresh labels `R0, R0 + 1, ...` with `R0 = max_region + 1`, or `R0 = 0`
when no facet was labelled; the first unlabelled facet receives `R0`; and two originally
unlabelled facets with the same new label are linked by a chain of unlabelled facets
adjacent across non-crease corners, so that distinct components receive distinct
labels. -/
theorem split_regions_postcondition (mesh : Mesh) (L : List Nat) (hard : Nat → Nat → Bool)
    (hlen : L.length = mesh.facets.length) (hfit : LabelsFit mesh L) :
    ∃ L', split_regions_along_hard_edges mesh L hard = .ok L' ∧
      L'.length = L.length ∧
      (∀ g, g < mesh.facets.length → L'.getD g 0 ≠ NO_INDEX) ∧
      (∀ g, L.getD g 0 ≠ NO_INDEX → L'.getD g 0 = L.getD g 0) ∧
      (∀ g, g < mesh.facets.length → L.getD g 0 = NO_INDEX →
        (∀ g2, g2 < mesh.facets.length → L.getD g2 0 ≠ NO_INDEX →
          L.getD g2 0 < L'.getD g 0) ∧
        (if max_region mesh L = NO_INDEX then 0 else max_region mesh L + 1) ≤ L'.getD g 0 ∧
        L'.getD g 0 < (if max_region mesh L = NO_INDEX then 0 else max_region mesh L + 1) +
          mesh.facets.length) ∧
      ((∀ g, g < mesh.facets.length → L.getD g 0 = NO_INDEX) →
        max_region mesh L = NO_INDEX ∧ (0 < mesh.facets.length → L'.getD 0 0 = 0)) ∧
      (∀ g0, g0 < mesh.facets.length → L.getD g0 0 = NO_INDEX →
        (∀ g, g < g0 → L.getD g 0 ≠ NO_INDEX) →
        L'.getD g0 0 = if max_region mesh L = NO_INDEX then 0 else max_region mesh L + 1) ∧
      (∀ g1 g2, g1 < mesh.facets.length → g2 < mesh.facets.length →
        L.getD g1 0 = NO_INDEX → L.getD g2 0 = NO_INDEX → L'.getD g1 0 = L'.getD g2 0 →
        NonCreaseLinked mesh hard L g1 g2) := by
  obtain ⟨L', h⟩ := split_regions_total mesh L hard hlen hfit
  obtain ⟨hlinked, hkeep, hlab⟩ := split_regions_post mesh L hard L' hfit h
  obtain ⟨hmax, hnone⟩ := max_region_spec mesh L
  have hfresh : ∀ g, g < mesh.facets.length → L.getD g 0 = NO_INDEX →
      (if max_region mesh L = NO_INDEX then 0 else max_region mesh L + 1) ≤ L'.getD g 0 ∧
      L'.getD g 0 < (if max_region mesh L = NO_INDEX then 0 else max_region mesh L + 1) +
        mesh.facets.length := by
    intro g hg hno
    rcases split_regions_fresh mesh L hard L' hfit h g with h1 | ⟨_, h2, h3⟩
    · exact absurd (h1.trans hno) (hlab g hg)
    · exact ⟨h2, h3⟩
  have hfirst := split_regions_first mesh L hard L' hlen hfit h
  refine ⟨L', h, split_regions_length mesh L hard L' h, hlab, hkeep, ?_, ?_, hfirst, ?_⟩
  · intro g hg hno
    refine ⟨?_, hfresh g hg hno⟩
    intro g2 hg2 hne
    obtain ⟨hm1, hm2⟩ := hmax g2 hg2 hne
    have := (hfresh g hg hno).1
    rw [if_neg hm1] at this
    omega
  · intro hall
    have hm := hnone hall
    refine ⟨hm, fun hpos => ?_⟩
    have := hfirst 0 hpos (hall 0 hpos) (fun g hg => absurd hg (Nat.not_lt_zero g))
    rw [if_pos hm] at this
    exact this
  · intro g1 g2 hg1 _ h1 h2 heq
    exact hlinked g1 g2 h1 h2 heq (hlab g1 hg1)

/-- Witness for `split_regions_postcondition`: the split tetrahedron with three
unlabelled facets, the labels `5 6 7` and one hard edge. -/
theorem split_regions_postcondition_witness :
    ∃ L', split_regions_along_hard_edges split_tetrahedron
        [NO_INDEX, NO_INDEX, NO_INDEX, 5, 6, 7] hard_edge_0_1 = .ok L' ∧
      L'.length = [NO_INDEX, NO_INDEX, NO_INDEX, 5, 6, 7].length ∧
      (∀ g, g < split_tetrahedron.facets.length → L'.getD g 0 ≠ NO_INDEX) ∧
      (∀ g, [NO_INDEX, NO_INDEX, NO_INDEX, 5, 6, 7].getD g 0 ≠ NO_INDEX →
        L'.getD g 0 = [NO_INDEX, NO_INDEX, NO_INDEX, 5, 6, 7].getD g 0) ∧
      (∀ g, g < split_tetrahedron.facets.length →
        [NO_INDEX, NO_INDEX, NO_INDEX, 5, 6, 7].getD g 0 = NO_INDEX →
        (∀ g2, g2 < split_tetrahedron.facets.length →
          [NO_INDEX, NO_INDEX, NO_INDEX, 5, 6, 7].getD g2 0 ≠ NO_INDEX →
          [NO_INDEX, NO_INDEX, NO_INDEX, 5, 6, 7].getD g2 0 < L'.getD g 0) ∧
        (if max_region split_tetrahedron [NO_INDEX, NO_INDEX, NO_INDEX, 5, 6, 7] = NO_INDEX
          then 0
          else max_region split_tetrahedron [NO_INDEX, NO_INDEX, NO_INDEX, 5, 6, 7] + 1) ≤
          L'.getD g 0 ∧
        L'.getD g 0 <
          (if max_region split_tetrahedron [NO_INDEX, NO_INDEX, NO_INDEX, 5, 6, 7] = NO_INDEX
            then 0
            else max_region split_tetrahedron [NO_INDEX, NO_INDEX, NO_INDEX, 5, 6, 7] + 1) +
          split_tetrahedron.facets.length) ∧
      ((∀ g, g < split_tetrahedron.facets.length →
          [NO_INDEX, NO_INDEX, NO_INDEX, 5, 6, 7].getD g 0 = NO_INDEX) →
        max_region split_tetrahedron [NO_INDEX, NO_INDEX, NO_INDEX, 5, 6, 7] = NO_INDEX ∧
        (0 < split_tetrahedron.facets.length → L'.getD 0 0 = 0)) ∧
      (∀ g0, g0 < split_tetrahedron.facets.length →
        [NO_INDEX, NO_INDEX, NO_INDEX, 5, 6, 7].getD g0 0 = NO_INDEX →
        (∀ g, g < g0 → [NO_INDEX, NO_INDEX, NO_INDEX, 5, 6, 7].getD g 0 ≠ NO_INDEX) →
        L'.getD g0 0 =
          if max_region split_tetrahedron [NO_INDEX, NO_INDEX, NO_INDEX, 5, 6, 7] = NO_INDEX
          then 0
          else max_region split_tetrahedron [NO_INDEX, NO_INDEX, NO_INDEX, 5, 6, 7] + 1) ∧
      (∀ g1 g2, g1 < split_tetrahedron.facets.length →
        g2 < split_tetrahedron.facets.length →
        [NO_INDEX, NO_INDEX, NO_INDEX, 5, 6, 7].getD g1 0 = NO_INDEX →
        [NO_INDEX, NO_INDEX, NO_INDEX, 5, 6, 7].getD g2 0 = NO_INDEX →
        L'.getD g1 0 = L'.getD g2 0 →
        NonCreaseLinked split_tetrahedron hard_edge_0_1
          [NO_INDEX, NO_INDEX, NO_INDEX, 5, 6, 7] g1 g2) :=
  split_regions_postcondition split_tetrahedron [NO_INDEX, NO_INDEX, NO_INDEX, 5, 6, 7]
    hard_edge_0_1 (by decide) (by decide)

/-! ## Claims about the tessellation -/

/-- C26: a successful tessellation replaces a facet by triangles on its own vertices.
`tessellate_non_convex_facets` runs to its end; the result consists of the original
facets that are not flagged followed by the triangles created for the facets
`0 .. nf - 1` only (created triangles are not examined again), and no vertex is created.
For every facet `f` with `n` vertices whose polygon is not convex and for which
`triangulate_polygon` returns `true`, `f` is flagged for deletion and exactly `n - 2`
triangles are created, one per returned index triple; the three indices of a triple are
local indices below `n`, the three vertices of the triangle are the vertices of `f` at
these indices, and the triangle is stored with a copy of the attributes of `f`. -/
theorem tessellation_replaces_by_triangles {K : Type} [LinearOrderedCommRing K] {A : Type}
    (compl : K → K → K) (proj : Nat → Nat → vec2 K) (mesh : Mesh) (attrs : List A)
    (hcompl : ∀ y x, compl y x ≤ 1024) (hattrs : attrs.length = mesh.facets.length)
    (hsize : ∀ f, f < mesh.facets.length →
      mesh.facet_nb_vertices f * mesh.facet_nb_vertices f ≤ NO_INDEX) :
    ∃ (result : Mesh × List A) (to_delete : List Nat),
      tessellate_non_convex_facets compl proj mesh attrs = .ok result ∧
      result.1.nb_vertices = mesh.nb_vertices ∧
      result.1.facets = keep_unflagged mesh.facets to_delete ++
        (created_triangles compl proj mesh attrs
          (List.range mesh.facets.length)).map Prod.fst ∧
      result.2 = keep_unflagged attrs to_delete ++
        (created_triangles compl proj mesh attrs
          (List.range mesh.facets.length)).map Prod.snd ∧
      (∀ g, ¬ (g < mesh.facets.length ∧ Replaced compl proj mesh g) →
        to_delete.getD g 0 = 0) ∧
      ∀ f tr, f < mesh.facets.length →
        polygon_is_convex (get_mesh_polygon2d mesh f proj).1 = false →
        triangulate_polygon compl (get_mesh_polygon2d mesh f proj).1 = .ok (true, tr) →
        to_delete.getD f 0 = 1 ∧
        replaced_by compl proj mesh f = triples tr ∧
        (triples tr).length = mesh.facet_nb_vertices f - 2 ∧
        ∃ x, attrs[f]? = some x ∧
          ∀ t ∈ triples tr,
            t.1 < mesh.facet_nb_vertices f ∧ t.2.1 < mesh.facet_nb_vertices f ∧
            t.2.2 < mesh.facet_nb_vertices f ∧
            mesh.vertex f t.1 ∈ mesh.loop f ∧ mesh.vertex f t.2.1 ∈ mesh.loop f ∧
            mesh.vertex f t.2.2 ∈ mesh.loop f ∧
            ([mesh.vertex f t.1, mesh.vertex f t.2.1, mesh.vertex f t.2.2], x) ∈
              result.1.facets.zip result.2 := by
  have hsize2 : ∀ f, mesh.facet_nb_vertices f ≤ NO_INDEX := by
    intro f
    by_cases hf : f < mesh.facets.length
    · exact le_trans (Nat.le_mul_self _) (hsize f hf)
    · have : mesh.facet_nb_vertices f = 0 := by
        unfold Mesh.facet_nb_vertices Mesh.loop
        rw [List.getD_eq_getElem?_getD, List.getElem?_eq_none (by omega)]
        rfl
      rw [this]
      exact Nat.zero_le _
  obtain ⟨result, to_delete, hrun, hnv, hfac, hatt, hfl, hunfl⟩ :=
    tessellate_trace compl proj hcompl mesh attrs hattrs hsize2
  refine ⟨result, to_delete, hrun, hnv, hfac, hatt, hunfl, ?_⟩
  intro f tr hf hnc hok
  have hrb := replaced_by_of_success compl proj mesh f tr hnc hok
  have hlenP : (get_mesh_polygon2d mesh f proj).1.length = mesh.facet_nb_vertices f := by
    simp only [get_mesh_polygon2d, List.length_map, Mesh.facet_nb_vertices]
  have h3 : 3 ≤ (get_mesh_polygon2d mesh f proj).1.length := by
    rw [hlenP]
    exact non_convex_length proj mesh f hnc
  obtain ⟨b, tr2, hrun2, _, hlen, _, hbounds, _⟩ :=
    triangulate_output_shape compl (get_mesh_polygon2d mesh f proj).1 hcompl h3
      (by rw [hlenP]; exact hsize f hf)
  rw [hok] at hrun2
  have htr : tr2 = tr := by
    injection hrun2 with h
    exact (congrArg Prod.snd h).symm
  rw [htr, hlenP] at hlen hbounds
  obtain ⟨x, hx⟩ : ∃ x, attrs[f]? = some x :=
    ⟨attrs[f], List.getElem?_eq_getElem (by omega)⟩
  refine ⟨hfl f hf ⟨hnc, tr, hok⟩, hrb, hlen, x, hx, ?_⟩
  intro t ht
  obtain ⟨hb1, hb2, hb3⟩ := hbounds t ht
  have hn3 : 3 ≤ mesh.facet_nb_vertices f := non_convex_length proj mesh f hnc
  have ht1 : t.1 < mesh.facet_nb_vertices f := by omega
  have ht2 : t.2.1 < mesh.facet_nb_vertices f := by omega
  have ht3 : t.2.2 < mesh.facet_nb_vertices f := by omega
  refine ⟨ht1, ht2, ht3, getD_mem_of_lt _ _ ht1, getD_mem_of_lt _ _ ht2,
    getD_mem_of_lt _ _ ht3, ?_⟩
  have hcreated : ([mesh.vertex f t.1, mesh.vertex f t.2.1, mesh.vertex f t.2.2], x) ∈
      created_triangles compl proj mesh attrs (List.range mesh.facets.length) := by
    unfold created_triangles
    rw [List.mem_flatMap]
    refine ⟨f, List.mem_range.2 hf, ?_⟩
    rw [hx, hrb]
    simp only [triangle_loops, List.map_map, List.mem_map]
    exact ⟨t, ht, rfl⟩
  have hklen : (keep_unflagged mesh.facets to_delete).length =
      (keep_unflagged attrs to_delete).length :=
    keep_unflagged_length_eq _ _ _ hattrs.symm
  rw [hfac, hatt, List.zip_append hklen]
  apply List.mem_append_right
  rw [← List.zip_of_prod rfl rfl]
  exact hcreated

/-- Witness for `tessellation_replaces_by_triangles`: a mesh with an arrow (replaced by
the triangles `0 2 3` and `0 1 2`), a triangle (convex, kept) and a clockwise arrow
(triangulation fails, kept). -/
theorem tessellation_replaces_by_triangles_witness :
    ∃ (result : Mesh × List Nat) (to_delete : List Nat),
      tessellate_non_convex_facets (fun _ _ => (2 : Int)) three_facets_proj three_facets [10, 20, 30] = .ok result ∧
      result.1.nb_vertices = three_facets.nb_vertices ∧
      result.1.facets = keep_unflagged three_facets.facets to_delete ++
        (created_triangles (fun _ _ => (2 : Int)) three_facets_proj three_facets [10, 20, 30]
          (List.range three_facets.facets.length)).map Prod.fst ∧
      result.2 = keep_unflagged [10, 20, 30] to_delete ++
        (created_triangles (fun _ _ => (2 : Int)) three_facets_proj three_facets [10, 20, 30]
          (List.range three_facets.facets.length)).map Prod.snd ∧
      (∀ g, ¬ (g < three_facets.facets.length ∧ Replaced (fun _ _ => (2 : Int)) three_facets_proj three_facets g) →
        to_delete.getD g 0 = 0) ∧
      ∀ f tr, f < three_facets.facets.length →
        polygon_is_convex (get_mesh_polygon2d three_facets f three_facets_proj).1 = false →
        triangulate_polygon (fun _ _ => (2 : Int)) (get_mesh_polygon2d three_facets f three_facets_proj).1 = .ok (true, tr) →
        to_delete.getD f 0 = 1 ∧
        replaced_by (fun _ _ => (2 : Int)) three_facets_proj three_facets f = triples tr ∧
        (triples tr).length = three_facets.facet_nb_vertices f - 2 ∧
        ∃ x, [10, 20, 30][f]? = some x ∧
          ∀ t ∈ triples tr,
            t.1 < three_facets.facet_nb_vertices f ∧ t.2.1 < three_facets.facet_nb_vertices f ∧
            t.2.2 < three_facets.facet_nb_vertices f ∧
            three_facets.vertex f t.1 ∈ three_facets.loop f ∧ three_facets.vertex f t.2.1 ∈ three_facets.loop f ∧
            three_facets.vertex f t.2.2 ∈ three_facets.loop f ∧
            ([three_facets.vertex f t.1, three_facets.vertex f t.2.1, three_facets.vertex f t.2.2], x) ∈
              result.1.facets.zip result.2 :=
  tessellation_replaces_by_triangles (fun _ _ => (2 : Int)) three_facets_proj three_facets
    [10, 20, 30] (fun _ _ => show (2 : Int) ≤ 1024 by decide) rfl (by decide)

/-! ## Claims about the corner flags -/

/-- C22: the corner flag.  For a vertex `v` of the mesh and labels other than
`index_t(-2)`, the flag `is_corner[v]` computed by `simplify` is true exactly when the
facets incident to `v` carry three distinct labels or more, or, in keep-outer-region
mode, when one of them carries the outer label `index_t(-1)`.  This is the stated rule
(three labels or more, or the outer label together with another label) for every vertex
except one that touches the outer region only: in keep-outer-region mode such a vertex
is flagged, because the test of `rgn2[v] != index_t(-1)` also passes for the initial
value `index_t(-2)`. -/
theorem corner_flag_rule (mesh : Mesh) (L : List Nat) (keep : Bool) (v : Nat)
    (hv : v < mesh.nb_vertices)
    (hlab : ∀ f, f < mesh.facets.length → v ∈ mesh.loop f → L.getD f 0 ≠ NO_INDEX2) :
    ((compute_is_corner mesh L keep).getD v false = true ↔
      3 ≤ (labels_at mesh L v).card ∨ (keep = true ∧ NO_INDEX ∈ labels_at mesh L v)) ∧
    (¬ (keep = true ∧ labels_at mesh L v = {NO_INDEX}) →
      ((compute_is_corner mesh L keep).getD v false = true ↔
        3 ≤ (labels_at mesh L v).card ∨
        (keep = true ∧ NO_INDEX ∈ labels_at mesh L v ∧
          ∃ r, r ∈ labels_at mesh L v ∧ r ≠ NO_INDEX))) ∧
    (keep = true → labels_at mesh L v = {NO_INDEX} →
      (compute_is_corner mesh L keep).getD v false = true ∧
      (labels_at mesh L v).card = 1 ∧
      ¬ ∃ r, r ∈ labels_at mesh L v ∧ r ≠ NO_INDEX) := by
  have hrule := compute_is_corner_rule mesh L keep v hv hlab
  refine ⟨hrule, ?_, ?_⟩
  · intro hnot
    rw [hrule]
    constructor
    · rintro (h | ⟨hk, hmem⟩)
      · exact Or.inl h
      · refine Or.inr ⟨hk, hmem, ?_⟩
        by_contra hall
        apply hnot
        refine ⟨hk, ?_⟩
        rw [Finset.eq_singleton_iff_unique_mem]
        refine ⟨hmem, fun r hr => ?_⟩
        by_contra hne
        exact hall ⟨r, hr, hne⟩
    · rintro (h | ⟨hk, hmem, _⟩)
      · exact Or.inl h
      · exact Or.inr ⟨hk, hmem⟩
  · intro hk hS
    refine ⟨hrule.2 (Or.inr ⟨hk, by rw [hS]; exact Finset.mem_singleton_self _⟩), ?_, ?_⟩
    · rw [hS, Finset.card_singleton]
    · rintro ⟨r, hr, hne⟩
      rw [hS, Finset.mem_singleton] at hr
      exact hne hr

/-- Witness for `corner_flag_rule`: a single triangle of the outer region in
keep-outer-region mode; its vertex 0 touches the outer region only and is flagged. -/
theorem corner_flag_rule_witness :
    compute_is_corner single_triangle [NO_INDEX] true = [true, true, true] ∧
    labels_at single_triangle [NO_INDEX] 0 = {NO_INDEX} ∧
    (compute_is_corner single_triangle [NO_INDEX] true).getD 0 false = true ∧
    (labels_at single_triangle [NO_INDEX] 0).card = 1 ∧
    ¬ ∃ r, r ∈ labels_at single_triangle [NO_INDEX] 0 ∧ r ≠ NO_INDEX :=
  ⟨by decide, by decide,
   (corner_flag_rule single_triangle [NO_INDEX] true 0 (by decide) (by decide)).2.2 rfl
     (by decide)⟩

/-! ## Claims about the border of a region group -/

/-- C28: the border edges of a region group form disjoint cycles.  Take a well-formed
mesh (no repeated vertex in a facet loop, vertices and adjacent facets in range, and the
corner adjacency symmetric: if the facet `f` has the edge `a -> b` with the adjacent facet
`g`, then `g` has the edge `b -> a` with the adjacent facet `f`), one label per facet, and
a region group of `simplify` whose flood fill ends without the non-manifold-border
warning.  Then the map `border_next` is a permutation of its keys: the successor of a key
is a key, every key is the successor of a key, and two keys have different successors.
The lookup `border_next[v]` of the walk never inserts an entry, there are at most `|V|`
keys, and the walk started at `border_next.begin()->first` comes back to it after at most
as many steps as there are keys, so that it does not end in the rollback for a singular
border topology. -/
theorem border_edges_form_cycles (mesh : Mesh) (L : List Nat) (keep : Bool)
    (ic : List Bool) (f : Nat) (st : SimplifyState) (fl : FloodState)
    (hwf : WellFormed mesh) (hlen : L.length = mesh.facets.length)
    (hsg : StartsGroup keep ic (loop_init mesh L) f st)
    (hfl : group_flood st.mesh st.facet_region (st.facet_region.getD f 0)
      (st.mesh.facets.length + 1) (flood_start st f) = .ok fl) :
    (∀ k x, BorderMap.find fl.border_next k = some x →
      (BorderMap.find fl.border_next x).isSome = true) ∧
    (∀ b, (BorderMap.find fl.border_next b).isSome = true →
      ∃ k, BorderMap.find fl.border_next k = some b) ∧
    (∀ k1 k2 x, BorderMap.find fl.border_next k1 = some x →
      BorderMap.find fl.border_next k2 = some x → k1 = k2) ∧
    (fl.border_next.map Prod.snd).Perm (fl.border_next.map Prod.fst) ∧
    (∀ v, v ∈ fl.border_next.map Prod.fst →
      (BorderMap.index fl.border_next v).2 = fl.border_next) ∧
    st.mesh.nb_vertices = mesh.nb_vertices ∧
    fl.border_next.length ≤ mesh.nb_vertices ∧
    (∀ first, BorderMap.begin_first fl.border_next = .ok first →
      ∃ w, border_walk st.mesh.nb_vertices ic (st.mesh.nb_vertices + 1)
          { border_next := fl.border_next, v := first, nb_border_visited := 0,
            new_facet := [] } = .ok w ∧
        w.border_next = fl.border_next ∧ w.v = first ∧ 0 < w.nb_border_visited ∧
        w.nb_border_visited ≤ fl.border_next.length ∧
        w.nb_border_visited ≤ mesh.nb_vertices) := by
  have F := group_facts keep ic mesh L hwf hlen f st fl hsg hfl
  have hsorted : (fl.border_next.map Prod.fst).Pairwise (· < ·) :=
    group_flood_sorted _ _ _ _ _ _ (by simp [flood_start]) hfl
  obtain ⟨htotal, hsurj, hinj, hrange⟩ := border_next_permutation _ _ _ _ _ _ F
  have hnv : st.mesh.nb_vertices = mesh.nb_vertices := by
    obtain ⟨_, _, _, _, _, h4, _⟩ :=
      group_loop_extends mesh L keep ic _ _ _ _ (extends_init mesh L) hsg.1
    exact h4
  have hcount : fl.border_next.length ≤ st.mesh.nb_vertices := by
    have := nodup_length_le (fl.border_next.map Prod.fst) st.mesh.nb_vertices
      (hsorted.imp (fun h => Nat.ne_of_lt h)) hrange
    rw [List.length_map] at this
    exact this
  refine ⟨?_, ?_, hinj, values_perm_keys _ hsorted htotal hinj, ?_, hnv, hnv ▸ hcount, ?_⟩
  · intro k x hkx
    have hk : k ∈ fl.border_next.map Prod.fst := by
      rw [← find_isSome_iff, hkx]
      rfl
    obtain ⟨y, hy, hyk⟩ := htotal k hk
    rw [hkx] at hy
    injection hy with hy
    rw [find_isSome_iff, hy]
    exact hyk
  · intro b hb
    rw [find_isSome_iff] at hb
    obtain ⟨k, _, hk⟩ := hsurj b hb
    exact ⟨k, hk⟩
  · intro v hv
    obtain ⟨x, hx, _⟩ := htotal v hv
    rw [index_of_find _ _ _ hx]
  · intro first hfirst
    have hfk := (begin_first_sorted _ _ hsorted hfirst).1
    obtain ⟨w, hw, h1, h2, h3, h4⟩ := border_walk_closed st.mesh.nb_vertices ic
      fl.border_next first hfirst htotal hinj hcount (st.mesh.nb_vertices + 1) [] first []
      (List.nodup_singleton _)
      (by
        intro y hy
        rw [List.nil_append, List.mem_singleton] at hy
        rw [hy]
        exact hfk)
      (by
        intro y hy
        rw [List.nil_append, List.mem_singleton] at hy
        exact Or.inl hy)
      (by
        simp only [List.length_nil]
        omega)
    refine ⟨w, hw, h1, h2, h3, h4, ?_⟩
    rw [← hnv]
    exact le_trans h4 hcount

/-- Witness for `border_edges_form_cycles`: the unit square cut into two triangles with
the same label; the border of the group is the cycle `0 1 2 3`. -/
theorem border_edges_form_cycles_witness :
    WellFormed split_square ∧
    group_flood split_square [0, 0] 0 3 (flood_start (loop_init split_square [0, 0]) 0) =
      .ok { facet_status := [1, 1], S := [],
            border_next := [(0, 1), (1, 2), (2, 3), (3, 0)] } ∧
    ([(0, 1), (1, 2), (2, 3), (3, 0)].map Prod.snd).Perm
      ([(0, 1), (1, 2), (2, 3), (3, 0)].map Prod.fst) ∧
    ∃ w, border_walk 4 (compute_is_corner split_square [0, 0] false) 5
        { border_next := [(0, 1), (1, 2), (2, 3), (3, 0)], v := 0, nb_border_visited := 0,
          new_facet := [] } = .ok w ∧
      w.border_next = [(0, 1), (1, 2), (2, 3), (3, 0)] ∧ w.v = 0 ∧
      0 < w.nb_border_visited ∧ w.nb_border_visited ≤ 4 ∧ w.nb_border_visited ≤ 4 :=
  ⟨by decide, by decide,
   (border_edges_form_cycles split_square [0, 0] false
      (compute_is_corner split_square [0, 0] false) 0 (loop_init split_square [0, 0])
      { facet_status := [1, 1], S := [], border_next := [(0, 1), (1, 2), (2, 3), (3, 0)] }
      (by decide) (by decide) ⟨by decide, by decide, by decide⟩ (by decide)).2.2.2.1,
   (border_edges_form_cycles split_square [0, 0] false
      (compute_is_corner split_square [0, 0] false) 0 (loop_init split_square [0, 0])
      { facet_status := [1, 1], S := [], border_next := [(0, 1), (1, 2), (2, 3), (3, 0)] }
      (by decide) (by decide) ⟨by decide, by decide, by decide⟩ (by decide)).2.2.2.2.2.2.2
      0 (by decide)⟩

end RPD
